import Mathlib

/-!
Monkey front end: tokenizer and Pratt parser.

A shallow embedding of the Go sources `monkey/token/token.go`,
`monkey/lexer/lexer.go`, `compiler/ast/ast.go` and `monkey/parser/parser.go`,
followed by theorems about them.

Conventions of the embedding.

* A Go `string` is a finite sequence of bytes: `GoString := List Nat`
  (every element of a real string is `< 256`).  `bytes "..."` writes an
  ASCII literal.
* Go `int` cursors are natural numbers (they never get near `2^63`).
* A Go interface or pointer that may be `nil` is an `Option`.
* Mutable receivers (`*Lexer`, `*Parser`) are threaded as explicit state.
* `for` loops are recursive functions on a counter.  The lexer loops get
  the counter `len(input) + 1`, which they never exhaust (proved below);
  the parser functions return `none` when the counter runs out, and
  `some` of what the Go function returns otherwise.
-/

namespace Monkey

/-- A Go string, as its sequence of bytes. -/
abbrev GoString := List Nat

/-- An ASCII literal as a Go string. -/
def bytes (s : String) : GoString := s.toList.map Char.toNat

/-- Go conversion `string(ch)` of a byte: the UTF-8 encoding of the code
point `ch` (one byte below 128, two bytes from 128 to 255). -/
def stringOfByte (ch : Nat) : GoString :=
  if ch < 128 then [ch] else [192 + ch / 64, 128 + ch % 64]

/-- Go slice expression `s[lo:hi]` (its bounds are in range wherever the
lexer takes one). -/
def slice (s : GoString) (lo hi : Nat) : GoString := (s.drop lo).take (hi - lo)

/-! ## token.go -/

/-- The token kinds: the constants of `token.go`. -/
inductive TokenType where
  | ILLEGAL | EOF | IDENT | INT
  | ASSIGN | PLUS | MINUS | BANG | ASTERISK | SLASH | EQ | NOT_EQ
  | LT | GT
  | COMMA | SEMICOLON
  | LPAREN | RPAREN | LBRACE | RBRACE | LBRACKET | RBRACKET
  | FUNCTION | LET | TRUE | FALSE | IF | ELSE | RETURN
  | STRING | COLON
  deriving DecidableEq, Repr

/-- The string value of each `TokenType` constant, as written in `token.go`
(`MINUS = "_"`, `LBRACKET = "]"`, `RBRACKET = "["` included).  The values
are pairwise distinct, so comparing kinds and comparing these strings
agree; the strings themselves only show in diagnostics. -/
def TokenType.str : TokenType → GoString
  | .ILLEGAL => bytes "ILLEGAL"
  | .EOF => bytes "EOF"
  | .IDENT => bytes "IDENT"
  | .INT => bytes "INT"
  | .ASSIGN => bytes "="
  | .PLUS => bytes "+"
  | .MINUS => bytes "_"
  | .BANG => bytes "!"
  | .ASTERISK => bytes "*"
  | .SLASH => bytes "/"
  | .EQ => bytes "=="
  | .NOT_EQ => bytes "!="
  | .LT => bytes "<"
  | .GT => bytes ">"
  | .COMMA => bytes ","
  | .SEMICOLON => bytes ";"
  | .LPAREN => bytes "("
  | .RPAREN => bytes ")"
  | .LBRACE => bytes "\x7b"
  | .RBRACE => bytes "\x7d"
  | .LBRACKET => bytes "]"
  | .RBRACKET => bytes "["
  | .FUNCTION => bytes "FUNCTION"
  | .LET => bytes "LET"
  | .TRUE => bytes "true"
  | .FALSE => bytes "false"
  | .IF => bytes "if"
  | .ELSE => bytes "else"
  | .RETURN => bytes "return"
  | .STRING => bytes "STRING"
  | .COLON => bytes ":"

/-- The struct `token.Token`. -/
structure Token where
  Typ : TokenType
  Literal : GoString
  deriving DecidableEq, Repr

/-- The map `keywords` of `token.go`, as a lookup. -/
def keywords (ident : GoString) : Option TokenType :=
  if ident = bytes "fn" then some .FUNCTION
  else if ident = bytes "let" then some .LET
  else if ident = bytes "true" then some .TRUE
  else if ident = bytes "false" then some .FALSE
  else if ident = bytes "if" then some .IF
  else if ident = bytes "else" then some .ELSE
  else if ident = bytes "return" then some .RETURN
  else none

/-- The function `token.LookupIdent`. -/
def LookupIdent (ident : GoString) : TokenType :=
  match keywords ident with
  | some tok => tok
  | none => .IDENT

/-! ## lexer.go -/

/-- The struct `lexer.Lexer`. -/
structure Lexer where
  input : GoString
  position : Nat
  readPosition : Nat
  ch : Nat
  deriving DecidableEq, Repr

/-- The function `isLetter`: `a-z`, `A-Z` or `_`. -/
def isLetter (ch : Nat) : Bool :=
  (97 ≤ ch && ch ≤ 122) || (65 ≤ ch && ch ≤ 90) || ch == 95

/-- The function `isDigit`: `0-9`. -/
def isDigit (ch : Nat) : Bool := 48 ≤ ch && ch ≤ 57

/-- The loop condition of `skipWhitespace`: space, tab, newline, carriage
return. -/
def isWhitespace (ch : Nat) : Bool := ch == 32 || ch == 9 || ch == 10 || ch == 13

/-- The function `newToken`. -/
def newToken (tokenType : TokenType) (ch : Nat) : Token :=
  { Typ := tokenType, Literal := stringOfByte ch }

namespace Lexer

/-- The method `readChar`. -/
def readChar (l : Lexer) : Lexer :=
  { l with
    ch := if l.readPosition ≥ l.input.length then 0 else l.input.getD l.readPosition 0
    position := l.readPosition
    readPosition := l.readPosition + 1 }

/-- The function `lexer.New`. -/
def New (input : GoString) : Lexer :=
  readChar { input := input, position := 0, readPosition := 0, ch := 0 }

/-- The method `peekChar`. -/
def peekChar (l : Lexer) : Nat :=
  if l.readPosition ≥ l.input.length then 0 else l.input.getD l.readPosition 0

/-- A loop `for cond(l.ch) { l.readChar() }`, at most `n` rounds. -/
def readCharWhile (cond : Nat → Bool) : Nat → Lexer → Lexer
  | 0, l => l
  | n + 1, l => if cond l.ch then readCharWhile cond n l.readChar else l

/-- The method `skipWhitespace`. -/
def skipWhitespace (l : Lexer) : Lexer := readCharWhile isWhitespace (l.input.length + 1) l

/-- The method `readIdentifiter`: the text read and the lexer after it. -/
def readIdentifiter (l : Lexer) : GoString × Lexer :=
  let position := l.position
  let l1 := readCharWhile isLetter (l.input.length + 1) l
  (slice l1.input position l1.position, l1)

/-- The method `readNumber`: the text read and the lexer after it. -/
def readNumber (l : Lexer) : GoString × Lexer :=
  let position := l.position
  let l1 := readCharWhile isDigit (l.input.length + 1) l
  (slice l1.input position l1.position, l1)

/-- The loop of `readString` (read one byte, then test), at most `n` rounds. -/
def readStringLoop : Nat → Lexer → Lexer
  | 0, l => l
  | n + 1, l =>
    let l1 := l.readChar
    if l1.ch = 34 ∨ l1.ch = 0 then l1 else readStringLoop n l1

/-- The method `readString`: the text read and the lexer after it. -/
def readString (l : Lexer) : GoString × Lexer :=
  let position := l.position + 1
  let l1 := readStringLoop (l.input.length + 1) l
  (slice l1.input position l1.position, l1)

/-- The method `NextToken`: the token and the lexer after it.  The byte
values are those of the Go character literals in the `switch`. -/
def NextToken (l0 : Lexer) : Token × Lexer :=
  let l := l0.skipWhitespace
  if l.ch = 61 then -- '='
    if l.peekChar = 61 then
      let ch := l.ch
      let l1 := l.readChar
      ({ Typ := .EQ, Literal := stringOfByte ch ++ stringOfByte l1.ch }, l1.readChar)
    else (newToken .ASSIGN l.ch, l.readChar)
  else if l.ch = 59 then (newToken .SEMICOLON l.ch, l.readChar) -- ';'
  else if l.ch = 40 then (newToken .LPAREN l.ch, l.readChar) -- '('
  else if l.ch = 41 then (newToken .RPAREN l.ch, l.readChar) -- ')'
  else if l.ch = 44 then (newToken .COMMA l.ch, l.readChar) -- ','
  else if l.ch = 43 then (newToken .PLUS l.ch, l.readChar) -- '+'
  else if l.ch = 45 then (newToken .MINUS l.ch, l.readChar) -- '-'
  else if l.ch = 33 then -- '!'
    if l.peekChar = 61 then
      let ch := l.ch
      let l1 := l.readChar
      ({ Typ := .NOT_EQ, Literal := stringOfByte ch ++ stringOfByte l1.ch }, l1.readChar)
    else (newToken .BANG l.ch, l.readChar)
  else if l.ch = 47 then (newToken .SLASH l.ch, l.readChar) -- '/'
  else if l.ch = 42 then (newToken .ASTERISK l.ch, l.readChar) -- '*'
  else if l.ch = 60 then (newToken .LT l.ch, l.readChar) -- '<'
  else if l.ch = 62 then (newToken .GT l.ch, l.readChar) -- '>'
  else if l.ch = 123 then (newToken .LBRACE l.ch, l.readChar) -- left brace
  else if l.ch = 125 then (newToken .RBRACE l.ch, l.readChar) -- right brace
  else if l.ch = 91 then (newToken .LBRACKET l.ch, l.readChar) -- '['
  else if l.ch = 93 then (newToken .RBRACKET l.ch, l.readChar) -- ']'
  else if l.ch = 34 then -- '"'
    let r := l.readString
    ({ Typ := .STRING, Literal := r.1 }, r.2.readChar)
  else if l.ch = 58 then (newToken .COLON l.ch, l.readChar) -- ':'
  else if l.ch = 0 then ({ Typ := .EOF, Literal := [] }, l.readChar)
  else if isLetter l.ch then
    let r := l.readIdentifiter
    ({ Typ := LookupIdent r.1, Literal := r.1 }, r.2)
  else if isDigit l.ch then
    let r := l.readNumber
    ({ Typ := .INT, Literal := r.1 }, r.2)
  else (newToken .ILLEGAL l.ch, l.readChar)

end Lexer

/-! ## ast.go -/

/-- The struct `ast.Identifier`. -/
structure Identifier where
  Token : Token
  Value : GoString
  deriving DecidableEq, Repr

mutual
/-- A non-nil value of the interface `ast.Expression`: a pointer to one of
the expression node structs.  Fields of interface or pointer type are
`Option`s (`none` is `nil`); a slice field is an `Option (List _)` where
`none` is the nil slice.  `HashLiteral.Pairs` is a Go map keyed by node
pointers: it is kept as the list of its entries in insertion order. -/
inductive Expression where
  | Identifier (Token : Token) (Value : GoString)
  | IntegerLiteral (Token : Token) (Value : Int)
  | PrefixExpression (Token : Token) (Operator : GoString) (Right : Option Expression)
  | InfixExpression (Token : Token) (Left : Option Expression) (Operator : GoString)
      (Right : Option Expression)
  | Boolean (Token : Token) (Value : Bool)
  | IfExpression (Token : Token) (Condition : Option Expression)
      (Consequence : Option BlockStatement) (Alternative : Option BlockStatement)
  | FunctionLiteral (Token : Token) (Parameters : Option (List Identifier))
      (Body : Option BlockStatement)
  | CallExpression (Token : Token) (Function : Option Expression)
      (Arguments : Option (List (Option Expression)))
  | StringLiteral (Token : Token) (Value : GoString)
  | ArrayLiteral (Token : Token) (Elements : Option (List (Option Expression)))
  | IndexExpression (Token : Token) (Left : Option Expression) (Index : Option Expression)
  | HashLiteral (Token : Token) (Pairs : List (Option Expression × Option Expression))
/-- A non-nil value of the interface `ast.Statement`.  `LetStatementNil` is
the interface value whose dynamic type is `*ast.LetStatement` and whose
pointer is nil: Go makes it when a nil `*ast.LetStatement` is converted to
`ast.Statement`, and it does not compare equal to `nil`. -/
inductive Statement where
  | LetStatement (Token : Token) (Name : Option Identifier) (Value : Option Expression)
  | LetStatementNil
  | ReturnStatement (Token : Token) (ReturnValue : Option Expression)
  | ExpressionStatement (Token : Token) (Expression : Option Expression)
/-- The struct `ast.BlockStatement`. -/
inductive BlockStatement where
  | mk (Token : Token) (Statements : List Statement)
end

/-- The struct `ast.Program`. -/
structure Program where
  Statements : List Statement

/-- Go `strings.Join`. -/
def stringsJoin : List GoString → GoString → GoString
  | [], _ => []
  | [a], _ => a
  | a :: b :: rest, sep => a ++ sep ++ stringsJoin (b :: rest) sep

/-- The method `Identifier.String`. -/
def Identifier.String (i : Identifier) : GoString := i.Value

/-- The order in which one `for ... range` over a Go map visits the entries.
The language leaves it unspecified and it differs from one loop to the
next: `visit` takes what the loop computes for the entries, listed in
insertion order, to the same items in the order of the visit, some
permutation of them. -/
structure RangeOrder where
  visit : List GoString → List GoString
  perm : ∀ l : List GoString, (visit l).Perm l

/-- The range order that visits the entries of a map as they were
inserted. -/
def insertionOrder : RangeOrder := ⟨fun l => l, fun l => List.Perm.refl l⟩

/-- The range order that visits the entries of a map last inserted first. -/
def reverseOrder : RangeOrder := ⟨List.reverse, fun l => List.reverse_perm l⟩

mutual
/-- The `String` methods of the expression nodes, under the range order
`ord` of the map loops.  The result is `none` where Go dereferences a nil
pointer or calls a method on a nil interface.  `HashLiteral.String` appends
`key.String()+":"+value.String()` for each entry in the order of its
`range` over `Pairs`, then joins them. -/
def Expression.String (ord : RangeOrder) : Expression → Option GoString
  | .Identifier _ Value => some Value
  | .IntegerLiteral Token _ => some Token.Literal
  | .PrefixExpression _ _ none => none
  | .PrefixExpression _ Operator (some Right) => do
    let r ← Right.String ord
    pure (bytes "(" ++ Operator ++ r ++ bytes ")")
  | .InfixExpression _ none _ _ => none
  | .InfixExpression _ (some _) _ none => none
  | .InfixExpression _ (some Left) Operator (some Right) => do
    let a ← Left.String ord
    let b ← Right.String ord
    pure (bytes "(" ++ a ++ (bytes " " ++ Operator ++ bytes " ") ++ b ++ bytes ")")
  | .Boolean Token _ => some Token.Literal
  | .IfExpression _ none _ _ => none
  | .IfExpression _ (some _) none _ => none
  | .IfExpression _ (some Condition) (some Consequence) none => do
    let c ← Condition.String ord
    let b ← Consequence.String ord
    pure (bytes "if" ++ c ++ bytes " " ++ b)
  | .IfExpression _ (some Condition) (some Consequence) (some Alternative) => do
    let c ← Condition.String ord
    let b ← Consequence.String ord
    let a ← Alternative.String ord
    pure (bytes "if" ++ c ++ bytes " " ++ b ++ bytes "else " ++ a)
  | .FunctionLiteral _ _ none => none
  | .FunctionLiteral Token Parameters (some Body) => do
    let b ← Body.String ord
    pure (Token.Literal ++ bytes "(" ++
      stringsJoin ((Parameters.getD []).map Identifier.String) (bytes ", ") ++ bytes ") " ++ b)
  | .CallExpression _ none _ => none
  | .CallExpression _ (some Function) none => do
    let f ← Function.String ord
    pure (f ++ bytes "(" ++ bytes ")")
  | .CallExpression _ (some Function) (some Arguments) => do
    let args ← Expression.StringList ord Arguments
    let f ← Function.String ord
    pure (f ++ bytes "(" ++ stringsJoin args (bytes ", ") ++ bytes ")")
  | .StringLiteral Token _ => some Token.Literal
  | .ArrayLiteral _ none => some (bytes "[" ++ bytes "]")
  | .ArrayLiteral _ (some Elements) => do
    let elements ← Expression.StringList ord Elements
    pure (bytes "[" ++ stringsJoin elements (bytes ",") ++ bytes "]")
  | .IndexExpression _ none _ => none
  | .IndexExpression _ (some _) none => none
  | .IndexExpression _ (some Left) (some Index) => do
    let a ← Left.String ord
    let b ← Index.String ord
    pure (bytes "(" ++ a ++ bytes "[" ++ b ++ bytes "]")
  | .HashLiteral _ Pairs => do
    let pairs ← Expression.StringPairs ord Pairs
    pure (bytes "\x7b" ++ stringsJoin (ord.visit pairs) (bytes ", ") ++ bytes "\x7d")
/-- The strings of a list of expressions (`a.String()` for each element). -/
def Expression.StringList (ord : RangeOrder) : List (Option Expression) → Option (List GoString)
  | [] => some []
  | none :: _ => none
  | some e :: rest => do
    let a ← e.String ord
    let r ← Expression.StringList ord rest
    pure (a :: r)
/-- The strings `key.String()+":"+value.String()` of hash entries, listed in
insertion order. -/
def Expression.StringPairs (ord : RangeOrder) :
    List (Option Expression × Option Expression) → Option (List GoString)
  | [] => some []
  | (none, _) :: _ => none
  | (some _, none) :: _ => none
  | (some key, some value) :: rest => do
    let k ← key.String ord
    let v ← value.String ord
    let r ← Expression.StringPairs ord rest
    pure ((k ++ bytes ":" ++ v) :: r)
/-- The `String` methods of the statement nodes. -/
def Statement.String (ord : RangeOrder) : Statement → Option GoString
  | .LetStatement _ none _ => none
  | .LetStatement Token (some Name) none =>
    some (Token.Literal ++ bytes " " ++ Name.String ++ bytes " = " ++ bytes ";")
  | .LetStatement Token (some Name) (some Value) => do
    let v ← Value.String ord
    pure (Token.Literal ++ bytes " " ++ Name.String ++ bytes " = " ++ v ++ bytes ";")
  | .LetStatementNil => none
  | .ReturnStatement Token none => some (Token.Literal ++ bytes " " ++ bytes ";")
  | .ReturnStatement Token (some ReturnValue) => do
    let v ← ReturnValue.String ord
    pure (Token.Literal ++ bytes " " ++ v ++ bytes ";")
  | .ExpressionStatement _ none => some []
  | .ExpressionStatement _ (some expression) => expression.String ord
/-- The method `BlockStatement.String`. -/
def BlockStatement.String (ord : RangeOrder) : BlockStatement → Option GoString
  | .mk _ Statements => Statement.StringAll ord Statements
/-- The concatenation of `s.String()` over a list of statements. -/
def Statement.StringAll (ord : RangeOrder) : List Statement → Option GoString
  | [] => some []
  | s :: rest => do
    let a ← s.String ord
    let r ← Statement.StringAll ord rest
    pure (a ++ r)
end

/-- The method `Program.String`, under the range order `ord`. -/
def Program.String (ord : RangeOrder) (p : Program) : Option GoString :=
  Statement.StringAll ord p.Statements

/-! ## parser.go -/

/-- The precedence constant `LOWSET`. -/
abbrev LOWSET : Nat := 1
/-- The precedence constant `EQUALS`. -/
abbrev EQUALS : Nat := 2
/-- The precedence constant `LESSGREATER`. -/
abbrev LESSGREATER : Nat := 3
/-- The precedence constant `SUM`. -/
abbrev SUM : Nat := 4
/-- The precedence constant `PRODUCT`. -/
abbrev PRODUCT : Nat := 5
/-- The precedence constant `PREFIX`. -/
abbrev PREFIX : Nat := 6
/-- The precedence constant `CALL`. -/
abbrev CALL : Nat := 7
/-- The precedence constant `INDEX`. -/
abbrev INDEX : Nat := 8

/-- The map `precedences`. -/
def precedences : TokenType → Option Nat
  | .EQ => some EQUALS
  | .NOT_EQ => some EQUALS
  | .LT => some LESSGREATER
  | .GT => some LESSGREATER
  | .PLUS => some SUM
  | .MINUS => some SUM
  | .SLASH => some PRODUCT
  | .ASTERISK => some PRODUCT
  | .LPAREN => some CALL
  | .LBRACKET => some INDEX
  | _ => none

/-- The methods registered as prefix parse functions. -/
inductive PrefixParseFn where
  | parseIdentifier | parseIntegerLiteral | parsePrefixExpression | parseBoolean
  | parseGroupedExpression | parseIfExpression | parseFunctionLiteral
  | parseStringLiteral | parseArrayLiteral | parseHashLiteral
  deriving DecidableEq, Repr

/-- The methods registered as infix parse functions. -/
inductive InfixParseFn where
  | parseInfixExpression | parseCallExpression | parseIndexExpression
  deriving DecidableEq, Repr

/-- The map `prefixParseFns` as `New` fills it (a missing key is `none`). -/
def prefixParseFns : TokenType → Option PrefixParseFn
  | .IDENT => some .parseIdentifier
  | .INT => some .parseIntegerLiteral
  | .BANG => some .parsePrefixExpression
  | .MINUS => some .parsePrefixExpression
  | .TRUE => some .parseBoolean
  | .FALSE => some .parseBoolean
  | .LPAREN => some .parseGroupedExpression
  | .IF => some .parseIfExpression
  | .FUNCTION => some .parseFunctionLiteral
  | .STRING => some .parseStringLiteral
  | .LBRACKET => some .parseArrayLiteral
  | .LBRACE => some .parseHashLiteral
  | _ => none

/-- The map `infixParseFns` as `New` fills it (a missing key is `none`). -/
def infixParseFns : TokenType → Option InfixParseFn
  | .PLUS => some .parseInfixExpression
  | .MINUS => some .parseInfixExpression
  | .SLASH => some .parseInfixExpression
  | .ASTERISK => some .parseInfixExpression
  | .EQ => some .parseInfixExpression
  | .NOT_EQ => some .parseInfixExpression
  | .LT => some .parseInfixExpression
  | .GT => some .parseInfixExpression
  | .LPAREN => some .parseCallExpression
  | .LBRACKET => some .parseIndexExpression
  | _ => none

/-- Value of a run of digits in a base: `none` at a byte that is not a digit
of that base. -/
def digitsValue (base : Nat) : Nat → GoString → Option Nat
  | acc, [] => some acc
  | acc, c :: rest =>
    if 48 ≤ c ∧ c < 48 + base then digitsValue base (acc * base + (c - 48)) rest else none

/-- Go `strconv.ParseInt(s, 0, 64)` on the texts the lexer hands to it, runs
of ASCII digits: a leading `0` selects base 8 (base 0 reads the prefix),
anything else base 10, and a value above `2^63 - 1` is a range error.
`none` is a returned error.  (Signs, `0x`/`0b`/`0o` prefixes and
underscores cannot occur in an `INT` token; for them this model reports an
error.) -/
def ParseInt (s : GoString) : Option Int :=
  match s with
  | [] => none
  | c :: rest =>
    match (if c = 48 then digitsValue 8 0 rest else digitsValue 10 0 s) with
    | none => none
    | some v => if v ≤ 2 ^ 63 - 1 then some (v : Int) else none

/-- The struct `parser.Parser`; its two maps are the constants
`prefixParseFns` and `infixParseFns`. -/
structure Parser where
  l : Lexer
  curToken : Token
  peekToken : Token
  errors : List GoString
  deriving DecidableEq, Repr

/-- What `parseExpression` is to the functions that call it back: the
precedence and the parser in, the expression (`none` is nil) and the parser
out; the outer `Option` is `none` when the counter ran out. -/
abbrev ParseExpressionFn := Nat → Parser → Option (Option Expression × Parser)

/-- Go map assignment `m[key] = value` on a map keyed by node pointers: a
newly allocated node is a new key, the nil key is one key. -/
def mapSet (m : List (Option Expression × Option Expression))
    (key value : Option Expression) : List (Option Expression × Option Expression) :=
  match key with
  | some k => m ++ [(some k, value)]
  | none =>
    if m.any (fun kv => kv.1.isNone) then
      m.map (fun kv => if kv.1.isNone then (none, value) else kv)
    else m ++ [(none, value)]

namespace Parser

/-- The method `peekError`. -/
def peekError (p : Parser) (t : TokenType) : Parser :=
  { p with errors := p.errors ++ [bytes "expected next token no be " ++ t.str ++
      bytes ", got " ++ p.peekToken.Typ.str ++ bytes " instead"] }

/-- The method `nextToken`. -/
def nextToken (p : Parser) : Parser :=
  { p with curToken := p.peekToken, peekToken := p.l.NextToken.1, l := p.l.NextToken.2 }

/-- The function `parser.New`.  The two tokens of the fresh struct are
overwritten by the two `nextToken` calls. -/
def New (l : Lexer) : Parser :=
  nextToken (nextToken
    { l := l, curToken := ⟨.ILLEGAL, []⟩, peekToken := ⟨.ILLEGAL, []⟩, errors := [] })

/-- The method `Errors`. -/
def Errors (p : Parser) : List GoString := p.errors

/-- The method `curTokenIs`. -/
def curTokenIs (p : Parser) (t : TokenType) : Bool := p.curToken.Typ == t

/-- The method `peekTokenIs`. -/
def peekTokenIs (p : Parser) (t : TokenType) : Bool := p.peekToken.Typ == t

/-- The method `expectPeek`: the returned flag and the parser after it. -/
def expectPeek (p : Parser) (t : TokenType) : Bool × Parser :=
  if p.peekTokenIs t then (true, p.nextToken) else (false, p.peekError t)

/-- The method `noPrefixParseFnError`. -/
def noPrefixParseFnError (p : Parser) (t : TokenType) : Parser :=
  { p with errors := p.errors ++
      [bytes "no prefix parse fuction for " ++ t.str ++ bytes " found"] }

/-- The method `peekPrecedence`. -/
def peekPrecedence (p : Parser) : Nat :=
  match precedences p.peekToken.Typ with
  | some x => x
  | none => LOWSET

/-- The method `curPrecedence`. -/
def curPrecedence (p : Parser) : Nat :=
  match precedences p.curToken.Typ with
  | some x => x
  | none => LOWSET

/-- The method `parseIdentifier`. -/
def parseIdentifier (p : Parser) : Option Expression × Parser :=
  (some (.Identifier p.curToken p.curToken.Literal), p)

/-- The method `parseIntegerLiteral` (`%q` of a run of digits is the run
between double quotes). -/
def parseIntegerLiteral (p : Parser) : Option Expression × Parser :=
  match ParseInt p.curToken.Literal with
  | none =>
    (none, { p with errors := p.errors ++
      [bytes "could not parse \"" ++ p.curToken.Literal ++ bytes "\" as integer"] })
  | some value => (some (.IntegerLiteral p.curToken value), p)

/-- The method `parseBoolean`. -/
def parseBoolean (p : Parser) : Option Expression × Parser :=
  (some (.Boolean p.curToken (p.curTokenIs .TRUE)), p)

/-- The method `parseStringLiteral`. -/
def parseStringLiteral (p : Parser) : Option Expression × Parser :=
  (some (.StringLiteral p.curToken p.curToken.Literal), p)

/-- The method `parsePrefixExpression`. -/
def parsePrefixExpression (pe : ParseExpressionFn) (p : Parser) :
    Option (Option Expression × Parser) :=
  match pe PREFIX p.nextToken with
  | none => none
  | some (right, p1) => some (some (.PrefixExpression p.curToken p.curToken.Literal right), p1)

/-- The method `parseInfixExpression`. -/
def parseInfixExpression (pe : ParseExpressionFn) (left : Option Expression) (p : Parser) :
    Option (Option Expression × Parser) :=
  match pe p.curPrecedence p.nextToken with
  | none => none
  | some (right, p1) =>
    some (some (.InfixExpression p.curToken left p.curToken.Literal right), p1)

/-- The method `parseGroupedExpression`. -/
def parseGroupedExpression (pe : ParseExpressionFn) (p : Parser) :
    Option (Option Expression × Parser) :=
  match pe LOWSET p.nextToken with
  | none => none
  | some (exp, p1) =>
    if (p1.expectPeek .RPAREN).1 then some (exp, (p1.expectPeek .RPAREN).2)
    else some (none, (p1.expectPeek .RPAREN).2)

/-- The method `parseIndexExpression`. -/
def parseIndexExpression (pe : ParseExpressionFn) (left : Option Expression) (p : Parser) :
    Option (Option Expression × Parser) :=
  match pe LOWSET p.nextToken with
  | none => none
  | some (index, p1) =>
    if (p1.expectPeek .RBRACKET).1 then
      some (some (.IndexExpression p.curToken left index), (p1.expectPeek .RBRACKET).2)
    else some (none, (p1.expectPeek .RBRACKET).2)

/-- The `for p.peekTokenIs(token.COMMA)` loop of `parseExpressionList`. -/
def parseExpressionListLoop (pe : ParseExpressionFn) :
    Nat → List (Option Expression) → Parser → Option (List (Option Expression) × Parser)
  | 0, _, _ => none
  | n + 1, list, p =>
    if p.peekTokenIs .COMMA then
      match pe LOWSET p.nextToken.nextToken with
      | none => none
      | some (e, p1) => parseExpressionListLoop pe n (list ++ [e]) p1
    else some (list, p)

/-- The method `parseExpressionList`: the list (`none` is the nil slice) and
the parser after it. -/
def parseExpressionList (pe : ParseExpressionFn) (fuel : Nat) (endTok : TokenType)
    (p : Parser) : Option (Option (List (Option Expression)) × Parser) :=
  if p.peekTokenIs endTok then some (some [], p.nextToken)
  else
    match pe LOWSET p.nextToken with
    | none => none
    | some (e, p1) =>
      match parseExpressionListLoop pe fuel [e] p1 with
      | none => none
      | some (list, p2) =>
        if (p2.expectPeek endTok).1 then some (some list, (p2.expectPeek endTok).2)
        else some (none, (p2.expectPeek endTok).2)

/-- The method `parseCallExpression`. -/
def parseCallExpression (pe : ParseExpressionFn) (fuel : Nat)
    (function : Option Expression) (p : Parser) : Option (Option Expression × Parser) :=
  match parseExpressionList pe fuel .RPAREN p with
  | none => none
  | some (args, p1) => some (some (.CallExpression p.curToken function args), p1)

/-- The method `parseArrayLiteral`. -/
def parseArrayLiteral (pe : ParseExpressionFn) (fuel : Nat) (p : Parser) :
    Option (Option Expression × Parser) :=
  match parseExpressionList pe fuel .RBRACKET p with
  | none => none
  | some (elements, p1) => some (some (.ArrayLiteral p.curToken elements), p1)

/-- The `for !p.peekTokenIs(token.RBRACE)` loop of `parseHashLiteral`: the
pairs when the loop ends, or `none` where the method returns nil from
inside the loop. -/
def parseHashLiteralLoop (pe : ParseExpressionFn) :
    Nat → List (Option Expression × Option Expression) → Parser →
      Option (Option (List (Option Expression × Option Expression)) × Parser)
  | 0, _, _ => none
  | n + 1, pairs, p =>
    if p.peekTokenIs .RBRACE then some (some pairs, p)
    else
      match pe LOWSET p.nextToken with
      | none => none
      | some (key, p1) =>
        if (p1.expectPeek .COLON).1 then
          match pe LOWSET (p1.expectPeek .COLON).2.nextToken with
          | none => none
          | some (value, p2) =>
            if p2.peekTokenIs .RBRACE then parseHashLiteralLoop pe n (mapSet pairs key value) p2
            else if (p2.expectPeek .COMMA).1 then
              parseHashLiteralLoop pe n (mapSet pairs key value) (p2.expectPeek .COMMA).2
            else some (none, (p2.expectPeek .COMMA).2)
        else some (none, (p1.expectPeek .COLON).2)

/-- The method `parseHashLiteral`. -/
def parseHashLiteral (pe : ParseExpressionFn) (fuel : Nat) (p : Parser) :
    Option (Option Expression × Parser) :=
  match parseHashLiteralLoop pe fuel [] p with
  | none => none
  | some (none, p1) => some (none, p1)
  | some (some pairs, p1) =>
    if (p1.expectPeek .RBRACE).1 then
      some (some (.HashLiteral p.curToken pairs), (p1.expectPeek .RBRACE).2)
    else some (none, (p1.expectPeek .RBRACE).2)

/-- The `for p.peekTokenIs(token.COMMA)` loop of `parseFunctionParameters`. -/
def parseFunctionParametersLoop :
    Nat → List Identifier → Parser → Option (List Identifier × Parser)
  | 0, _, _ => none
  | n + 1, identifiers, p =>
    if p.peekTokenIs .COMMA then
      parseFunctionParametersLoop n
        (identifiers ++ [⟨p.nextToken.nextToken.curToken, p.nextToken.nextToken.curToken.Literal⟩])
        p.nextToken.nextToken
    else some (identifiers, p)

/-- The method `parseFunctionParameters`: the identifiers (`none` is the nil
slice) and the parser after it. -/
def parseFunctionParameters (fuel : Nat) (p : Parser) :
    Option (Option (List Identifier) × Parser) :=
  if p.peekTokenIs .RPAREN then some (some [], p.nextToken)
  else
    match parseFunctionParametersLoop fuel
        [⟨p.nextToken.curToken, p.nextToken.curToken.Literal⟩] p.nextToken with
    | none => none
    | some (identifiers, p1) =>
      if (p1.expectPeek .RPAREN).1 then some (some identifiers, (p1.expectPeek .RPAREN).2)
      else some (none, (p1.expectPeek .RPAREN).2)

/-- The method `parseLetStatement`: the returned `*ast.LetStatement` (`none`
is the nil pointer) and the parser after it. -/
def parseLetStatement (pe : ParseExpressionFn) (p : Parser) :
    Option (Option Statement × Parser) :=
  if (p.expectPeek .IDENT).1 then
    let p1 := (p.expectPeek .IDENT).2
    if (p1.expectPeek .ASSIGN).1 then
      match pe LOWSET (p1.expectPeek .ASSIGN).2.nextToken with
      | none => none
      | some (value, p2) =>
        some (some (.LetStatement p.curToken (some ⟨p1.curToken, p1.curToken.Literal⟩) value),
          if p2.peekTokenIs .SEMICOLON then p2.nextToken else p2)
    else some (none, (p1.expectPeek .ASSIGN).2)
  else some (none, (p.expectPeek .IDENT).2)

/-- The `for p.peekTokenIs(token.SEMICOLON)` loop of `parseReturnStatement`. -/
def parseReturnStatementLoop : Nat → Parser → Option Parser
  | 0, _ => none
  | n + 1, p => if p.peekTokenIs .SEMICOLON then parseReturnStatementLoop n p.nextToken else some p

/-- The method `parseReturnStatement`: the returned `*ast.ReturnStatement`
and the parser after it. -/
def parseReturnStatement (pe : ParseExpressionFn) (fuel : Nat) (p : Parser) :
    Option (Option Statement × Parser) :=
  match pe LOWSET p.nextToken with
  | none => none
  | some (value, p1) =>
    match parseReturnStatementLoop fuel p1 with
    | none => none
    | some p2 => some (some (.ReturnStatement p.curToken value), p2)

/-- The method `parseExpressionStatement`: the returned
`*ast.ExpressionStatement` and the parser after it. -/
def parseExpressionStatement (pe : ParseExpressionFn) (p : Parser) :
    Option (Option Statement × Parser) :=
  match pe LOWSET p with
  | none => none
  | some (e, p1) =>
    some (some (.ExpressionStatement p.curToken e),
      if p1.peekTokenIs .SEMICOLON then p1.nextToken else p1)

/-- Go conversion of the `*ast.LetStatement` that `parseLetStatement`
returns to the interface `ast.Statement`: the nil pointer becomes a non-nil
interface value. -/
def letStatementInterface : Option Statement → Option Statement
  | some s => some s
  | none => some .LetStatementNil

/-- The method `parseStatement`: the returned interface value (`none` is the
nil interface) and the parser after it.  The two other branches return
pointers that are never nil. -/
def parseStatement (pe : ParseExpressionFn) (fuel : Nat) (p : Parser) :
    Option (Option Statement × Parser) :=
  if p.curToken.Typ = .LET then
    match parseLetStatement pe p with
    | none => none
    | some (ptr, p1) => some (letStatementInterface ptr, p1)
  else if p.curToken.Typ = .RETURN then parseReturnStatement pe fuel p
  else parseExpressionStatement pe p

/-- Go `if stmt != nil { list = append(list, stmt) }`. -/
def appendStatement (list : List Statement) : Option Statement → List Statement
  | some stmt => list ++ [stmt]
  | none => list

/-- The `for` loop of `parseBlockStatement`. -/
def parseBlockStatementLoop (pe : ParseExpressionFn) (fuel : Nat) :
    Nat → List Statement → Parser → Option (List Statement × Parser)
  | 0, _, _ => none
  | n + 1, statements, p =>
    if !p.curTokenIs .RBRACE && !p.curTokenIs .EOF then
      match parseStatement pe fuel p with
      | none => none
      | some (stmt, p1) =>
        parseBlockStatementLoop pe fuel n (appendStatement statements stmt) p1.nextToken
    else some (statements, p)

/-- The method `parseBlockStatement`. -/
def parseBlockStatement (pe : ParseExpressionFn) (fuel : Nat) (p : Parser) :
    Option (BlockStatement × Parser) :=
  match parseBlockStatementLoop pe fuel fuel [] p.nextToken with
  | none => none
  | some (statements, p1) => some (.mk p.curToken statements, p1)

/-- The `else` part of `parseIfExpression`, from `if p.peekTokenIs(token.ELSE)`
to the final `return`. -/
def parseIfExpressionElse (pe : ParseExpressionFn) (fuel : Nat) (tok : Token)
    (condition : Option Expression) (consequence : BlockStatement) (p : Parser) :
    Option (Option Expression × Parser) :=
  if p.peekTokenIs .ELSE then
    if (p.nextToken.expectPeek .LBRACE).1 then
      match parseBlockStatement pe fuel (p.nextToken.expectPeek .LBRACE).2 with
      | none => none
      | some (alternative, p1) =>
        some (some (.IfExpression tok condition (some consequence) (some alternative)), p1)
    else some (none, (p.nextToken.expectPeek .LBRACE).2)
  else some (some (.IfExpression tok condition (some consequence) none), p)

/-- The method `parseIfExpression`. -/
def parseIfExpression (pe : ParseExpressionFn) (fuel : Nat) (p : Parser) :
    Option (Option Expression × Parser) :=
  if (p.expectPeek .LPAREN).1 then
    match pe LOWSET (p.expectPeek .LPAREN).2.nextToken with
    | none => none
    | some (condition, p1) =>
      if (p1.expectPeek .RPAREN).1 then
        let p2 := (p1.expectPeek .RPAREN).2
        if (p2.expectPeek .LBRACE).1 then
          match parseBlockStatement pe fuel (p2.expectPeek .LBRACE).2 with
          | none => none
          | some (consequence, p3) =>
            parseIfExpressionElse pe fuel p.curToken condition consequence p3
        else some (none, (p2.expectPeek .LBRACE).2)
      else some (none, (p1.expectPeek .RPAREN).2)
  else some (none, (p.expectPeek .LPAREN).2)

/-- The method `parseFunctionLiteral`. -/
def parseFunctionLiteral (pe : ParseExpressionFn) (fuel : Nat) (p : Parser) :
    Option (Option Expression × Parser) :=
  if (p.expectPeek .LPAREN).1 then
    match parseFunctionParameters fuel (p.expectPeek .LPAREN).2 with
    | none => none
    | some (parameters, p1) =>
      if (p1.expectPeek .LBRACE).1 then
        match parseBlockStatement pe fuel (p1.expectPeek .LBRACE).2 with
        | none => none
        | some (body, p2) => some (some (.FunctionLiteral p.curToken parameters (some body)), p2)
      else some (none, (p1.expectPeek .LBRACE).2)
  else some (none, (p.expectPeek .LPAREN).2)

/-- The call `prefix()` in `parseExpression`, by the registered method. -/
def callPrefix (pe : ParseExpressionFn) (fuel : Nat) :
    PrefixParseFn → Parser → Option (Option Expression × Parser)
  | .parseIdentifier, p => some (parseIdentifier p)
  | .parseIntegerLiteral, p => some (parseIntegerLiteral p)
  | .parsePrefixExpression, p => parsePrefixExpression pe p
  | .parseBoolean, p => some (parseBoolean p)
  | .parseGroupedExpression, p => parseGroupedExpression pe p
  | .parseIfExpression, p => parseIfExpression pe fuel p
  | .parseFunctionLiteral, p => parseFunctionLiteral pe fuel p
  | .parseStringLiteral, p => some (parseStringLiteral p)
  | .parseArrayLiteral, p => parseArrayLiteral pe fuel p
  | .parseHashLiteral, p => parseHashLiteral pe fuel p

/-- The call `infix(leftExp)` in `parseExpression`, by the registered method. -/
def callInfix (pe : ParseExpressionFn) (fuel : Nat) :
    InfixParseFn → Option Expression → Parser → Option (Option Expression × Parser)
  | .parseInfixExpression, left, p => parseInfixExpression pe left p
  | .parseCallExpression, left, p => parseCallExpression pe fuel left p
  | .parseIndexExpression, left, p => parseIndexExpression pe left p

/-- The `for` loop of `parseExpression`. -/
def parseExpressionLoop (pe : ParseExpressionFn) (fuel : Nat) (precedence : Nat) :
    Nat → Option Expression → Parser → Option (Option Expression × Parser)
  | 0, _, _ => none
  | n + 1, leftExp, p =>
    if !p.peekTokenIs .SEMICOLON && precedence < p.peekPrecedence then
      match infixParseFns p.peekToken.Typ with
      | none => some (leftExp, p)
      | some infixFn =>
        match callInfix pe fuel infixFn leftExp p.nextToken with
        | none => none
        | some (leftExp1, p1) => parseExpressionLoop pe fuel precedence n leftExp1 p1
    else some (leftExp, p)

/-- The method `parseExpression`.  The first argument bounds the nesting of
calls and the rounds of every loop below this call; it stands for a call
stack that is large enough (`parseExpressionOnStack` is the method on a
stack of a given size, and agrees with this one wherever this one
returns). -/
def parseExpression : Nat → Nat → Parser → Option (Option Expression × Parser)
  | 0, _, _ => none
  | fuel + 1, precedence, p =>
    match prefixParseFns p.curToken.Typ with
    | none => some (none, p.noPrefixParseFnError p.curToken.Typ)
    | some prefixFn =>
      match callPrefix (parseExpression fuel) fuel prefixFn p with
      | none => none
      | some (leftExp, p1) =>
        parseExpressionLoop (parseExpression fuel) fuel precedence fuel leftExp p1

/-- The `for` loop of `ParseProgram`. -/
def ParseProgramLoop (fuel : Nat) : Nat → List Statement → Parser → Option (List Statement × Parser)
  | 0, _, _ => none
  | n + 1, statements, p =>
    if p.curToken.Typ ≠ .EOF then
      match parseStatement (parseExpression fuel) fuel p with
      | none => none
      | some (stmt, p1) => ParseProgramLoop fuel n (appendStatement statements stmt) p1.nextToken
    else some (statements, p)

/-- The method `ParseProgram`: the program and the parser after it. -/
def ParseProgram (fuel : Nat) (p : Parser) : Option (Program × Parser) :=
  match ParseProgramLoop fuel fuel [] p with
  | none => none
  | some (statements, p1) => some (⟨statements⟩, p1)

end Parser

/-- One whole parse, as the tests and the REPL do it:
`l := lexer.New(input); p := parser.New(l); program := p.ParseProgram()`,
then `p.Errors()`, on a call stack that holds the nesting of the source.  The
counter `len(input) + 3` is never exhausted (proved below); `parseOnStack`
is the parse on a stack of a given size. -/
def parse (input : GoString) : Option (Program × List GoString) :=
  match Parser.ParseProgram (input.length + 3) (Parser.New (Lexer.New input)) with
  | none => none
  | some (program, p) => some (program, p.Errors)

/-! ## The tokenizer: cursor invariant and what one `NextToken` reads -/

namespace Lexer

/-- The lexer over `input` with its cursor at `pos`: the only shape of a
lexer reached from `New` by `readChar`. -/
def mkAt (input : GoString) (pos : Nat) : Lexer :=
  { input := input, position := pos, readPosition := pos + 1, ch := input.getD pos 0 }

/-- The cursor invariant: `readPosition = position + 1` and `ch` is the byte
at `position`, or 0 past the end. -/
def Inv (l : Lexer) : Prop := l = mkAt l.input l.position

/-- The unread bytes `r` of a well-formed lexer `l`. -/
def Reads (l : Lexer) (r : GoString) : Prop := ∃ i p, l = mkAt i p ∧ i.drop p = r

/-- Length of the longest prefix of `r` whose bytes all satisfy `f`. -/
def countWhile (f : Nat → Bool) : GoString → Nat
  | [] => 0
  | c :: r => if f c then countWhile f r + 1 else 0

end Lexer

/-! ## Definitions used in the statements below -/

/-- The characters that are a token on their own whatever follows, with
the kind of that token. -/
def Lexer.singleCharTokens : List (Nat × TokenType) :=
  [(59, .SEMICOLON), (40, .LPAREN), (41, .RPAREN), (44, .COMMA), (43, .PLUS), (45, .MINUS),
   (47, .SLASH), (42, .ASTERISK), (60, .LT), (62, .GT), (123, .LBRACE), (125, .RBRACE),
   (91, .LBRACKET), (93, .RBRACKET), (58, .COLON)]

/-- The end-of-input token. -/
def eofToken : Token := ⟨.EOF, []⟩

/-- The lexer `l` yields the tokens `ts` and then only end-of-input tokens:
after `ts` it is well-formed with nothing but whitespace left to read. -/
def Feeds : Lexer → List Token → Prop
  | l, [] => ∃ ws, l.Reads ws ∧ ∀ c ∈ ws, isWhitespace c = true
  | l, t :: ts => l.NextToken.1 = t ∧ Feeds l.NextToken.2 ts

/-- The unread text `r` tokenizes to `ts` followed by end of input, from
any well-formed lexer that has `r` left to read. -/
def Toks (r : GoString) (ts : List Token) : Prop := ∀ l : Lexer, l.Reads r → Feeds l ts

/-- The parser `p` has the token list `ts`, followed by end of input, in
front of it: its current token, its peek token, and what its lexer still
yields. -/
def Sees (p : Parser) (ts : List Token) : Prop :=
  p.curToken = ts.headD eofToken ∧ p.peekToken = ts.tail.headD eofToken ∧
    Feeds p.l ts.tail.tail

/-- The eight binary operators `== != < > + - * /`. -/
inductive BinOp where
  | eq | notEq | lt | gt | plus | minus | asterisk | slash
  deriving DecidableEq, Repr

/-- The source text of a binary operator. -/
def BinOp.text : BinOp → GoString
  | .eq => bytes "=="
  | .notEq => bytes "!="
  | .lt => bytes "<"
  | .gt => bytes ">"
  | .plus => bytes "+"
  | .minus => bytes "-"
  | .asterisk => bytes "*"
  | .slash => bytes "/"

/-- The token kind of a binary operator. -/
def BinOp.tokenType : BinOp → TokenType
  | .eq => .EQ
  | .notEq => .NOT_EQ
  | .lt => .LT
  | .gt => .GT
  | .plus => .PLUS
  | .minus => .MINUS
  | .asterisk => .ASTERISK
  | .slash => .SLASH

/-- The token the lexer makes of a binary operator. -/
def BinOp.token (o : BinOp) : Token := ⟨o.tokenType, o.text⟩

/-- The precedence the parser looks up for a binary operator, in the map
`precedences` (what `curPrecedence` returns on its token). -/
def BinOp.precedence (o : BinOp) : Nat :=
  match precedences o.tokenType with
  | some x => x
  | none => LOWSET

/-- An identifier: a non-empty run of letters and underscores that is not a
keyword. -/
def IsIdent (w : GoString) : Prop :=
  w ≠ [] ∧ (∀ c ∈ w, isLetter c = true) ∧ keywords w = none

instance (w : GoString) : Decidable (IsIdent w) := by
  unfold IsIdent; infer_instance

/-- The token of an identifier. -/
def identToken (w : GoString) : Token := ⟨.IDENT, w⟩

/-- The `*ast.Identifier` node the parser builds for the identifier `w`. -/
def identExpr (w : GoString) : Expression := .Identifier (identToken w) w

/-- The `*ast.InfixExpression` node the parser builds for `left op right`. -/
def infixExpr (left : Expression) (o : BinOp) (right : Expression) : Expression :=
  .InfixExpression o.token (some left) o.text (some right)

/-- The precedence of a token as `peekPrecedence` and `curPrecedence` look it
up. -/
def tokenPrecedence (t : Token) : Nat :=
  match precedences t.Typ with
  | some x => x
  | none => LOWSET

/-- The loop of `parseExpression` called at `precedence` ends in front of
the token `t`. -/
def Stops (precedence : Nat) (t : Token) : Prop :=
  t.Typ = .SEMICOLON ∨ tokenPrecedence t ≤ precedence

/-- The token of `;`. -/
def semicolonToken : Token := ⟨.SEMICOLON, bytes ";"⟩

/-- The text ` o1 x1 o2 x2 ...` that continues a chain of operands. -/
def chainText : List (BinOp × GoString) → GoString
  | [] => []
  | (o, x) :: rest => bytes " " ++ o.text ++ bytes " " ++ x ++ chainText rest

/-- The tokens of `chainText`. -/
def chainTokens : List (BinOp × GoString) → List Token
  | [] => []
  | (o, x) :: rest => o.token :: identToken x :: chainTokens rest

/-- The left fold `Infix(...Infix(Infix(left, o1, x1), o2, x2)..., on, xn)`. -/
def chainTree (left : Expression) : List (BinOp × GoString) → Expression
  | [] => left
  | (o, x) :: rest => chainTree (infixExpr left o (identExpr x)) rest

/-- An operand: an identifier or an integer literal. -/
inductive Atom where
  | ident (w : GoString)
  | int (d : GoString)

/-- The source text of an operand. -/
def Atom.text : Atom → GoString
  | .ident w => w
  | .int d => d

/-- The token of an operand. -/
def Atom.token : Atom → Token
  | .ident w => identToken w
  | .int d => ⟨.INT, d⟩

/-- The node the parser builds for an operand: `*ast.Identifier`, or
`*ast.IntegerLiteral` with the value `strconv.ParseInt` gives. -/
def Atom.expr : Atom → Expression
  | .ident w => identExpr w
  | .int d => .IntegerLiteral ⟨.INT, d⟩ ((ParseInt d).getD 0)

/-- A well-formed operand: an identifier, or a non-empty run of digits that
`strconv.ParseInt` accepts. -/
def Atom.Valid : Atom → Prop
  | .ident w => IsIdent w
  | .int d => d ≠ [] ∧ (∀ c ∈ d, isDigit c = true) ∧ (ParseInt d).isSome = true

instance (x : Atom) : Decidable x.Valid := by
  cases x <;> unfold Atom.Valid <;> infer_instance

/-- A token in front of which every `parseExpression` loop ends. -/
def Closes (t : Token) : Prop := ∀ q, LOWSET ≤ q → Stops q t

/-- The token of `(`. -/
def lparenToken : Token := ⟨.LPAREN, bytes "("⟩

/-- The token of `)`. -/
def rparenToken : Token := ⟨.RPAREN, bytes ")"⟩

/-- The two prefix operators `-` and `!`. -/
inductive PrefixOp where
  | minus | bang
  deriving DecidableEq, Repr

/-- The source text of a prefix operator. -/
def PrefixOp.text : PrefixOp → GoString
  | .minus => bytes "-"
  | .bang => bytes "!"

/-- The token kind of a prefix operator. -/
def PrefixOp.tokenType : PrefixOp → TokenType
  | .minus => .MINUS
  | .bang => .BANG

/-- The token the lexer makes of a prefix operator. -/
def PrefixOp.token (q : PrefixOp) : Token := ⟨q.tokenType, q.text⟩

/-- The text `q1 q2 ... qk` of prefix operators written without spaces. -/
def prefixText : List PrefixOp → GoString
  | [] => []
  | q :: qs => q.text ++ prefixText qs

/-- The nested nodes `Prefix(q1, ... Prefix(qk, e)...)`; each node's
`Operator` is the operator's source text. -/
def prefixTree : List PrefixOp → Expression → Expression
  | [], e => e
  | q :: qs, e => .PrefixExpression q.token q.text (some (prefixTree qs e))

/-- The token of `[`. -/
def lbracketToken : Token := ⟨.LBRACKET, bytes "["⟩

/-- The token of `]`. -/
def rbracketToken : Token := ⟨.RBRACKET, bytes "]"⟩

/-- The token of the keyword `let`. -/
def letToken : Token := ⟨.LET, bytes "let"⟩

/-- The token of `=`. -/
def assignToken : Token := ⟨.ASSIGN, bytes "="⟩

/-- The value of a run of decimal digits. -/
def decimalValue (d : GoString) : Nat := d.foldl (fun acc c => acc * 10 + (c - 48)) 0

/-- A decimal integer literal without leading zeros that fits in a signed
64-bit integer. -/
def IsInt64Literal (d : GoString) : Prop :=
  d ≠ [] ∧ (∀ c ∈ d, isDigit c = true) ∧ (d.headD 0 ≠ 48 ∨ d = [48]) ∧
    decimalValue d ≤ 2 ^ 63 - 1

instance (d : GoString) : Decidable (IsInt64Literal d) := by
  unfold IsInt64Literal; infer_instance

/-- The diagnostic of `expectPeek(token.ASSIGN)` in front of an integer. -/
def expectedAssignGotInt : GoString := bytes "expected next token no be =, got INT instead"

/-- The weight of a token in the termination measure: 0 for end of input,
1 for every other token. -/
def tokenWeight (t : Token) : Nat := if t.Typ = .EOF then 0 else 1

/-- The termination measure of a parser: the tokens in its window that are
not end of input, plus the bytes its lexer has not read. -/
def Parser.weight (p : Parser) : Nat :=
  tokenWeight p.curToken + tokenWeight p.peekToken + (p.l.input.length - p.l.position)

/-- The part of the measure in front of the current token. -/
def Parser.ahead (p : Parser) : Nat :=
  tokenWeight p.peekToken + (p.l.input.length - p.l.position)

/-- The parser's lexer satisfies the cursor invariant. -/
def Parser.Inv (p : Parser) : Prop := p.l.Inv

/-- The parser `p1` comes after `p`: it is well-formed, its measure is not
larger, and when the current token of `p` is not end of input the measure
is smaller or the current token is still the same. -/
structure Adv (p p1 : Parser) : Prop where
  inv : p1.Inv
  le : p1.weight ≤ p.weight
  step : p.curToken.Typ ≠ .EOF → p1.weight < p.weight ∨ p1.curToken = p.curToken

/-- What a callee of the parser may assume of `parseExpression`: on every
well-formed parser of measure at most `m` it returns, and the parser it
returns comes after the one it was given. -/
def PEok (pe : ParseExpressionFn) (m : Nat) : Prop :=
  ∀ (precedence : Nat) (q : Parser), q.Inv → q.weight ≤ m →
    ∃ e p1, pe precedence q = some (e, p1) ∧ Adv q p1

mutual
/-- Every statement inside the expression (in the blocks of its `if`
expressions and function literals, at any depth) is `Statement.valued`. -/
def Expression.valued : Expression → Bool
  | .Identifier _ _ => true
  | .IntegerLiteral _ _ => true
  | .PrefixExpression _ _ right => Expression.valuedOpt right
  | .InfixExpression _ left _ right => Expression.valuedOpt left && Expression.valuedOpt right
  | .Boolean _ _ => true
  | .IfExpression _ condition consequence alternative =>
    Expression.valuedOpt condition && BlockStatement.valuedOpt consequence &&
      BlockStatement.valuedOpt alternative
  | .FunctionLiteral _ _ body => BlockStatement.valuedOpt body
  | .CallExpression _ function arguments =>
    Expression.valuedOpt function && Expression.valuedOptList arguments
  | .StringLiteral _ _ => true
  | .ArrayLiteral _ elements => Expression.valuedOptList elements
  | .IndexExpression _ left index => Expression.valuedOpt left && Expression.valuedOpt index
  | .HashLiteral _ pairs => Expression.valuedPairs pairs
/-- `Expression.valued` of an expression that may be nil. -/
def Expression.valuedOpt : Option Expression → Bool
  | none => true
  | some e => e.valued
/-- `Expression.valued` of every element of a list. -/
def Expression.valuedList : List (Option Expression) → Bool
  | [] => true
  | e :: rest => Expression.valuedOpt e && Expression.valuedList rest
/-- `Expression.valued` of every element of a slice that may be nil. -/
def Expression.valuedOptList : Option (List (Option Expression)) → Bool
  | none => true
  | some list => Expression.valuedList list
/-- `Expression.valued` of every key and value of the entries. -/
def Expression.valuedPairs : List (Option Expression × Option Expression) → Bool
  | [] => true
  | (key, value) :: rest =>
    Expression.valuedOpt key && Expression.valuedOpt value && Expression.valuedPairs rest
/-- The statement is a node (not the nil `*ast.LetStatement`), its
expression or value is not null, and the same holds of every statement
inside that expression. -/
def Statement.valued : Statement → Bool
  | .LetStatement _ _ (some value) => value.valued
  | .LetStatement _ _ none => false
  | .LetStatementNil => false
  | .ReturnStatement _ (some value) => value.valued
  | .ReturnStatement _ none => false
  | .ExpressionStatement _ (some expression) => expression.valued
  | .ExpressionStatement _ none => false
/-- Every statement of the block is `Statement.valued`. -/
def BlockStatement.valued : BlockStatement → Bool
  | .mk _ statements => Statement.valuedAll statements
/-- `BlockStatement.valued` of a block that may be nil. -/
def BlockStatement.valuedOpt : Option BlockStatement → Bool
  | none => true
  | some b => b.valued
/-- Every statement of the list is `Statement.valued`. -/
def Statement.valuedAll : List Statement → Bool
  | [] => true
  | s :: rest => s.valued && Statement.valuedAll rest
end

/-- The number of diagnostics recorded so far. -/
def Parser.nerr (p : Parser) : Nat := p.errors.length

/-- An expression result that is not nil and whose statements all have
their expression. -/
def GoodE (e : Option Expression) : Prop := ∃ e1, e = some e1 ∧ e1.valued = true

/-- What a callee may assume of `parseExpression`: it only adds diagnostics,
and when it adds none its result is not nil and `valued`. -/
def PEgood (pe : ParseExpressionFn) : Prop :=
  ∀ (precedence : Nat) (q : Parser) (e : Option Expression) (p1 : Parser),
    pe precedence q = some (e, p1) → q.nerr ≤ p1.nerr ∧ (p1.nerr = q.nerr → GoodE e)

/-- A statement result that is a node with its expression. -/
def Parser.GoodS (x : Option Statement) : Prop := ∃ s, x = some s ∧ s.valued = true

/-- The token of the keyword `return`. -/
def returnToken : Token := ⟨.RETURN, bytes "return"⟩

/-- The diagnostic of `parseIntegerLiteral` for the literal `d`. -/
def couldNotParse (d : GoString) : GoString :=
  bytes "could not parse \"" ++ d ++ bytes "\" as integer"

/-- The node `parseIntegerLiteral` returns for the literal `d` (`none` is
nil). -/
def integerLiteralOf (d : GoString) : Option Expression :=
  match ParseInt d with
  | none => none
  | some value => some (.IntegerLiteral ⟨.INT, d⟩ value)

/-- The diagnostics after `parseIntegerLiteral` for the literal `d`, when
there were none before. -/
def integerDiagnostics (d : GoString) : List GoString :=
  match ParseInt d with
  | none => [couldNotParse d]
  | some _ => []

/-- The value of a run of digits read in base 8. -/
def octalValue (d : GoString) : Nat := d.foldl (fun acc c => acc * 8 + (c - 48)) 0

/-- The tokens the lexer yields before the first end-of-input token, at most
`n` of them. -/
def Lexer.tokens : Nat → Lexer → List Token
  | 0, _ => []
  | n + 1, l =>
    if l.NextToken.1.Typ = .EOF then [] else l.NextToken.1 :: Lexer.tokens n l.NextToken.2

/-- The token of `,`. -/
def commaToken : Token := ⟨.COMMA, bytes ","⟩

/-- The token of the left brace. -/
def lbraceToken : Token := ⟨.LBRACE, bytes "\x7b"⟩

/-- The token of the right brace. -/
def rbraceToken : Token := ⟨.RBRACE, bytes "\x7d"⟩

/-- The token of the keyword `fn`. -/
def functionToken : Token := ⟨.FUNCTION, bytes "fn"⟩

/-- The text `, b1, b2 ...` that continues a comma-separated list of
identifiers. -/
def restText : List GoString → GoString
  | [] => []
  | b :: bs => bytes ", " ++ b ++ restText bs

/-- The tokens of `restText`. -/
def restTokens : List GoString → List Token
  | [] => []
  | b :: bs => commaToken :: identToken b :: restTokens bs

/-- The tokens of the comma-separated list of the identifiers. -/
def listTokens : List GoString → List Token
  | [] => []
  | a :: bs => identToken a :: restTokens bs

/-- The token of the keyword `if`. -/
def ifToken : Token := ⟨.IF, bytes "if"⟩

/-- The token of the keyword `else`. -/
def elseToken : Token := ⟨.ELSE, bytes "else"⟩

/-- The block `{ x }` of one expression statement that is the
identifier `x`. -/
def identBlock (x : GoString) : BlockStatement :=
  .mk lbraceToken [.ExpressionStatement (identToken x) (some (identExpr x))]

/-- A byte that the loop of `readString` passes over: neither the double
quote nor the zero byte. -/
def isStringByte (c : Nat) : Bool := c != 34 && c != 0

/-- The lexer after `n` calls of `NextToken`. -/
def Lexer.after : Nat → Lexer → Lexer
  | 0, l => l
  | n + 1, l => Lexer.after n l.NextToken.2

/-- The token that the call number `n` of `NextToken` returns (the first
call is number 0). -/
def Lexer.nthToken (n : Nat) (l : Lexer) : Token := (Lexer.after n l).NextToken.1

/-- One `let` statement of a source text: the whitespace in front of it, the
name and the integer literal. -/
structure LetEntry where
  space : GoString
  name : GoString
  value : GoString

/-- The source text `let x1 = v1; let x2 = v2; ...`, each statement after
its own run of whitespace. -/
def letsText : List LetEntry → GoString
  | [] => []
  | e :: rest =>
    e.space ++ (bytes "let " ++ (e.name ++ (bytes " = " ++ (e.value ++ (bytes ";" ++ letsText rest)))))

/-- The tokens of `letsText`. -/
def letsTokens : List LetEntry → List Token
  | [] => []
  | e :: rest =>
    letToken :: identToken e.name :: assignToken :: ⟨.INT, e.value⟩ :: semicolonToken ::
      letsTokens rest

/-- The `*ast.LetStatement` of one entry. -/
def LetEntry.statement (e : LetEntry) : Statement :=
  .LetStatement letToken (some ⟨identToken e.name, e.name⟩)
    (some (.IntegerLiteral ⟨.INT, e.value⟩ (decimalValue e.value)))

/-- The name of a let statement. -/
def Statement.letName : Statement → Option GoString
  | .LetStatement _ (some name) _ => some name.Value
  | _ => none

/-- A well-formed entry: whitespace, a non-keyword identifier, and an integer
literal without leading zeros that fits in 64 bits. -/
def LetEntry.Valid (e : LetEntry) : Prop :=
  (∀ c ∈ e.space, isWhitespace c = true) ∧ IsIdent e.name ∧ IsInt64Literal e.value

instance (e : LetEntry) : Decidable e.Valid := by
  unfold LetEntry.Valid; infer_instance

/-- The token of `:`. -/
def colonToken : Token := ⟨.COLON, bytes ":"⟩

/-- The token of the string literal `"k"`. -/
def stringToken (k : GoString) : Token := ⟨.STRING, k⟩

/-- The `*ast.StringLiteral` node the parser builds for `"k"`. -/
def stringExpr (k : GoString) : Expression := .StringLiteral (stringToken k) k

/-- The text `v` is the source of a value expression: wherever it stands in
front of a `,` or a right brace it is read as the tokens `ts`, and
`parseExpression` at the lowest precedence turns these tokens into the node
`e`, ends on the last of them and records no diagnostic. -/
def IsValueSource (v : GoString) (ts : List Token) (e : Expression) : Prop :=
  (∀ (r : GoString) (rest : List Token), (r.headD 0 = 44 ∨ r.headD 0 = 125) →
    Toks r rest → Toks (v ++ r) (ts ++ rest)) ∧
  (∀ (f : Nat) (p : Parser) (rest : List Token), v.length + 2 ≤ f →
    (rest.headD eofToken = commaToken ∨ rest.headD eofToken = rbraceToken) →
    Sees p (ts ++ rest) →
    ∃ p1 last, Parser.parseExpression f LOWSET p = some (some e, p1) ∧
      Sees p1 (last :: rest) ∧ p1.errors = p.errors)

/-- One entry `"key": value` of a hash literal: the key between the quotes,
the source text of the value, its tokens and its node. -/
structure HashEntry where
  key : GoString
  value : GoString
  tokens : List Token
  expr : Expression

/-- A well-formed entry: the key holds neither a double quote nor a zero
byte, and the value is the source of its node. -/
def HashEntry.Valid (x : HashEntry) : Prop :=
  34 ∉ x.key ∧ 0 ∉ x.key ∧ IsValueSource x.value x.tokens x.expr

/-- The source text `"key": value` of an entry. -/
def HashEntry.text (x : HashEntry) : GoString :=
  bytes "\"" ++ (x.key ++ (bytes "\"" ++ (bytes ":" ++ (bytes " " ++ x.value))))

/-- The tokens of an entry. -/
def HashEntry.allTokens (x : HashEntry) : List Token :=
  stringToken x.key :: colonToken :: x.tokens

/-- The pair of nodes of an entry. -/
def HashEntry.pair (x : HashEntry) : Option Expression × Option Expression :=
  (some (stringExpr x.key), some x.expr)

/-- The text `, e1, e2 ...` that continues a list of entries. -/
def hashRestText : List HashEntry → GoString
  | [] => []
  | x :: rest => bytes "," ++ (bytes " " ++ (x.text ++ hashRestText rest))

/-- The tokens of `hashRestText`. -/
def hashRestTokens : List HashEntry → List Token
  | [] => []
  | x :: rest => commaToken :: (x.allTokens ++ hashRestTokens rest)

/-- The entries separated by `, `. -/
def hashEntriesText : List HashEntry → GoString
  | [] => []
  | x :: rest => x.text ++ hashRestText rest

/-- The tokens of `hashEntriesText`. -/
def hashEntriesTokens : List HashEntry → List Token
  | [] => []
  | x :: rest => x.allTokens ++ hashRestTokens rest

/-- The source text of the hash literal with the entries `es`. -/
def hashText (es : List HashEntry) : GoString :=
  bytes "\x7b" ++ (hashEntriesText es ++ bytes "\x7d")

/-- The entry whose value is one operand. -/
def HashEntry.ofAtom (k : GoString) (a : Atom) : HashEntry :=
  ⟨k, a.text, [a.token], a.expr⟩

/-- The entry whose value is `a o b` for two operands. -/
def HashEntry.ofInfix (k : GoString) (a : Atom) (o : BinOp) (b : Atom) : HashEntry :=
  ⟨k, a.text ++ (bytes " " ++ (o.text ++ (bytes " " ++ b.text))),
    [a.token, o.token, b.token], infixExpr a.expr o b.expr⟩

/-- The precedence `q` is the one the precedence table gives the token kind
`t`: `EQUALS` for `==` and `!=`, `LESSGREATER` for `<` and `>`, `SUM` for `+`
and `-`, `PRODUCT` for `*` and `/`, `CALL` for `(`, `INDEX` for `[`, and
`LOWSET` for every other kind. -/
def FollowsTable (t : TokenType) (q : Nat) : Prop :=
  (t ∈ [TokenType.EQ, .NOT_EQ] → q = EQUALS) ∧
  (t ∈ [TokenType.LT, .GT] → q = LESSGREATER) ∧
  (t ∈ [TokenType.PLUS, .MINUS] → q = SUM) ∧
  (t ∈ [TokenType.ASTERISK, .SLASH] → q = PRODUCT) ∧
  (t = .LPAREN → q = CALL) ∧
  (t = .LBRACKET → q = INDEX) ∧
  (t ∉ [TokenType.EQ, .NOT_EQ, .LT, .GT, .PLUS, .MINUS, .ASTERISK, .SLASH, .LPAREN,
    .LBRACKET] → q = LOWSET)

instance (t : TokenType) (q : Nat) : Decidable (FollowsTable t q) := by
  unfold FollowsTable; infer_instance

/-- The `for` loop of `parseExpression` in which taking the early return
`if infix == nil { return leftExp }` is a failure: the result is `none`
where the loop would leave through the missing infix function. -/
def Parser.parseExpressionLoopStrict (pe : ParseExpressionFn) (fuel : Nat) (precedence : Nat) :
    Nat → Option Expression → Parser → Option (Option Expression × Parser)
  | 0, _, _ => none
  | n + 1, leftExp, p =>
    if !p.peekTokenIs .SEMICOLON && precedence < p.peekPrecedence then
      match infixParseFns p.peekToken.Typ with
      | none => none
      | some infixFn =>
        match Parser.callInfix pe fuel infixFn leftExp p.nextToken with
        | none => none
        | some (leftExp1, p1) => Parser.parseExpressionLoopStrict pe fuel precedence n leftExp1 p1
    else some (leftExp, p)

/-- The method `parseExpression` over `parseExpressionLoopStrict`, in every
nested call too. -/
def Parser.parseExpressionStrict : Nat → Nat → Parser → Option (Option Expression × Parser)
  | 0, _, _ => none
  | fuel + 1, precedence, p =>
    match prefixParseFns p.curToken.Typ with
    | none => some (none, p.noPrefixParseFnError p.curToken.Typ)
    | some prefixFn =>
      match Parser.callPrefix (Parser.parseExpressionStrict fuel) fuel prefixFn p with
      | none => none
      | some (leftExp, p1) =>
        Parser.parseExpressionLoopStrict (Parser.parseExpressionStrict fuel) fuel precedence fuel
          leftExp p1

/-- Two expression parsers give the same result at every precedence from
`LOWSET` up. -/
def AgreeAbove (pe1 pe2 : ParseExpressionFn) : Prop :=
  ∀ (q : Nat) (p : Parser), LOWSET ≤ q → pe1 q p = pe2 q p

/-- The Go slice expression `s[lo:hi]` of a string: it panics (`none`) unless
`0 <= lo <= hi <= len(s)`. -/
def sliceChecked (s : GoString) (lo hi : Nat) : Option GoString :=
  if lo ≤ hi ∧ hi ≤ s.length then some (slice s lo hi) else none

/-- The Go index expression `s[i]` of a string: it panics (`none`) unless
`i < len(s)`. -/
def indexChecked (s : GoString) (i : Nat) : Option Nat := s.get? i

namespace Lexer

/-- The method `readChar` with the checked index expression. -/
def readCharChecked (l : Lexer) : Option Lexer :=
  if l.readPosition ≥ l.input.length then
    some { l with ch := 0, position := l.readPosition, readPosition := l.readPosition + 1 }
  else
    (indexChecked l.input l.readPosition).map (fun c =>
      { l with ch := c, position := l.readPosition, readPosition := l.readPosition + 1 })

/-- The method `peekChar` with the checked index expression. -/
def peekCharChecked (l : Lexer) : Option Nat :=
  if l.readPosition ≥ l.input.length then some 0 else indexChecked l.input l.readPosition

/-- The method `readIdentifiter` with the checked slice expression. -/
def readIdentifiterChecked (l : Lexer) : Option (GoString × Lexer) :=
  let position := l.position
  let l1 := readCharWhile isLetter (l.input.length + 1) l
  (sliceChecked l1.input position l1.position).map (fun s => (s, l1))

/-- The method `readNumber` with the checked slice expression. -/
def readNumberChecked (l : Lexer) : Option (GoString × Lexer) :=
  let position := l.position
  let l1 := readCharWhile isDigit (l.input.length + 1) l
  (sliceChecked l1.input position l1.position).map (fun s => (s, l1))

/-- The method `readString` with the checked slice expression. -/
def readStringChecked (l : Lexer) : Option (GoString × Lexer) :=
  let position := l.position + 1
  let l1 := readStringLoop (l.input.length + 1) l
  (sliceChecked l1.input position l1.position).map (fun s => (s, l1))

/-- The bounds `(start, end)` of the slice that `readIdentifiter` takes. -/
def readIdentifiterBounds (l : Lexer) : Nat × Nat :=
  (l.position, (readCharWhile isLetter (l.input.length + 1) l).position)

/-- The bounds `(start, end)` of the slice that `readNumber` takes. -/
def readNumberBounds (l : Lexer) : Nat × Nat :=
  (l.position, (readCharWhile isDigit (l.input.length + 1) l).position)

/-- The bounds `(start, end)` of the slice that `readString` takes. -/
def readStringBounds (l : Lexer) : Nat × Nat :=
  (l.position + 1, (readStringLoop (l.input.length + 1) l).position)

end Lexer

/-- An expression tree of identifiers, the prefix operators `-` and `!`, and
the eight binary operators. -/
inductive OpTree where
  | ident (w : GoString)
  | pre (q : PrefixOp) (r : OpTree)
  | bin (l : OpTree) (o : BinOp) (r : OpTree)

/-- The node of an operator tree as the parser builds it. -/
def OpTree.expr : OpTree → Expression
  | .ident w => identExpr w
  | .pre q r => .PrefixExpression q.token q.text (some r.expr)
  | .bin l o r => infixExpr l.expr o r.expr

/-- Every identifier of the tree is a non-keyword name of letters and
underscores. -/
def OpTree.Valid : OpTree → Prop
  | .ident w => IsIdent w
  | .pre _ r => r.Valid
  | .bin l _ r => l.Valid ∧ r.Valid

/-- Validity of an operator tree is decidable. -/
def OpTree.decValid : (t : OpTree) → Decidable t.Valid
  | .ident w => inferInstanceAs (Decidable (IsIdent w))
  | .pre _ r => OpTree.decValid r
  | .bin l _ r => @instDecidableAnd _ _ (OpTree.decValid l) (OpTree.decValid r)

instance (t : OpTree) : Decidable t.Valid := OpTree.decValid t

/-- The canonical string of an operator tree: `x`, `(<op><operand>)`,
`(<left> <op> <right>)`. -/
def OpTree.text : OpTree → GoString
  | .ident w => w
  | .pre q r => bytes "(" ++ (q.text ++ (r.text ++ bytes ")"))
  | .bin l o r =>
    bytes "(" ++ (l.text ++ (bytes " " ++ (o.text ++ (bytes " " ++ (r.text ++ bytes ")")))))

/-- The tokens of the canonical string. -/
def OpTree.tokens : OpTree → List Token
  | .ident w => [identToken w]
  | .pre q r => lparenToken :: q.token :: (r.tokens ++ [rparenToken])
  | .bin l o r => lparenToken :: (l.tokens ++ o.token :: (r.tokens ++ [rparenToken]))

/-- The first token of the canonical string. -/
def OpTree.firstToken : OpTree → Token
  | .ident w => identToken w
  | .pre _ _ => lparenToken
  | .bin _ _ _ => lparenToken

/-- The expression `e` is a tree of identifiers, prefix operators and binary
operators with the shape, operators and names of `t`, whatever tokens its
nodes hold. -/
inductive IsTreeOf : Expression → OpTree → Prop
  | ident (tok : Token) (w : GoString) : IsTreeOf (.Identifier tok w) (.ident w)
  | pre (tok : Token) (q : PrefixOp) {e : Expression} {r : OpTree} (h : IsTreeOf e r) :
    IsTreeOf (.PrefixExpression tok q.text (some e)) (.pre q r)
  | bin (tok : Token) (o : BinOp) {a b : Expression} {l r : OpTree} (ha : IsTreeOf a l)
    (hb : IsTreeOf b r) : IsTreeOf (.InfixExpression tok (some a) o.text (some b)) (.bin l o r)

namespace Parser

/-- The method `parseExpression` on a bounded call stack.  Every nested
call of the parser goes through `parseExpression` (a grouped, prefix, infix,
call, index, array, hash, `if` or function-literal method calls it for its
operands), and the Go runtime aborts the process with a fatal stack
overflow when the goroutine stack is exhausted: `stack` is the number of
nested activations of `parseExpression` that the stack holds, and the result
is `none` where one more is needed.  `loops` bounds the rounds of every loop
below this call, as the counter of `parseExpression` does. -/
def parseExpressionOnStack (loops : Nat) : Nat → Nat → Parser → Option (Option Expression × Parser)
  | 0, _, _ => none
  | stack + 1, precedence, p =>
    match prefixParseFns p.curToken.Typ with
    | none => some (none, p.noPrefixParseFnError p.curToken.Typ)
    | some prefixFn =>
      match callPrefix (parseExpressionOnStack loops stack) loops prefixFn p with
      | none => none
      | some (leftExp, p1) =>
        parseExpressionLoop (parseExpressionOnStack loops stack) loops precedence loops leftExp p1

/-- The `for` loop of `ParseProgram` on a bounded call stack. -/
def ParseProgramLoopOnStack (loops stack : Nat) :
    Nat → List Statement → Parser → Option (List Statement × Parser)
  | 0, _, _ => none
  | n + 1, statements, p =>
    if p.curToken.Typ ≠ .EOF then
      match parseStatement (parseExpressionOnStack loops stack) loops p with
      | none => none
      | some (stmt, p1) =>
        ParseProgramLoopOnStack loops stack n (appendStatement statements stmt) p1.nextToken
    else some (statements, p)

/-- The method `ParseProgram` on a bounded call stack. -/
def ParseProgramOnStack (loops stack : Nat) (p : Parser) : Option (Program × Parser) :=
  match ParseProgramLoopOnStack loops stack loops [] p with
  | none => none
  | some (statements, p1) => some (⟨statements⟩, p1)

end Parser

/-- One whole parse, as `parse`, on a call stack that holds `stack` nested
activations of `parseExpression`: `none` is the fatal stack overflow of the
Go runtime (the loop counter `len(input) + 3` is never exhausted). -/
def parseOnStack (stack : Nat) (input : GoString) : Option (Program × List GoString) :=
  match Parser.ParseProgramOnStack (input.length + 3) stack (Parser.New (Lexer.New input)) with
  | none => none
  | some (program, p) => some (program, p.Errors)

/-- Wherever the expression parser `pe1` returns, `pe2` returns the same. -/
def Extends (pe1 pe2 : ParseExpressionFn) : Prop :=
  ∀ (q : Nat) (p : Parser) (r : Option Expression × Parser), pe1 q p = some r → pe2 q p = some r

theorem getD_eq_headD_drop (i : GoString) (p : Nat) : i.getD p 0 = (i.drop p).headD 0 := by
  induction i generalizing p with
  | nil => simp
  | cons a i ih =>
    cases p with
    | zero => simp
    | succ p => simp [ih p]

theorem drop_succ_of_drop_cons {i : GoString} {p c : Nat} {r : GoString}
    (h : i.drop p = c :: r) : i.drop (p + 1) = r := by
  induction i generalizing p with
  | nil => simp at h
  | cons a i ih =>
    cases p with
    | zero => simp at h; simp [h.2]
    | succ p => simp at h; exact ih h

theorem drop_add_of_drop_append {i : GoString} {p : Nat} {w r : GoString}
    (h : i.drop p = w ++ r) : i.drop (p + w.length) = r := by
  induction w generalizing p with
  | nil => simpa using h
  | cons c w ih =>
    have h1 : i.drop (p + 1) = w ++ r := drop_succ_of_drop_cons h
    have := ih h1
    simpa [Nat.add_assoc, Nat.add_comm 1] using this

theorem take_of_drop_append {i : GoString} {p : Nat} {w r : GoString}
    (h : i.drop p = w ++ r) : slice i p (p + w.length) = w := by
  simp [slice, h]

namespace Lexer

theorem mkAt_ch (i : GoString) (p : Nat) : (mkAt i p).ch = (i.drop p).headD 0 := by
  simp [mkAt, getD_eq_headD_drop]

theorem readChar_mkAt (i : GoString) (p : Nat) : (mkAt i p).readChar = mkAt i (p + 1) := by
  simp only [readChar, mkAt, Lexer.mk.injEq, and_true, true_and]
  split
  · rename_i h
    rw [List.getD_eq_default]
    exact h
  · rfl

theorem New_eq (i : GoString) : New i = mkAt i 0 := by
  simp only [New, readChar, mkAt, Lexer.mk.injEq, and_true, true_and]
  split
  · rename_i h
    rw [List.getD_eq_default]
    exact h
  · rfl

theorem peekChar_mkAt (i : GoString) (p : Nat) :
    (mkAt i p).peekChar = (i.drop (p + 1)).headD 0 := by
  simp only [peekChar, mkAt]
  split
  · rename_i h
    rw [List.drop_eq_nil_of_le h]
    rfl
  · exact getD_eq_headD_drop i (p + 1)

theorem countWhile_le (f : Nat → Bool) (r : GoString) : countWhile f r ≤ r.length := by
  induction r with
  | nil => simp [countWhile]
  | cons c r ih =>
    simp only [countWhile, List.length_cons]
    split <;> omega

theorem countWhile_drop_lt (f : Nat → Bool) (i : GoString) (p : Nat) :
    countWhile f (i.drop p) < i.length + 1 := by
  have h1 := countWhile_le f (i.drop p)
  have h2 : (i.drop p).length ≤ i.length := by simp
  omega

/-- A `for cond(l.ch) { l.readChar() }` loop moves the cursor over the
longest run of bytes satisfying `cond`, whenever its counter exceeds that
run: the counter is not what stops it. -/
theorem readCharWhile_mkAt (f : Nat → Bool) (hf : f 0 = false) :
    ∀ (n : Nat) (i : GoString) (p : Nat), countWhile f (i.drop p) < n →
      readCharWhile f n (mkAt i p) = mkAt i (p + countWhile f (i.drop p)) := by
  intro n
  induction n with
  | zero => intro i p h; omega
  | succ n ih =>
    intro i p h
    rw [readCharWhile, mkAt_ch]
    cases hd : i.drop p with
    | nil => simp [countWhile, hf]
    | cons c r =>
      have hr : i.drop (p + 1) = r := drop_succ_of_drop_cons hd
      rw [hd] at h
      simp only [List.headD_cons, countWhile] at h ⊢
      by_cases hc : f c = true
      · simp only [hc, if_true] at h ⊢
        rw [readChar_mkAt, ih i (p + 1) (by rw [hr]; omega), hr]
        congr 1
        omega
      · simp [hc]

theorem skipWhitespace_mkAt (i : GoString) (p : Nat) :
    (mkAt i p).skipWhitespace = mkAt i (p + countWhile isWhitespace (i.drop p)) :=
  readCharWhile_mkAt isWhitespace (by decide) _ i p (countWhile_drop_lt _ i p)

end Lexer

namespace Lexer

theorem countWhile_of_head {f : Nat → Bool} {r : GoString}
    (h : f (r.headD 0) = false) : countWhile f r = 0 := by
  cases r with
  | nil => rfl
  | cons c r => simp at h; simp [countWhile, h]

theorem countWhile_append {f : Nat → Bool} {w r : GoString}
    (hw : ∀ c ∈ w, f c = true) (hr : f (r.headD 0) = false) :
    countWhile f (w ++ r) = w.length := by
  induction w with
  | nil => simpa using countWhile_of_head hr
  | cons c w ih =>
    have hc : f c = true := hw c (by simp)
    have := ih (fun d hd => hw d (by simp [hd]))
    simp [countWhile, hc, this]

theorem skipWhitespace_of_head {i : GoString} {p : Nat}
    (h : isWhitespace ((i.drop p).headD 0) = false) :
    (mkAt i p).skipWhitespace = mkAt i p := by
  rw [skipWhitespace_mkAt, countWhile_of_head h]
  rfl

/-- Whitespace before a token is skipped. -/
theorem NextToken_whitespace {i : GoString} {p c : Nat} {r : GoString}
    (h : i.drop p = c :: r) (hc : isWhitespace c = true) :
    (mkAt i p).NextToken = (mkAt i (p + 1)).NextToken := by
  have e : (mkAt i p).skipWhitespace = (mkAt i (p + 1)).skipWhitespace := by
    rw [skipWhitespace_mkAt, skipWhitespace_mkAt, h, drop_succ_of_drop_cons h]
    simp only [countWhile, hc, if_true]
    congr 1
    omega
  simp only [NextToken, e]

/-- At the end of the input `NextToken` returns the end-of-input token. -/
theorem NextToken_nil {i : GoString} {p : Nat} (h : i.drop p = []) :
    (mkAt i p).NextToken = (⟨.EOF, []⟩, mkAt i (p + 1)) := by
  have hs : (mkAt i p).skipWhitespace = mkAt i p :=
    skipWhitespace_of_head (by rw [h]; rfl)
  have hch : (mkAt i p).ch = 0 := by rw [mkAt_ch, h]; rfl
  simp [NextToken, hs, hch, readChar_mkAt]

theorem NextToken_singleChar {i : GoString} {p c : Nat} {r : GoString} {t : TokenType}
    (h : i.drop p = c :: r) (hc : (c, t) ∈ singleCharTokens) :
    (mkAt i p).NextToken = (⟨t, [c]⟩, mkAt i (p + 1)) := by
  have hch : (mkAt i p).ch = c := by rw [mkAt_ch, h]; rfl
  have hs : isWhitespace c = false → (mkAt i p).skipWhitespace = mkAt i p := fun hw =>
    skipWhitespace_of_head (by rw [h]; exact hw)
  simp only [singleCharTokens, List.mem_cons, Prod.mk.injEq, List.mem_singleton,
    List.not_mem_nil, or_false] at hc
  repeat' (cases' hc with hc hc)
  all_goals simp only [NextToken, hs rfl, hch, readChar_mkAt, newToken, stringOfByte]
  all_goals simp

theorem isLetter_iff (c : Nat) :
    isLetter c = true ↔ (97 ≤ c ∧ c ≤ 122) ∨ (65 ≤ c ∧ c ≤ 90) ∨ c = 95 := by
  simp [isLetter, or_assoc]

theorem isDigit_iff (c : Nat) : isDigit c = true ↔ 48 ≤ c ∧ c ≤ 57 := by
  simp [isDigit]

theorem isWhitespace_iff (c : Nat) :
    isWhitespace c = true ↔ c = 32 ∨ c = 9 ∨ c = 10 ∨ c = 13 := by
  simp [isWhitespace, or_assoc]

/-- A run of letters, up to the first byte that is not one, is read as one
identifier or keyword token. -/
theorem NextToken_letters {i : GoString} {p : Nat} {w r : GoString}
    (h : i.drop p = w ++ r) (hne : w ≠ []) (hw : ∀ c ∈ w, isLetter c = true)
    (hr : isLetter (r.headD 0) = false) :
    (mkAt i p).NextToken = (⟨LookupIdent w, w⟩, mkAt i (p + w.length)) := by
  obtain ⟨c, w', rfl⟩ := List.exists_cons_of_ne_nil hne
  have hc : isLetter c = true := hw c (by simp)
  have hch : (mkAt i p).ch = c := by rw [mkAt_ch, h]; rfl
  have hcw : isWhitespace c = false := by
    rw [isLetter_iff] at hc
    rw [Bool.eq_false_iff, Ne, isWhitespace_iff]
    omega
  have hs : (mkAt i p).skipWhitespace = mkAt i p :=
    skipWhitespace_of_head (by rw [h]; exact hcw)
  have hloop : readCharWhile isLetter (i.length + 1) (mkAt i p) = mkAt i (p + (c :: w').length) := by
    rw [readCharWhile_mkAt isLetter (by decide) _ i p (countWhile_drop_lt _ i p), h,
      countWhile_append hw hr]
  have hsl : slice i p (p + (c :: w').length) = c :: w' := take_of_drop_append h
  have hid : (mkAt i p).readIdentifiter = (c :: w', mkAt i (p + (c :: w').length)) := by
    simp only [readIdentifiter]
    rw [show (mkAt i p).input = i from rfl, hloop]
    simp only [mkAt]
    rw [hsl]
  rw [isLetter_iff] at hc
  simp only [NextToken, hs, hch, hid]
  have e1 : c ≠ 61 := by omega
  have e2 : c ≠ 59 := by omega
  have e3 : c ≠ 40 := by omega
  have e4 : c ≠ 41 := by omega
  have e5 : c ≠ 44 := by omega
  have e6 : c ≠ 43 := by omega
  have e7 : c ≠ 45 := by omega
  have e8 : c ≠ 33 := by omega
  have e9 : c ≠ 47 := by omega
  have e10 : c ≠ 42 := by omega
  have e11 : c ≠ 60 := by omega
  have e12 : c ≠ 62 := by omega
  have e13 : c ≠ 123 := by omega
  have e14 : c ≠ 125 := by omega
  have e15 : c ≠ 91 := by omega
  have e16 : c ≠ 93 := by omega
  have e17 : c ≠ 34 := by omega
  have e18 : c ≠ 58 := by omega
  have e19 : c ≠ 0 := by omega
  have hl : isLetter c = true := (isLetter_iff c).2 hc
  simp only [e1, e2, e3, e4, e5, e6, e7, e8, e9, e10, e11, e12, e13, e14, e15, e16, e17, e18,
    e19, if_false, hl, if_true]

/-- A run of digits, up to the first byte that is not one, is read as one
integer token. -/
theorem NextToken_digits {i : GoString} {p : Nat} {w r : GoString}
    (h : i.drop p = w ++ r) (hne : w ≠ []) (hw : ∀ c ∈ w, isDigit c = true)
    (hr : isDigit (r.headD 0) = false) :
    (mkAt i p).NextToken = (⟨.INT, w⟩, mkAt i (p + w.length)) := by
  obtain ⟨c, w', rfl⟩ := List.exists_cons_of_ne_nil hne
  have hc : isDigit c = true := hw c (by simp)
  have hch : (mkAt i p).ch = c := by rw [mkAt_ch, h]; rfl
  have hcw : isWhitespace c = false := by
    rw [isDigit_iff] at hc
    rw [Bool.eq_false_iff, Ne, isWhitespace_iff]
    omega
  have hs : (mkAt i p).skipWhitespace = mkAt i p :=
    skipWhitespace_of_head (by rw [h]; exact hcw)
  have hloop : readCharWhile isDigit (i.length + 1) (mkAt i p) = mkAt i (p + (c :: w').length) := by
    rw [readCharWhile_mkAt isDigit (by decide) _ i p (countWhile_drop_lt _ i p), h,
      countWhile_append hw hr]
  have hsl : slice i p (p + (c :: w').length) = c :: w' := take_of_drop_append h
  have hid : (mkAt i p).readNumber = (c :: w', mkAt i (p + (c :: w').length)) := by
    simp only [readNumber]
    rw [show (mkAt i p).input = i from rfl, hloop]
    simp only [mkAt]
    rw [hsl]
  have hnl : isLetter c = false := by
    rw [isDigit_iff] at hc
    rw [Bool.eq_false_iff, Ne, isLetter_iff]
    omega
  have hd : isDigit c = true := hc
  rw [isDigit_iff] at hc
  simp only [NextToken, hs, hch, hid]
  have e1 : c ≠ 61 := by omega
  have e2 : c ≠ 59 := by omega
  have e3 : c ≠ 40 := by omega
  have e4 : c ≠ 41 := by omega
  have e5 : c ≠ 44 := by omega
  have e6 : c ≠ 43 := by omega
  have e7 : c ≠ 45 := by omega
  have e8 : c ≠ 33 := by omega
  have e9 : c ≠ 47 := by omega
  have e10 : c ≠ 42 := by omega
  have e11 : c ≠ 60 := by omega
  have e12 : c ≠ 62 := by omega
  have e13 : c ≠ 123 := by omega
  have e14 : c ≠ 125 := by omega
  have e15 : c ≠ 91 := by omega
  have e16 : c ≠ 93 := by omega
  have e17 : c ≠ 34 := by omega
  have e18 : c ≠ 58 := by omega
  have e19 : c ≠ 0 := by omega
  simp [e1, e2, e3, e4, e5, e6, e7, e8, e9, e10, e11, e12, e13, e14, e15, e16, e17, e18,
    e19, hnl, hd]

/-- `=` or `!` followed by `=` is one two-byte token. -/
theorem NextToken_twoChar {i : GoString} {p c : Nat} {r : GoString} {t : TokenType}
    (h : i.drop p = c :: 61 :: r) (hc : (c, t) ∈ [(61, TokenType.EQ), (33, TokenType.NOT_EQ)]) :
    (mkAt i p).NextToken = (⟨t, [c, 61]⟩, mkAt i (p + 2)) := by
  have hch : (mkAt i p).ch = c := by rw [mkAt_ch, h]; rfl
  have hs : isWhitespace c = false → (mkAt i p).skipWhitespace = mkAt i p := fun hw =>
    skipWhitespace_of_head (by rw [h]; exact hw)
  have hpk : (mkAt i p).peekChar = 61 := by
    rw [peekChar_mkAt, drop_succ_of_drop_cons h]; rfl
  have hch1 : (mkAt i (p + 1)).ch = 61 := by
    rw [mkAt_ch, drop_succ_of_drop_cons h]; rfl
  simp only [List.mem_cons, Prod.mk.injEq, List.mem_singleton, List.not_mem_nil, or_false] at hc
  rcases hc with ⟨rfl, rfl⟩ | ⟨rfl, rfl⟩
  all_goals simp only [NextToken, hs rfl, hch, hpk, readChar_mkAt, hch1, stringOfByte]
  all_goals simp

/-- `=` or `!` not followed by `=` is a one-byte token. -/
theorem NextToken_oneOfTwo {i : GoString} {p c : Nat} {r : GoString} {t : TokenType}
    (h : i.drop p = c :: r) (hr : r.headD 0 ≠ 61)
    (hc : (c, t) ∈ [(61, TokenType.ASSIGN), (33, TokenType.BANG)]) :
    (mkAt i p).NextToken = (⟨t, [c]⟩, mkAt i (p + 1)) := by
  have hch : (mkAt i p).ch = c := by rw [mkAt_ch, h]; rfl
  have hs : isWhitespace c = false → (mkAt i p).skipWhitespace = mkAt i p := fun hw =>
    skipWhitespace_of_head (by rw [h]; exact hw)
  have hpk : (mkAt i p).peekChar ≠ 61 := by
    rw [peekChar_mkAt, drop_succ_of_drop_cons h]; exact hr
  simp only [List.mem_cons, Prod.mk.injEq, List.mem_singleton, List.not_mem_nil, or_false] at hc
  rcases hc with ⟨rfl, rfl⟩ | ⟨rfl, rfl⟩
  all_goals simp only [NextToken, hs rfl, hch, hpk, readChar_mkAt, newToken, stringOfByte]
  all_goals simp

theorem NextToken_whitespaces {i : GoString} {ws r : GoString}
    (hws : ∀ c ∈ ws, isWhitespace c = true) :
    ∀ {p : Nat}, i.drop p = ws ++ r → (mkAt i p).NextToken = (mkAt i (p + ws.length)).NextToken := by
  induction ws with
  | nil => intro p _; rfl
  | cons c ws ih =>
    intro p h
    rw [NextToken_whitespace h (hws c (by simp)),
      ih (fun d hd => hws d (by simp [hd])) (drop_succ_of_drop_cons h)]
    simp [Nat.add_assoc, Nat.add_comm 1]

end Lexer

theorem Feeds_nil_next {l : Lexer} (h : Feeds l []) :
    l.NextToken.1 = eofToken ∧ Feeds l.NextToken.2 [] := by
  obtain ⟨ws, ⟨i, p, rfl, hd⟩, hws⟩ := h
  have hd' : i.drop p = ws ++ [] := by simpa using hd
  have e := Lexer.NextToken_whitespaces hws hd'
  have hnil : i.drop (p + ws.length) = [] := drop_add_of_drop_append hd'
  rw [e, Lexer.NextToken_nil hnil]
  refine ⟨rfl, [], ⟨i, p + ws.length + 1, rfl, ?_⟩, by simp⟩
  have := congrArg List.length hnil
  simp only [List.length_drop, List.length_nil] at this
  apply List.drop_eq_nil_of_le
  omega

theorem Feeds_next {l : Lexer} {ts : List Token} (h : Feeds l ts) :
    l.NextToken.1 = ts.headD eofToken ∧ Feeds l.NextToken.2 ts.tail := by
  cases ts with
  | nil => exact Feeds_nil_next h
  | cons t ts => exact h

theorem Toks_nil : Toks [] [] := fun _ h => ⟨[], h, by simp⟩

theorem Toks_whitespace {c : Nat} {r : GoString} {ts : List Token}
    (hc : isWhitespace c = true) (h : Toks r ts) : Toks (c :: r) ts := by
  rintro l ⟨i, p, rfl, hd⟩
  have hr : (Lexer.mkAt i (p + 1)).Reads r := ⟨i, p + 1, rfl, drop_succ_of_drop_cons hd⟩
  cases ts with
  | nil =>
    obtain ⟨ws, ⟨i', p', e, hd'⟩, hws⟩ := h _ hr
    have hi : i' = i := by
      have := congrArg Lexer.input e
      exact this.symm
    have hp : p' = p + 1 := by
      have := congrArg Lexer.position e
      exact this.symm
    subst hi; subst hp
    have hrw : r = ws := by rw [← drop_succ_of_drop_cons hd, hd']
    refine ⟨c :: ws, ⟨i', p, rfl, by rw [hd, hrw]⟩, ?_⟩
    intro d hdm
    rcases List.mem_cons.1 hdm with rfl | hm
    · exact hc
    · exact hws d hm
  | cons t ts =>
    have := h _ hr
    show (Lexer.mkAt i p).NextToken.1 = t ∧ Feeds (Lexer.mkAt i p).NextToken.2 ts
    rw [Lexer.NextToken_whitespace hd hc]
    exact this

theorem Toks_step {s r : GoString} {t : Token} {ts : List Token}
    (hstep : ∀ (i : GoString) (p : Nat), i.drop p = s ++ r →
      (Lexer.mkAt i p).NextToken = (t, Lexer.mkAt i (p + s.length)))
    (h : Toks r ts) : Toks (s ++ r) (t :: ts) := by
  rintro l ⟨i, p, rfl, hd⟩
  show (Lexer.mkAt i p).NextToken.1 = t ∧ Feeds (Lexer.mkAt i p).NextToken.2 ts
  rw [hstep i p hd]
  exact ⟨rfl, h _ ⟨i, p + s.length, rfl, drop_add_of_drop_append hd⟩⟩

/-- A token that is one character whatever follows it. -/
theorem Toks_singleChar {c : Nat} {t : TokenType} {r : GoString} {ts : List Token}
    (hc : (c, t) ∈ Lexer.singleCharTokens) (h : Toks r ts) :
    Toks (c :: r) (⟨t, [c]⟩ :: ts) :=
  Toks_step (s := [c]) (fun _ _ hd => Lexer.NextToken_singleChar hd hc) h

theorem Toks_twoChar {c : Nat} {t : TokenType} {r : GoString} {ts : List Token}
    (hc : (c, t) ∈ [(61, TokenType.EQ), (33, TokenType.NOT_EQ)]) (h : Toks r ts) :
    Toks (c :: 61 :: r) (⟨t, [c, 61]⟩ :: ts) :=
  Toks_step (s := [c, 61]) (fun _ _ hd => Lexer.NextToken_twoChar hd hc) h

theorem Toks_oneOfTwo {c : Nat} {t : TokenType} {r : GoString} {ts : List Token}
    (hc : (c, t) ∈ [(61, TokenType.ASSIGN), (33, TokenType.BANG)]) (hr : r.headD 0 ≠ 61)
    (h : Toks r ts) : Toks (c :: r) (⟨t, [c]⟩ :: ts) :=
  Toks_step (s := [c]) (fun _ _ hd => Lexer.NextToken_oneOfTwo hd hr hc) h

theorem Toks_letters {w r : GoString} {ts : List Token} (hne : w ≠ [])
    (hw : ∀ c ∈ w, isLetter c = true) (hr : isLetter (r.headD 0) = false) (h : Toks r ts) :
    Toks (w ++ r) (⟨LookupIdent w, w⟩ :: ts) :=
  Toks_step (fun _ _ hd => Lexer.NextToken_letters hd hne hw hr) h

theorem Toks_digits {w r : GoString} {ts : List Token} (hne : w ≠ [])
    (hw : ∀ c ∈ w, isDigit c = true) (hr : isDigit (r.headD 0) = false) (h : Toks r ts) :
    Toks (w ++ r) (⟨.INT, w⟩ :: ts) :=
  Toks_step (fun _ _ hd => Lexer.NextToken_digits hd hne hw hr) h

theorem Sees.nextToken {p : Parser} {ts : List Token} (h : Sees p ts) :
    Sees p.nextToken ts.tail := by
  obtain ⟨_, h2, h3⟩ := h
  have := Feeds_next h3
  exact ⟨h2, this.1, this.2⟩

theorem Sees_New {input : GoString} {ts : List Token} (h : Toks input ts) :
    Sees (Parser.New (Lexer.New input)) ts := by
  have h0 : Feeds (Lexer.New input) ts := h _ ⟨input, 0, Lexer.New_eq input, rfl⟩
  have h1 := Feeds_next h0
  have h2 := Feeds_next h1.2
  exact ⟨h1.1, h2.1, h2.2⟩

/-! ## Operators, operands and the shape of parsed expressions -/

theorem BinOp.precedences_eq (o : BinOp) : precedences o.tokenType = some o.precedence := by
  cases o <;> rfl

theorem BinOp.infixParseFns_eq (o : BinOp) :
    infixParseFns o.tokenType = some .parseInfixExpression := by
  cases o <;> rfl

theorem BinOp.tokenType_ne_semicolon (o : BinOp) : o.tokenType ≠ .SEMICOLON := by
  cases o <;> decide

theorem BinOp.lowset_lt (o : BinOp) : LOWSET < o.precedence := by
  cases o <;> decide

theorem BinOp.lt_prefix (o : BinOp) : o.precedence < PREFIX := by
  cases o <;> decide

theorem Toks_binOp (o : BinOp) {r : GoString} {ts : List Token} (h : Toks r ts) :
    Toks (o.text ++ r) (o.token :: ts) := by
  cases o
  · exact Toks_twoChar (c := 61) (t := .EQ) (by simp) h
  · exact Toks_twoChar (c := 33) (t := .NOT_EQ) (by simp) h
  · exact Toks_singleChar (c := 60) (t := .LT) (by simp [Lexer.singleCharTokens]) h
  · exact Toks_singleChar (c := 62) (t := .GT) (by simp [Lexer.singleCharTokens]) h
  · exact Toks_singleChar (c := 43) (t := .PLUS) (by simp [Lexer.singleCharTokens]) h
  · exact Toks_singleChar (c := 45) (t := .MINUS) (by simp [Lexer.singleCharTokens]) h
  · exact Toks_singleChar (c := 42) (t := .ASTERISK) (by simp [Lexer.singleCharTokens]) h
  · exact Toks_singleChar (c := 47) (t := .SLASH) (by simp [Lexer.singleCharTokens]) h

theorem LookupIdent_of_isIdent {w : GoString} (h : IsIdent w) : LookupIdent w = .IDENT := by
  simp [LookupIdent, h.2.2]

theorem Toks_ident {w r : GoString} {ts : List Token} (hw : IsIdent w)
    (hr : isLetter (r.headD 0) = false) (h : Toks r ts) :
    Toks (w ++ r) (identToken w :: ts) := by
  have := Toks_letters hw.1 hw.2.1 hr h
  rwa [LookupIdent_of_isIdent hw] at this

theorem Toks_space {r : GoString} {ts : List Token} (h : Toks r ts) :
    Toks (bytes " " ++ r) ts :=
  Toks_whitespace (c := 32) rfl h

theorem Stops_eof (precedence : Nat) (h : LOWSET ≤ precedence) : Stops precedence eofToken :=
  Or.inr h

theorem Stops_binOp {precedence : Nat} {o : BinOp} (h : o.precedence ≤ precedence) :
    Stops precedence o.token := by
  refine Or.inr ?_
  simpa [tokenPrecedence, BinOp.token, o.precedences_eq] using h

namespace Parser

theorem peekPrecedence_eq (p : Parser) : p.peekPrecedence = tokenPrecedence p.peekToken := rfl

theorem curPrecedence_eq (p : Parser) : p.curPrecedence = tokenPrecedence p.curToken := rfl

theorem nextToken_curToken (p : Parser) : p.nextToken.curToken = p.peekToken := rfl

theorem nextToken_errors (p : Parser) : p.nextToken.errors = p.errors := rfl

theorem parseExpressionLoop_stop {pe : ParseExpressionFn} {fuel precedence n : Nat}
    {left : Option Expression} {p : Parser} (h : Stops precedence p.peekToken) :
    parseExpressionLoop pe fuel precedence (n + 1) left p = some (left, p) := by
  rw [parseExpressionLoop]
  rcases h with h | h
  · simp [peekTokenIs, h]
  · have : ¬ precedence < p.peekPrecedence := by rw [peekPrecedence_eq]; omega
    simp [this]

theorem parseExpressionLoop_binOp {pe : ParseExpressionFn} {fuel precedence n : Nat}
    {left : Option Expression} {p : Parser} {o : BinOp} (hp : p.peekToken = o.token)
    (hlt : precedence < o.precedence) :
    parseExpressionLoop pe fuel precedence (n + 1) left p =
      match pe o.precedence p.nextToken.nextToken with
      | none => none
      | some (right, p1) =>
        parseExpressionLoop pe fuel precedence n
          (some (.InfixExpression o.token left o.text right)) p1 := by
  have h1 : p.peekTokenIs .SEMICOLON = false := by
    simp [peekTokenIs, hp, BinOp.token, o.tokenType_ne_semicolon]
  have h2 : p.peekPrecedence = o.precedence := by
    simp [peekPrecedence, hp, BinOp.token, o.precedences_eq]
  have h3 : infixParseFns o.token.Typ = some .parseInfixExpression := o.infixParseFns_eq
  have h4 : p.nextToken.curPrecedence = o.precedence := by
    simp [curPrecedence, nextToken_curToken, hp, BinOp.token, o.precedences_eq]
  rw [parseExpressionLoop]
  simp only [h1, h2, hlt, h3, callInfix, parseInfixExpression, h4, nextToken_curToken, hp]
  simp only [Bool.not_false, decide_True, Bool.and_self, if_true]
  cases pe o.precedence p.nextToken.nextToken with
  | none => rfl
  | some r => rfl

theorem parseExpression_ident {f precedence : Nat} {p : Parser} {w : GoString}
    (hc : p.curToken = identToken w) :
    parseExpression (f + 1) precedence p =
      parseExpressionLoop (parseExpression f) f precedence f (some (identExpr w)) p := by
  rw [parseExpression]
  simp [hc, identToken, prefixParseFns, callPrefix, parseIdentifier, identExpr]

theorem parseExpression_ident_stop {f precedence : Nat} {p : Parser} {w : GoString}
    (hc : p.curToken = identToken w) (hs : Stops precedence p.peekToken) :
    parseExpression (f + 2) precedence p = some (some (identExpr w), p) := by
  rw [parseExpression_ident hc, parseExpressionLoop_stop hs]

end Parser

theorem Sees.cur {p : Parser} {t : Token} {ts : List Token} (h : Sees p (t :: ts)) :
    p.curToken = t := h.1

theorem Sees.peek {p : Parser} {t u : Token} {ts : List Token} (h : Sees p (t :: u :: ts)) :
    p.peekToken = u := h.2.1

theorem Sees.peek_eof {p : Parser} {t : Token} (h : Sees p [t]) :
    p.peekToken = eofToken := h.2.1

theorem Sees.peek_headD {p : Parser} {t : Token} {ts : List Token} (h : Sees p (t :: ts)) :
    p.peekToken = ts.headD eofToken := h.2.1

/-- Parsing `a o1 b o2 c` at the lowest precedence: the tree groups to the
left unless the second operator has the higher precedence. -/
theorem parseExpression_three {p : Parser} {a b c : GoString} {o1 o2 : BinOp}
    {rest : List Token} {f : Nat}
    (h : Sees p (identToken a :: o1.token :: identToken b :: o2.token :: identToken c :: rest))
    (hrest : ∀ precedence, LOWSET ≤ precedence → Stops precedence (rest.headD eofToken)) :
    Parser.parseExpression (f + 4) LOWSET p =
      some (some (if o2.precedence ≤ o1.precedence then infixExpr (infixExpr (identExpr a) o1 (identExpr b)) o2 (identExpr c)
        else infixExpr (identExpr a) o1 (infixExpr (identExpr b) o2 (identExpr c))),
        p.nextToken.nextToken.nextToken.nextToken) := by
  have h1 := h.nextToken
  have h2 := h1.nextToken
  have h3 := h2.nextToken
  have h4 := h3.nextToken
  simp only [List.tail_cons] at h1 h2 h3 h4
  have s4 : ∀ precedence, LOWSET ≤ precedence →
      Stops precedence p.nextToken.nextToken.nextToken.nextToken.peekToken := by
    intro q hq; rw [h4.peek_headD]; exact hrest q hq
  rw [Parser.parseExpression_ident h.cur, Parser.parseExpressionLoop_binOp h.peek o1.lowset_lt]
  by_cases hle : o2.precedence ≤ o1.precedence
  · have s2 : Stops o1.precedence p.nextToken.nextToken.peekToken := by
      rw [h2.peek]; exact Stops_binOp hle
    rw [Parser.parseExpression_ident_stop h2.cur s2]
    simp only [hle, if_true]
    rw [Parser.parseExpressionLoop_binOp h2.peek o2.lowset_lt,
      Parser.parseExpression_ident_stop h4.cur (s4 _ (Nat.le_of_lt o2.lowset_lt))]
    simp only []
    rw [Parser.parseExpressionLoop_stop (s4 _ (Nat.le_refl _))]
    rfl
  · have hlt : o1.precedence < o2.precedence := by omega
    rw [Parser.parseExpression_ident h2.cur, Parser.parseExpressionLoop_binOp h2.peek hlt,
      Parser.parseExpression_ident_stop h4.cur (s4 _ (Nat.le_of_lt o2.lowset_lt))]
    simp only [hle, if_false]
    rw [Parser.parseExpressionLoop_stop (s4 _ (Nat.le_of_lt o1.lowset_lt))]
    simp only []
    rw [Parser.parseExpressionLoop_stop (s4 _ (Nat.le_refl _))]
    rfl

theorem Parser.New_errors (l : Lexer) : (Parser.New l).errors = [] := rfl

/-- A source that is one expression statement, with or without its `;`:
what `parse` returns, from what `parseExpression` returns on it. -/
theorem parse_of_parseExpression {input : GoString} {t last : Token} {ts : List Token}
    {e : Option Expression} {p1 : Parser} {errs : List GoString}
    (htoks : Toks input (t :: ts))
    (ht : t.Typ ≠ .EOF ∧ t.Typ ≠ .LET ∧ t.Typ ≠ .RETURN)
    (hpe : Parser.parseExpression (input.length + 3) LOWSET (Parser.New (Lexer.New input)) =
      some (e, p1))
    (hsee : Sees p1 [last] ∨ Sees p1 [last, semicolonToken])
    (herr : p1.errors = errs) :
    parse input = some (⟨[.ExpressionStatement t e]⟩, errs) := by
  have h0 : Sees (Parser.New (Lexer.New input)) (t :: ts) := Sees_New htoks
  have hcur := h0.cur
  have hstmt : Parser.parseStatement (Parser.parseExpression (input.length + 3))
      (input.length + 3) (Parser.New (Lexer.New input)) =
      some (some (.ExpressionStatement t e),
        if p1.peekTokenIs .SEMICOLON then p1.nextToken else p1) := by
    simp only [Parser.parseStatement, hcur, ht.2.1, ht.2.2, if_false,
      Parser.parseExpressionStatement, hpe]
  have hend : (if p1.peekTokenIs .SEMICOLON then p1.nextToken else p1).nextToken.curToken.Typ
      = .EOF ∧ (if p1.peekTokenIs .SEMICOLON then p1.nextToken else p1).nextToken.errors
      = errs := by
    rcases hsee with h | h
    · have hp : p1.peekToken = eofToken := h.peek_eof
      simp [Parser.peekTokenIs, hp, eofToken, Parser.nextToken_curToken,
        Parser.nextToken_errors, herr]
    · have hp : p1.peekToken = semicolonToken := h.peek
      have h' := h.nextToken
      have hp' : p1.nextToken.peekToken = eofToken := h'.peek_eof
      simp [Parser.peekTokenIs, hp, semicolonToken, Parser.nextToken_curToken,
        Parser.nextToken_errors, herr, hp', eofToken]
  have hloop : Parser.ParseProgramLoop (input.length + 3) (input.length + 3) []
      (Parser.New (Lexer.New input)) =
      some ([.ExpressionStatement t e],
        (if p1.peekTokenIs .SEMICOLON then p1.nextToken else p1).nextToken) := by
    rw [show input.length + 3 = (input.length + 1) + 1 + 1 from rfl]
    rw [Parser.ParseProgramLoop]
    rw [show (input.length + 1) + 1 + 1 = input.length + 3 from rfl]
    simp only [hcur, ne_eq, ht.1, not_false_eq_true, if_true, hstmt]
    rw [Parser.ParseProgramLoop]
    simp [hend.1, Parser.appendStatement]
  simp only [parse, Parser.ParseProgram, hloop, Parser.Errors, hend.2]

theorem bytes_space : bytes " " = [32] := rfl

theorem infixExpr_String {ord : RangeOrder} {l r : Expression} {o : BinOp} {sl sr : GoString}
    (hl : l.String ord = some sl) (hr : r.String ord = some sr) :
    (infixExpr l o r).String ord =
      some (bytes "(" ++ sl ++ bytes " " ++ o.text ++ bytes " " ++ sr ++ bytes ")") := by
  simp [infixExpr, Expression.String, hl, hr]

theorem identExpr_String {ord : RangeOrder}
    (w : GoString) : (identExpr w).String ord = some w := rfl
theorem IsIdent.head_space {r : GoString} : isLetter ((bytes " " ++ r).headD 0) = false := rfl

/-- The tokens of `a o1 b o2 c`. -/
theorem Toks_three {a b c : GoString} (ha : IsIdent a) (hb : IsIdent b) (hc : IsIdent c)
    (o1 o2 : BinOp) :
    Toks (a ++ bytes " " ++ o1.text ++ bytes " " ++ b ++ bytes " " ++ o2.text ++ bytes " " ++ c)
      [identToken a, o1.token, identToken b, o2.token, identToken c] := by
  simp only [List.append_assoc]
  refine Toks_ident ha rfl (Toks_space (Toks_binOp o1 (Toks_space
    (Toks_ident hb rfl (Toks_space (Toks_binOp o2 (Toks_space ?_)))))))
  have := Toks_ident hc (r := []) rfl Toks_nil
  simpa using this

/-- C1. For identifiers `a`, `b`, `c` and binary operators `o1`, `o2`, the
source `a o1 b o2 c` parses without diagnostics to one expression statement;
its tree and canonical string are `((a o1 b) o2 c)` when the precedence of
`o2` is at most that of `o1`, and `(a o1 (b o2 c))` when it is higher.  The
precedences are EQUALS for `== !=`, LESSGREATER for `< >`, SUM for `+ -`,
PRODUCT for `* /`, in increasing order. -/
theorem C1_binary_operator_precedence (ord : RangeOrder)
    (a b c : GoString) (ha : IsIdent a) (hb : IsIdent b)
    (hc : IsIdent c) (o1 o2 : BinOp) :
    (∃ e : Expression,
      parse (a ++ bytes " " ++ o1.text ++ bytes " " ++ b ++ bytes " " ++ o2.text ++
          bytes " " ++ c) = some (⟨[.ExpressionStatement (identToken a) (some e)]⟩, []) ∧
      e = (if o2.precedence ≤ o1.precedence then
            infixExpr (infixExpr (identExpr a) o1 (identExpr b)) o2 (identExpr c)
          else infixExpr (identExpr a) o1 (infixExpr (identExpr b) o2 (identExpr c))) ∧
      e.String ord = some (if o2.precedence ≤ o1.precedence then
            bytes "((" ++ a ++ bytes " " ++ o1.text ++ bytes " " ++ b ++ bytes ") " ++
              o2.text ++ bytes " " ++ c ++ bytes ")"
          else bytes "(" ++ a ++ bytes " " ++ o1.text ++ bytes " (" ++ b ++ bytes " " ++
              o2.text ++ bytes " " ++ c ++ bytes "))")) ∧
    (BinOp.eq.precedence = EQUALS ∧ BinOp.notEq.precedence = EQUALS ∧
      BinOp.lt.precedence = LESSGREATER ∧ BinOp.gt.precedence = LESSGREATER ∧
      BinOp.plus.precedence = SUM ∧ BinOp.minus.precedence = SUM ∧
      BinOp.asterisk.precedence = PRODUCT ∧ BinOp.slash.precedence = PRODUCT ∧
      EQUALS < LESSGREATER ∧ LESSGREATER < SUM ∧ SUM < PRODUCT) := by
  refine ⟨⟨_, ?_, rfl, ?_⟩, by decide⟩
  · have htoks := Toks_three ha hb hc o1 o2
    have h0 := Sees_New htoks
    have hlen : 1 ≤ (a ++ bytes " " ++ o1.text ++ bytes " " ++ b ++ bytes " " ++ o2.text ++
          bytes " " ++ c).length := by
      have : 1 ≤ a.length := List.length_pos.2 ha.1
      simp only [List.length_append]
      omega
    obtain ⟨f, hf⟩ : ∃ f, (a ++ bytes " " ++ o1.text ++ bytes " " ++ b ++ bytes " " ++ o2.text ++
          bytes " " ++ c).length + 3 = f + 4 := ⟨(a ++ bytes " " ++ o1.text ++ bytes " " ++ b ++
          bytes " " ++ o2.text ++ bytes " " ++ c).length - 1, by omega⟩
    have hpe := parseExpression_three (f := f) h0 (fun q hq => Stops_eof q hq)
    rw [← hf] at hpe
    have h4 := h0.nextToken.nextToken.nextToken.nextToken
    exact parse_of_parseExpression htoks (by simp [identToken]) hpe (Or.inl h4) rfl
  · by_cases hle : o2.precedence ≤ o1.precedence
    · simp only [hle, if_true]
      rw [infixExpr_String (infixExpr_String (identExpr_String a) (identExpr_String b))
        (identExpr_String c)]
      simp [bytes]
    · simp only [hle, if_false]
      rw [infixExpr_String (identExpr_String a)
        (infixExpr_String (identExpr_String b) (identExpr_String c))]
      simp [bytes]

/-- C1, witness: `a + b * c` gives `(a + (b * c))`. -/
theorem C1_binary_operator_precedence_witness :
    IsIdent (bytes "a") ∧ IsIdent (bytes "b") ∧ IsIdent (bytes "c") ∧
    ∃ e : Expression,
      parse (bytes "a + b * c") = some (⟨[.ExpressionStatement (identToken (bytes "a")) (some e)]⟩, []) ∧
      e.String insertionOrder = some (bytes "(a + (b * c))") := by
  refine ⟨by decide, by decide, by decide, ?_⟩
  obtain ⟨e, h1, _, h3⟩ := (C1_binary_operator_precedence insertionOrder (bytes "a") (bytes "b") (bytes "c")
    (by decide) (by decide) (by decide) .plus .asterisk).1
  exact ⟨e, h1, h3⟩

/-! ## Chains of operators of one precedence -/

theorem chainText_head (rest : List (BinOp × GoString)) :
    isLetter ((chainText rest).headD 0) = false := by
  cases rest with
  | nil => rfl
  | cons ox rest => rfl

theorem chainText_length (rest : List (BinOp × GoString)) :
    rest.length ≤ (chainText rest).length := by
  induction rest with
  | nil => simp [chainText]
  | cons ox rest ih =>
    obtain ⟨o, x⟩ := ox
    have hsp : (bytes " ").length = 1 := rfl
    simp only [chainText, List.length_append, List.length_cons, hsp]
    omega

theorem Toks_chainText {rest : List (BinOp × GoString)}
    (h : ∀ ox ∈ rest, IsIdent ox.2) : Toks (chainText rest) (chainTokens rest) := by
  induction rest with
  | nil => exact Toks_nil
  | cons ox rest ih =>
    obtain ⟨o, x⟩ := ox
    have hx : IsIdent x := h (o, x) (by simp)
    have ih' := ih (fun oy hoy => h oy (by simp [hoy]))
    simp only [chainText, chainTokens, List.append_assoc]
    exact Toks_space (Toks_binOp o (Toks_space (Toks_ident hx (chainText_head rest) ih')))

theorem chainTokens_head_stops {rest : List (BinOp × GoString)} {π : Nat}
    (hπ : ∀ ox ∈ rest, ox.1.precedence = π) (hlow : LOWSET ≤ π) :
    Stops π ((chainTokens rest).headD eofToken) := by
  cases rest with
  | nil => exact Stops_eof π hlow
  | cons ox rest =>
    obtain ⟨o, x⟩ := ox
    have : o.precedence = π := hπ (o, x) (by simp)
    exact Stops_binOp (Nat.le_of_eq this)

/-- The loop of `parseExpression`, called at the lowest precedence, over a
chain of operators of one precedence: one round per operator, each taking
one operand, so the tree grows to the left. -/
theorem parseExpressionLoop_chain {π f : Nat} :
    ∀ (rest : List (BinOp × GoString)) (n : Nat) (left : Expression) (p : Parser) (t : Token),
      (∀ ox ∈ rest, IsIdent ox.2) → (∀ ox ∈ rest, ox.1.precedence = π) →
      Sees p (t :: chainTokens rest) → rest.length < n →
      ∃ (p1 : Parser) (u : Token),
        Parser.parseExpressionLoop (Parser.parseExpression (f + 2)) (f + 2) LOWSET n
          (some left) p = some (some (chainTree left rest), p1) ∧
        Sees p1 [u] ∧ p1.errors = p.errors := by
  intro rest
  induction rest with
  | nil =>
    intro n left p t _ _ hs hn
    obtain ⟨m, rfl⟩ : ∃ m, n = m + 1 := ⟨n - 1, by omega⟩
    refine ⟨p, t, ?_, hs, rfl⟩
    rw [Parser.parseExpressionLoop_stop]
    · rfl
    · rw [hs.peek_eof]; exact Stops_eof _ (Nat.le_refl _)
  | cons ox rest ih =>
    intro n left p t hid hπ hs hn
    obtain ⟨o, x⟩ := ox
    obtain ⟨m, rfl⟩ : ∃ m, n = m + 1 := ⟨n - 1, by omega⟩
    have hx : IsIdent x := hid (o, x) (by simp)
    have ho : o.precedence = π := hπ (o, x) (by simp)
    have hid' : ∀ oy ∈ rest, IsIdent oy.2 := fun oy hoy => hid oy (by simp [hoy])
    have hπ' : ∀ oy ∈ rest, oy.1.precedence = π := fun oy hoy => hπ oy (by simp [hoy])
    simp only [chainTokens] at hs
    have h2 := hs.nextToken.nextToken
    simp only [List.tail_cons] at h2
    have hstop : Stops o.precedence p.nextToken.nextToken.peekToken := by
      rw [h2.peek_headD, ho]
      exact chainTokens_head_stops hπ' (by rw [← ho]; exact Nat.le_of_lt o.lowset_lt)
    rw [Parser.parseExpressionLoop_binOp hs.peek o.lowset_lt,
      Parser.parseExpression_ident_stop h2.cur hstop]
    simp only []
    obtain ⟨p1, u, h1, h3, h4⟩ := ih m (infixExpr left o (identExpr x)) p.nextToken.nextToken
      (identToken x) hid' hπ' h2 (by simpa using hn)
    exact ⟨p1, u, h1, h3, h4⟩

/-- C2. A chain `x0 o1 x1 ... on xn` of identifiers whose operators all have
the same precedence parses without diagnostics to one expression statement
whose tree is the left fold `Infix(...Infix(Infix(x0,o1,x1),o2,x2)...,on,xn)`
(any length `n`, the empty chain included). -/
theorem C2_same_precedence_left_assoc (x0 : GoString) (rest : List (BinOp × GoString))
    (π : Nat) (h0 : IsIdent x0) (hid : ∀ ox ∈ rest, IsIdent ox.2)
    (hπ : ∀ ox ∈ rest, ox.1.precedence = π) :
    parse (x0 ++ chainText rest) =
      some (⟨[.ExpressionStatement (identToken x0) (some (chainTree (identExpr x0) rest))]⟩,
        []) := by
  have htoks : Toks (x0 ++ chainText rest) (identToken x0 :: chainTokens rest) :=
    Toks_ident h0 (chainText_head rest) (Toks_chainText hid)
  have hs := Sees_New htoks
  have hlen : rest.length + 1 ≤ (x0 ++ chainText rest).length := by
    have h1 : 1 ≤ x0.length := List.length_pos.2 h0.1
    have h2 := chainText_length rest
    simp only [List.length_append]
    omega
  obtain ⟨f, hf⟩ : ∃ f, (x0 ++ chainText rest).length + 3 = f + 3 := ⟨_, rfl⟩
  obtain ⟨p1, u, h1, h3, h4⟩ := parseExpressionLoop_chain (π := π) (f := f) rest (f + 2)
    (identExpr x0) _ (identToken x0) hid hπ hs (by omega)
  have hpe : Parser.parseExpression ((x0 ++ chainText rest).length + 3) LOWSET
      (Parser.New (Lexer.New (x0 ++ chainText rest))) =
      some (some (chainTree (identExpr x0) rest), p1) := by
    rw [hf, Parser.parseExpression_ident hs.cur, h1]
  exact parse_of_parseExpression htoks (by simp [identToken]) hpe (Or.inl h3)
    (by rw [h4]; rfl)

/-- C2, witness: `a * b / c` is `((a * b) / c)`. -/
theorem C2_same_precedence_left_assoc_witness :
    ∃ prog : Program, parse (bytes "a * b / c") = some (prog, []) ∧
      prog.Statements = [.ExpressionStatement (identToken (bytes "a"))
        (some (infixExpr (infixExpr (identExpr (bytes "a")) .asterisk (identExpr (bytes "b")))
          .slash (identExpr (bytes "c"))))] ∧
      prog.String insertionOrder = some (bytes "((a * b) / c)") :=
  ⟨_, C2_same_precedence_left_assoc (bytes "a")
      [(.asterisk, bytes "b"), (.slash, bytes "c")] PRODUCT (by decide) (by decide) (by decide),
    rfl, by decide⟩

/-! ## Operands: identifiers and integer literals -/

theorem Closes_of_precedences {t : Token} (h : precedences t.Typ = none) : Closes t := by
  intro q hq
  refine Or.inr ?_
  simpa [tokenPrecedence, h] using hq

theorem Closes_eof : Closes eofToken := Closes_of_precedences rfl

theorem Atom.expr_String {ord : RangeOrder} (x : Atom) : x.expr.String ord = some x.text := by
  cases x <;> rfl

theorem Toks_atom {x : Atom} {r : GoString} {ts : List Token} (hx : x.Valid)
    (hl : isLetter (r.headD 0) = false) (hd : isDigit (r.headD 0) = false) (h : Toks r ts) :
    Toks (x.text ++ r) (x.token :: ts) := by
  cases x with
  | ident w => exact Toks_ident hx hl h
  | int d => exact Toks_digits hx.1 hx.2.1 hd h

theorem Parser.parseExpression_atom {f precedence : Nat} {p : Parser} {x : Atom}
    (hx : x.Valid) (hc : p.curToken = x.token) :
    parseExpression (f + 1) precedence p =
      parseExpressionLoop (parseExpression f) f precedence f (some x.expr) p := by
  cases x with
  | ident w => exact parseExpression_ident hc
  | int d =>
    obtain ⟨v, hv⟩ := Option.isSome_iff_exists.1 hx.2.2
    rw [parseExpression]
    simp [hc, Atom.token, prefixParseFns, callPrefix, parseIntegerLiteral, hv, Atom.expr]

theorem Parser.parseExpression_atom_stop {f precedence : Nat} {p : Parser} {x : Atom}
    (hx : x.Valid) (hc : p.curToken = x.token) (hs : Stops precedence p.peekToken) :
    parseExpression (f + 2) precedence p = some (some x.expr, p) := by
  rw [parseExpression_atom hx hc, parseExpressionLoop_stop hs]

/-- Parsing `x o y` in front of a closing token. -/
theorem parseExpression_two {p : Parser} {x y : Atom} {o : BinOp} {rest : List Token}
    {f precedence : Nat} (hx : x.Valid) (hy : y.Valid)
    (h : Sees p (x.token :: o.token :: y.token :: rest))
    (hlt : precedence < o.precedence) (hlow : LOWSET ≤ precedence)
    (hrest : Closes (rest.headD eofToken)) :
    Parser.parseExpression (f + 3) precedence p =
      some (some (infixExpr x.expr o y.expr), p.nextToken.nextToken) := by
  have h2 := h.nextToken.nextToken
  simp only [List.tail_cons] at h2
  have hs : ∀ q, LOWSET ≤ q → Stops q p.nextToken.nextToken.peekToken := by
    intro q hq; rw [h2.peek_headD]; exact hrest q hq
  rw [Parser.parseExpression_atom hx h.cur, Parser.parseExpressionLoop_binOp h.peek hlt,
    Parser.parseExpression_atom_stop hy h2.cur (hs _ (Nat.le_of_lt o.lowset_lt))]
  simp only []
  rw [Parser.parseExpressionLoop_stop (hs _ hlow)]
  rfl

/-! ## Grouping -/

theorem Closes_rparen : Closes rparenToken := Closes_of_precedences rfl

theorem Parser.parseExpression_grouped {f precedence : Nat} {p p1 : Parser}
    {exp : Option Expression} (hc : p.curToken = lparenToken)
    (hin : parseExpression f LOWSET p.nextToken = some (exp, p1))
    (hp : p1.peekToken = rparenToken) :
    parseExpression (f + 1) precedence p =
      parseExpressionLoop (parseExpression f) f precedence f exp p1.nextToken := by
  rw [parseExpression]
  simp [hc, lparenToken, prefixParseFns, callPrefix, parseGroupedExpression, hin, expectPeek,
    peekTokenIs, hp, rparenToken]

theorem Toks_lparen {r : GoString} {ts : List Token} (h : Toks r ts) :
    Toks (bytes "(" ++ r) (lparenToken :: ts) :=
  Toks_singleChar (c := 40) (t := .LPAREN) (by simp [Lexer.singleCharTokens]) h

theorem Toks_rparen {r : GoString} {ts : List Token} (h : Toks r ts) :
    Toks (bytes ")" ++ r) (rparenToken :: ts) :=
  Toks_singleChar (c := 41) (t := .RPAREN) (by simp [Lexer.singleCharTokens]) h

/-- Parsing `(a o1 b) o2 c` in front of a closing token. -/
theorem parseExpression_grouped_left {p : Parser} {a b c : Atom} {o1 o2 : BinOp}
    {rest : List Token} {f : Nat} (ha : a.Valid) (hb : b.Valid) (hc : c.Valid)
    (h : Sees p (lparenToken :: a.token :: o1.token :: b.token :: rparenToken :: o2.token ::
      c.token :: rest))
    (hrest : Closes (rest.headD eofToken)) :
    Parser.parseExpression (f + 5) LOWSET p =
      some (some (infixExpr (infixExpr a.expr o1 b.expr) o2 c.expr),
        p.nextToken.nextToken.nextToken.nextToken.nextToken.nextToken) := by
  have h1 := h.nextToken
  have h3 := h1.nextToken.nextToken
  have h4 := h3.nextToken
  have h6 := h4.nextToken.nextToken
  simp only [List.tail_cons] at h1 h3 h4 h6
  have hin := parseExpression_two (f := f + 1) ha hb h1 o1.lowset_lt
    (Nat.le_refl _) Closes_rparen
  have hs : ∀ q, LOWSET ≤ q → Stops q
      p.nextToken.nextToken.nextToken.nextToken.nextToken.nextToken.peekToken := by
    intro q hq; rw [h6.peek_headD]; exact hrest q hq
  rw [Parser.parseExpression_grouped h.cur hin h3.peek,
    Parser.parseExpressionLoop_binOp h4.peek o2.lowset_lt,
    Parser.parseExpression_atom_stop hc h6.cur (hs _ (Nat.le_of_lt o2.lowset_lt))]
  simp only []
  rw [Parser.parseExpressionLoop_stop (hs _ (Nat.le_refl _))]
  rfl

/-- Parsing `a o1 (b o2 c)` in front of a closing token. -/
theorem parseExpression_grouped_right {p : Parser} {a b c : Atom} {o1 o2 : BinOp}
    {rest : List Token} {f : Nat} (ha : a.Valid) (hb : b.Valid) (hc : c.Valid)
    (h : Sees p (a.token :: o1.token :: lparenToken :: b.token :: o2.token :: c.token ::
      rparenToken :: rest))
    (hrest : Closes (rest.headD eofToken)) :
    Parser.parseExpression (f + 5) LOWSET p =
      some (some (infixExpr a.expr o1 (infixExpr b.expr o2 c.expr)),
        p.nextToken.nextToken.nextToken.nextToken.nextToken.nextToken) := by
  have h2 := h.nextToken.nextToken
  have h3 := h2.nextToken
  have h5 := h3.nextToken.nextToken
  have h6 := h5.nextToken
  simp only [List.tail_cons] at h2 h3 h5 h6
  have hin := parseExpression_two (f := f) hb hc h3 o2.lowset_lt
    (Nat.le_refl _) Closes_rparen
  have hs : ∀ q, LOWSET ≤ q → Stops q
      p.nextToken.nextToken.nextToken.nextToken.nextToken.nextToken.peekToken := by
    intro q hq; rw [h6.peek_headD]; exact hrest q hq
  rw [Parser.parseExpression_atom ha h.cur, Parser.parseExpressionLoop_binOp h.peek o1.lowset_lt,
    Parser.parseExpression_grouped h2.cur hin h5.peek,
    Parser.parseExpressionLoop_stop (hs _ (Nat.le_of_lt o1.lowset_lt))]
  simp only []
  rw [Parser.parseExpressionLoop_stop (hs _ (Nat.le_refl _))]
  rfl

/-- C3. Grouping overrides precedence: for operands `a`, `b`, `c`
(identifiers or integer literals) and any binary operators `o1`, `o2`, the
source `(a o1 b) o2 c` parses without diagnostics to the tree and canonical
string `((a o1 b) o2 c)`, and `a o1 (b o2 c)` to `(a o1 (b o2 c))`; the
parentheses leave no node of their own. -/
theorem C3_grouping_overrides_precedence (ord : RangeOrder)
    (a b c : Atom) (ha : a.Valid) (hb : b.Valid)
    (hc : c.Valid) (o1 o2 : BinOp) :
    (parse (bytes "(" ++ a.text ++ bytes " " ++ o1.text ++ bytes " " ++ b.text ++ bytes ")" ++
        bytes " " ++ o2.text ++ bytes " " ++ c.text) =
      some (⟨[.ExpressionStatement lparenToken
        (some (infixExpr (infixExpr a.expr o1 b.expr) o2 c.expr))]⟩, []) ∧
     (infixExpr (infixExpr a.expr o1 b.expr) o2 c.expr).String ord =
      some (bytes "((" ++ a.text ++ bytes " " ++ o1.text ++ bytes " " ++ b.text ++ bytes ") " ++
        o2.text ++ bytes " " ++ c.text ++ bytes ")")) ∧
    (parse (a.text ++ bytes " " ++ o1.text ++ bytes " " ++ bytes "(" ++ b.text ++ bytes " " ++
        o2.text ++ bytes " " ++ c.text ++ bytes ")") =
      some (⟨[.ExpressionStatement a.token
        (some (infixExpr a.expr o1 (infixExpr b.expr o2 c.expr)))]⟩, []) ∧
     (infixExpr a.expr o1 (infixExpr b.expr o2 c.expr)).String ord =
      some (bytes "(" ++ a.text ++ bytes " " ++ o1.text ++ bytes " (" ++ b.text ++ bytes " " ++
        o2.text ++ bytes " " ++ c.text ++ bytes "))")) := by
  refine ⟨⟨?_, ?_⟩, ?_, ?_⟩
  · -- `(a o1 b) o2 c`
    have htoks : Toks (bytes "(" ++ a.text ++ bytes " " ++ o1.text ++ bytes " " ++ b.text ++
        bytes ")" ++ bytes " " ++ o2.text ++ bytes " " ++ c.text)
        [lparenToken, a.token, o1.token, b.token, rparenToken, o2.token, c.token] := by
      simp only [List.append_assoc]
      refine Toks_lparen (Toks_atom ha rfl rfl (Toks_space (Toks_binOp o1 (Toks_space
        (Toks_atom hb rfl rfl (Toks_rparen (Toks_space (Toks_binOp o2 (Toks_space ?_)))))))))
      have := Toks_atom hc (r := []) rfl rfl Toks_nil
      simpa using this
    have h0 := Sees_New htoks
    have hlen : 2 ≤ (bytes "(" ++ a.text ++ bytes " " ++ o1.text ++ bytes " " ++ b.text ++
        bytes ")" ++ bytes " " ++ o2.text ++ bytes " " ++ c.text).length := by
      have hsp : (bytes " ").length = 1 := rfl
      have hlp : (bytes "(").length = 1 := rfl
      simp only [List.length_append, hsp, hlp]
      omega
    obtain ⟨f, hf⟩ : ∃ f, (bytes "(" ++ a.text ++ bytes " " ++ o1.text ++ bytes " " ++ b.text ++
        bytes ")" ++ bytes " " ++ o2.text ++ bytes " " ++ c.text).length + 3 = f + 5 :=
      ⟨(bytes "(" ++ a.text ++ bytes " " ++ o1.text ++ bytes " " ++ b.text ++
        bytes ")" ++ bytes " " ++ o2.text ++ bytes " " ++ c.text).length - 2, by omega⟩
    have hpe := parseExpression_grouped_left (f := f) ha hb hc h0 Closes_eof
    rw [← hf] at hpe
    have h6 := h0.nextToken.nextToken.nextToken.nextToken.nextToken.nextToken
    exact parse_of_parseExpression htoks (by simp [lparenToken]) hpe (Or.inl h6) rfl
  · rw [infixExpr_String (infixExpr_String a.expr_String b.expr_String) c.expr_String]
    simp [bytes]
  · -- `a o1 (b o2 c)`
    have htoks : Toks (a.text ++ bytes " " ++ o1.text ++ bytes " " ++ bytes "(" ++ b.text ++
        bytes " " ++ o2.text ++ bytes " " ++ c.text ++ bytes ")")
        [a.token, o1.token, lparenToken, b.token, o2.token, c.token, rparenToken] := by
      simp only [List.append_assoc]
      refine Toks_atom ha rfl rfl (Toks_space (Toks_binOp o1 (Toks_space (Toks_lparen
        (Toks_atom hb rfl rfl (Toks_space (Toks_binOp o2 (Toks_space
          (Toks_atom hc rfl rfl ?_)))))))))
      have := Toks_rparen (r := []) Toks_nil
      simpa using this
    have h0 := Sees_New htoks
    have hlen : 2 ≤ (a.text ++ bytes " " ++ o1.text ++ bytes " " ++ bytes "(" ++ b.text ++
        bytes " " ++ o2.text ++ bytes " " ++ c.text ++ bytes ")").length := by
      have hsp : (bytes " ").length = 1 := rfl
      have hlp : (bytes "(").length = 1 := rfl
      simp only [List.length_append, hsp, hlp]
      omega
    obtain ⟨f, hf⟩ : ∃ f, (a.text ++ bytes " " ++ o1.text ++ bytes " " ++ bytes "(" ++ b.text ++
        bytes " " ++ o2.text ++ bytes " " ++ c.text ++ bytes ")").length + 3 = f + 5 :=
      ⟨(a.text ++ bytes " " ++ o1.text ++ bytes " " ++ bytes "(" ++ b.text ++
        bytes " " ++ o2.text ++ bytes " " ++ c.text ++ bytes ")").length - 2, by omega⟩
    have hpe := parseExpression_grouped_right (f := f) ha hb hc h0 Closes_eof
    rw [← hf] at hpe
    have h6 := h0.nextToken.nextToken.nextToken.nextToken.nextToken.nextToken
    have hfirst : a.token.Typ ≠ .EOF ∧ a.token.Typ ≠ .LET ∧ a.token.Typ ≠ .RETURN := by
      cases a <;> simp [Atom.token, identToken]
    exact parse_of_parseExpression htoks hfirst hpe (Or.inl h6) rfl
  · rw [infixExpr_String a.expr_String (infixExpr_String b.expr_String c.expr_String)]
    simp [bytes]

/-- C3, witness: `(1 + 2) * 3` gives `((1 + 2) * 3)`. -/
theorem C3_grouping_overrides_precedence_witness :
    (Atom.int (bytes "1")).Valid ∧ (Atom.int (bytes "2")).Valid ∧ (Atom.int (bytes "3")).Valid ∧
    ∃ e : Expression,
      parse (bytes "(1 + 2) * 3") = some (⟨[.ExpressionStatement lparenToken (some e)]⟩, []) ∧
      e.String insertionOrder = some (bytes "((1 + 2) * 3)") :=
  ⟨by decide, by decide, by decide, _,
    (C3_grouping_overrides_precedence insertionOrder (.int (bytes "1")) (.int (bytes "2")) (.int (bytes "3"))
      (by decide) (by decide) (by decide) .plus .asterisk).1⟩

/-! ## Prefix operators -/

theorem prefixText_head_ne {qs : List PrefixOp} {w r : GoString} (hw : IsIdent w) :
    (prefixText qs ++ (w ++ r)).headD 0 ≠ 61 := by
  cases qs with
  | nil =>
    obtain ⟨c, w', rfl⟩ := List.exists_cons_of_ne_nil hw.1
    have hc : isLetter c = true := hw.2.1 c (by simp)
    rw [Lexer.isLetter_iff] at hc
    simp only [prefixText, List.nil_append, List.cons_append, List.headD_cons]
    omega
  | cons q qs => cases q <;> simp [prefixText, PrefixOp.text, bytes]

theorem Toks_prefixText {qs : List PrefixOp} {w r : GoString} {ts : List Token}
    (hw : IsIdent w) (h : Toks (w ++ r) ts) :
    Toks (prefixText qs ++ (w ++ r)) (qs.map PrefixOp.token ++ ts) := by
  induction qs with
  | nil => simpa [prefixText] using h
  | cons q qs ih =>
    simp only [prefixText, List.append_assoc, List.map_cons, List.cons_append]
    cases q with
    | minus =>
      exact Toks_singleChar (c := 45) (t := .MINUS) (by simp [Lexer.singleCharTokens]) ih
    | bang =>
      exact Toks_oneOfTwo (c := 33) (t := .BANG) (by simp) (prefixText_head_ne hw) ih

theorem Parser.parseExpression_prefixOp {f precedence : Nat} {p p1 : Parser} {q : PrefixOp}
    {right : Option Expression} (hc : p.curToken = q.token)
    (hin : parseExpression f PREFIX p.nextToken = some (right, p1)) :
    parseExpression (f + 1) precedence p =
      parseExpressionLoop (parseExpression f) f precedence f
        (some (.PrefixExpression q.token q.text right)) p1 := by
  rw [parseExpression]
  cases q <;>
    simp [hc, PrefixOp.token, PrefixOp.tokenType, PrefixOp.text, prefixParseFns, callPrefix,
      parsePrefixExpression, hin]

theorem Stops_prefix_of_binOp (o : BinOp) : Stops PREFIX o.token :=
  Stops_binOp (Nat.le_of_lt o.lt_prefix)

/-- The operand of a prefix operator, parsed at `PREFIX`: a chain of prefix
operators and an identifier, in front of a token that ends the loop. -/
theorem parseExpression_prefixChain {a : GoString} {rest : List Token}
    (hrest : Stops PREFIX (rest.headD eofToken)) :
    ∀ (qs : List PrefixOp) (f : Nat) (p : Parser), qs.length ≤ f →
      Sees p (qs.map PrefixOp.token ++ identToken a :: rest) →
      ∃ p1 : Parser, Parser.parseExpression (f + 2) PREFIX p =
          some (some (prefixTree qs (identExpr a)), p1) ∧
        Sees p1 (identToken a :: rest) ∧ p1.errors = p.errors := by
  intro qs
  induction qs with
  | nil =>
    intro f p _ h
    simp only [List.map_nil, List.nil_append] at h
    refine ⟨p, ?_, h, rfl⟩
    exact Parser.parseExpression_ident_stop h.cur (by rw [h.peek_headD]; exact hrest)
  | cons q qs ih =>
    intro f p hf h
    simp only [List.map_cons, List.cons_append] at h
    obtain ⟨g, rfl⟩ : ∃ g, f = g + 1 := ⟨f - 1, by simp at hf; omega⟩
    have h1 := h.nextToken
    simp only [List.tail_cons] at h1
    obtain ⟨p1, hin, hs1, he1⟩ := ih g p.nextToken (by simpa using hf) h1
    refine ⟨p1, ?_, hs1, by rw [he1]; rfl⟩
    rw [Parser.parseExpression_prefixOp h.cur hin,
      Parser.parseExpressionLoop_stop (by rw [hs1.peek_headD]; exact hrest)]
    rfl

/-- C4. Unary binds tighter than any binary operator: for prefix operators
`q1 ... qk` (`k ≥ 1`, each `-` or `!`), identifiers `a`, `b` and a binary
operator `o`, the source `q1...qk a o b` parses without diagnostics to
`Infix(Prefix(q1, ... Prefix(qk, a)...), o, b)`, and `q1...qk a` alone to the
nested prefix chain; every Prefix node's `Operator` is the operator's
source text. -/
theorem C4_unary_binds_tighter (q : PrefixOp) (qs : List PrefixOp) (a b : GoString)
    (ha : IsIdent a) (hb : IsIdent b) (o : BinOp) :
    parse (prefixText (q :: qs) ++ a ++ bytes " " ++ o.text ++ bytes " " ++ b) =
      some (⟨[.ExpressionStatement q.token
        (some (infixExpr (prefixTree (q :: qs) (identExpr a)) o (identExpr b)))]⟩, []) ∧
    parse (prefixText (q :: qs) ++ a) =
      some (⟨[.ExpressionStatement q.token (some (prefixTree (q :: qs) (identExpr a)))]⟩, []) ∧
    prefixTree (q :: qs) (identExpr a) =
      .PrefixExpression q.token q.text (some (prefixTree qs (identExpr a))) := by
  have hqt : q.token.Typ ≠ .EOF ∧ q.token.Typ ≠ .LET ∧ q.token.Typ ≠ .RETURN := by
    cases q <;> simp [PrefixOp.token, PrefixOp.tokenType]
  refine ⟨?_, ?_, rfl⟩
  · have htoks : Toks (prefixText (q :: qs) ++ a ++ bytes " " ++ o.text ++ bytes " " ++ b)
        ((q :: qs).map PrefixOp.token ++ [identToken a, o.token, identToken b]) := by
      simp only [List.append_assoc]
      refine Toks_prefixText ha (Toks_ident ha rfl (Toks_space (Toks_binOp o (Toks_space ?_))))
      have := Toks_ident hb (r := []) rfl Toks_nil
      simpa using this
    have h0 := Sees_New htoks
    simp only [List.map_cons, List.cons_append] at h0
    have hlen : qs.length + 2 ≤ (prefixText (q :: qs) ++ a ++ bytes " " ++ o.text ++
        bytes " " ++ b).length := by
      have h1 : qs.length ≤ (prefixText qs).length := by
        clear h0 htoks
        induction qs with
        | nil => simp
        | cons r rs ih =>
          have : (r.text).length = 1 := by cases r <;> rfl
          simp only [prefixText, List.length_append, List.length_cons, this]
          omega
      have h2 : (q.text).length = 1 := by cases q <;> rfl
      have hsp : (bytes " ").length = 1 := rfl
      simp only [prefixText, List.length_append, h2, hsp]
      omega
    obtain ⟨f, hf⟩ : ∃ f, (prefixText (q :: qs) ++ a ++ bytes " " ++ o.text ++
        bytes " " ++ b).length + 3 = f + 5 :=
      ⟨(prefixText (q :: qs) ++ a ++ bytes " " ++ o.text ++ bytes " " ++ b).length - 2,
        by omega⟩
    have hfq : qs.length ≤ f + 2 := by omega
    have h1 := h0.nextToken
    simp only [List.tail_cons] at h1
    obtain ⟨p1, hin, hs1, he1⟩ := @parseExpression_prefixChain a [o.token, identToken b]
      (Stops_prefix_of_binOp o) qs (f + 2) _ hfq h1
    have hs3 := hs1.nextToken.nextToken
    simp only [List.tail_cons] at hs3
    have hpe : Parser.parseExpression ((prefixText (q :: qs) ++ a ++ bytes " " ++ o.text ++
        bytes " " ++ b).length + 3) LOWSET
        (Parser.New (Lexer.New (prefixText (q :: qs) ++ a ++ bytes " " ++ o.text ++
        bytes " " ++ b))) =
        some (some (infixExpr (prefixTree (q :: qs) (identExpr a)) o (identExpr b)),
          p1.nextToken.nextToken) := by
      rw [hf, Parser.parseExpression_prefixOp h0.cur hin,
        Parser.parseExpressionLoop_binOp hs1.peek o.lowset_lt,
        Parser.parseExpression_ident_stop hs3.cur
          (by rw [hs3.peek_eof]; exact Stops_eof _ (Nat.le_of_lt o.lowset_lt))]
      simp only []
      rw [Parser.parseExpressionLoop_stop
        (by rw [hs3.peek_eof]; exact Stops_eof _ (Nat.le_refl _))]
      rfl
    exact parse_of_parseExpression htoks hqt hpe (Or.inl hs3) (by
      rw [Parser.nextToken_errors, Parser.nextToken_errors, he1]; rfl)
  · have htoks : Toks (prefixText (q :: qs) ++ a)
        ((q :: qs).map PrefixOp.token ++ [identToken a]) := by
      have h1 : Toks (a ++ []) [identToken a] := Toks_ident ha rfl Toks_nil
      have := @Toks_prefixText (q :: qs) _ _ _ ha h1
      simpa using this
    have h0 := Sees_New htoks
    simp only [List.map_cons, List.cons_append] at h0
    have hlen : qs.length + 2 ≤ (prefixText (q :: qs) ++ a).length := by
      have h1 : qs.length ≤ (prefixText qs).length := by
        clear h0 htoks
        induction qs with
        | nil => simp
        | cons r rs ih =>
          have : (r.text).length = 1 := by cases r <;> rfl
          simp only [prefixText, List.length_append, List.length_cons, this]
          omega
      have h2 : (q.text).length = 1 := by cases q <;> rfl
      have h3 : 1 ≤ a.length := List.length_pos.2 ha.1
      simp only [prefixText, List.length_append, h2]
      omega
    obtain ⟨f, hf⟩ : ∃ f, (prefixText (q :: qs) ++ a).length + 3 = f + 5 :=
      ⟨(prefixText (q :: qs) ++ a).length - 2, by omega⟩
    have hfq : qs.length ≤ f + 2 := by omega
    have h1 := h0.nextToken
    simp only [List.tail_cons] at h1
    obtain ⟨p1, hin, hs1, he1⟩ := @parseExpression_prefixChain a []
      (Stops_eof _ (by decide)) qs (f + 2) _ hfq h1
    have hpe : Parser.parseExpression ((prefixText (q :: qs) ++ a).length + 3) LOWSET
        (Parser.New (Lexer.New (prefixText (q :: qs) ++ a))) =
        some (some (prefixTree (q :: qs) (identExpr a)), p1) := by
      rw [hf, Parser.parseExpression_prefixOp h0.cur hin,
        Parser.parseExpressionLoop_stop
          (by rw [hs1.peek_eof]; exact Stops_eof _ (Nat.le_refl _))]
      rfl
    exact parse_of_parseExpression htoks hqt hpe (Or.inl hs1) (by rw [he1]; rfl)

/-- C4, witness: `-a * b` gives `((-a) * b)`, `!-a` gives `(!(-a))`, and the
prefix node of `-15;` has the operator `-`. -/
theorem C4_unary_binds_tighter_witness :
    IsIdent (bytes "a") ∧ IsIdent (bytes "b") ∧
    (∃ prog : Program, parse (bytes "-a * b") = some (prog, []) ∧
      prog.String insertionOrder = some (bytes "((-a) * b)")) ∧
    (∃ prog : Program, parse (bytes "!-a") = some (prog, []) ∧
      prog.String insertionOrder = some (bytes "(!(-a))")) ∧
    parse (bytes "-15;") = some (⟨[.ExpressionStatement ⟨.MINUS, bytes "-"⟩
      (some (.PrefixExpression ⟨.MINUS, bytes "-"⟩ (bytes "-")
        (some (.IntegerLiteral ⟨.INT, bytes "15"⟩ 15))))]⟩, []) :=
  ⟨by decide, by decide,
    ⟨_, (C4_unary_binds_tighter .minus [] (bytes "a") (bytes "b") (by decide) (by decide)
      .asterisk).1, by decide⟩,
    ⟨_, (C4_unary_binds_tighter .bang [.minus] (bytes "a") (bytes "b") (by decide) (by decide)
      .asterisk).2.1, by decide⟩,
    by rfl⟩

/-! ## Calls and index expressions -/

theorem Closes_rbracket : Closes rbracketToken := Closes_of_precedences rfl

theorem Toks_lbracket {r : GoString} {ts : List Token} (h : Toks r ts) :
    Toks (bytes "[" ++ r) (lbracketToken :: ts) :=
  Toks_singleChar (c := 91) (t := .LBRACKET) (by simp [Lexer.singleCharTokens]) h

theorem Toks_rbracket {r : GoString} {ts : List Token} (h : Toks r ts) :
    Toks (bytes "]" ++ r) (rbracketToken :: ts) :=
  Toks_singleChar (c := 93) (t := .RBRACKET) (by simp [Lexer.singleCharTokens]) h

theorem Parser.parseExpressionLoop_call {pe : ParseExpressionFn} {fuel precedence n : Nat}
    {left : Option Expression} {p : Parser} (hp : p.peekToken = lparenToken)
    (hlt : precedence < CALL) :
    parseExpressionLoop pe fuel precedence (n + 1) left p =
      match parseCallExpression pe fuel left p.nextToken with
      | none => none
      | some (leftExp1, p1) => parseExpressionLoop pe fuel precedence n leftExp1 p1 := by
  rw [parseExpressionLoop]
  have h2 : precedence < p.peekPrecedence := by
    simpa [peekPrecedence, hp, lparenToken, precedences] using hlt
  have h1 : p.peekTokenIs .SEMICOLON = false := by simp [peekTokenIs, hp, lparenToken]
  have h3 : infixParseFns lparenToken.Typ = some .parseCallExpression := rfl
  simp only [h1, h2, hp, h3, callInfix, Bool.not_false, decide_True, Bool.and_self, if_true]

theorem Parser.parseExpressionLoop_index {pe : ParseExpressionFn} {fuel precedence n : Nat}
    {left : Option Expression} {p : Parser} (hp : p.peekToken = lbracketToken)
    (hlt : precedence < INDEX) :
    parseExpressionLoop pe fuel precedence (n + 1) left p =
      match parseIndexExpression pe left p.nextToken with
      | none => none
      | some (leftExp1, p1) => parseExpressionLoop pe fuel precedence n leftExp1 p1 := by
  rw [parseExpressionLoop]
  have h2 : precedence < p.peekPrecedence := by
    simpa [peekPrecedence, hp, lbracketToken, precedences] using hlt
  have h1 : p.peekTokenIs .SEMICOLON = false := by simp [peekTokenIs, hp, lbracketToken]
  have h3 : infixParseFns lbracketToken.Typ = some .parseIndexExpression := rfl
  simp only [h1, h2, hp, h3, callInfix, Bool.not_false, decide_True, Bool.and_self, if_true]

/-- A call with one identifier argument: `(` is current, `b )` follows. -/
theorem Parser.parseCallExpression_one {g n : Nat} {p : Parser} {b : GoString}
    {rest : List Token} {function : Option Expression}
    (h : Sees p (lparenToken :: identToken b :: rparenToken :: rest)) :
    parseCallExpression (parseExpression (g + 2)) (n + 1) function p =
      some (some (.CallExpression lparenToken function (some [some (identExpr b)])),
        p.nextToken.nextToken) := by
  have h1 := h.nextToken
  simp only [List.tail_cons] at h1
  have hin := parseExpression_ident_stop (f := g) h1.cur
    (by rw [h1.peek]; exact Closes_rparen _ (Nat.le_refl _))
  have hpk : p.peekTokenIs .RPAREN = false := by
    simp [peekTokenIs, h.peek, identToken]
  have hpk1 : p.nextToken.peekTokenIs .COMMA = false := by
    simp [peekTokenIs, h1.peek, rparenToken]
  have hpk2 : p.nextToken.peekTokenIs .RPAREN = true := by
    simp [peekTokenIs, h1.peek, rparenToken]
  simp only [parseCallExpression, parseExpressionList, hpk, hin, parseExpressionListLoop, hpk1,
    expectPeek, h.cur]
  simp [hpk2]

/-- An index expression with an identifier index: `[` is current, `c ]`
follows. -/
theorem Parser.parseIndexExpression_one {g : Nat} {p : Parser} {c : GoString}
    {rest : List Token} {left : Option Expression}
    (h : Sees p (lbracketToken :: identToken c :: rbracketToken :: rest)) :
    parseIndexExpression (parseExpression (g + 2)) left p =
      some (some (.IndexExpression lbracketToken left (some (identExpr c))),
        p.nextToken.nextToken) := by
  have h1 := h.nextToken
  simp only [List.tail_cons] at h1
  have hin := parseExpression_ident_stop (f := g) h1.cur
    (by rw [h1.peek]; exact Closes_rbracket _ (Nat.le_refl _))
  have hpk2 : p.nextToken.peekTokenIs .RBRACKET = true := by
    simp [peekTokenIs, h1.peek, rbracketToken]
  simp only [parseIndexExpression, hin, expectPeek, h.cur]
  simp [hpk2]

theorem BinOp.lt_call (o : BinOp) : o.precedence < CALL := by
  cases o <;> decide

theorem BinOp.lt_index (o : BinOp) : o.precedence < INDEX := by
  cases o <;> decide

/-- C5. Call and index bind tighter than every binary operator: for
identifiers `a`, `f`, `b`, `c` and a binary operator `o`, the source
`a o f(b)` parses without diagnostics to `Infix(a, o, Call(f, [b]))` and
`a o b[c]` to `Infix(a, o, Index(b, c))`: the call or index is the right
operand, not applied to the whole infix expression. -/
theorem C5_call_index_bind_tighter (a f b c : GoString) (ha : IsIdent a) (hf : IsIdent f)
    (hb : IsIdent b) (hc : IsIdent c) (o : BinOp) :
    parse (a ++ bytes " " ++ o.text ++ bytes " " ++ f ++ bytes "(" ++ b ++ bytes ")") =
      some (⟨[.ExpressionStatement (identToken a) (some (infixExpr (identExpr a) o
        (.CallExpression lparenToken (some (identExpr f)) (some [some (identExpr b)]))))]⟩,
        []) ∧
    parse (a ++ bytes " " ++ o.text ++ bytes " " ++ b ++ bytes "[" ++ c ++ bytes "]") =
      some (⟨[.ExpressionStatement (identToken a) (some (infixExpr (identExpr a) o
        (.IndexExpression lbracketToken (some (identExpr b)) (some (identExpr c)))))]⟩,
        []) := by
  have hat : (identToken a).Typ ≠ .EOF ∧ (identToken a).Typ ≠ .LET ∧
      (identToken a).Typ ≠ .RETURN := by simp [identToken]
  have hsp : (bytes " ").length = 1 := rfl
  have h1a : 1 ≤ a.length := List.length_pos.2 ha.1
  constructor
  · have htoks : Toks (a ++ bytes " " ++ o.text ++ bytes " " ++ f ++ bytes "(" ++ b ++ bytes ")")
        [identToken a, o.token, identToken f, lparenToken, identToken b, rparenToken] := by
      simp only [List.append_assoc]
      refine Toks_ident ha rfl (Toks_space (Toks_binOp o (Toks_space (Toks_ident hf rfl
        (Toks_lparen (Toks_ident hb rfl ?_))))))
      have := Toks_rparen (r := []) Toks_nil
      simpa using this
    have h0 := Sees_New htoks
    obtain ⟨g, hg⟩ : ∃ g, (a ++ bytes " " ++ o.text ++ bytes " " ++ f ++ bytes "(" ++ b ++
        bytes ")").length + 3 = g + 5 :=
      ⟨(a ++ bytes " " ++ o.text ++ bytes " " ++ f ++ bytes "(" ++ b ++ bytes ")").length - 2,
        by simp only [List.length_append, hsp]; omega⟩
    have h2 := h0.nextToken.nextToken
    have h3 := h2.nextToken
    have h5 := h3.nextToken.nextToken
    simp only [List.tail_cons] at h2 h3 h5
    have hpe : Parser.parseExpression ((a ++ bytes " " ++ o.text ++ bytes " " ++ f ++
        bytes "(" ++ b ++ bytes ")").length + 3) LOWSET (Parser.New (Lexer.New (a ++ bytes " " ++
        o.text ++ bytes " " ++ f ++ bytes "(" ++ b ++ bytes ")"))) =
        some (some (infixExpr (identExpr a) o
          (.CallExpression lparenToken (some (identExpr f)) (some [some (identExpr b)]))),
          (Parser.New (Lexer.New (a ++ bytes " " ++ o.text ++ bytes " " ++ f ++ bytes "(" ++
            b ++ bytes ")"))).nextToken.nextToken.nextToken.nextToken.nextToken) := by
      rw [hg, Parser.parseExpression_ident h0.cur,
        Parser.parseExpressionLoop_binOp h0.peek o.lowset_lt,
        Parser.parseExpression_ident h2.cur,
        Parser.parseExpressionLoop_call h2.peek o.lt_call,
        Parser.parseCallExpression_one h3]
      simp only []
      rw [Parser.parseExpressionLoop_stop
        (by rw [h5.peek_eof]; exact Stops_eof _ (Nat.le_of_lt o.lowset_lt))]
      simp only []
      rw [Parser.parseExpressionLoop_stop
        (by rw [h5.peek_eof]; exact Stops_eof _ (Nat.le_refl _))]
      rfl
    exact parse_of_parseExpression htoks hat hpe (Or.inl h5) rfl
  · have htoks : Toks (a ++ bytes " " ++ o.text ++ bytes " " ++ b ++ bytes "[" ++ c ++ bytes "]")
        [identToken a, o.token, identToken b, lbracketToken, identToken c, rbracketToken] := by
      simp only [List.append_assoc]
      refine Toks_ident ha rfl (Toks_space (Toks_binOp o (Toks_space (Toks_ident hb rfl
        (Toks_lbracket (Toks_ident hc rfl ?_))))))
      have := Toks_rbracket (r := []) Toks_nil
      simpa using this
    have h0 := Sees_New htoks
    obtain ⟨g, hg⟩ : ∃ g, (a ++ bytes " " ++ o.text ++ bytes " " ++ b ++ bytes "[" ++ c ++
        bytes "]").length + 3 = g + 5 :=
      ⟨(a ++ bytes " " ++ o.text ++ bytes " " ++ b ++ bytes "[" ++ c ++ bytes "]").length - 2,
        by simp only [List.length_append, hsp]; omega⟩
    have h2 := h0.nextToken.nextToken
    have h3 := h2.nextToken
    have h5 := h3.nextToken.nextToken
    simp only [List.tail_cons] at h2 h3 h5
    have hpe : Parser.parseExpression ((a ++ bytes " " ++ o.text ++ bytes " " ++ b ++
        bytes "[" ++ c ++ bytes "]").length + 3) LOWSET (Parser.New (Lexer.New (a ++ bytes " " ++
        o.text ++ bytes " " ++ b ++ bytes "[" ++ c ++ bytes "]"))) =
        some (some (infixExpr (identExpr a) o
          (.IndexExpression lbracketToken (some (identExpr b)) (some (identExpr c)))),
          (Parser.New (Lexer.New (a ++ bytes " " ++ o.text ++ bytes " " ++ b ++ bytes "[" ++
            c ++ bytes "]"))).nextToken.nextToken.nextToken.nextToken.nextToken) := by
      rw [hg, Parser.parseExpression_ident h0.cur,
        Parser.parseExpressionLoop_binOp h0.peek o.lowset_lt,
        Parser.parseExpression_ident h2.cur,
        Parser.parseExpressionLoop_index h2.peek o.lt_index,
        Parser.parseIndexExpression_one h3]
      simp only []
      rw [Parser.parseExpressionLoop_stop
        (by rw [h5.peek_eof]; exact Stops_eof _ (Nat.le_of_lt o.lowset_lt))]
      simp only []
      rw [Parser.parseExpressionLoop_stop
        (by rw [h5.peek_eof]; exact Stops_eof _ (Nat.le_refl _))]
      rfl
    exact parse_of_parseExpression htoks hat hpe (Or.inl h5) rfl

/-- C5, witness: `a + f(b)` is `Infix(a, +, Call(f, [b]))`;
`a + add(b * c) + d` renders as `((a + add((b * c))) + d)`; `myArray[1 + 1]`
is an index expression with left `myArray` and index `(1 + 1)`. -/
theorem C5_call_index_bind_tighter_witness :
    IsIdent (bytes "a") ∧ IsIdent (bytes "f") ∧ IsIdent (bytes "b") ∧ IsIdent (bytes "c") ∧
    parse (bytes "a + f(b)") =
      some (⟨[.ExpressionStatement (identToken (bytes "a")) (some (infixExpr
        (identExpr (bytes "a")) .plus (.CallExpression lparenToken (some (identExpr (bytes "f")))
          (some [some (identExpr (bytes "b"))]))))]⟩, []) ∧
    (parse (bytes "a + add(b * c) + d")).map (fun r => (r.1.String insertionOrder, r.2)) =
      some (some (bytes "((a + add((b * c))) + d)"), []) ∧
    parse (bytes "myArray[1 + 1]") =
      some (⟨[.ExpressionStatement (identToken (bytes "myArray"))
        (some (.IndexExpression lbracketToken (some (identExpr (bytes "myArray")))
          (some (infixExpr (Atom.int (bytes "1")).expr .plus (Atom.int (bytes "1")).expr))))]⟩,
        []) :=
  ⟨by decide, by decide, by decide, by decide,
    (C5_call_index_bind_tighter (bytes "a") (bytes "f") (bytes "b") (bytes "c")
      (by decide) (by decide) (by decide) (by decide) .plus).1,
    by decide, by rfl⟩

/-! ## Let statements -/

theorem digitsValue_ten (d : GoString) (hd : ∀ c ∈ d, isDigit c = true) (acc : Nat) :
    digitsValue 10 acc d = some (d.foldl (fun acc c => acc * 10 + (c - 48)) acc) := by
  induction d generalizing acc with
  | nil => rfl
  | cons c d ih =>
    have hc : isDigit c = true := hd c (by simp)
    rw [Lexer.isDigit_iff] at hc
    have : 48 ≤ c ∧ c < 48 + 10 := by omega
    simp only [digitsValue, this, and_self, if_true, List.foldl_cons]
    exact ih (fun e he => hd e (by simp [he])) _

theorem ParseInt_of_isInt64Literal {d : GoString} (h : IsInt64Literal d) :
    ParseInt d = some (decimalValue d : Int) := by
  obtain ⟨hne, hd, hz, hv⟩ := h
  obtain ⟨c, r, rfl⟩ := List.exists_cons_of_ne_nil hne
  rcases hz with hz | hz
  · simp only [List.headD_cons] at hz
    have h10 := digitsValue_ten (c :: r) hd 0
    simp only [ParseInt, hz, if_false, h10]
    simp only [decimalValue] at hv ⊢
    rw [if_pos hv]
  · cases hz
    rfl

theorem IsInt64Literal.valid {d : GoString} (h : IsInt64Literal d) : (Atom.int d).Valid :=
  ⟨h.1, h.2.1, by rw [ParseInt_of_isInt64Literal h]; rfl⟩

theorem IsInt64Literal.expr {d : GoString} (h : IsInt64Literal d) :
    (Atom.int d).expr = .IntegerLiteral ⟨.INT, d⟩ (decimalValue d) := by
  simp [Atom.expr, ParseInt_of_isInt64Literal h]

theorem Toks_let {r : GoString} {ts : List Token} (hr : isLetter (r.headD 0) = false)
    (h : Toks r ts) : Toks (bytes "let" ++ r) (letToken :: ts) :=
  Toks_letters (w := bytes "let") (by decide) (by decide) hr h

theorem Toks_assign {r : GoString} {ts : List Token} (hr : r.headD 0 ≠ 61) (h : Toks r ts) :
    Toks (bytes "=" ++ r) (assignToken :: ts) :=
  Toks_oneOfTwo (c := 61) (t := .ASSIGN) (by simp) hr h

theorem Toks_semicolon {r : GoString} {ts : List Token} (h : Toks r ts) :
    Toks (bytes ";" ++ r) (semicolonToken :: ts) :=
  Toks_singleChar (c := 59) (t := .SEMICOLON) (by simp [Lexer.singleCharTokens]) h

/-- A program of one statement: what `parse` returns, from what
`parseStatement` returns on it. -/
theorem parse_single_statement {input : GoString} {stmt : Statement} {p1 : Parser}
    (hcur : (Parser.New (Lexer.New input)).curToken.Typ ≠ .EOF)
    (hstmt : Parser.parseStatement (Parser.parseExpression (input.length + 3))
      (input.length + 3) (Parser.New (Lexer.New input)) = some (some stmt, p1))
    (hend : p1.nextToken.curToken.Typ = .EOF) :
    parse input = some (⟨[stmt]⟩, p1.errors) := by
  have hloop : Parser.ParseProgramLoop (input.length + 3) (input.length + 3) []
      (Parser.New (Lexer.New input)) = some ([stmt], p1.nextToken) := by
    rw [show input.length + 3 = (input.length + 1) + 1 + 1 from rfl]
    rw [Parser.ParseProgramLoop]
    rw [show (input.length + 1) + 1 + 1 = input.length + 3 from rfl]
    simp only [ne_eq, hcur, not_false_eq_true, if_true, hstmt]
    rw [Parser.ParseProgramLoop]
    simp [hend, Parser.appendStatement]
  simp only [parse, Parser.ParseProgram, hloop, Parser.Errors, Parser.nextToken_errors]

/-- A well-formed `let x = <expression>` at the head of the tokens. -/
theorem Parser.parseLetStatement_ok {pe : ParseExpressionFn} {p p1 : Parser} {x : GoString}
    {ts : List Token} {value : Option Expression}
    (h : Sees p (letToken :: identToken x :: assignToken :: ts))
    (hv : pe LOWSET p.nextToken.nextToken.nextToken = some (value, p1)) :
    parseLetStatement pe p =
      some (some (.LetStatement letToken (some ⟨identToken x, x⟩) value),
        if p1.peekTokenIs .SEMICOLON then p1.nextToken else p1) := by
  have h1 := h.nextToken
  simp only [List.tail_cons] at h1
  have e1 : p.peekTokenIs .IDENT = true := by simp [peekTokenIs, h.peek, identToken]
  have e2 : p.nextToken.peekTokenIs .ASSIGN = true := by
    simp [peekTokenIs, h1.peek, assignToken]
  simp only [parseLetStatement, expectPeek, e1, if_true, e2, hv, h.cur, h1.cur, identToken]

/-- The `String` of a let statement whose value renders: `let N = V;` after
the token literal. -/
theorem LetStatement_String {ord : RangeOrder}
    (tok : Token) (name : Identifier) (value : Expression)
    (sv : GoString) (hv : value.String ord = some sv) :
    (Statement.LetStatement tok (some name) (some value)).String ord =
      some (tok.Literal ++ bytes " " ++ name.Value ++ bytes " = " ++ sv ++ bytes ";") := by
  simp [Statement.String, hv, Identifier.String]

/-- C10. Let statement round trip: for an identifier `x` and a decimal
integer literal `n` without leading zeros that fits in 64 bits, the source
`let x = n;` parses without diagnostics to exactly one LetStatement whose
name has the value `x`, whose value is the integer literal `n` (rendering as
`n`), and whose canonical string is the source itself.  In general a
LetStatement with token literal `let`, name `N` and a value rendering as `V`
renders as `let N = V;`. -/
theorem C10_let_statement_round_trip (ord : RangeOrder) (x n : GoString) (hx : IsIdent x)
    (hn : IsInt64Literal n) :
    parse (bytes "let " ++ x ++ bytes " = " ++ n ++ bytes ";") =
      some (⟨[.LetStatement letToken (some ⟨identToken x, x⟩)
        (some (.IntegerLiteral ⟨.INT, n⟩ (decimalValue n)))]⟩, []) ∧
    (Expression.IntegerLiteral ⟨.INT, n⟩ (decimalValue n)).String ord = some n ∧
    (Statement.LetStatement letToken (some ⟨identToken x, x⟩)
        (some (.IntegerLiteral ⟨.INT, n⟩ (decimalValue n)))).String ord =
      some (bytes "let " ++ x ++ bytes " = " ++ n ++ bytes ";") ∧
    (∀ (t : TokenType) (name : Identifier) (value : Expression) (sv : GoString),
      value.String ord = some sv →
      (Statement.LetStatement ⟨t, bytes "let"⟩ (some name) (some value)).String ord =
        some (bytes "let " ++ name.Value ++ bytes " = " ++ sv ++ bytes ";")) := by
  refine ⟨?_, rfl, ?_, ?_⟩
  · have htoks : Toks (bytes "let " ++ x ++ bytes " = " ++ n ++ bytes ";")
        [letToken, identToken x, assignToken, (Atom.int n).token, semicolonToken] := by
      have e1 : bytes "let " = bytes "let" ++ bytes " " := rfl
      have e2 : bytes " = " = bytes " " ++ (bytes "=" ++ bytes " ") := rfl
      simp only [e1, e2, List.append_assoc]
      refine Toks_let rfl (Toks_space (Toks_ident hx rfl (Toks_space (Toks_assign (by show (32 : Nat) ≠ 61; decide)
        (Toks_space (Toks_atom (x := .int n) hn.valid rfl rfl ?_))))))
      have := Toks_semicolon (r := []) Toks_nil
      simpa using this
    have h0 := Sees_New htoks
    have h3 := h0.nextToken.nextToken.nextToken
    have h4 := h3.nextToken
    simp only [List.tail_cons] at h3 h4
    obtain ⟨g, hg⟩ : ∃ g, (bytes "let " ++ x ++ bytes " = " ++ n ++ bytes ";").length + 3 =
        g + 2 := ⟨_, rfl⟩
    have hv := @Parser.parseExpression_atom_stop g LOWSET _ _ hn.valid h3.cur
      (by rw [h3.peek]; exact Or.inl rfl)
    rw [hn.expr, ← hg] at hv
    have hlet := Parser.parseLetStatement_ok h0 hv
    have hsemi : (Parser.New (Lexer.New (bytes "let " ++ x ++ bytes " = " ++ n ++
        bytes ";"))).nextToken.nextToken.nextToken.peekTokenIs .SEMICOLON = true := by
      rw [Parser.peekTokenIs, h3.peek]; rfl
    rw [hsemi] at hlet
    simp only [if_true] at hlet
    have hstmt : Parser.parseStatement (Parser.parseExpression ((bytes "let " ++ x ++
        bytes " = " ++ n ++ bytes ";").length + 3)) ((bytes "let " ++ x ++ bytes " = " ++ n ++
        bytes ";").length + 3) (Parser.New (Lexer.New (bytes "let " ++ x ++ bytes " = " ++ n ++
        bytes ";"))) = some (some (.LetStatement letToken (some ⟨identToken x, x⟩)
        (some (.IntegerLiteral ⟨.INT, n⟩ (decimalValue n)))),
        (Parser.New (Lexer.New (bytes "let " ++ x ++ bytes " = " ++ n ++
          bytes ";"))).nextToken.nextToken.nextToken.nextToken) := by
      have hL : letToken.Typ = .LET := rfl
      simp only [Parser.parseStatement, h0.cur, hL, if_true, hlet, Parser.letStatementInterface]
    have := parse_single_statement (by rw [h0.cur]; simp [letToken]) hstmt
      (by rw [Parser.nextToken_curToken, h4.peek_eof]; rfl)
    rw [this]
    rfl
  · rw [LetStatement_String letToken ⟨identToken x, x⟩
      (.IntegerLiteral ⟨.INT, n⟩ (decimalValue n)) n rfl]
    simp [letToken, bytes]
  · intro t name value sv hv
    rw [LetStatement_String _ name value sv hv]
    simp [bytes]

/-- C10, witness: `let x = 5;`, and the hand-built tree of the AST test for
`let myVar = anoutherVar;`. -/
theorem C10_let_statement_round_trip_witness :
    IsIdent (bytes "x") ∧ IsInt64Literal (bytes "5") ∧
    parse (bytes "let x = 5;") =
      some (⟨[.LetStatement letToken (some ⟨identToken (bytes "x"), bytes "x"⟩)
        (some (.IntegerLiteral ⟨.INT, bytes "5"⟩ 5))]⟩, []) ∧
    (parse (bytes "let x = 5;")).bind (fun r => r.1.String insertionOrder) = some (bytes "let x = 5;") ∧
    Program.String insertionOrder ⟨[.LetStatement ⟨.LET, bytes "let"⟩
        (some ⟨⟨.IDENT, bytes "myVar"⟩, bytes "myVar"⟩)
        (some (.Identifier ⟨.IDENT, bytes "anoutherVar"⟩ (bytes "anoutherVar")))]⟩ =
      some (bytes "let myVar = anoutherVar;") :=
  ⟨by decide, by decide,
    (C10_let_statement_round_trip insertionOrder (bytes "x") (bytes "5") (by decide) (by decide)).1,
    by decide, by decide⟩

/-! ## A let statement without `=` -/

theorem Sees.peekError' {p : Parser} {ts : List Token} (h : Sees p ts) (t : TokenType) :
    Sees (p.peekError t) ts := h

theorem Sees.withErrors {p : Parser} {ts : List Token} (h : Sees p ts) (es : List GoString) :
    Sees { p with errors := es } ts := h

/-- C7. A let statement missing its `=` is reported: for an identifier `x`
and an integer literal `n` (any non-empty run of digits), parsing `let x n;`
returns a program and a diagnostics list that is not empty and starts with
the expected-token diagnostic for `=`. -/
theorem C7_let_missing_assign_reported (x n : GoString) (hx : IsIdent x) (hne : n ≠ [])
    (hd : ∀ c ∈ n, isDigit c = true) :
    ∃ (prog : Program) (rest : List GoString),
      parse (bytes "let " ++ x ++ bytes " " ++ n ++ bytes ";") =
        some (prog, expectedAssignGotInt :: rest) ∧
      expectedAssignGotInt :: rest ≠ [] := by
  have htoks : Toks (bytes "let " ++ x ++ bytes " " ++ n ++ bytes ";")
      [letToken, identToken x, ⟨.INT, n⟩, semicolonToken] := by
    have e1 : bytes "let " = bytes "let" ++ bytes " " := rfl
    simp only [e1, List.append_assoc]
    refine Toks_let rfl (Toks_space (Toks_ident hx rfl (Toks_space (Toks_digits hne hd rfl ?_))))
    have := Toks_semicolon (r := []) Toks_nil
    simpa using this
  have h0 := Sees_New htoks
  generalize hF : (bytes "let " ++ x ++ bytes " " ++ n ++ bytes ";").length = len at *
  generalize hp : Parser.New (Lexer.New (bytes "let " ++ x ++ bytes " " ++ n ++ bytes ";")) = p
    at *
  have he0 : p.errors = [] := by rw [← hp]; rfl
  have h1 := h0.nextToken
  have h2 := h1.nextToken
  have h3 := h2.nextToken
  simp only [List.tail_cons] at h1 h2 h3
  -- the let statement is given up at the integer
  have e1 : p.peekTokenIs .IDENT = true := by rw [Parser.peekTokenIs, h0.peek]; rfl
  have e2 : p.nextToken.peekTokenIs .ASSIGN = false := by
    rw [Parser.peekTokenIs, h1.peek]; rfl
  have hL : p.curToken.Typ = .LET := by rw [h0.cur]; rfl
  have hlet : Parser.parseStatement (Parser.parseExpression (len + 3)) (len + 3) p =
      some (some .LetStatementNil, p.nextToken.peekError .ASSIGN) := by
    simp only [Parser.parseStatement, hL, if_true, Parser.parseLetStatement, Parser.expectPeek,
      e1, e2]
    rfl
  have herr1 : (p.nextToken.peekError .ASSIGN).errors = [expectedAssignGotInt] := by
    simp only [Parser.peekError, Parser.nextToken_errors, he0, h1.peek]
    rfl
  -- the integer becomes an expression statement
  generalize hq : (p.nextToken.peekError .ASSIGN).nextToken = q at *
  have hq2 : Sees q [⟨.INT, n⟩, semicolonToken] := by
    rw [← hq]; exact (h1.peekError' .ASSIGN).nextToken
  have hqe : q.errors = [expectedAssignGotInt] := by rw [← hq]; exact herr1
  obtain ⟨ql, qc, qk, qe⟩ := q
  obtain rfl : qc = ⟨.INT, n⟩ := hq2.cur
  obtain rfl : qk = semicolonToken := hq2.peek
  obtain rfl : qe = [expectedAssignGotInt] := hqe
  have hint : ∃ (e : Option Expression) (rest : List GoString),
      Parser.parseStatement (Parser.parseExpression (len + 3)) (len + 3)
        ⟨ql, ⟨.INT, n⟩, semicolonToken, [expectedAssignGotInt]⟩ =
        some (some (.ExpressionStatement ⟨.INT, n⟩ e),
          Parser.nextToken ⟨ql, ⟨.INT, n⟩, semicolonToken, expectedAssignGotInt :: rest⟩) := by
    cases hv : ParseInt n with
    | none =>
      refine ⟨none, [bytes "could not parse \"" ++ n ++ bytes "\" as integer"], ?_⟩
      simp only [Parser.parseStatement, Parser.parseExpressionStatement]
      rw [show len + 3 = (len + 1) + 1 + 1 from rfl, Parser.parseExpression]
      simp only [prefixParseFns, Parser.callPrefix, Parser.parseIntegerLiteral, hv]
      rw [Parser.parseExpressionLoop_stop (Or.inl rfl)]
      rfl
    | some v =>
      refine ⟨some (.IntegerLiteral ⟨.INT, n⟩ v), [], ?_⟩
      simp only [Parser.parseStatement, Parser.parseExpressionStatement]
      rw [show len + 3 = (len + 1) + 1 + 1 from rfl, Parser.parseExpression]
      simp only [prefixParseFns, Parser.callPrefix, Parser.parseIntegerLiteral, hv]
      rw [Parser.parseExpressionLoop_stop (Or.inl rfl)]
      rfl
  obtain ⟨e, rest, hint⟩ := hint
  have hend : (Parser.nextToken (Parser.nextToken
      ⟨ql, ⟨.INT, n⟩, semicolonToken, expectedAssignGotInt :: rest⟩)).curToken.Typ = .EOF := by
    have := ((hq2.withErrors (expectedAssignGotInt :: rest)).nextToken).nextToken
    rw [this.cur]; rfl
  have hpne : p.curToken.Typ ≠ .EOF := by rw [hL]; decide
  refine ⟨⟨[.LetStatementNil, .ExpressionStatement ⟨.INT, n⟩ e]⟩, rest, ?_, by simp⟩
  have hloop : Parser.ParseProgramLoop (len + 3) (len + 3) [] p =
      some ([.LetStatementNil, .ExpressionStatement ⟨.INT, n⟩ e],
        Parser.nextToken (Parser.nextToken
          ⟨ql, ⟨.INT, n⟩, semicolonToken, expectedAssignGotInt :: rest⟩)) := by
    rw [show len + 3 = len + 1 + 1 + 1 from rfl, Parser.ParseProgramLoop]
    rw [show len + 1 + 1 + 1 = len + 3 from rfl]
    simp only [ne_eq, hpne, not_false_eq_true, if_true, hlet, hq]
    rw [Parser.ParseProgramLoop]
    simp only [ne_eq, not_false_eq_true, if_true, hint]
    rw [Parser.ParseProgramLoop]
    simp [hend, Parser.appendStatement]
  simp only [parse, Parser.ParseProgram, hF, hp, hloop, Parser.Errors, Parser.nextToken_errors]

/-- C7, witness: the source `let x 5;`. -/
theorem C7_let_missing_assign_reported_witness :
    IsIdent (bytes "x") ∧ bytes "5" ≠ [] ∧ (∀ c ∈ bytes "5", isDigit c = true) ∧
    ∃ (prog : Program) (rest : List GoString),
      parse (bytes "let x 5;") = some (prog, expectedAssignGotInt :: rest) ∧
      expectedAssignGotInt :: rest ≠ [] :=
  ⟨by decide, by decide, by decide,
    C7_let_missing_assign_reported (bytes "x") (bytes "5") (by decide) (by decide) (by decide)⟩

/-- C8, on the code: for `let x 5;` the aborted let statement is in the
program, as the interface value that holds a nil `*ast.LetStatement`, before
the expression statement for `5`. -/
theorem C8_aborted_let_is_appended :
    parse (bytes "let x 5;") =
      some (⟨[.LetStatementNil,
          .ExpressionStatement ⟨.INT, bytes "5"⟩ (some (.IntegerLiteral ⟨.INT, bytes "5"⟩ 5))]⟩,
        [bytes "expected next token no be =, got INT instead"]) := by
  rfl

/-! ## Termination: every call consumes input -/

/-- A property holds of an `if` when it holds of both branches. -/
theorem ite_prop {α : Type} (P : α → Prop) {c : Prop} [Decidable c] {a b : α}
    (ha : c → P a) (hb : ¬c → P b) : P (if c then a else b) := by
  by_cases h : c
  · rw [if_pos h]; exact ha h
  · rw [if_neg h]; exact hb h

namespace Lexer

theorem readStringLoop_mkAt (i : GoString) :
    ∀ (n q : Nat), ∃ q', readStringLoop (n + 1) (mkAt i q) = mkAt i q' ∧ q < q' := by
  intro n
  induction n with
  | zero =>
    intro q
    refine ⟨q + 1, ?_, by omega⟩
    simp only [readStringLoop, readChar_mkAt]
    split <;> rfl
  | succ n ih =>
    intro q
    rw [readStringLoop]
    simp only [readChar_mkAt]
    split
    · exact ⟨q + 1, rfl, by omega⟩
    · obtain ⟨q', h1, h2⟩ := ih (q + 1)
      exact ⟨q', h1, by omega⟩

theorem countWhile_pos {f : Nat → Bool} {r : GoString} (h : f (r.headD 0) = true)
    (hf : f 0 = false) : 0 < countWhile f r := by
  cases r with
  | nil => simp [hf] at h
  | cons c r => simp at h; simp [countWhile, h]

/-- One `NextToken` leaves a well-formed lexer on the same input, never moves
the cursor back, and moves it forward from inside the input whenever the
token is not the end-of-input token. -/
theorem NextToken_progress (i : GoString) (pos : Nat) :
    ∃ pos', (mkAt i pos).NextToken.2 = mkAt i pos' ∧ pos ≤ pos' ∧
      ((mkAt i pos).NextToken.1.Typ ≠ .EOF → pos < i.length ∧ pos < pos') := by
  have hskip := skipWhitespace_mkAt i pos
  generalize hq : pos + countWhile isWhitespace (i.drop pos) = q at hskip
  have hpq : pos ≤ q := by omega
  have hch : (mkAt i q).ch = (i.drop q).headD 0 := mkAt_ch i q
  have hlen : (mkAt i q).ch ≠ 0 → q < i.length := by
    intro h
    by_contra hge
    rw [hch, List.drop_eq_nil_of_le (by omega)] at h
    exact h rfl
  have hid : (mkAt i q).readIdentifiter.2 =
      mkAt i (q + countWhile isLetter (i.drop q)) := by
    simp only [readIdentifiter]
    exact readCharWhile_mkAt isLetter (by decide) _ i q (countWhile_drop_lt _ i q)
  have hnum : (mkAt i q).readNumber.2 =
      mkAt i (q + countWhile isDigit (i.drop q)) := by
    simp only [readNumber]
    exact readCharWhile_mkAt isDigit (by decide) _ i q (countWhile_drop_lt _ i q)
  obtain ⟨qs, hstr, hqs⟩ := readStringLoop_mkAt i i.length q
  have hstr' : (mkAt i q).readString.2 = mkAt i qs := by
    simp only [readString]; exact hstr
  simp only [NextToken, hskip]
  repeat' (refine ite_prop (fun r : Token × Lexer => ∃ pos', r.2 = mkAt i pos' ∧ pos ≤ pos' ∧
    (r.1.Typ ≠ .EOF → pos < i.length ∧ pos < pos')) (fun _ => ?_) (fun _ => ?_))
  all_goals simp only [readChar_mkAt, hid, hnum, hstr', newToken]
  all_goals first
    | (have hpos : 0 < countWhile isLetter (i.drop q) :=
        countWhile_pos (by rw [← hch]; assumption) (by decide)
       refine ⟨_, rfl, by omega, fun _ => ⟨?_, by omega⟩⟩
       have := hlen (by assumption); omega)
    | (have hpos : 0 < countWhile isDigit (i.drop q) :=
        countWhile_pos (by rw [← hch]; assumption) (by decide)
       refine ⟨_, rfl, by omega, fun _ => ⟨?_, by omega⟩⟩
       have := hlen (by assumption); omega)
    | (refine ⟨_, rfl, by omega, fun _ => ⟨?_, by omega⟩⟩
       have := hlen (by omega); omega)
    | (refine ⟨_, rfl, by omega, fun h => ?_⟩
       exact absurd rfl h)

end Lexer
theorem tokenWeight_of_ne {t : Token} (h : t.Typ ≠ .EOF) : tokenWeight t = 1 := by
  simp [tokenWeight, h]

theorem tokenWeight_le (t : Token) : tokenWeight t ≤ 1 := by
  unfold tokenWeight; split <;> omega

theorem Parser.ahead_le (p : Parser) : p.ahead ≤ p.weight := by
  unfold Parser.ahead Parser.weight; omega

theorem Parser.nextToken_weight {p : Parser} (hI : p.Inv) :
    p.nextToken.Inv ∧ p.nextToken.weight + tokenWeight p.curToken ≤ p.weight ∧
      p.nextToken.ahead + tokenWeight p.peekToken ≤ p.ahead := by
  obtain ⟨l, c, k, e⟩ := p
  have hl : l = Lexer.mkAt l.input l.position := hI
  obtain ⟨pos', h1, h2, h3⟩ := Lexer.NextToken_progress l.input l.position
  rw [← hl] at h1 h3
  have hw : tokenWeight l.NextToken.1 + (l.input.length - pos') ≤
      l.input.length - l.position := by
    by_cases ht : l.NextToken.1.Typ = .EOF
    · simp only [tokenWeight, ht, if_true]; omega
    · have := h3 ht
      rw [tokenWeight_of_ne ht]; omega
  refine ⟨?_, ?_, ?_⟩
  · show (l.NextToken).2.Inv
    rw [h1]; rfl
  · show tokenWeight k + tokenWeight l.NextToken.1 +
      (l.NextToken.2.input.length - l.NextToken.2.position) + tokenWeight c ≤
      tokenWeight c + tokenWeight k + (l.input.length - l.position)
    rw [h1]
    show tokenWeight k + tokenWeight l.NextToken.1 + (l.input.length - pos') + tokenWeight c ≤ _
    omega
  · show tokenWeight l.NextToken.1 +
      (l.NextToken.2.input.length - l.NextToken.2.position) + tokenWeight k ≤
      tokenWeight k + (l.input.length - l.position)
    rw [h1]
    show tokenWeight l.NextToken.1 + (l.input.length - pos') + tokenWeight k ≤ _
    omega

theorem Adv.refl {p : Parser} (hI : p.Inv) : Adv p p :=
  ⟨hI, Nat.le_refl _, fun _ => Or.inr rfl⟩

theorem Adv.trans {p q r : Parser} (h1 : Adv p q) (h2 : Adv q r) : Adv p r := by
  refine ⟨h2.inv, Nat.le_trans h2.le h1.le, fun hc => ?_⟩
  rcases h1.step hc with h | h
  · exact Or.inl (Nat.lt_of_le_of_lt h2.le h)
  · rcases h2.step (by rw [h]; exact hc) with h' | h'
    · exact Or.inl (Nat.lt_of_lt_of_le h' h1.le)
    · exact Or.inr (by rw [h', h])

theorem Adv.next {p : Parser} (hI : p.Inv) : Adv p p.nextToken := by
  obtain ⟨h1, h2, _⟩ := Parser.nextToken_weight hI
  refine ⟨h1, by omega, fun hc => Or.inl ?_⟩
  rw [tokenWeight_of_ne hc] at h2
  omega

theorem Adv.addErrors {p : Parser} (hI : p.Inv) (es : List GoString) :
    Adv p { p with errors := es } :=
  ⟨hI, Nat.le_refl _, fun _ => Or.inr rfl⟩

theorem Adv.expectPeek {p : Parser} (hI : p.Inv) (t : TokenType) :
    Adv p (p.expectPeek t).2 := by
  unfold Parser.expectPeek
  split
  · exact Adv.next hI
  · exact Adv.addErrors hI _

theorem Parser.expectPeek_true {p : Parser} {t : TokenType} (h : (p.expectPeek t).1 = true) :
    (p.expectPeek t).2 = p.nextToken ∧ p.peekToken.Typ = t := by
  unfold Parser.expectPeek at h ⊢
  by_cases hp : p.peekTokenIs t = true
  · rw [if_pos hp]
    exact ⟨rfl, by simpa [Parser.peekTokenIs] using hp⟩
  · rw [if_neg hp] at h
    exact absurd h Bool.false_ne_true

/-- Strict decrease after `nextToken` on a token that is not end of input. -/
theorem Parser.nextToken_lt {p : Parser} (hI : p.Inv) (hc : p.curToken.Typ ≠ .EOF) :
    p.nextToken.weight + 1 ≤ p.weight := by
  have := (Parser.nextToken_weight hI).2.1
  rwa [tokenWeight_of_ne hc] at this

namespace Parser

theorem parsePrefixExpression_total {pe : ParseExpressionFn} {m : Nat} {p : Parser}
    (hpe : PEok pe m) (hI : p.Inv) (hc : p.curToken.Typ ≠ .EOF) (hw : p.weight ≤ m + 1) :
    ∃ x p1, parsePrefixExpression pe p = some (x, p1) ∧ Adv p p1 := by
  have hn := nextToken_lt hI hc
  obtain ⟨right, p1, h1, a1⟩ := hpe PREFIX p.nextToken (Adv.next hI).inv (by omega)
  simp only [parsePrefixExpression, h1]
  exact ⟨_, _, rfl, (Adv.next hI).trans a1⟩

theorem parseInfixExpression_total {pe : ParseExpressionFn} {m : Nat} {p : Parser}
    {left : Option Expression}
    (hpe : PEok pe m) (hI : p.Inv) (hc : p.curToken.Typ ≠ .EOF) (hw : p.weight ≤ m + 1) :
    ∃ x p1, parseInfixExpression pe left p = some (x, p1) ∧ Adv p.nextToken p1 := by
  have hn := nextToken_lt hI hc
  obtain ⟨right, p1, h1, a1⟩ := hpe p.curPrecedence p.nextToken (Adv.next hI).inv (by omega)
  simp only [parseInfixExpression, h1]
  exact ⟨_, _, rfl, a1⟩

theorem parseGroupedExpression_total {pe : ParseExpressionFn} {m : Nat} {p : Parser}
    (hpe : PEok pe m) (hI : p.Inv) (hc : p.curToken.Typ ≠ .EOF) (hw : p.weight ≤ m + 1) :
    ∃ x p1, parseGroupedExpression pe p = some (x, p1) ∧ Adv p p1 := by
  have hn := nextToken_lt hI hc
  obtain ⟨exp, p1, h1, a1⟩ := hpe LOWSET p.nextToken (Adv.next hI).inv (by omega)
  have a2 := ((Adv.next hI).trans a1).trans (Adv.expectPeek a1.inv .RPAREN)
  simp only [parseGroupedExpression, h1]
  split
  · exact ⟨_, _, rfl, a2⟩
  · exact ⟨_, _, rfl, a2⟩

theorem parseIndexExpression_total {pe : ParseExpressionFn} {m : Nat} {p : Parser}
    {left : Option Expression}
    (hpe : PEok pe m) (hI : p.Inv) (hc : p.curToken.Typ ≠ .EOF) (hw : p.weight ≤ m + 1) :
    ∃ x p1, parseIndexExpression pe left p = some (x, p1) ∧ Adv p.nextToken p1 := by
  have hn := nextToken_lt hI hc
  obtain ⟨index, p1, h1, a1⟩ := hpe LOWSET p.nextToken (Adv.next hI).inv (by omega)
  have a2 := a1.trans (Adv.expectPeek a1.inv .RBRACKET)
  simp only [parseIndexExpression, h1]
  split
  · exact ⟨_, _, rfl, a2⟩
  · exact ⟨_, _, rfl, a2⟩

theorem parseExpressionListLoop_total {pe : ParseExpressionFn} {m : Nat} (hpe : PEok pe m) :
    ∀ (n : Nat) (list : List (Option Expression)) (q : Parser), q.Inv → q.weight ≤ m + 1 →
      q.weight < n → ∃ x p1, parseExpressionListLoop pe n list q = some (x, p1) ∧ Adv q p1 := by
  intro n
  induction n with
  | zero => intro list q _ _ h; omega
  | succ n ih =>
    intro list q hI hw hn
    rw [parseExpressionListLoop]
    by_cases hk : q.peekTokenIs .COMMA = true
    · rw [if_pos hk]
      have h1 := Adv.next hI
      have hc1 : q.nextToken.curToken.Typ ≠ .EOF := by
        rw [nextToken_curToken]
        have : q.peekToken.Typ = .COMMA := by simpa [peekTokenIs] using hk
        rw [this]; decide
      have h2 := nextToken_lt h1.inv hc1
      have hle := h1.le
      obtain ⟨e, p1, he, a1⟩ := hpe LOWSET q.nextToken.nextToken (Adv.next h1.inv).inv
        (by omega)
      simp only [he]
      have hp1 := a1.le
      obtain ⟨x, r, hr, ar⟩ := ih (list ++ [e]) p1 a1.inv (by omega) (by omega)
      exact ⟨x, r, hr, ((h1.trans (Adv.next h1.inv)).trans a1).trans ar⟩
    · rw [if_neg hk]
      exact ⟨_, _, rfl, Adv.refl hI⟩

theorem parseExpressionList_total {pe : ParseExpressionFn} {m fuel : Nat} {p : Parser}
    {endTok : TokenType}
    (hpe : PEok pe m) (hI : p.Inv) (hc : p.curToken.Typ ≠ .EOF) (hw : p.weight ≤ m + 1)
    (hf : m + 2 ≤ fuel) :
    ∃ x p1, parseExpressionList pe fuel endTok p = some (x, p1) ∧ Adv p.nextToken p1 := by
  have hn := nextToken_lt hI hc
  have h1 := Adv.next hI
  rw [parseExpressionList]
  by_cases hk : p.peekTokenIs endTok = true
  · rw [if_pos hk]
    exact ⟨_, _, rfl, Adv.refl h1.inv⟩
  · rw [if_neg hk]
    obtain ⟨e, p1, he, a1⟩ := hpe LOWSET p.nextToken h1.inv (by omega)
    have hp1 := a1.le
    simp only [he]
    obtain ⟨list, p2, hl, a2⟩ := parseExpressionListLoop_total hpe fuel [e] p1 a1.inv (by omega)
      (by omega)
    simp only [hl]
    have a3 := (a1.trans a2).trans (Adv.expectPeek a2.inv endTok)
    split
    · exact ⟨_, _, rfl, a3⟩
    · exact ⟨_, _, rfl, a3⟩

theorem parseCallExpression_total {pe : ParseExpressionFn} {m fuel : Nat} {p : Parser}
    {function : Option Expression}
    (hpe : PEok pe m) (hI : p.Inv) (hc : p.curToken.Typ ≠ .EOF) (hw : p.weight ≤ m + 1)
    (hf : m + 2 ≤ fuel) :
    ∃ x p1, parseCallExpression pe fuel function p = some (x, p1) ∧ Adv p.nextToken p1 := by
  obtain ⟨args, p1, h1, a1⟩ := @parseExpressionList_total pe m fuel p .RPAREN hpe hI hc hw hf
  simp only [parseCallExpression, h1]
  exact ⟨_, _, rfl, a1⟩

theorem parseArrayLiteral_total {pe : ParseExpressionFn} {m fuel : Nat} {p : Parser}
    (hpe : PEok pe m) (hI : p.Inv) (hc : p.curToken.Typ ≠ .EOF) (hw : p.weight ≤ m + 1)
    (hf : m + 2 ≤ fuel) :
    ∃ x p1, parseArrayLiteral pe fuel p = some (x, p1) ∧ Adv p p1 := by
  obtain ⟨args, p1, h1, a1⟩ := @parseExpressionList_total pe m fuel p .RBRACKET hpe hI hc hw hf
  simp only [parseArrayLiteral, h1]
  exact ⟨_, _, rfl, (Adv.next hI).trans a1⟩

theorem parseHashLiteralLoop_total {pe : ParseExpressionFn} {m : Nat} (hpe : PEok pe m) :
    ∀ (n : Nat) (pairs : List (Option Expression × Option Expression)) (q : Parser), q.Inv →
      ((q.peekTokenIs .RBRACE = true ∧ 0 < n) ∨
        (q.curToken.Typ ≠ .EOF ∧ q.weight ≤ m + 1 ∧ q.weight < n)) →
      ∃ x p1, parseHashLiteralLoop pe n pairs q = some (x, p1) ∧ Adv q p1 := by
  intro n
  induction n with
  | zero => intro pairs q _ h; rcases h with h | h <;> omega
  | succ n ih =>
    intro pairs q hI h
    rw [parseHashLiteralLoop]
    by_cases hk : q.peekTokenIs .RBRACE = true
    · rw [if_pos hk]
      exact ⟨_, _, rfl, Adv.refl hI⟩
    · rw [if_neg hk]
      rcases h with h | ⟨hc, hw, hn⟩
      · exact absurd h.1 hk
      have h1 := Adv.next hI
      have hlt := nextToken_lt hI hc
      obtain ⟨key, p1, he, a1⟩ := hpe LOWSET q.nextToken h1.inv (by omega)
      have hp1 := a1.le
      simp only [he]
      by_cases hcolon : (p1.expectPeek .COLON).1 = true
      · rw [if_pos hcolon]
        have a2 := Adv.expectPeek a1.inv .COLON
        have a3 := Adv.next a2.inv
        have hle2 := a2.le
        have hle3 := a3.le
        obtain ⟨value, p2, hv, a4⟩ := hpe LOWSET (p1.expectPeek .COLON).2.nextToken a3.inv
          (by omega)
        have hp2 := a4.le
        simp only [hv]
        have aq : Adv q p2 := (((h1.trans a1).trans a2).trans a3).trans a4
        by_cases hb : p2.peekTokenIs .RBRACE = true
        · rw [if_pos hb]
          have hq1 : 1 ≤ q.weight := by
            have := tokenWeight_of_ne hc
            unfold Parser.weight; omega
          obtain ⟨x, r, hr, ar⟩ := ih (mapSet pairs key value) p2 a4.inv (Or.inl ⟨hb, by omega⟩)
          exact ⟨x, r, hr, aq.trans ar⟩
        · rw [if_neg hb]
          by_cases hcomma : (p2.expectPeek .COMMA).1 = true
          · rw [if_pos hcomma]
            obtain ⟨e1, e2⟩ := expectPeek_true hcomma
            have a5 := Adv.expectPeek a4.inv .COMMA
            have hle5 := a5.le
            have hc5 : (p2.expectPeek .COMMA).2.curToken.Typ ≠ .EOF := by
              rw [e1, nextToken_curToken, e2]; decide
            obtain ⟨x, r, hr, ar⟩ := ih (mapSet pairs key value) (p2.expectPeek .COMMA).2 a5.inv
              (Or.inr ⟨hc5, by omega, by omega⟩)
            exact ⟨x, r, hr, (aq.trans a5).trans ar⟩
          · rw [if_neg hcomma]
            exact ⟨_, _, rfl, aq.trans (Adv.expectPeek a4.inv .COMMA)⟩
      · rw [if_neg hcolon]
        exact ⟨_, _, rfl, (h1.trans a1).trans (Adv.expectPeek a1.inv .COLON)⟩

theorem parseHashLiteral_total {pe : ParseExpressionFn} {m fuel : Nat} {p : Parser}
    (hpe : PEok pe m) (hI : p.Inv) (hc : p.curToken.Typ ≠ .EOF) (hw : p.weight ≤ m + 1)
    (hf : m + 2 ≤ fuel) :
    ∃ x p1, parseHashLiteral pe fuel p = some (x, p1) ∧ Adv p p1 := by
  obtain ⟨pairs, p1, h1, a1⟩ := parseHashLiteralLoop_total hpe fuel [] p hI
    (Or.inr ⟨hc, hw, by omega⟩)
  simp only [parseHashLiteral, h1]
  cases pairs with
  | none => exact ⟨_, _, rfl, a1⟩
  | some pairs =>
    have a2 := a1.trans (Adv.expectPeek a1.inv .RBRACE)
    simp only []
    split
    · exact ⟨_, _, rfl, a2⟩
    · exact ⟨_, _, rfl, a2⟩

theorem parseFunctionParametersLoop_total :
    ∀ (n : Nat) (identifiers : List Identifier) (q : Parser), q.Inv → q.weight < n →
      ∃ x p1, parseFunctionParametersLoop n identifiers q = some (x, p1) ∧ Adv q p1 := by
  intro n
  induction n with
  | zero => intro _ q _ h; omega
  | succ n ih =>
    intro identifiers q hI hn
    rw [parseFunctionParametersLoop]
    by_cases hk : q.peekTokenIs .COMMA = true
    · rw [if_pos hk]
      have h1 := Adv.next hI
      have hc1 : q.nextToken.curToken.Typ ≠ .EOF := by
        rw [nextToken_curToken]
        have : q.peekToken.Typ = .COMMA := by simpa [peekTokenIs] using hk
        rw [this]; decide
      have h2 := nextToken_lt h1.inv hc1
      have hle := h1.le
      have a2 := Adv.next h1.inv
      obtain ⟨x, r, hr, ar⟩ := ih
        (identifiers ++ [⟨q.nextToken.nextToken.curToken,
          q.nextToken.nextToken.curToken.Literal⟩]) q.nextToken.nextToken a2.inv (by omega)
      exact ⟨x, r, hr, (h1.trans a2).trans ar⟩
    · rw [if_neg hk]
      exact ⟨_, _, rfl, Adv.refl hI⟩

theorem parseFunctionParameters_total {fuel : Nat} {p : Parser} (hI : p.Inv)
    (hf : p.weight < fuel) :
    ∃ x p1, parseFunctionParameters fuel p = some (x, p1) ∧ Adv p p1 := by
  have h1 := Adv.next hI
  have hle := h1.le
  rw [parseFunctionParameters]
  by_cases hk : p.peekTokenIs .RPAREN = true
  · rw [if_pos hk]
    exact ⟨_, _, rfl, h1⟩
  · rw [if_neg hk]
    obtain ⟨identifiers, p1, hl, a1⟩ := parseFunctionParametersLoop_total fuel
      [⟨p.nextToken.curToken, p.nextToken.curToken.Literal⟩] p.nextToken h1.inv (by omega)
    simp only [hl]
    have a2 := (h1.trans a1).trans (Adv.expectPeek a1.inv .RPAREN)
    split
    · exact ⟨_, _, rfl, a2⟩
    · exact ⟨_, _, rfl, a2⟩

theorem parseReturnStatementLoop_total :
    ∀ (n : Nat) (q : Parser), q.Inv → q.ahead < n →
      ∃ r, parseReturnStatementLoop n q = some r ∧ Adv q r := by
  intro n
  induction n with
  | zero => intro q _ h; omega
  | succ n ih =>
    intro q hI hn
    rw [parseReturnStatementLoop]
    by_cases hk : q.peekTokenIs .SEMICOLON = true
    · rw [if_pos hk]
      have h1 := Adv.next hI
      have hpk : q.peekToken.Typ ≠ .EOF := by
        have : q.peekToken.Typ = .SEMICOLON := by simpa [peekTokenIs] using hk
        rw [this]; decide
      have h2 := (nextToken_weight hI).2.2
      rw [tokenWeight_of_ne hpk] at h2
      obtain ⟨r, hr, ar⟩ := ih q.nextToken h1.inv (by omega)
      exact ⟨r, hr, h1.trans ar⟩
    · rw [if_neg hk]
      exact ⟨_, rfl, Adv.refl hI⟩

theorem parseLetStatement_total {pe : ParseExpressionFn} {m : Nat} {p : Parser}
    (hpe : PEok pe m) (hI : p.Inv) (hc : p.curToken.Typ ≠ .EOF) (hw : p.weight ≤ m + 1) :
    ∃ x p1, parseLetStatement pe p = some (x, p1) ∧ Adv p p1 := by
  have hlt := nextToken_lt hI hc
  rw [parseLetStatement]
  by_cases h1 : (p.expectPeek .IDENT).1 = true
  · rw [if_pos h1]
    obtain ⟨e1, _⟩ := expectPeek_true h1
    have a1 := Adv.next hI
    simp only [e1]
    by_cases h2 : (p.nextToken.expectPeek .ASSIGN).1 = true
    · rw [if_pos h2]
      have a2 := Adv.expectPeek a1.inv .ASSIGN
      have a3 := Adv.next a2.inv
      have hle2 := a2.le
      have hle3 := a3.le
      obtain ⟨value, p2, hv, a4⟩ := hpe LOWSET (p.nextToken.expectPeek .ASSIGN).2.nextToken
        a3.inv (by omega)
      simp only [hv]
      have aq : Adv p p2 := ((a1.trans a2).trans a3).trans a4
      refine ⟨_, _, rfl, ?_⟩
      split
      · exact aq.trans (Adv.next a4.inv)
      · exact aq
    · rw [if_neg h2]
      exact ⟨_, _, rfl, a1.trans (Adv.expectPeek a1.inv .ASSIGN)⟩
  · rw [if_neg h1]
    exact ⟨_, _, rfl, Adv.expectPeek hI .IDENT⟩

theorem parseReturnStatement_total {pe : ParseExpressionFn} {m fuel : Nat} {p : Parser}
    (hpe : PEok pe m) (hI : p.Inv) (hc : p.curToken.Typ ≠ .EOF) (hw : p.weight ≤ m + 1)
    (hf : m + 2 ≤ fuel) :
    ∃ x p1, parseReturnStatement pe fuel p = some (x, p1) ∧ Adv p p1 := by
  have hlt := nextToken_lt hI hc
  have a1 := Adv.next hI
  obtain ⟨value, p1, hv, a2⟩ := hpe LOWSET p.nextToken a1.inv (by omega)
  have hle := a2.le
  have hah := p1.ahead_le
  obtain ⟨p2, hl, a3⟩ := parseReturnStatementLoop_total fuel p1 a2.inv (by omega)
  simp only [parseReturnStatement, hv, hl]
  exact ⟨_, _, rfl, (a1.trans a2).trans a3⟩

theorem parseExpressionStatement_total {pe : ParseExpressionFn} {m : Nat} {p : Parser}
    (hpe : PEok pe m) (hI : p.Inv) (hw : p.weight ≤ m) :
    ∃ x p1, parseExpressionStatement pe p = some (x, p1) ∧ Adv p p1 := by
  obtain ⟨e, p1, he, a1⟩ := hpe LOWSET p hI hw
  simp only [parseExpressionStatement, he]
  refine ⟨_, _, rfl, ?_⟩
  split
  · exact a1.trans (Adv.next a1.inv)
  · exact a1

theorem parseStatement_total {pe : ParseExpressionFn} {m fuel : Nat} {p : Parser}
    (hpe : PEok pe m) (hI : p.Inv) (hw : p.weight ≤ m) (hf : m + 2 ≤ fuel) :
    ∃ x p1, parseStatement pe fuel p = some (x, p1) ∧ Adv p p1 := by
  rw [parseStatement]
  by_cases h1 : p.curToken.Typ = .LET
  · rw [if_pos h1]
    obtain ⟨x, p1, hx, a1⟩ := parseLetStatement_total hpe hI (by rw [h1]; decide) (by omega)
    simp only [hx]
    exact ⟨_, _, rfl, a1⟩
  · rw [if_neg h1]
    by_cases h2 : p.curToken.Typ = .RETURN
    · rw [if_pos h2]
      exact parseReturnStatement_total hpe hI (by rw [h2]; decide) (by omega) hf
    · rw [if_neg h2]
      exact parseExpressionStatement_total hpe hI hw

/-- One statement and the `nextToken` after it take the measure down when
the current token is not end of input. -/
theorem statement_then_next_lt {p p1 : Parser} (hc : p.curToken.Typ ≠ .EOF) (a : Adv p p1) :
    p1.nextToken.weight < p.weight := by
  have hn := (Adv.next a.inv).le
  rcases a.step hc with h | h
  · omega
  · have := nextToken_lt a.inv (by rw [h]; exact hc)
    have := a.le
    omega

theorem parseBlockStatementLoop_total {pe : ParseExpressionFn} {m fuel : Nat}
    (hpe : PEok pe m) (hf : m + 2 ≤ fuel) :
    ∀ (n : Nat) (statements : List Statement) (q : Parser), q.Inv → q.weight ≤ m →
      q.weight < n →
      ∃ x p1, parseBlockStatementLoop pe fuel n statements q = some (x, p1) ∧ Adv q p1 := by
  intro n
  induction n with
  | zero => intro _ q _ _ h; omega
  | succ n ih =>
    intro statements q hI hw hn
    rw [parseBlockStatementLoop]
    by_cases hk : (!q.curTokenIs .RBRACE && !q.curTokenIs .EOF) = true
    · rw [if_pos hk]
      have hc : q.curToken.Typ ≠ .EOF := by
        simp only [Bool.and_eq_true, Bool.not_eq_true', curTokenIs, beq_eq_false_iff_ne] at hk
        exact hk.2
      obtain ⟨stmt, p1, hs, a1⟩ := parseStatement_total hpe hI hw hf
      simp only [hs]
      have hlt := statement_then_next_lt hc a1
      have a2 := Adv.next a1.inv
      obtain ⟨x, r, hr, ar⟩ := ih (appendStatement statements stmt) p1.nextToken a2.inv
        (by omega) (by omega)
      exact ⟨x, r, hr, (a1.trans a2).trans ar⟩
    · rw [if_neg hk]
      exact ⟨_, _, rfl, Adv.refl hI⟩

theorem parseBlockStatement_total {pe : ParseExpressionFn} {m fuel : Nat} {p : Parser}
    (hpe : PEok pe m) (hI : p.Inv) (hc : p.curToken.Typ ≠ .EOF) (hw : p.weight ≤ m + 1)
    (hf : m + 2 ≤ fuel) :
    ∃ x p1, parseBlockStatement pe fuel p = some (x, p1) ∧ Adv p p1 := by
  have hlt := nextToken_lt hI hc
  have a1 := Adv.next hI
  obtain ⟨statements, p1, hs, a2⟩ := parseBlockStatementLoop_total hpe hf fuel [] p.nextToken
    a1.inv (by omega) (by omega)
  simp only [parseBlockStatement, hs]
  exact ⟨_, _, rfl, a1.trans a2⟩

theorem parseIfExpressionElse_total {pe : ParseExpressionFn} {m fuel : Nat} {p : Parser}
    {tok : Token} {condition : Option Expression} {consequence : BlockStatement}
    (hpe : PEok pe m) (hI : p.Inv) (hw : p.weight ≤ m + 1) (hf : m + 2 ≤ fuel) :
    ∃ x p1, parseIfExpressionElse pe fuel tok condition consequence p = some (x, p1) ∧
      Adv p p1 := by
  rw [parseIfExpressionElse]
  by_cases hk : p.peekTokenIs .ELSE = true
  · rw [if_pos hk]
    have a1 := Adv.next hI
    have hle1 := a1.le
    have a2 := Adv.expectPeek a1.inv .LBRACE
    have hle2 := a2.le
    by_cases hb : (p.nextToken.expectPeek .LBRACE).1 = true
    · rw [if_pos hb]
      obtain ⟨e1, e2⟩ := expectPeek_true hb
      have hc : (p.nextToken.expectPeek .LBRACE).2.curToken.Typ ≠ .EOF := by
        rw [e1, nextToken_curToken, e2]; decide
      obtain ⟨alt, p1, hs, a3⟩ := parseBlockStatement_total hpe a2.inv hc (by omega) hf
      simp only [hs]
      exact ⟨_, _, rfl, (a1.trans a2).trans a3⟩
    · rw [if_neg hb]
      exact ⟨_, _, rfl, a1.trans a2⟩
  · rw [if_neg hk]
    exact ⟨_, _, rfl, Adv.refl hI⟩

theorem parseIfExpression_total {pe : ParseExpressionFn} {m fuel : Nat} {p : Parser}
    (hpe : PEok pe m) (hI : p.Inv) (hc : p.curToken.Typ ≠ .EOF) (hw : p.weight ≤ m + 1)
    (hf : m + 2 ≤ fuel) :
    ∃ x p1, parseIfExpression pe fuel p = some (x, p1) ∧ Adv p p1 := by
  have hlt := nextToken_lt hI hc
  rw [parseIfExpression]
  by_cases h1 : (p.expectPeek .LPAREN).1 = true
  · rw [if_pos h1]
    obtain ⟨e1, _⟩ := expectPeek_true h1
    simp only [e1]
    have a1 := Adv.next hI
    have a2 := Adv.next a1.inv
    have hle2 := a2.le
    obtain ⟨condition, p1, hcnd, a3⟩ := hpe LOWSET p.nextToken.nextToken a2.inv (by omega)
    have hle3 := a3.le
    simp only [hcnd]
    have a4 := Adv.expectPeek a3.inv .RPAREN
    have hle4 := a4.le
    have aq4 : Adv p (p1.expectPeek .RPAREN).2 := ((a1.trans a2).trans a3).trans a4
    by_cases h2 : (p1.expectPeek .RPAREN).1 = true
    · rw [if_pos h2]
      have a5 := Adv.expectPeek a4.inv .LBRACE
      have hle5 := a5.le
      by_cases h3 : ((p1.expectPeek .RPAREN).2.expectPeek .LBRACE).1 = true
      · rw [if_pos h3]
        obtain ⟨e3, e4⟩ := expectPeek_true h3
        have hc5 : ((p1.expectPeek .RPAREN).2.expectPeek .LBRACE).2.curToken.Typ ≠ .EOF := by
          rw [e3, nextToken_curToken, e4]; decide
        obtain ⟨consequence, p3, hs, a6⟩ := parseBlockStatement_total hpe a5.inv hc5 (by omega) hf
        have hle6 := a6.le
        simp only [hs]
        obtain ⟨x, p4, hx, a7⟩ := parseIfExpressionElse_total hpe a6.inv (by omega) hf
        exact ⟨x, p4, hx, ((aq4.trans a5).trans a6).trans a7⟩
      · rw [if_neg h3]
        exact ⟨_, _, rfl, aq4.trans a5⟩
    · rw [if_neg h2]
      exact ⟨_, _, rfl, aq4⟩
  · rw [if_neg h1]
    exact ⟨_, _, rfl, Adv.expectPeek hI .LPAREN⟩

theorem parseFunctionLiteral_total {pe : ParseExpressionFn} {m fuel : Nat} {p : Parser}
    (hpe : PEok pe m) (hI : p.Inv) (hc : p.curToken.Typ ≠ .EOF) (hw : p.weight ≤ m + 1)
    (hf : m + 2 ≤ fuel) :
    ∃ x p1, parseFunctionLiteral pe fuel p = some (x, p1) ∧ Adv p p1 := by
  have hlt := nextToken_lt hI hc
  rw [parseFunctionLiteral]
  by_cases h1 : (p.expectPeek .LPAREN).1 = true
  · rw [if_pos h1]
    obtain ⟨e1, _⟩ := expectPeek_true h1
    simp only [e1]
    have a1 := Adv.next hI
    obtain ⟨parameters, p1, hps, a2⟩ := @parseFunctionParameters_total fuel _ a1.inv
      (by omega)
    have hle2 := a2.le
    simp only [hps]
    have a3 := Adv.expectPeek a2.inv .LBRACE
    have hle3 := a3.le
    by_cases h2 : (p1.expectPeek .LBRACE).1 = true
    · rw [if_pos h2]
      obtain ⟨e3, e4⟩ := expectPeek_true h2
      have hc3 : (p1.expectPeek .LBRACE).2.curToken.Typ ≠ .EOF := by
        rw [e3, nextToken_curToken, e4]; decide
      obtain ⟨body, p2, hs, a4⟩ := parseBlockStatement_total hpe a3.inv hc3 (by omega) hf
      simp only [hs]
      exact ⟨_, _, rfl, ((a1.trans a2).trans a3).trans a4⟩
    · rw [if_neg h2]
      exact ⟨_, _, rfl, (a1.trans a2).trans a3⟩
  · rw [if_neg h1]
    exact ⟨_, _, rfl, Adv.expectPeek hI .LPAREN⟩

theorem callPrefix_total {pe : ParseExpressionFn} {m fuel : Nat} {p : Parser}
    (prefixFn : PrefixParseFn)
    (hpe : PEok pe m) (hI : p.Inv) (hc : p.curToken.Typ ≠ .EOF) (hw : p.weight ≤ m + 1)
    (hf : m + 2 ≤ fuel) :
    ∃ x p1, callPrefix pe fuel prefixFn p = some (x, p1) ∧ Adv p p1 := by
  cases prefixFn <;> simp only [callPrefix]
  · exact ⟨_, _, rfl, Adv.refl hI⟩
  · rw [parseIntegerLiteral]
    split
    · exact ⟨_, _, rfl, Adv.addErrors hI _⟩
    · exact ⟨_, _, rfl, Adv.refl hI⟩
  · exact parsePrefixExpression_total hpe hI hc hw
  · exact ⟨_, _, rfl, Adv.refl hI⟩
  · exact parseGroupedExpression_total hpe hI hc hw
  · exact parseIfExpression_total hpe hI hc hw hf
  · exact parseFunctionLiteral_total hpe hI hc hw hf
  · exact ⟨_, _, rfl, Adv.refl hI⟩
  · exact parseArrayLiteral_total hpe hI hc hw hf
  · exact parseHashLiteral_total hpe hI hc hw hf

theorem callInfix_total {pe : ParseExpressionFn} {m fuel : Nat} {p : Parser}
    (infixFn : InfixParseFn) (left : Option Expression)
    (hpe : PEok pe m) (hI : p.Inv) (hc : p.curToken.Typ ≠ .EOF) (hw : p.weight ≤ m + 1)
    (hf : m + 2 ≤ fuel) :
    ∃ x p1, callInfix pe fuel infixFn left p = some (x, p1) ∧ Adv p.nextToken p1 := by
  cases infixFn <;> simp only [callInfix]
  · exact parseInfixExpression_total hpe hI hc hw
  · exact parseCallExpression_total hpe hI hc hw hf
  · exact parseIndexExpression_total hpe hI hc hw

theorem infixParseFns_ne_eof {t : TokenType} {fn : InfixParseFn}
    (h : infixParseFns t = some fn) : t ≠ .EOF := by
  intro ht; rw [ht] at h; simp [infixParseFns] at h

theorem prefixParseFns_ne_eof {t : TokenType} {fn : PrefixParseFn}
    (h : prefixParseFns t = some fn) : t ≠ .EOF := by
  intro ht; rw [ht] at h; simp [prefixParseFns] at h

theorem parseExpressionLoop_total {pe : ParseExpressionFn} {m fuel precedence : Nat}
    (hpe : PEok pe m) (hf : m + 2 ≤ fuel) :
    ∀ (n : Nat) (left : Option Expression) (q : Parser), q.Inv → q.weight ≤ m + 1 →
      q.weight < n →
      ∃ x p1, parseExpressionLoop pe fuel precedence n left q = some (x, p1) ∧ Adv q p1 := by
  intro n
  induction n with
  | zero => intro _ q _ _ h; omega
  | succ n ih =>
    intro left q hI hw hn
    rw [parseExpressionLoop]
    by_cases hk : (!q.peekTokenIs .SEMICOLON && decide (precedence < q.peekPrecedence)) = true
    · rw [if_pos hk]
      cases hfn : infixParseFns q.peekToken.Typ with
      | none => exact ⟨_, _, rfl, Adv.refl hI⟩
      | some infixFn =>
        simp only []
        have a1 := Adv.next hI
        have hle1 := a1.le
        have hc1 : q.nextToken.curToken.Typ ≠ .EOF := by
          rw [nextToken_curToken]; exact infixParseFns_ne_eof hfn
        have hlt := nextToken_lt a1.inv hc1
        obtain ⟨left1, p1, hl, a2⟩ := callInfix_total infixFn left hpe a1.inv hc1 (by omega) hf
        have hle2 := a2.le
        simp only [hl]
        obtain ⟨x, r, hr, ar⟩ := ih left1 p1 a2.inv (by omega) (by omega)
        exact ⟨x, r, hr, ((a1.trans (Adv.next a1.inv)).trans a2).trans ar⟩
    · rw [if_neg hk]
      exact ⟨_, _, rfl, Adv.refl hI⟩

/-- `parseExpression` returns on every well-formed parser whose measure is
at least 2 below the counter, and the parser it returns comes after the one
it was given. -/
theorem parseExpression_total :
    ∀ (fuel precedence : Nat) (p : Parser), p.Inv → p.weight + 2 ≤ fuel →
      ∃ e p1, parseExpression fuel precedence p = some (e, p1) ∧ Adv p p1 := by
  intro fuel
  induction fuel with
  | zero => intro _ p _ h; omega
  | succ fuel ih =>
    intro precedence p hI hw
    rw [parseExpression]
    cases hfn : prefixParseFns p.curToken.Typ with
    | none => exact ⟨_, _, rfl, Adv.addErrors hI _⟩
    | some prefixFn =>
      simp only []
      have hc : p.curToken.Typ ≠ .EOF := prefixParseFns_ne_eof hfn
      have h1 : 1 ≤ p.weight := by
        have := tokenWeight_of_ne hc
        unfold Parser.weight; omega
      obtain ⟨m, rfl⟩ : ∃ m, fuel = m + 2 := ⟨fuel - 2, by omega⟩
      have hpe : PEok (parseExpression (m + 2)) m := fun q r hq hr => ih q r hq (by omega)
      obtain ⟨left, p1, hl, a1⟩ := callPrefix_total prefixFn hpe hI hc (by omega)
        (Nat.le_refl _)
      have hle := a1.le
      simp only [hl]
      obtain ⟨x, r, hr, ar⟩ := parseExpressionLoop_total hpe
        (Nat.le_refl _) (m + 2) left p1 a1.inv (by omega) (by omega)
      exact ⟨x, r, hr, a1.trans ar⟩

theorem ParseProgramLoop_total {m fuel : Nat} (hf : m + 2 ≤ fuel) :
    ∀ (n : Nat) (statements : List Statement) (q : Parser), q.Inv → q.weight ≤ m →
      q.weight < n → ∃ x p1, ParseProgramLoop fuel n statements q = some (x, p1) := by
  have hpe : PEok (parseExpression fuel) m := fun q r hq hr =>
    parseExpression_total fuel q r hq (by omega)
  intro n
  induction n with
  | zero => intro _ q _ _ h; omega
  | succ n ih =>
    intro statements q hI hw hn
    rw [ParseProgramLoop]
    by_cases hk : q.curToken.Typ ≠ .EOF
    · rw [if_pos hk]
      obtain ⟨stmt, p1, hs, a1⟩ := parseStatement_total hpe hI hw hf
      simp only [hs]
      have hlt := statement_then_next_lt hk a1
      exact ih (appendStatement statements stmt) p1.nextToken (Adv.next a1.inv).inv
        (by omega) (by omega)
    · rw [if_neg hk]
      exact ⟨_, _, rfl⟩

theorem New_inv_weight (input : GoString) :
    (Parser.New (Lexer.New input)).Inv ∧
      (Parser.New (Lexer.New input)).weight ≤ input.length := by
  have hI0 : Parser.Inv (Parser.mk (Lexer.New input) ⟨.ILLEGAL, []⟩ ⟨.ILLEGAL, []⟩ []) := by
    show (Lexer.New input).Inv
    rw [Lexer.New_eq]; rfl
  have h1 := nextToken_weight hI0
  have h2 := nextToken_weight h1.1
  refine ⟨h2.1, ?_⟩
  have e1 := h1.2.1
  have e2 := h2.2.1
  have hw0 : Parser.weight (Parser.mk (Lexer.New input) ⟨.ILLEGAL, []⟩ ⟨.ILLEGAL, []⟩ []) =
      2 + input.length := by
    rw [Lexer.New_eq]; rfl
  rw [hw0] at e1
  have t1 : tokenWeight (⟨.ILLEGAL, []⟩ : Token) = 1 := rfl
  rw [nextToken_curToken] at e2
  simp only [t1] at e1 e2
  show (Parser.nextToken (Parser.nextToken _)).weight ≤ _
  omega

end Parser

/-- No loop of the lexer or the parser runs forever and the nesting of calls
is finite: for every source (any bytes, malformed, unterminated or empty),
the parse under the counter `len(input) + 3` returns a program and a
diagnostics list, and so does `ParseProgram` under every counter from
`len(input) + 2` on: the counter is not what ends it. -/
theorem parse_returns (input : GoString) :
    (∃ (program : Program) (errors : List GoString), parse input = some (program, errors)) ∧
    (∀ k : Nat, ∃ (program : Program) (p : Parser),
      Parser.ParseProgram (input.length + 2 + k) (Parser.New (Lexer.New input)) =
        some (program, p)) := by
  obtain ⟨hI, hw⟩ := Parser.New_inv_weight input
  have key : ∀ k : Nat, ∃ (program : Program) (p : Parser),
      Parser.ParseProgram (input.length + 2 + k) (Parser.New (Lexer.New input)) =
        some (program, p) := by
    intro k
    obtain ⟨x, p1, h⟩ := @Parser.ParseProgramLoop_total input.length (input.length + 2 + k)
      (by omega) (input.length + 2 + k) [] _ hI hw (by omega)
    exact ⟨⟨x⟩, p1, by simp only [Parser.ParseProgram, h]⟩
  refine ⟨?_, key⟩
  obtain ⟨program, p, h⟩ := key 1
  exact ⟨program, p.Errors, by
    simp only [parse]; rw [show input.length + 3 = input.length + 2 + 1 from rfl, h]⟩

/-! ## Statements without an expression -/

theorem GoodE.valuedOpt {e : Option Expression} (h : GoodE e) :
    Expression.valuedOpt e = true := by
  obtain ⟨e1, rfl, hv⟩ := h
  simpa [Expression.valuedOpt] using hv

theorem valuedList_append (l : List (Option Expression)) (e : Option Expression) :
    Expression.valuedList (l ++ [e]) = (Expression.valuedList l && Expression.valuedOpt e) := by
  induction l with
  | nil => simp [Expression.valuedList]
  | cons a l ih => simp [Expression.valuedList, ih, Bool.and_assoc]

theorem valuedAll_append (l : List Statement) (s : Statement) :
    Statement.valuedAll (l ++ [s]) = (Statement.valuedAll l && s.valued) := by
  induction l with
  | nil => simp [Statement.valuedAll]
  | cons a l ih => simp [Statement.valuedAll, ih, Bool.and_assoc]

theorem valuedPairs_append (l : List (Option Expression × Option Expression))
    (k v : Option Expression) :
    Expression.valuedPairs (l ++ [(k, v)]) =
      (Expression.valuedPairs l && (Expression.valuedOpt k && Expression.valuedOpt v)) := by
  induction l with
  | nil => simp [Expression.valuedPairs]
  | cons a l ih =>
    obtain ⟨a1, a2⟩ := a
    simp [Expression.valuedPairs, ih, Bool.and_assoc]

theorem valuedPairs_replace {l : List (Option Expression × Option Expression)}
    {v : Option Expression} (hl : Expression.valuedPairs l = true)
    (hv : Expression.valuedOpt v = true) :
    Expression.valuedPairs (l.map (fun kv => if kv.1.isNone then (none, v) else kv)) = true := by
  induction l with
  | nil => rfl
  | cons a l ih =>
    obtain ⟨a1, a2⟩ := a
    simp only [Expression.valuedPairs, Bool.and_eq_true] at hl
    simp only [List.map_cons]
    split
    · simp only [Expression.valuedPairs, Expression.valuedOpt, hv, ih hl.2, Bool.and_self]
    · simp only [Expression.valuedPairs, hl.1.1, hl.1.2, ih hl.2, Bool.and_self]

theorem valuedPairs_mapSet {l : List (Option Expression × Option Expression)}
    {k v : Option Expression} (hl : Expression.valuedPairs l = true)
    (hk : Expression.valuedOpt k = true) (hv : Expression.valuedOpt v = true) :
    Expression.valuedPairs (mapSet l k v) = true := by
  cases k with
  | some k1 =>
    simp only [mapSet]
    rw [valuedPairs_append, hl, hk, hv]; rfl
  | none =>
    simp only [mapSet]
    split
    · exact valuedPairs_replace hl hv
    · rw [valuedPairs_append, hl, hv]; rfl

namespace Parser

theorem nerr_nextToken (p : Parser) : p.nextToken.nerr = p.nerr := rfl

theorem nerr_expectPeek (p : Parser) (t : TokenType) :
    (p.expectPeek t).2.nerr = p.nerr + (if (p.expectPeek t).1 = true then 0 else 1) := by
  unfold expectPeek
  by_cases h : p.peekTokenIs t = true
  · simp only [h, if_true]; rfl
  · simp only [h, if_false]
    simp [nerr, peekError]

theorem nerr_expectPeek_true {p : Parser} {t : TokenType} (h : (p.expectPeek t).1 = true) :
    (p.expectPeek t).2.nerr = p.nerr := by
  rw [nerr_expectPeek, if_pos h]; rfl

theorem nerr_expectPeek_false {p : Parser} {t : TokenType} (h : ¬ (p.expectPeek t).1 = true) :
    (p.expectPeek t).2.nerr = p.nerr + 1 := by
  rw [nerr_expectPeek, if_neg h]

theorem parsePrefixExpression_good {pe : ParseExpressionFn} {p p1 : Parser}
    {x : Option Expression} (hpe : PEgood pe)
    (h : parsePrefixExpression pe p = some (x, p1)) :
    p.nerr ≤ p1.nerr ∧ (p1.nerr = p.nerr → GoodE x) := by
  rw [parsePrefixExpression] at h
  cases hr : pe PREFIX p.nextToken with
  | none => rw [hr] at h; exact absurd h (by simp)
  | some r =>
    obtain ⟨right, p2⟩ := r
    rw [hr] at h
    simp only [Option.some.injEq, Prod.mk.injEq] at h
    obtain ⟨rfl, rfl⟩ := h
    obtain ⟨h1, h2⟩ := hpe _ _ _ _ hr
    rw [nerr_nextToken] at h1 h2
    refine ⟨h1, fun he => ⟨_, rfl, ?_⟩⟩
    simpa [Expression.valued] using (h2 he).valuedOpt

theorem parseInfixExpression_good {pe : ParseExpressionFn} {p p1 : Parser}
    {left x : Option Expression} (hpe : PEgood pe)
    (h : parseInfixExpression pe left p = some (x, p1)) :
    p.nerr ≤ p1.nerr ∧ (p1.nerr = p.nerr → GoodE left → GoodE x) := by
  rw [parseInfixExpression] at h
  cases hr : pe p.curPrecedence p.nextToken with
  | none => rw [hr] at h; exact absurd h (by simp)
  | some r =>
    obtain ⟨right, p2⟩ := r
    rw [hr] at h
    simp only [Option.some.injEq, Prod.mk.injEq] at h
    obtain ⟨rfl, rfl⟩ := h
    obtain ⟨h1, h2⟩ := hpe _ _ _ _ hr
    rw [nerr_nextToken] at h1 h2
    refine ⟨h1, fun he hl => ⟨_, rfl, ?_⟩⟩
    simp [Expression.valued, hl.valuedOpt, (h2 he).valuedOpt]

theorem parseGroupedExpression_good {pe : ParseExpressionFn} {p p1 : Parser}
    {x : Option Expression} (hpe : PEgood pe)
    (h : parseGroupedExpression pe p = some (x, p1)) :
    p.nerr ≤ p1.nerr ∧ (p1.nerr = p.nerr → GoodE x) := by
  rw [parseGroupedExpression] at h
  cases hr : pe LOWSET p.nextToken with
  | none => rw [hr] at h; exact absurd h (by simp)
  | some r =>
    obtain ⟨exp, p2⟩ := r
    rw [hr] at h
    obtain ⟨h1, h2⟩ := hpe _ _ _ _ hr
    rw [nerr_nextToken] at h1 h2
    simp only [] at h
    by_cases hb : (p2.expectPeek .RPAREN).1 = true
    · rw [if_pos hb] at h
      simp only [Option.some.injEq, Prod.mk.injEq] at h
      obtain ⟨rfl, rfl⟩ := h
      rw [nerr_expectPeek_true hb]
      exact ⟨h1, h2⟩
    · rw [if_neg hb] at h
      simp only [Option.some.injEq, Prod.mk.injEq] at h
      obtain ⟨rfl, rfl⟩ := h
      rw [nerr_expectPeek_false hb]
      exact ⟨by omega, fun he => by omega⟩

theorem parseIndexExpression_good {pe : ParseExpressionFn} {p p1 : Parser}
    {left x : Option Expression} (hpe : PEgood pe)
    (h : parseIndexExpression pe left p = some (x, p1)) :
    p.nerr ≤ p1.nerr ∧ (p1.nerr = p.nerr → GoodE left → GoodE x) := by
  rw [parseIndexExpression] at h
  cases hr : pe LOWSET p.nextToken with
  | none => rw [hr] at h; exact absurd h (by simp)
  | some r =>
    obtain ⟨index, p2⟩ := r
    rw [hr] at h
    obtain ⟨h1, h2⟩ := hpe _ _ _ _ hr
    rw [nerr_nextToken] at h1 h2
    simp only [] at h
    by_cases hb : (p2.expectPeek .RBRACKET).1 = true
    · rw [if_pos hb] at h
      simp only [Option.some.injEq, Prod.mk.injEq] at h
      obtain ⟨rfl, rfl⟩ := h
      rw [nerr_expectPeek_true hb]
      refine ⟨h1, fun he hl => ⟨_, rfl, ?_⟩⟩
      simp [Expression.valued, hl.valuedOpt, (h2 he).valuedOpt]
    · rw [if_neg hb] at h
      simp only [Option.some.injEq, Prod.mk.injEq] at h
      obtain ⟨rfl, rfl⟩ := h
      rw [nerr_expectPeek_false hb]
      exact ⟨by omega, fun he => by omega⟩

theorem parseExpressionListLoop_good {pe : ParseExpressionFn} (hpe : PEgood pe) :
    ∀ (n : Nat) (list x : List (Option Expression)) (q p1 : Parser),
      parseExpressionListLoop pe n list q = some (x, p1) →
      q.nerr ≤ p1.nerr ∧
        (p1.nerr = q.nerr → Expression.valuedList list = true →
          Expression.valuedList x = true) := by
  intro n
  induction n with
  | zero => intro list x q p1 h; rw [parseExpressionListLoop] at h; exact absurd h (by simp)
  | succ n ih =>
    intro list x q p1 h
    rw [parseExpressionListLoop] at h
    by_cases hk : q.peekTokenIs .COMMA = true
    · rw [if_pos hk] at h
      cases hr : pe LOWSET q.nextToken.nextToken with
      | none => rw [hr] at h; exact absurd h (by simp)
      | some r =>
        obtain ⟨e, p2⟩ := r
        rw [hr] at h
        simp only [] at h
        obtain ⟨h1, h2⟩ := hpe _ _ _ _ hr
        rw [nerr_nextToken, nerr_nextToken] at h1 h2
        obtain ⟨h3, h4⟩ := ih _ _ _ _ h
        refine ⟨by omega, fun he hl => h4 (by omega) ?_⟩
        rw [valuedList_append, hl, (h2 (by omega)).valuedOpt]; rfl
    · rw [if_neg hk] at h
      simp only [Option.some.injEq, Prod.mk.injEq] at h
      obtain ⟨rfl, rfl⟩ := h
      exact ⟨Nat.le_refl _, fun _ hl => hl⟩

theorem parseExpressionList_good {pe : ParseExpressionFn} {fuel : Nat} {endTok : TokenType}
    {p p1 : Parser} {x : Option (List (Option Expression))} (hpe : PEgood pe)
    (h : parseExpressionList pe fuel endTok p = some (x, p1)) :
    p.nerr ≤ p1.nerr ∧ (p1.nerr = p.nerr → Expression.valuedOptList x = true) := by
  rw [parseExpressionList] at h
  by_cases hk : p.peekTokenIs endTok = true
  · rw [if_pos hk] at h
    simp only [Option.some.injEq, Prod.mk.injEq] at h
    obtain ⟨rfl, rfl⟩ := h
    exact ⟨Nat.le_refl _, fun _ => rfl⟩
  · rw [if_neg hk] at h
    cases hr : pe LOWSET p.nextToken with
    | none => rw [hr] at h; exact absurd h (by simp)
    | some r =>
      obtain ⟨e, p2⟩ := r
      rw [hr] at h
      simp only [] at h
      obtain ⟨h1, h2⟩ := hpe _ _ _ _ hr
      rw [nerr_nextToken] at h1 h2
      cases hl : parseExpressionListLoop pe fuel [e] p2 with
      | none => rw [hl] at h; exact absurd h (by simp)
      | some r2 =>
        obtain ⟨list, p3⟩ := r2
        rw [hl] at h
        simp only [] at h
        obtain ⟨h3, h4⟩ := parseExpressionListLoop_good hpe _ _ _ _ _ hl
        by_cases hb : (p3.expectPeek endTok).1 = true
        · rw [if_pos hb] at h
          simp only [Option.some.injEq, Prod.mk.injEq] at h
          obtain ⟨rfl, rfl⟩ := h
          rw [nerr_expectPeek_true hb]
          refine ⟨by omega, fun he => ?_⟩
          have := h4 (by omega) (by
            simp [Expression.valuedList, (h2 (by omega)).valuedOpt])
          simpa [Expression.valuedOptList] using this
        · rw [if_neg hb] at h
          simp only [Option.some.injEq, Prod.mk.injEq] at h
          obtain ⟨rfl, rfl⟩ := h
          rw [nerr_expectPeek_false hb]
          exact ⟨by omega, fun he => by omega⟩

theorem parseCallExpression_good {pe : ParseExpressionFn} {fuel : Nat} {p p1 : Parser}
    {function x : Option Expression} (hpe : PEgood pe)
    (h : parseCallExpression pe fuel function p = some (x, p1)) :
    p.nerr ≤ p1.nerr ∧ (p1.nerr = p.nerr → GoodE function → GoodE x) := by
  rw [parseCallExpression] at h
  cases hr : parseExpressionList pe fuel .RPAREN p with
  | none => rw [hr] at h; exact absurd h (by simp)
  | some r =>
    obtain ⟨args, p2⟩ := r
    rw [hr] at h
    simp only [Option.some.injEq, Prod.mk.injEq] at h
    obtain ⟨rfl, rfl⟩ := h
    obtain ⟨h1, h2⟩ := parseExpressionList_good hpe hr
    refine ⟨h1, fun he hl => ⟨_, rfl, ?_⟩⟩
    simp [Expression.valued, hl.valuedOpt, h2 he]

theorem parseArrayLiteral_good {pe : ParseExpressionFn} {fuel : Nat} {p p1 : Parser}
    {x : Option Expression} (hpe : PEgood pe)
    (h : parseArrayLiteral pe fuel p = some (x, p1)) :
    p.nerr ≤ p1.nerr ∧ (p1.nerr = p.nerr → GoodE x) := by
  rw [parseArrayLiteral] at h
  cases hr : parseExpressionList pe fuel .RBRACKET p with
  | none => rw [hr] at h; exact absurd h (by simp)
  | some r =>
    obtain ⟨args, p2⟩ := r
    rw [hr] at h
    simp only [Option.some.injEq, Prod.mk.injEq] at h
    obtain ⟨rfl, rfl⟩ := h
    obtain ⟨h1, h2⟩ := parseExpressionList_good hpe hr
    refine ⟨h1, fun he => ⟨_, rfl, ?_⟩⟩
    simp [Expression.valued, h2 he]

theorem parseHashLiteralLoop_good {pe : ParseExpressionFn} (hpe : PEgood pe) :
    ∀ (n : Nat) (pairs : List (Option Expression × Option Expression))
      (x : Option (List (Option Expression × Option Expression))) (q p1 : Parser),
      parseHashLiteralLoop pe n pairs q = some (x, p1) →
      q.nerr ≤ p1.nerr ∧
        (p1.nerr = q.nerr → Expression.valuedPairs pairs = true →
          ∃ ps, x = some ps ∧ Expression.valuedPairs ps = true) := by
  intro n
  induction n with
  | zero => intro pairs x q p1 h; rw [parseHashLiteralLoop] at h; exact absurd h (by simp)
  | succ n ih =>
    intro pairs x q p1 h
    rw [parseHashLiteralLoop] at h
    by_cases hk : q.peekTokenIs .RBRACE = true
    · rw [if_pos hk] at h
      simp only [Option.some.injEq, Prod.mk.injEq] at h
      obtain ⟨rfl, rfl⟩ := h
      exact ⟨Nat.le_refl _, fun _ hl => ⟨_, rfl, hl⟩⟩
    · rw [if_neg hk] at h
      cases hr : pe LOWSET q.nextToken with
      | none => rw [hr] at h; exact absurd h (by simp)
      | some r =>
        obtain ⟨key, p2⟩ := r
        rw [hr] at h
        simp only [] at h
        obtain ⟨h1, h2⟩ := hpe _ _ _ _ hr
        rw [nerr_nextToken] at h1 h2
        by_cases hc : (p2.expectPeek .COLON).1 = true
        · rw [if_pos hc] at h
          have e1 := nerr_expectPeek_true hc
          cases hr2 : pe LOWSET (p2.expectPeek .COLON).2.nextToken with
          | none => rw [hr2] at h; exact absurd h (by simp)
          | some r2 =>
            obtain ⟨value, p3⟩ := r2
            rw [hr2] at h
            simp only [] at h
            obtain ⟨h3, h4⟩ := hpe _ _ _ _ hr2
            rw [nerr_nextToken, e1] at h3 h4
            by_cases hb : p3.peekTokenIs .RBRACE = true
            · rw [if_pos hb] at h
              obtain ⟨h5, h6⟩ := ih _ _ _ _ h
              refine ⟨by omega, fun he hl => h6 (by omega) ?_⟩
              exact valuedPairs_mapSet hl (h2 (by omega)).valuedOpt (h4 (by omega)).valuedOpt
            · rw [if_neg hb] at h
              by_cases hm : (p3.expectPeek .COMMA).1 = true
              · rw [if_pos hm] at h
                have e2 := nerr_expectPeek_true hm
                obtain ⟨h5, h6⟩ := ih _ _ _ _ h
                rw [e2] at h5 h6
                refine ⟨by omega, fun he hl => h6 (by omega) ?_⟩
                exact valuedPairs_mapSet hl (h2 (by omega)).valuedOpt (h4 (by omega)).valuedOpt
              · rw [if_neg hm] at h
                simp only [Option.some.injEq, Prod.mk.injEq] at h
                obtain ⟨rfl, rfl⟩ := h
                rw [nerr_expectPeek_false hm]
                exact ⟨by omega, fun he => by omega⟩
        · rw [if_neg hc] at h
          simp only [Option.some.injEq, Prod.mk.injEq] at h
          obtain ⟨rfl, rfl⟩ := h
          rw [nerr_expectPeek_false hc]
          exact ⟨by omega, fun he => by omega⟩

theorem parseHashLiteral_good {pe : ParseExpressionFn} {fuel : Nat} {p p1 : Parser}
    {x : Option Expression} (hpe : PEgood pe)
    (h : parseHashLiteral pe fuel p = some (x, p1)) :
    p.nerr ≤ p1.nerr ∧ (p1.nerr = p.nerr → GoodE x) := by
  rw [parseHashLiteral] at h
  cases hr : parseHashLiteralLoop pe fuel [] p with
  | none => rw [hr] at h; exact absurd h (by simp)
  | some r =>
    obtain ⟨pairs, p2⟩ := r
    obtain ⟨h1, h2⟩ := parseHashLiteralLoop_good hpe _ _ _ _ _ hr
    rw [hr] at h
    cases pairs with
    | none =>
      simp only [Option.some.injEq, Prod.mk.injEq] at h
      obtain ⟨rfl, rfl⟩ := h
      refine ⟨h1, fun he => ?_⟩
      obtain ⟨ps, hps, _⟩ := h2 he rfl
      exact absurd hps (by simp)
    | some pairs =>
      simp only [] at h
      by_cases hb : (p2.expectPeek .RBRACE).1 = true
      · rw [if_pos hb] at h
        simp only [Option.some.injEq, Prod.mk.injEq] at h
        obtain ⟨rfl, rfl⟩ := h
        rw [nerr_expectPeek_true hb]
        refine ⟨h1, fun he => ⟨_, rfl, ?_⟩⟩
        obtain ⟨ps, hps, hv⟩ := h2 he rfl
        cases hps
        simpa [Expression.valued] using hv
      · rw [if_neg hb] at h
        simp only [Option.some.injEq, Prod.mk.injEq] at h
        obtain ⟨rfl, rfl⟩ := h
        rw [nerr_expectPeek_false hb]
        exact ⟨by omega, fun he => by omega⟩

theorem parseFunctionParametersLoop_nerr :
    ∀ (n : Nat) (identifiers x : List Identifier) (q p1 : Parser),
      parseFunctionParametersLoop n identifiers q = some (x, p1) → p1.nerr = q.nerr := by
  intro n
  induction n with
  | zero => intro _ x q p1 h; rw [parseFunctionParametersLoop] at h; exact absurd h (by simp)
  | succ n ih =>
    intro identifiers x q p1 h
    rw [parseFunctionParametersLoop] at h
    by_cases hk : q.peekTokenIs .COMMA = true
    · rw [if_pos hk] at h
      have e := ih _ _ _ _ h
      rw [nerr_nextToken, nerr_nextToken] at e
      exact e
    · rw [if_neg hk] at h
      simp only [Option.some.injEq, Prod.mk.injEq] at h
      obtain ⟨_, rfl⟩ := h
      rfl

theorem parseFunctionParameters_nerr {fuel : Nat} {p p1 : Parser}
    {x : Option (List Identifier)} (h : parseFunctionParameters fuel p = some (x, p1)) :
    p.nerr ≤ p1.nerr := by
  rw [parseFunctionParameters] at h
  by_cases hk : p.peekTokenIs .RPAREN = true
  · rw [if_pos hk] at h
    simp only [Option.some.injEq, Prod.mk.injEq] at h
    obtain ⟨_, rfl⟩ := h
    exact Nat.le_refl _
  · rw [if_neg hk] at h
    cases hr : parseFunctionParametersLoop fuel
        [⟨p.nextToken.curToken, p.nextToken.curToken.Literal⟩] p.nextToken with
    | none => rw [hr] at h; exact absurd h (by simp)
    | some r =>
      obtain ⟨ids, p2⟩ := r
      rw [hr] at h
      simp only [] at h
      have e := parseFunctionParametersLoop_nerr _ _ _ _ _ hr
      rw [nerr_nextToken] at e
      have e2 := nerr_expectPeek p2 .RPAREN
      by_cases hb : (p2.expectPeek .RPAREN).1 = true
      · rw [if_pos hb] at h
        simp only [Option.some.injEq, Prod.mk.injEq] at h
        obtain ⟨_, rfl⟩ := h
        rw [nerr_expectPeek_true hb]; omega
      · rw [if_neg hb] at h
        simp only [Option.some.injEq, Prod.mk.injEq] at h
        obtain ⟨_, rfl⟩ := h
        rw [nerr_expectPeek_false hb]; omega

theorem parseReturnStatementLoop_nerr :
    ∀ (n : Nat) (q p1 : Parser), parseReturnStatementLoop n q = some p1 → p1.nerr = q.nerr := by
  intro n
  induction n with
  | zero => intro q p1 h; rw [parseReturnStatementLoop] at h; exact absurd h (by simp)
  | succ n ih =>
    intro q p1 h
    rw [parseReturnStatementLoop] at h
    by_cases hk : q.peekTokenIs .SEMICOLON = true
    · rw [if_pos hk] at h
      have e := ih _ _ h
      rw [nerr_nextToken] at e
      exact e
    · rw [if_neg hk] at h
      simp only [Option.some.injEq] at h
      rw [← h]

theorem parseLetStatement_good {pe : ParseExpressionFn} {p p1 : Parser}
    {x : Option Statement} (hpe : PEgood pe)
    (h : parseLetStatement pe p = some (x, p1)) :
    p.nerr ≤ p1.nerr ∧ (p1.nerr = p.nerr → GoodS x) := by
  rw [parseLetStatement] at h
  by_cases h1 : (p.expectPeek .IDENT).1 = true
  · rw [if_pos h1] at h
    have e1 := nerr_expectPeek_true h1
    simp only [] at h
    by_cases h2 : ((p.expectPeek .IDENT).2.expectPeek .ASSIGN).1 = true
    · rw [if_pos h2] at h
      have e2 := nerr_expectPeek_true h2
      cases hr : pe LOWSET ((p.expectPeek .IDENT).2.expectPeek .ASSIGN).2.nextToken with
      | none => rw [hr] at h; exact absurd h (by simp)
      | some r =>
        obtain ⟨value, p2⟩ := r
        rw [hr] at h
        simp only [Option.some.injEq, Prod.mk.injEq] at h
        obtain ⟨rfl, rfl⟩ := h
        obtain ⟨h3, h4⟩ := hpe _ _ _ _ hr
        rw [nerr_nextToken, e2, e1] at h3 h4
        have e3 : (if p2.peekTokenIs .SEMICOLON = true then p2.nextToken else p2).nerr =
            p2.nerr := by split <;> rfl
        rw [e3]
        refine ⟨h3, fun he => ⟨_, rfl, ?_⟩⟩
        obtain ⟨v, rfl, hv⟩ := h4 he
        simpa [Statement.valued] using hv
    · rw [if_neg h2] at h
      simp only [Option.some.injEq, Prod.mk.injEq] at h
      obtain ⟨rfl, rfl⟩ := h
      rw [nerr_expectPeek_false h2, e1]
      exact ⟨by omega, fun he => by omega⟩
  · rw [if_neg h1] at h
    simp only [Option.some.injEq, Prod.mk.injEq] at h
    obtain ⟨rfl, rfl⟩ := h
    rw [nerr_expectPeek_false h1]
    exact ⟨by omega, fun he => by omega⟩

theorem parseReturnStatement_good {pe : ParseExpressionFn} {fuel : Nat} {p p1 : Parser}
    {x : Option Statement} (hpe : PEgood pe)
    (h : parseReturnStatement pe fuel p = some (x, p1)) :
    p.nerr ≤ p1.nerr ∧ (p1.nerr = p.nerr → GoodS x) := by
  rw [parseReturnStatement] at h
  cases hr : pe LOWSET p.nextToken with
  | none => rw [hr] at h; exact absurd h (by simp)
  | some r =>
    obtain ⟨value, p2⟩ := r
    rw [hr] at h
    simp only [] at h
    obtain ⟨h3, h4⟩ := hpe _ _ _ _ hr
    rw [nerr_nextToken] at h3 h4
    cases hl : parseReturnStatementLoop fuel p2 with
    | none => rw [hl] at h; exact absurd h (by simp)
    | some p3 =>
      rw [hl] at h
      simp only [Option.some.injEq, Prod.mk.injEq] at h
      obtain ⟨rfl, rfl⟩ := h
      have e := parseReturnStatementLoop_nerr _ _ _ hl
      rw [e]
      refine ⟨h3, fun he => ⟨_, rfl, ?_⟩⟩
      obtain ⟨v, rfl, hv⟩ := h4 he
      simpa [Statement.valued] using hv

theorem parseExpressionStatement_good {pe : ParseExpressionFn} {p p1 : Parser}
    {x : Option Statement} (hpe : PEgood pe)
    (h : parseExpressionStatement pe p = some (x, p1)) :
    p.nerr ≤ p1.nerr ∧ (p1.nerr = p.nerr → GoodS x) := by
  rw [parseExpressionStatement] at h
  cases hr : pe LOWSET p with
  | none => rw [hr] at h; exact absurd h (by simp)
  | some r =>
    obtain ⟨e, p2⟩ := r
    rw [hr] at h
    simp only [Option.some.injEq, Prod.mk.injEq] at h
    obtain ⟨rfl, rfl⟩ := h
    obtain ⟨h3, h4⟩ := hpe _ _ _ _ hr
    have e3 : (if p2.peekTokenIs .SEMICOLON = true then p2.nextToken else p2).nerr =
        p2.nerr := by split <;> rfl
    rw [e3]
    refine ⟨h3, fun he => ⟨_, rfl, ?_⟩⟩
    obtain ⟨v, rfl, hv⟩ := h4 he
    simpa [Statement.valued] using hv

theorem parseStatement_good {pe : ParseExpressionFn} {fuel : Nat} {p p1 : Parser}
    {x : Option Statement} (hpe : PEgood pe)
    (h : parseStatement pe fuel p = some (x, p1)) :
    p.nerr ≤ p1.nerr ∧ (p1.nerr = p.nerr → GoodS x) := by
  rw [parseStatement] at h
  by_cases h1 : p.curToken.Typ = .LET
  · rw [if_pos h1] at h
    cases hr : parseLetStatement pe p with
    | none => rw [hr] at h; exact absurd h (by simp)
    | some r =>
      obtain ⟨ptr, p2⟩ := r
      rw [hr] at h
      simp only [Option.some.injEq, Prod.mk.injEq] at h
      obtain ⟨rfl, rfl⟩ := h
      obtain ⟨h3, h4⟩ := parseLetStatement_good hpe hr
      refine ⟨h3, fun he => ?_⟩
      obtain ⟨s, rfl, hv⟩ := h4 he
      exact ⟨s, rfl, hv⟩
  · rw [if_neg h1] at h
    by_cases h2 : p.curToken.Typ = .RETURN
    · rw [if_pos h2] at h
      exact parseReturnStatement_good hpe h
    · rw [if_neg h2] at h
      exact parseExpressionStatement_good hpe h

theorem valuedAll_appendStatement {statements : List Statement} {x : Option Statement}
    (hs : Statement.valuedAll statements = true) (hx : GoodS x) :
    Statement.valuedAll (appendStatement statements x) = true := by
  obtain ⟨s, rfl, hv⟩ := hx
  simp only [appendStatement]
  rw [valuedAll_append, hs, hv]; rfl

theorem parseBlockStatementLoop_good {pe : ParseExpressionFn} {fuel : Nat} (hpe : PEgood pe) :
    ∀ (n : Nat) (statements x : List Statement) (q p1 : Parser),
      parseBlockStatementLoop pe fuel n statements q = some (x, p1) →
      q.nerr ≤ p1.nerr ∧
        (p1.nerr = q.nerr → Statement.valuedAll statements = true →
          Statement.valuedAll x = true) := by
  intro n
  induction n with
  | zero => intro _ x q p1 h; rw [parseBlockStatementLoop] at h; exact absurd h (by simp)
  | succ n ih =>
    intro statements x q p1 h
    rw [parseBlockStatementLoop] at h
    by_cases hk : (!q.curTokenIs .RBRACE && !q.curTokenIs .EOF) = true
    · rw [if_pos hk] at h
      cases hr : parseStatement pe fuel q with
      | none => rw [hr] at h; exact absurd h (by simp)
      | some r =>
        obtain ⟨stmt, p2⟩ := r
        rw [hr] at h
        simp only [] at h
        obtain ⟨h1, h2⟩ := parseStatement_good hpe hr
        obtain ⟨h3, h4⟩ := ih _ _ _ _ h
        rw [nerr_nextToken] at h3 h4
        exact ⟨by omega, fun he hs =>
          h4 (by omega) (valuedAll_appendStatement hs (h2 (by omega)))⟩
    · rw [if_neg hk] at h
      simp only [Option.some.injEq, Prod.mk.injEq] at h
      obtain ⟨rfl, rfl⟩ := h
      exact ⟨Nat.le_refl _, fun _ hs => hs⟩

theorem parseBlockStatement_good {pe : ParseExpressionFn} {fuel : Nat} {p p1 : Parser}
    {x : BlockStatement} (hpe : PEgood pe)
    (h : parseBlockStatement pe fuel p = some (x, p1)) :
    p.nerr ≤ p1.nerr ∧ (p1.nerr = p.nerr → x.valued = true) := by
  rw [parseBlockStatement] at h
  cases hr : parseBlockStatementLoop pe fuel fuel [] p.nextToken with
  | none => rw [hr] at h; exact absurd h (by simp)
  | some r =>
    obtain ⟨stmts, p2⟩ := r
    rw [hr] at h
    simp only [Option.some.injEq, Prod.mk.injEq] at h
    obtain ⟨rfl, rfl⟩ := h
    obtain ⟨h1, h2⟩ := parseBlockStatementLoop_good hpe _ _ _ _ _ hr
    rw [nerr_nextToken] at h1 h2
    refine ⟨h1, fun he => ?_⟩
    simpa [BlockStatement.valued] using h2 he rfl

theorem parseIfExpressionElse_good {pe : ParseExpressionFn} {fuel : Nat} {tok : Token}
    {condition : Option Expression} {consequence : BlockStatement} {p p1 : Parser}
    {x : Option Expression} (hpe : PEgood pe)
    (h : parseIfExpressionElse pe fuel tok condition consequence p = some (x, p1)) :
    p.nerr ≤ p1.nerr ∧
      (p1.nerr = p.nerr → GoodE condition → consequence.valued = true → GoodE x) := by
  rw [parseIfExpressionElse] at h
  by_cases hk : p.peekTokenIs .ELSE = true
  · rw [if_pos hk] at h
    by_cases hb : (p.nextToken.expectPeek .LBRACE).1 = true
    · rw [if_pos hb] at h
      have e1 := nerr_expectPeek_true hb
      rw [nerr_nextToken] at e1
      cases hr : parseBlockStatement pe fuel (p.nextToken.expectPeek .LBRACE).2 with
      | none => rw [hr] at h; exact absurd h (by simp)
      | some r =>
        obtain ⟨alternative, p2⟩ := r
        rw [hr] at h
        simp only [Option.some.injEq, Prod.mk.injEq] at h
        obtain ⟨rfl, rfl⟩ := h
        obtain ⟨h1, h2⟩ := parseBlockStatement_good hpe hr
        rw [e1] at h1 h2
        refine ⟨h1, fun he hc hq => ⟨_, rfl, ?_⟩⟩
        have ha := h2 he
        have hcv := hc.valuedOpt
        simp [Expression.valued, BlockStatement.valuedOpt, hcv, hq, ha]
    · rw [if_neg hb] at h
      simp only [Option.some.injEq, Prod.mk.injEq] at h
      obtain ⟨rfl, rfl⟩ := h
      rw [nerr_expectPeek_false hb, nerr_nextToken]
      exact ⟨by omega, fun he => by omega⟩
  · rw [if_neg hk] at h
    simp only [Option.some.injEq, Prod.mk.injEq] at h
    obtain ⟨rfl, rfl⟩ := h
    refine ⟨Nat.le_refl _, fun _ hc hq => ⟨_, rfl, ?_⟩⟩
    have hcv := hc.valuedOpt
    simp [Expression.valued, BlockStatement.valuedOpt, hcv, hq]

theorem parseIfExpression_good {pe : ParseExpressionFn} {fuel : Nat} {p p1 : Parser}
    {x : Option Expression} (hpe : PEgood pe)
    (h : parseIfExpression pe fuel p = some (x, p1)) :
    p.nerr ≤ p1.nerr ∧ (p1.nerr = p.nerr → GoodE x) := by
  rw [parseIfExpression] at h
  by_cases h1 : (p.expectPeek .LPAREN).1 = true
  · rw [if_pos h1] at h
    have e1 := nerr_expectPeek_true h1
    cases hr : pe LOWSET (p.expectPeek .LPAREN).2.nextToken with
    | none => rw [hr] at h; exact absurd h (by simp)
    | some r =>
      obtain ⟨condition, p2⟩ := r
      rw [hr] at h
      simp only [] at h
      obtain ⟨h3, h4⟩ := hpe _ _ _ _ hr
      rw [nerr_nextToken, e1] at h3 h4
      by_cases h2 : (p2.expectPeek .RPAREN).1 = true
      · rw [if_pos h2] at h
        have e2 := nerr_expectPeek_true h2
        by_cases h5 : ((p2.expectPeek .RPAREN).2.expectPeek .LBRACE).1 = true
        · rw [if_pos h5] at h
          have e3 := nerr_expectPeek_true h5
          cases hb : parseBlockStatement pe fuel
              ((p2.expectPeek .RPAREN).2.expectPeek .LBRACE).2 with
          | none => rw [hb] at h; exact absurd h (by simp)
          | some r2 =>
            obtain ⟨consequence, p3⟩ := r2
            rw [hb] at h
            simp only [] at h
            obtain ⟨h6, h7⟩ := parseBlockStatement_good hpe hb
            rw [e3, e2] at h6 h7
            obtain ⟨h8, h9⟩ := parseIfExpressionElse_good hpe h
            exact ⟨by omega, fun he => h9 (by omega) (h4 (by omega)) (h7 (by omega))⟩
        · rw [if_neg h5] at h
          simp only [Option.some.injEq, Prod.mk.injEq] at h
          obtain ⟨rfl, rfl⟩ := h
          rw [nerr_expectPeek_false h5, e2]
          exact ⟨by omega, fun he => by omega⟩
      · rw [if_neg h2] at h
        simp only [Option.some.injEq, Prod.mk.injEq] at h
        obtain ⟨rfl, rfl⟩ := h
        rw [nerr_expectPeek_false h2]
        exact ⟨by omega, fun he => by omega⟩
  · rw [if_neg h1] at h
    simp only [Option.some.injEq, Prod.mk.injEq] at h
    obtain ⟨rfl, rfl⟩ := h
    rw [nerr_expectPeek_false h1]
    exact ⟨by omega, fun he => by omega⟩

theorem parseFunctionLiteral_good {pe : ParseExpressionFn} {fuel : Nat} {p p1 : Parser}
    {x : Option Expression} (hpe : PEgood pe)
    (h : parseFunctionLiteral pe fuel p = some (x, p1)) :
    p.nerr ≤ p1.nerr ∧ (p1.nerr = p.nerr → GoodE x) := by
  rw [parseFunctionLiteral] at h
  by_cases h1 : (p.expectPeek .LPAREN).1 = true
  · rw [if_pos h1] at h
    have e1 := nerr_expectPeek_true h1
    cases hr : parseFunctionParameters fuel (p.expectPeek .LPAREN).2 with
    | none => rw [hr] at h; exact absurd h (by simp)
    | some r =>
      obtain ⟨parameters, p2⟩ := r
      rw [hr] at h
      simp only [] at h
      have h3 := parseFunctionParameters_nerr hr
      rw [e1] at h3
      by_cases h2 : (p2.expectPeek .LBRACE).1 = true
      · rw [if_pos h2] at h
        have e2 := nerr_expectPeek_true h2
        cases hb : parseBlockStatement pe fuel (p2.expectPeek .LBRACE).2 with
        | none => rw [hb] at h; exact absurd h (by simp)
        | some r2 =>
          obtain ⟨body, p3⟩ := r2
          rw [hb] at h
          simp only [Option.some.injEq, Prod.mk.injEq] at h
          obtain ⟨rfl, rfl⟩ := h
          obtain ⟨h6, h7⟩ := parseBlockStatement_good hpe hb
          rw [e2] at h6 h7
          refine ⟨by omega, fun he => ⟨_, rfl, ?_⟩⟩
          have hv := h7 (by omega)
          simp [Expression.valued, BlockStatement.valuedOpt, hv]
      · rw [if_neg h2] at h
        simp only [Option.some.injEq, Prod.mk.injEq] at h
        obtain ⟨rfl, rfl⟩ := h
        rw [nerr_expectPeek_false h2]
        exact ⟨by omega, fun he => by omega⟩
  · rw [if_neg h1] at h
    simp only [Option.some.injEq, Prod.mk.injEq] at h
    obtain ⟨rfl, rfl⟩ := h
    rw [nerr_expectPeek_false h1]
    exact ⟨by omega, fun he => by omega⟩

theorem parseIntegerLiteral_good (p : Parser) :
    p.nerr ≤ (parseIntegerLiteral p).2.nerr ∧
      ((parseIntegerLiteral p).2.nerr = p.nerr → GoodE (parseIntegerLiteral p).1) := by
  rw [parseIntegerLiteral]
  cases ParseInt p.curToken.Literal with
  | none =>
    simp only [nerr, List.length_append, List.length_singleton]
    exact ⟨by omega, fun he => by omega⟩
  | some value => exact ⟨Nat.le_refl _, fun _ => ⟨_, rfl, rfl⟩⟩

theorem callPrefix_good {pe : ParseExpressionFn} {fuel : Nat} {f : PrefixParseFn}
    {p p1 : Parser} {x : Option Expression} (hpe : PEgood pe)
    (h : callPrefix pe fuel f p = some (x, p1)) :
    p.nerr ≤ p1.nerr ∧ (p1.nerr = p.nerr → GoodE x) := by
  cases f with
  | parseIdentifier =>
    simp only [callPrefix, parseIdentifier, Option.some.injEq, Prod.mk.injEq] at h
    obtain ⟨rfl, rfl⟩ := h
    exact ⟨Nat.le_refl _, fun _ => ⟨_, rfl, rfl⟩⟩
  | parseIntegerLiteral =>
    simp only [callPrefix, Option.some.injEq] at h
    have := parseIntegerLiteral_good p
    rw [h] at this
    exact this
  | parsePrefixExpression => exact parsePrefixExpression_good hpe h
  | parseBoolean =>
    simp only [callPrefix, parseBoolean, Option.some.injEq, Prod.mk.injEq] at h
    obtain ⟨rfl, rfl⟩ := h
    exact ⟨Nat.le_refl _, fun _ => ⟨_, rfl, rfl⟩⟩
  | parseGroupedExpression => exact parseGroupedExpression_good hpe h
  | parseIfExpression => exact parseIfExpression_good hpe h
  | parseFunctionLiteral => exact parseFunctionLiteral_good hpe h
  | parseStringLiteral =>
    simp only [callPrefix, parseStringLiteral, Option.some.injEq, Prod.mk.injEq] at h
    obtain ⟨rfl, rfl⟩ := h
    exact ⟨Nat.le_refl _, fun _ => ⟨_, rfl, rfl⟩⟩
  | parseArrayLiteral => exact parseArrayLiteral_good hpe h
  | parseHashLiteral => exact parseHashLiteral_good hpe h

theorem callInfix_good {pe : ParseExpressionFn} {fuel : Nat} {f : InfixParseFn}
    {left : Option Expression} {p p1 : Parser} {x : Option Expression} (hpe : PEgood pe)
    (h : callInfix pe fuel f left p = some (x, p1)) :
    p.nerr ≤ p1.nerr ∧ (p1.nerr = p.nerr → GoodE left → GoodE x) := by
  cases f with
  | parseInfixExpression => exact parseInfixExpression_good hpe h
  | parseCallExpression => exact parseCallExpression_good hpe h
  | parseIndexExpression => exact parseIndexExpression_good hpe h

theorem parseExpressionLoop_good {pe : ParseExpressionFn} {fuel precedence : Nat}
    (hpe : PEgood pe) :
    ∀ (n : Nat) (left x : Option Expression) (q p1 : Parser),
      parseExpressionLoop pe fuel precedence n left q = some (x, p1) →
      q.nerr ≤ p1.nerr ∧ (p1.nerr = q.nerr → GoodE left → GoodE x) := by
  intro n
  induction n with
  | zero => intro _ x q p1 h; rw [parseExpressionLoop] at h; exact absurd h (by simp)
  | succ n ih =>
    intro left x q p1 h
    rw [parseExpressionLoop] at h
    by_cases hk : (!q.peekTokenIs .SEMICOLON && decide (precedence < q.peekPrecedence)) = true
    · rw [if_pos hk] at h
      cases hf : infixParseFns q.peekToken.Typ with
      | none =>
        rw [hf] at h
        simp only [Option.some.injEq, Prod.mk.injEq] at h
        obtain ⟨rfl, rfl⟩ := h
        exact ⟨Nat.le_refl _, fun _ hl => hl⟩
      | some infixFn =>
        rw [hf] at h
        simp only [] at h
        cases hr : callInfix pe fuel infixFn left q.nextToken with
        | none => rw [hr] at h; exact absurd h (by simp)
        | some r =>
          obtain ⟨left1, p2⟩ := r
          rw [hr] at h
          simp only [] at h
          obtain ⟨h1, h2⟩ := callInfix_good hpe hr
          rw [nerr_nextToken] at h1 h2
          obtain ⟨h3, h4⟩ := ih _ _ _ _ h
          exact ⟨by omega, fun he hl => h4 (by omega) (h2 (by omega) hl)⟩
    · rw [if_neg hk] at h
      simp only [Option.some.injEq, Prod.mk.injEq] at h
      obtain ⟨rfl, rfl⟩ := h
      exact ⟨Nat.le_refl _, fun _ hl => hl⟩

theorem parseExpression_good : ∀ fuel : Nat, PEgood (parseExpression fuel) := by
  intro fuel
  induction fuel with
  | zero => intro precedence q e p1 h; rw [parseExpression] at h; exact absurd h (by simp)
  | succ fuel ih =>
    intro precedence q e p1 h
    rw [parseExpression] at h
    cases hf : prefixParseFns q.curToken.Typ with
    | none =>
      rw [hf] at h
      simp only [Option.some.injEq, Prod.mk.injEq] at h
      obtain ⟨rfl, rfl⟩ := h
      simp only [nerr, noPrefixParseFnError, List.length_append, List.length_singleton]
      exact ⟨by omega, fun he => by omega⟩
    | some prefixFn =>
      rw [hf] at h
      simp only [] at h
      cases hr : callPrefix (parseExpression fuel) fuel prefixFn q with
      | none => rw [hr] at h; exact absurd h (by simp)
      | some r =>
        obtain ⟨left, p2⟩ := r
        rw [hr] at h
        simp only [] at h
        obtain ⟨h1, h2⟩ := callPrefix_good ih hr
        obtain ⟨h3, h4⟩ := parseExpressionLoop_good ih _ _ _ _ _ h
        exact ⟨by omega, fun he => h4 (by omega) (h2 (by omega))⟩

theorem ParseProgramLoop_good {fuel : Nat} :
    ∀ (n : Nat) (statements x : List Statement) (q p1 : Parser),
      ParseProgramLoop fuel n statements q = some (x, p1) →
      q.nerr ≤ p1.nerr ∧
        (p1.nerr = q.nerr → Statement.valuedAll statements = true →
          Statement.valuedAll x = true) := by
  intro n
  induction n with
  | zero => intro _ x q p1 h; rw [ParseProgramLoop] at h; exact absurd h (by simp)
  | succ n ih =>
    intro statements x q p1 h
    rw [ParseProgramLoop] at h
    by_cases hk : q.curToken.Typ ≠ .EOF
    · rw [if_pos hk] at h
      cases hr : parseStatement (parseExpression fuel) fuel q with
      | none => rw [hr] at h; exact absurd h (by simp)
      | some r =>
        obtain ⟨stmt, p2⟩ := r
        rw [hr] at h
        simp only [] at h
        obtain ⟨h1, h2⟩ := parseStatement_good (parseExpression_good fuel) hr
        obtain ⟨h3, h4⟩ := ih _ _ _ _ h
        rw [nerr_nextToken] at h3 h4
        exact ⟨by omega, fun he hs =>
          h4 (by omega) (valuedAll_appendStatement hs (h2 (by omega)))⟩
    · rw [if_neg hk] at h
      simp only [Option.some.injEq, Prod.mk.injEq] at h
      obtain ⟨rfl, rfl⟩ := h
      exact ⟨Nat.le_refl _, fun _ hs => hs⟩

theorem New_nerr (l : Lexer) : (Parser.New l).nerr = 0 := by
  simp only [nerr, Parser.New_errors, List.length_nil]

end Parser

/-- C9 (as written, refuted): the source `*` has no prefix rule for its first
token, so `parseExpression` returns nil; the expression statement is kept all
the same, with a null expression, next to the diagnostic.  The tree has one
statement, not none. -/
theorem C9_failed_expression_statement_is_kept :
    parse (bytes "*") =
      some (⟨[.ExpressionStatement ⟨.ASTERISK, bytes "*"⟩ none]⟩,
        [bytes "no prefix parse fuction for * found"]) ∧
    Statement.valued (.ExpressionStatement ⟨.ASTERISK, bytes "*"⟩ none) = false := by
  refine ⟨by rfl, by rfl⟩

/-- C9 (amended): a parse that records no diagnostic yields only statements
that are nodes with a non-null expression or value, at top level and in every
block of every `if` expression and function literal below. -/
theorem C9_clean_parse_statements_have_values (input : GoString) (program : Program)
    (h : parse input = some (program, [])) :
    Statement.valuedAll program.Statements = true := by
  simp only [parse] at h
  cases hr : Parser.ParseProgram (input.length + 3) (Parser.New (Lexer.New input)) with
  | none => rw [hr] at h; exact absurd h (by simp)
  | some r =>
    obtain ⟨prog, p⟩ := r
    rw [hr] at h
    simp only [Option.some.injEq, Prod.mk.injEq] at h
    obtain ⟨rfl, he⟩ := h
    simp only [Parser.ParseProgram] at hr
    cases hl : Parser.ParseProgramLoop (input.length + 3) (input.length + 3) []
        (Parser.New (Lexer.New input)) with
    | none => rw [hl] at hr; exact absurd hr (by simp)
    | some r2 =>
      obtain ⟨stmts, p2⟩ := r2
      rw [hl] at hr
      simp only [Option.some.injEq, Prod.mk.injEq] at hr
      obtain ⟨rfl, rfl⟩ := hr
      obtain ⟨_, h2⟩ := Parser.ParseProgramLoop_good _ _ _ _ _ hl
      refine h2 ?_ rfl
      rw [Parser.New_nerr]
      simp only [Parser.Errors] at he
      simp only [Parser.nerr, he, List.length_nil]

theorem C9_clean_parse_statements_have_values_witness :
    parse (bytes "let x = 5;") =
      some (⟨[.LetStatement ⟨.LET, bytes "let"⟩ (some ⟨⟨.IDENT, bytes "x"⟩, bytes "x"⟩)
        (some (.IntegerLiteral ⟨.INT, bytes "5"⟩ 5))]⟩, []) ∧
    Statement.valuedAll [.LetStatement ⟨.LET, bytes "let"⟩ (some ⟨⟨.IDENT, bytes "x"⟩, bytes "x"⟩)
        (some (.IntegerLiteral ⟨.INT, bytes "5"⟩ 5))] = true :=
  ⟨by rfl, C9_clean_parse_statements_have_values (bytes "let x = 5;") _ (by rfl)⟩

/-! ## Return statements -/

theorem Toks_return {r : GoString} {ts : List Token} (hr : isLetter (r.headD 0) = false)
    (h : Toks r ts) : Toks (bytes "return" ++ r) (returnToken :: ts) :=
  Toks_letters (w := bytes "return") (by decide) (by decide) hr h

theorem Parser.parseReturnStatementLoop_semicolon {n : Nat} {p : Parser}
    (h1 : p.peekToken.Typ = .SEMICOLON) (h2 : p.nextToken.peekToken.Typ ≠ .SEMICOLON) :
    parseReturnStatementLoop (n + 2) p = some p.nextToken := by
  have e1 : p.peekTokenIs .SEMICOLON = true := by simp [peekTokenIs, h1]
  have e2 : p.nextToken.peekTokenIs .SEMICOLON = false := by simp [peekTokenIs, h2]
  simp [parseReturnStatementLoop, e1, e2]

/-- C11. Return statement: for a decimal integer literal `n` without leading
zeros that fits in 64 bits, the source `return n;` parses without
diagnostics to exactly one ReturnStatement whose token literal is `return`,
whose value is the integer literal `n`, and whose canonical string is
`return n;`. -/
theorem C11_return_statement (ord : RangeOrder) (n : GoString) (hn : IsInt64Literal n) :
    parse (bytes "return " ++ n ++ bytes ";") =
      some (⟨[.ReturnStatement ⟨.RETURN, bytes "return"⟩
        (some (.IntegerLiteral ⟨.INT, n⟩ (decimalValue n)))]⟩, []) ∧
    (Statement.ReturnStatement ⟨.RETURN, bytes "return"⟩
        (some (.IntegerLiteral ⟨.INT, n⟩ (decimalValue n)))).String ord =
      some (bytes "return " ++ n ++ bytes ";") := by
  refine ⟨?_, ?_⟩
  · have htoks : Toks (bytes "return " ++ n ++ bytes ";")
        [returnToken, (Atom.int n).token, semicolonToken] := by
      have e1 : bytes "return " = bytes "return" ++ bytes " " := rfl
      simp only [e1, List.append_assoc]
      refine Toks_return rfl (Toks_space (Toks_atom (x := .int n) hn.valid rfl rfl ?_))
      have := Toks_semicolon (r := []) Toks_nil
      simpa using this
    have h0 := Sees_New htoks
    have h1 := h0.nextToken
    have h2 := h1.nextToken
    simp only [List.tail_cons] at h1 h2
    obtain ⟨g, hg⟩ : ∃ g, (bytes "return " ++ n ++ bytes ";").length + 3 = g + 2 := ⟨_, rfl⟩
    have hv := @Parser.parseExpression_atom_stop g LOWSET _ _ hn.valid h1.cur
      (by rw [h1.peek]; exact Or.inl rfl)
    rw [hn.expr, ← hg] at hv
    have hloop := @Parser.parseReturnStatementLoop_semicolon g _
      (by rw [h1.peek]; rfl) (by rw [h2.peek_eof]; decide)
    rw [← hg] at hloop
    have hstmt : Parser.parseStatement (Parser.parseExpression ((bytes "return " ++ n ++
        bytes ";").length + 3)) ((bytes "return " ++ n ++ bytes ";").length + 3)
        (Parser.New (Lexer.New (bytes "return " ++ n ++ bytes ";"))) =
        some (some (.ReturnStatement returnToken
          (some (.IntegerLiteral ⟨.INT, n⟩ (decimalValue n)))),
        (Parser.New (Lexer.New (bytes "return " ++ n ++ bytes ";"))).nextToken.nextToken) := by
      have hL : ¬ (Parser.New (Lexer.New (bytes "return " ++ n ++ bytes ";"))).curToken.Typ =
          .LET := by rw [h0.cur]; exact fun h => nomatch h
      have hR : (Parser.New (Lexer.New (bytes "return " ++ n ++ bytes ";"))).curToken.Typ =
          .RETURN := by rw [h0.cur]; rfl
      rw [Parser.parseStatement, if_neg hL, if_pos hR, Parser.parseReturnStatement, hv]
      simp only []
      rw [hloop, h0.cur]
    have := parse_single_statement (by rw [h0.cur]; exact fun h => nomatch h) hstmt
      (by rw [Parser.nextToken_curToken, h2.peek_eof]; rfl)
    rw [this]
    rfl
  · rfl

/-- C11, witness: `return 5;`. -/
theorem C11_return_statement_witness :
    IsInt64Literal (bytes "5") ∧
    parse (bytes "return 5;") =
      some (⟨[.ReturnStatement ⟨.RETURN, bytes "return"⟩
        (some (.IntegerLiteral ⟨.INT, bytes "5"⟩ 5))]⟩, []) ∧
    (parse (bytes "return 5;")).bind (fun r => r.1.String insertionOrder) = some (bytes "return 5;") :=
  ⟨by decide, (C11_return_statement insertionOrder (bytes "5") (by decide)).1, by decide⟩

/-! ## Integer literals as programs -/

theorem Parser.parseIntegerLiteral_eq {p : Parser} {d : GoString}
    (hc : p.curToken = ⟨.INT, d⟩) (he : p.errors = []) :
    parseIntegerLiteral p =
      (integerLiteralOf d, { p with errors := integerDiagnostics d }) := by
  obtain ⟨pl, pc, pk, pe⟩ := p
  simp only at hc he
  subst hc; subst he
  cases hv : ParseInt d with
  | none => simp [parseIntegerLiteral, hv, integerLiteralOf, integerDiagnostics, couldNotParse]
  | some v => simp [parseIntegerLiteral, hv, integerLiteralOf, integerDiagnostics]

theorem Parser.parseExpression_int_stop {f precedence : Nat} {p : Parser} {d : GoString}
    (hc : p.curToken = ⟨.INT, d⟩) (he : p.errors = [])
    (hs : Stops precedence p.peekToken) :
    parseExpression (f + 2) precedence p =
      some (integerLiteralOf d, { p with errors := integerDiagnostics d }) := by
  rw [parseExpression]
  have hp : prefixParseFns p.curToken.Typ = some .parseIntegerLiteral := by rw [hc]; rfl
  simp only [hp, callPrefix, parseIntegerLiteral_eq hc he]
  exact parseExpressionLoop_stop hs

/-- An integer literal alone, or followed by one semicolon, as a program. -/
theorem parse_integer_literal {d : GoString} (hne : d ≠ [])
    (hd : ∀ c ∈ d, isDigit c = true) :
    parse d = some (⟨[.ExpressionStatement ⟨.INT, d⟩ (integerLiteralOf d)]⟩,
      integerDiagnostics d) ∧
    parse (d ++ bytes ";") = some (⟨[.ExpressionStatement ⟨.INT, d⟩ (integerLiteralOf d)]⟩,
      integerDiagnostics d) := by
  constructor
  · have htoks : Toks d [⟨.INT, d⟩] := by
      have := Toks_digits hne hd (r := []) rfl Toks_nil
      simpa using this
    have h0 := Sees_New htoks
    obtain ⟨g, hg⟩ : ∃ g, d.length + 3 = g + 2 := ⟨_, rfl⟩
    have hv := @Parser.parseExpression_int_stop g LOWSET _ _ h0.cur (Parser.New_errors _)
      (by rw [h0.peek_eof]; exact Stops_eof _ (Nat.le_refl _))
    rw [← hg] at hv
    have hL : ¬ (Parser.New (Lexer.New d)).curToken.Typ = .LET := by
      rw [h0.cur]; exact fun h => nomatch h
    have hR : ¬ (Parser.New (Lexer.New d)).curToken.Typ = .RETURN := by
      rw [h0.cur]; exact fun h => nomatch h
    have hq := h0.withErrors (integerDiagnostics d)
    have hsemi : ¬ (Parser.peekTokenIs { Parser.New (Lexer.New d) with
        errors := integerDiagnostics d } .SEMICOLON) = true := by
      rw [Parser.peekTokenIs, hq.peek_eof]; exact fun h => nomatch h
    have hstmt : Parser.parseStatement (Parser.parseExpression (d.length + 3)) (d.length + 3)
        (Parser.New (Lexer.New d)) =
        some (some (.ExpressionStatement ⟨.INT, d⟩ (integerLiteralOf d)),
          { Parser.New (Lexer.New d) with errors := integerDiagnostics d }) := by
      rw [Parser.parseStatement, if_neg hL, if_neg hR, Parser.parseExpressionStatement, hv]
      simp only []
      rw [if_neg hsemi, h0.cur]
    exact parse_single_statement (by rw [h0.cur]; exact fun h => nomatch h) hstmt
      (by rw [Parser.nextToken_curToken, hq.peek_eof]; rfl)
  · have htoks : Toks (d ++ bytes ";") [⟨.INT, d⟩, semicolonToken] := by
      refine Toks_digits hne hd rfl ?_
      have := Toks_semicolon (r := []) Toks_nil
      simpa using this
    have h0 := Sees_New htoks
    obtain ⟨g, hg⟩ : ∃ g, (d ++ bytes ";").length + 3 = g + 2 := ⟨_, rfl⟩
    have hv := @Parser.parseExpression_int_stop g LOWSET _ _ h0.cur (Parser.New_errors _)
      (by rw [h0.peek]; exact Or.inl rfl)
    rw [← hg] at hv
    have hL : ¬ (Parser.New (Lexer.New (d ++ bytes ";"))).curToken.Typ = .LET := by
      rw [h0.cur]; exact fun h => nomatch h
    have hR : ¬ (Parser.New (Lexer.New (d ++ bytes ";"))).curToken.Typ = .RETURN := by
      rw [h0.cur]; exact fun h => nomatch h
    have hq := h0.withErrors (integerDiagnostics d)
    have hq1 := hq.nextToken
    simp only [List.tail_cons] at hq1
    have hsemi : (Parser.peekTokenIs { Parser.New (Lexer.New (d ++ bytes ";")) with
        errors := integerDiagnostics d } .SEMICOLON) = true := by
      rw [Parser.peekTokenIs, hq.peek]; rfl
    have hstmt : Parser.parseStatement (Parser.parseExpression ((d ++ bytes ";").length + 3))
        ((d ++ bytes ";").length + 3) (Parser.New (Lexer.New (d ++ bytes ";"))) =
        some (some (.ExpressionStatement ⟨.INT, d⟩ (integerLiteralOf d)),
          Parser.nextToken { Parser.New (Lexer.New (d ++ bytes ";")) with
            errors := integerDiagnostics d }) := by
      rw [Parser.parseStatement, if_neg hL, if_neg hR, Parser.parseExpressionStatement, hv]
      simp only []
      rw [if_pos hsemi, h0.cur]
    exact parse_single_statement (by rw [h0.cur]; exact fun h => nomatch h) hstmt
      (by rw [Parser.nextToken_curToken, hq1.peek_eof]; rfl)

/-- C12. The trailing semicolon of an expression statement is optional: for
every non-empty run of digits `d`, the sources `d` and `d;` give the same
program and the same diagnostics (one expression statement holding what
`parseIntegerLiteral` makes of `d`); for `5` and `5;` that is one
ExpressionStatement holding the IntegerLiteral with value 5 and token
literal `5`, without diagnostics. -/
theorem C12_trailing_semicolon_optional (d : GoString) (hne : d ≠ [])
    (hd : ∀ c ∈ d, isDigit c = true) :
    parse (d ++ bytes ";") = parse d ∧
    (∃ (program : Program) (errors : List GoString), parse d = some (program, errors)) ∧
    parse (bytes "5") =
      some (⟨[.ExpressionStatement ⟨.INT, bytes "5"⟩
        (some (.IntegerLiteral ⟨.INT, bytes "5"⟩ 5))]⟩, []) ∧
    parse (bytes "5;") =
      some (⟨[.ExpressionStatement ⟨.INT, bytes "5"⟩
        (some (.IntegerLiteral ⟨.INT, bytes "5"⟩ 5))]⟩, []) := by
  obtain ⟨h1, h2⟩ := parse_integer_literal hne hd
  exact ⟨by rw [h1, h2], ⟨_, _, h1⟩, by rfl, by rfl⟩

/-- C12, witness: the literal `12` with and without its semicolon. -/
theorem C12_trailing_semicolon_optional_witness :
    parse (bytes "12;") = parse (bytes "12") ∧
    parse (bytes "12") =
      some (⟨[.ExpressionStatement ⟨.INT, bytes "12"⟩
        (some (.IntegerLiteral ⟨.INT, bytes "12"⟩ 12))]⟩, []) :=
  ⟨(C12_trailing_semicolon_optional (bytes "12") (by decide) (by decide)).1, by rfl⟩

/-! ## The value of an integer literal -/

theorem digitsValue_eight (r : GoString) (hd : ∀ c ∈ r, isDigit c = true)
    (h8 : ∀ c ∈ r, c < 56) (acc : Nat) :
    digitsValue 8 acc r = some (r.foldl (fun acc c => acc * 8 + (c - 48)) acc) := by
  induction r generalizing acc with
  | nil => rfl
  | cons c r ih =>
    have hc : isDigit c = true := hd c (by simp)
    rw [Lexer.isDigit_iff] at hc
    have h56 : c < 56 := h8 c (by simp)
    have : 48 ≤ c ∧ c < 48 + 8 := by omega
    simp only [digitsValue, this, and_self, if_true, List.foldl_cons]
    exact ih (fun e he => hd e (by simp [he])) (fun e he => h8 e (by simp [he])) _

theorem digitsValue_eight_none (r : GoString) (h8 : ¬ ∀ c ∈ r, c < 56) (acc : Nat) :
    digitsValue 8 acc r = none := by
  induction r generalizing acc with
  | nil => exact absurd (fun c hc => nomatch hc) h8
  | cons c r ih =>
    rw [digitsValue]
    by_cases hc : 48 ≤ c ∧ c < 48 + 8
    · rw [if_pos hc]
      refine ih (fun h => h8 ?_) _
      intro e he
      rcases List.mem_cons.1 he with rfl | he
      · omega
      · exact h e he
    · rw [if_neg hc]

theorem ParseInt_decimal {d : GoString} (hne : d ≠ []) (hd : ∀ c ∈ d, isDigit c = true)
    (hz : d.headD 0 ≠ 48 ∨ d = [48]) :
    ParseInt d = if decimalValue d ≤ 2 ^ 63 - 1 then some (decimalValue d : Int) else none := by
  obtain ⟨c, r, rfl⟩ := List.exists_cons_of_ne_nil hne
  rcases hz with hz | hz
  · simp only [List.headD_cons] at hz
    have h10 := digitsValue_ten (c :: r) hd 0
    simp only [ParseInt, hz, if_false, h10]
    rfl
  · cases hz
    rfl

theorem ParseInt_octal {r : GoString} (hd : ∀ c ∈ r, isDigit c = true) :
    ParseInt (48 :: r) =
      if (∀ c ∈ r, c < 56) ∧ octalValue r ≤ 2 ^ 63 - 1 then some (octalValue r : Int)
      else none := by
  by_cases h8 : ∀ c ∈ r, c < 56
  · have h := digitsValue_eight r hd h8 0
    simp only [ParseInt, if_true, h]
    by_cases hle : octalValue r ≤ 2 ^ 63 - 1
    · rw [if_pos (show (∀ c ∈ r, c < 56) ∧ octalValue r ≤ 2 ^ 63 - 1 from ⟨h8, hle⟩)]
      exact if_pos hle
    · rw [if_neg (show ¬ ((∀ c ∈ r, c < 56) ∧ octalValue r ≤ 2 ^ 63 - 1) from
        fun hh => hle hh.2)]
      exact if_neg hle
  · have h := digitsValue_eight_none r h8 0
    simp only [ParseInt, if_true, h, h8, false_and, if_false]

/-- C17 (as written, refuted): `010` has the decimal value 10, which fits, and
parses to the IntegerLiteral with value 8; `08` has the decimal value 8 and
parses to a diagnostic and no IntegerLiteral. -/
theorem C17_leading_zero_is_not_decimal :
    decimalValue (bytes "010") = 10 ∧
    parse (bytes "010") =
      some (⟨[.ExpressionStatement ⟨.INT, bytes "010"⟩
        (some (.IntegerLiteral ⟨.INT, bytes "010"⟩ 8))]⟩, []) ∧
    decimalValue (bytes "08") = 8 ∧
    parse (bytes "08") =
      some (⟨[.ExpressionStatement ⟨.INT, bytes "08"⟩ none]⟩,
        [bytes "could not parse \"08\" as integer"]) :=
  ⟨by rfl, by rfl, by rfl, by rfl⟩

/-- C17 (amended): a non-empty run of digits `d` as a program is one
expression statement.  When `d` does not start with `0`, or is `0` itself,
it is read in base 10: with the value `v` of `d` at most `2^63 - 1` the
statement holds the IntegerLiteral with value `v` and there is no
diagnostic; with `v` above it holds nil and the diagnostic is the
conversion one.  When `d` is `0` followed by `r`, `r` is read in base 8:
with every digit of `r` at most `7` and the base 8 value of `r` at most
`2^63 - 1` the IntegerLiteral has that value, without diagnostic; otherwise
the statement holds nil and the diagnostic is the conversion one. -/
theorem C17_integer_literal_value (d : GoString) (hne : d ≠ [])
    (hd : ∀ c ∈ d, isDigit c = true) :
    ((d.headD 0 ≠ 48 ∨ d = [48]) →
      (decimalValue d ≤ 2 ^ 63 - 1 →
        parse d = some (⟨[.ExpressionStatement ⟨.INT, d⟩
          (some (.IntegerLiteral ⟨.INT, d⟩ (decimalValue d)))]⟩, [])) ∧
      (2 ^ 63 - 1 < decimalValue d →
        parse d = some (⟨[.ExpressionStatement ⟨.INT, d⟩ none]⟩, [couldNotParse d]))) ∧
    (∀ r : GoString, d = 48 :: r →
      ((∀ c ∈ r, c < 56) → octalValue r ≤ 2 ^ 63 - 1 →
        parse d = some (⟨[.ExpressionStatement ⟨.INT, d⟩
          (some (.IntegerLiteral ⟨.INT, d⟩ (octalValue r)))]⟩, [])) ∧
      (¬ ((∀ c ∈ r, c < 56) ∧ octalValue r ≤ 2 ^ 63 - 1) →
        parse d = some (⟨[.ExpressionStatement ⟨.INT, d⟩ none]⟩, [couldNotParse d]))) := by
  have hp := (parse_integer_literal hne hd).1
  refine ⟨fun hz => ?_, fun r hr => ?_⟩
  · have hv := ParseInt_decimal hne hd hz
    refine ⟨fun hle => ?_, fun hlt => ?_⟩
    · rw [if_pos hle] at hv
      rw [hp]
      simp only [integerLiteralOf, integerDiagnostics, hv]
    · rw [if_neg (by omega)] at hv
      rw [hp]
      simp only [integerLiteralOf, integerDiagnostics, hv]
  · subst hr
    have hv := ParseInt_octal (fun c hc => hd c (List.mem_cons_of_mem _ hc))
    refine ⟨fun h8 hle => ?_, fun hn => ?_⟩
    · rw [if_pos ⟨h8, hle⟩] at hv
      rw [hp]
      simp only [integerLiteralOf, integerDiagnostics, hv]
    · rw [if_neg hn] at hv
      rw [hp]
      simp only [integerLiteralOf, integerDiagnostics, hv]

/-- C17, witness: `42` is read in base 10, `010` in base 8, and the decimal
literal `9223372036854775808` is one above the largest value. -/
theorem C17_integer_literal_value_witness :
    parse (bytes "42") =
      some (⟨[.ExpressionStatement ⟨.INT, bytes "42"⟩
        (some (.IntegerLiteral ⟨.INT, bytes "42"⟩ 42))]⟩, []) ∧
    parse (bytes "010") =
      some (⟨[.ExpressionStatement ⟨.INT, bytes "010"⟩
        (some (.IntegerLiteral ⟨.INT, bytes "010"⟩ 8))]⟩, []) ∧
    parse (bytes "9223372036854775808") =
      some (⟨[.ExpressionStatement ⟨.INT, bytes "9223372036854775808"⟩ none]⟩,
        [bytes "could not parse \"9223372036854775808\" as integer"]) :=
  ⟨((C17_integer_literal_value (bytes "42") (by decide) (by decide)).1
      (Or.inl (by decide))).1 (by decide),
    ((C17_integer_literal_value (bytes "010") (by decide) (by decide)).2
      (bytes "10") rfl).1 (by decide) (by decide),
    ((C17_integer_literal_value (bytes "9223372036854775808") (by decide) (by decide)).1
      (Or.inl (by decide))).2 (by decide)⟩

/-! ## A token without a prefix parse function -/

/-- C18. Missing prefix handler: the token kinds without a registered prefix
parse function are those other than IDENT, INT, STRING, `!`, `-`, true,
false, `(`, `[`, `{`, if, fn; in a parser whose current token is of such a
kind, `parseExpression` returns nil and leaves the parser as it was (lexer,
current and peek token) but for one more diagnostic, the last, which names
the kind. -/
theorem C18_missing_prefix_handler (fuel precedence : Nat) (p : Parser)
    (h : p.curToken.Typ ∉ [TokenType.IDENT, .INT, .STRING, .BANG, .MINUS, .TRUE, .FALSE,
      .LPAREN, .LBRACKET, .LBRACE, .IF, .FUNCTION]) :
    prefixParseFns p.curToken.Typ = none ∧
    Parser.parseExpression (fuel + 1) precedence p =
      some (none, { p with errors := p.errors ++
        [bytes "no prefix parse fuction for " ++ p.curToken.Typ.str ++ bytes " found"] }) ∧
    (∀ t : TokenType, prefixParseFns t = none ↔
      t ∉ [TokenType.IDENT, .INT, .STRING, .BANG, .MINUS, .TRUE, .FALSE,
        .LPAREN, .LBRACKET, .LBRACE, .IF, .FUNCTION]) := by
  have hall : ∀ t : TokenType, prefixParseFns t = none ↔
      t ∉ [TokenType.IDENT, .INT, .STRING, .BANG, .MINUS, .TRUE, .FALSE,
        .LPAREN, .LBRACKET, .LBRACE, .IF, .FUNCTION] := by
    intro t
    cases t <;> decide
  have hp := (hall _).2 h
  refine ⟨hp, ?_, hall⟩
  rw [Parser.parseExpression, hp]
  rfl

/-- C18, witness: the program `*`.  Its first token has no prefix parse
function; `parseExpression` on the fresh parser returns nil with the one
diagnostic for `*`, and that is the only diagnostic of the parse. -/
theorem C18_missing_prefix_handler_witness :
    Parser.parseExpression 4 LOWSET (Parser.New (Lexer.New (bytes "*"))) =
      some (none, { Parser.New (Lexer.New (bytes "*")) with
        errors := [bytes "no prefix parse fuction for * found"] }) ∧
    (parse (bytes "*")).map Prod.snd = some [bytes "no prefix parse fuction for * found"] :=
  ⟨(C18_missing_prefix_handler 3 LOWSET (Parser.New (Lexer.New (bytes "*"))) (by decide)).2.1,
    by rfl⟩

/-! ## A list without its terminator -/

theorem Parser.parseExpressionList_cases {pe : ParseExpressionFn} {fuel : Nat}
    {endTok : TokenType} {p p1 : Parser} {list : Option (List (Option Expression))}
    (h : parseExpressionList pe fuel endTok p = some (list, p1)) :
    ((∃ l, list = some l) ∧ p1.curToken.Typ = endTok) ∨
    (list = none ∧ ∃ p0 : Parser, p0.peekToken.Typ ≠ endTok ∧ p1 = p0.peekError endTok) := by
  rw [parseExpressionList] at h
  by_cases hk : p.peekTokenIs endTok = true
  · rw [if_pos hk] at h
    simp only [Option.some.injEq, Prod.mk.injEq] at h
    obtain ⟨rfl, rfl⟩ := h
    exact Or.inl ⟨⟨_, rfl⟩, by simpa [peekTokenIs] using hk⟩
  · rw [if_neg hk] at h
    cases hr : pe LOWSET p.nextToken with
    | none => rw [hr] at h; exact absurd h (by simp)
    | some r =>
      obtain ⟨e, p2⟩ := r
      rw [hr] at h
      simp only [] at h
      cases hl : parseExpressionListLoop pe fuel [e] p2 with
      | none => rw [hl] at h; exact absurd h (by simp)
      | some r2 =>
        obtain ⟨l, p3⟩ := r2
        rw [hl] at h
        simp only [] at h
        by_cases hb : p3.peekTokenIs endTok = true
        · simp only [expectPeek, hb, if_true, Option.some.injEq, Prod.mk.injEq] at h
          obtain ⟨rfl, rfl⟩ := h
          exact Or.inl ⟨⟨_, rfl⟩, by simpa [peekTokenIs] using hb⟩
        · simp only [expectPeek, hb, if_false, Option.some.injEq, Prod.mk.injEq,
            Bool.false_eq_true] at h
          obtain ⟨rfl, rfl⟩ := h
          exact Or.inr ⟨rfl, p3, by simpa [peekTokenIs] using hb, rfl⟩

/-- C16 (as written, refuted): in `add(1, 2` and in `[1, 2` the list is not
closed; the helper records the diagnostic and returns a nil list, and the
program holds a CallExpression, an ArrayLiteral, whose list is nil. -/
theorem C16_unclosed_list_node_is_kept :
    parse (bytes "add(1, 2") =
      some (⟨[.ExpressionStatement ⟨.IDENT, bytes "add"⟩
        (some (.CallExpression ⟨.LPAREN, bytes "("⟩
          (some (.Identifier ⟨.IDENT, bytes "add"⟩ (bytes "add"))) none))]⟩,
        [bytes "expected next token no be ), got EOF instead"]) ∧
    parse (bytes "[1, 2") =
      some (⟨[.ExpressionStatement ⟨.LBRACKET, bytes "["⟩
        (some (.ArrayLiteral ⟨.LBRACKET, bytes "["⟩ none))]⟩,
        [bytes "expected next token no be [, got EOF instead"]) :=
  ⟨by rfl, by rfl⟩

/-- C16 (amended): on a well-formed parser whose current token is not end
of input, with enough of the counter, `parseExpressionList` returns, and
either the list is not nil and the terminator was consumed (it is the
current token), or the list is nil and the parser is one whose peek token is
not the terminator with the expected-token diagnostic for the terminator
appended.  In both cases `parseCallExpression` and `parseArrayLiteral`
return a CallExpression and an ArrayLiteral node carrying that list, nil
included, never nil. -/
theorem C16_missing_terminator_keeps_node (fuel : Nat) (endTok : TokenType) (p : Parser)
    (hI : p.Inv) (hc : p.curToken.Typ ≠ .EOF) (hw : p.weight + 1 ≤ fuel) :
    ∃ (list : Option (List (Option Expression))) (p1 : Parser),
      Parser.parseExpressionList (Parser.parseExpression fuel) fuel endTok p =
        some (list, p1) ∧
      (((∃ l, list = some l) ∧ p1.curToken.Typ = endTok) ∨
        (list = none ∧
          ∃ p0 : Parser, p0.peekToken.Typ ≠ endTok ∧ p1 = p0.peekError endTok)) ∧
      (endTok = .RPAREN → ∀ function : Option Expression,
        Parser.parseCallExpression (Parser.parseExpression fuel) fuel function p =
          some (some (.CallExpression p.curToken function list), p1)) ∧
      (endTok = .RBRACKET →
        Parser.parseArrayLiteral (Parser.parseExpression fuel) fuel p =
          some (some (.ArrayLiteral p.curToken list), p1)) := by
  have h1 : 1 ≤ p.weight := by
    have := tokenWeight_of_ne hc
    simp only [Parser.weight]
    omega
  have hpe : PEok (Parser.parseExpression fuel) (fuel - 2) := fun precedence q hq hq2 =>
    Parser.parseExpression_total fuel precedence q hq (by omega)
  obtain ⟨list, p1, h, _⟩ := @Parser.parseExpressionList_total _ (fuel - 2) fuel p endTok hpe
    hI hc (by omega) (by omega)
  refine ⟨list, p1, h, Parser.parseExpressionList_cases h, ?_, ?_⟩
  · rintro rfl function
    simp only [Parser.parseCallExpression, h]
  · rintro rfl
    simp only [Parser.parseArrayLiteral, h]

/-- C16, witness: the parser at the `[` of `[1, 2`, where the list is nil
and the node is an ArrayLiteral. -/
theorem C16_missing_terminator_keeps_node_witness :
    (∃ (list : Option (List (Option Expression))) (p1 : Parser),
      Parser.parseExpressionList (Parser.parseExpression 9) 9 .RBRACKET
          (Parser.New (Lexer.New (bytes "[1, 2"))) = some (list, p1) ∧
      (((∃ l, list = some l) ∧ p1.curToken.Typ = .RBRACKET) ∨
        (list = none ∧
          ∃ p0 : Parser, p0.peekToken.Typ ≠ .RBRACKET ∧ p1 = p0.peekError .RBRACKET)) ∧
      (TokenType.RBRACKET = .RPAREN → ∀ function : Option Expression,
        Parser.parseCallExpression (Parser.parseExpression 9) 9 function
            (Parser.New (Lexer.New (bytes "[1, 2"))) =
          some (some (.CallExpression (Parser.New (Lexer.New (bytes "[1, 2"))).curToken
            function list), p1)) ∧
      (TokenType.RBRACKET = .RBRACKET →
        Parser.parseArrayLiteral (Parser.parseExpression 9) 9
            (Parser.New (Lexer.New (bytes "[1, 2"))) =
          some (some (.ArrayLiteral (Parser.New (Lexer.New (bytes "[1, 2"))).curToken list),
            p1))) ∧
    Parser.parseArrayLiteral (Parser.parseExpression 9) 9
        (Parser.New (Lexer.New (bytes "[1, 2"))) =
      some (some (.ArrayLiteral ⟨.LBRACKET, bytes "["⟩ none),
        (Parser.New (Lexer.New (bytes "[1, 2"))).nextToken.nextToken.nextToken.peekError
          .RBRACKET) :=
  ⟨C16_missing_terminator_keeps_node 9 .RBRACKET (Parser.New (Lexer.New (bytes "[1, 2")))
    (Parser.New_inv_weight (bytes "[1, 2")).1 (by decide) (by decide), by rfl⟩

/-! ## Tokens in parameter position -/

/-- C19 (the code at `fn(@){}`): the token stream has the illegal
token `@` before end of input, and the parse records no diagnostic: the
token becomes a parameter of the function literal. -/
theorem C19_illegal_parameter_not_reported :
    (Lexer.New (bytes "fn(@)\x7b\x7d")).tokens 8 =
      [⟨.FUNCTION, bytes "fn"⟩, ⟨.LPAREN, bytes "("⟩, ⟨.ILLEGAL, bytes "@"⟩,
        ⟨.RPAREN, bytes ")"⟩, ⟨.LBRACE, bytes "\x7b"⟩, ⟨.RBRACE, bytes "\x7d"⟩] ∧
    parse (bytes "fn(@)\x7b\x7d") =
      some (⟨[.ExpressionStatement ⟨.FUNCTION, bytes "fn"⟩
        (some (.FunctionLiteral ⟨.FUNCTION, bytes "fn"⟩
          (some [⟨⟨.ILLEGAL, bytes "@"⟩, bytes "@"⟩])
          (some (.mk ⟨.LBRACE, bytes "\x7b"⟩ []))))]⟩, []) :=
  ⟨by rfl, by rfl⟩

/-- C20 (the code at `fn(1, 2) {}`): the two parameters of the
function literal are Identifier nodes built from the tokens `1` and `2` of
kind INT, and there is no diagnostic. -/
theorem C20_integer_tokens_become_parameters :
    parse (bytes "fn(1, 2) \x7b\x7d") =
      some (⟨[.ExpressionStatement ⟨.FUNCTION, bytes "fn"⟩
        (some (.FunctionLiteral ⟨.FUNCTION, bytes "fn"⟩
          (some [⟨⟨.INT, bytes "1"⟩, bytes "1"⟩, ⟨⟨.INT, bytes "2"⟩, bytes "2"⟩])
          (some (.mk ⟨.LBRACE, bytes "\x7b"⟩ []))))]⟩, []) := by
  rfl

/-! ## Comma-separated lists of identifiers -/

theorem stringsJoin_cons (a : GoString) (bs : List GoString) :
    stringsJoin (a :: bs) (bytes ", ") = a ++ restText bs := by
  induction bs generalizing a with
  | nil => simp [stringsJoin, restText]
  | cons b bs ih =>
    rw [stringsJoin, ih b]
    simp [restText, List.append_assoc]

theorem restText_length (bs : List GoString) : bs.length ≤ (restText bs).length := by
  induction bs with
  | nil => simp [restText]
  | cons b bs ih =>
    have h2 : (bytes ", ").length = 2 := rfl
    simp only [restText, List.length_cons, List.length_append, h2]
    omega

theorem stringsJoin_length (l : List GoString) (hl : ∀ a ∈ l, IsIdent a) :
    l.length ≤ (stringsJoin l (bytes ", ")).length := by
  cases l with
  | nil => simp
  | cons a bs =>
    rw [stringsJoin_cons]
    have h1 : 1 ≤ a.length := List.length_pos.2 (hl a (by simp)).1
    have h2 := restText_length bs
    simp only [List.length_cons, List.length_append]
    omega

theorem restText_head {bs : List GoString} {r : GoString}
    (hr : isLetter (r.headD 0) = false) : isLetter ((restText bs ++ r).headD 0) = false := by
  cases bs with
  | nil => simpa [restText] using hr
  | cons b bs => rfl

theorem Toks_comma {r : GoString} {ts : List Token} (h : Toks r ts) :
    Toks (bytes "," ++ r) (commaToken :: ts) :=
  Toks_singleChar (c := 44) (t := .COMMA) (by simp [Lexer.singleCharTokens]) h

theorem Toks_lbrace {r : GoString} {ts : List Token} (h : Toks r ts) :
    Toks (bytes "\x7b" ++ r) (lbraceToken :: ts) :=
  Toks_singleChar (c := 123) (t := .LBRACE) (by simp [Lexer.singleCharTokens]) h

theorem Toks_rbrace {r : GoString} {ts : List Token} (h : Toks r ts) :
    Toks (bytes "\x7d" ++ r) (rbraceToken :: ts) :=
  Toks_singleChar (c := 125) (t := .RBRACE) (by simp [Lexer.singleCharTokens]) h

theorem Toks_restText {bs : List GoString} {r : GoString} {ts : List Token}
    (hbs : ∀ b ∈ bs, IsIdent b) (hr : isLetter (r.headD 0) = false) (h : Toks r ts) :
    Toks (restText bs ++ r) (restTokens bs ++ ts) := by
  induction bs with
  | nil => simpa [restText, restTokens] using h
  | cons b bs ih =>
    have e : restText (b :: bs) ++ r = bytes "," ++ (bytes " " ++ (b ++ (restText bs ++ r))) := by
      simp [restText, List.append_assoc]
      rfl
    rw [e]
    exact Toks_comma (Toks_space (Toks_ident (hbs b (by simp)) (restText_head hr)
      (ih (fun c hc => hbs c (by simp [hc])))))

theorem Toks_listText {l : List GoString} {r : GoString} {ts : List Token}
    (hl : ∀ a ∈ l, IsIdent a) (hr : isLetter (r.headD 0) = false) (h : Toks r ts) :
    Toks (stringsJoin l (bytes ", ") ++ r) (listTokens l ++ ts) := by
  cases l with
  | nil => simpa [stringsJoin, listTokens] using h
  | cons a bs =>
    rw [stringsJoin_cons, List.append_assoc]
    exact Toks_ident (hl a (by simp)) (restText_head hr)
      (Toks_restText (fun c hc => hl c (by simp [hc])) hr h)

/-! ## Function parameters -/

theorem Parser.parseFunctionParametersLoop_rest {tail : List Token}
    (htail : (tail.headD eofToken).Typ ≠ .COMMA) :
    ∀ (bs : List GoString) (n : Nat) (acc : List Identifier) (q : Parser) (x : Token),
      bs.length < n → Sees q (x :: (restTokens bs ++ tail)) →
      ∃ (q1 : Parser) (y : Token),
        parseFunctionParametersLoop n acc q =
          some (acc ++ bs.map (fun b => (⟨identToken b, b⟩ : Identifier)), q1) ∧
        Sees q1 (y :: tail) ∧ q1.errors = q.errors := by
  intro bs
  induction bs with
  | nil =>
    intro n acc q x hn h
    obtain ⟨m, rfl⟩ : ∃ m, n = m + 1 := ⟨n - 1, by simp at hn; omega⟩
    simp only [restTokens, List.nil_append] at h
    have hk : ¬ q.peekTokenIs .COMMA = true := by
      simpa [peekTokenIs, h.peek_headD] using htail
    refine ⟨q, x, ?_, h, rfl⟩
    rw [parseFunctionParametersLoop, if_neg hk]
    simp
  | cons b bs ih =>
    intro n acc q x hn h
    obtain ⟨m, rfl⟩ : ∃ m, n = m + 1 := ⟨n - 1, by simp at hn; omega⟩
    simp only [restTokens, List.cons_append] at h
    have hk : q.peekTokenIs .COMMA = true := by
      rw [peekTokenIs, h.peek]; rfl
    have h2 := h.nextToken.nextToken
    simp only [List.tail_cons] at h2
    obtain ⟨q1, y, e1, s1, r1⟩ := ih m
      (acc ++ [⟨q.nextToken.nextToken.curToken, q.nextToken.nextToken.curToken.Literal⟩])
      q.nextToken.nextToken (identToken b) (by simp at hn; omega) h2
    refine ⟨q1, y, ?_, s1, r1⟩
    rw [parseFunctionParametersLoop, if_pos hk, e1, h2.cur]
    simp [identToken]

theorem Parser.parseFunctionParameters_idents {ps : List GoString} {fuel : Nat} {p : Parser}
    {rest : List Token} (hf : ps.length < fuel + 1)
    (h : Sees p (lparenToken :: (listTokens ps ++ rparenToken :: rest))) :
    ∃ p1 : Parser,
      parseFunctionParameters fuel p =
        some (some (ps.map (fun b => (⟨identToken b, b⟩ : Identifier))), p1) ∧
      Sees p1 (rparenToken :: rest) ∧ p1.errors = p.errors := by
  cases ps with
  | nil =>
    simp only [listTokens, List.nil_append] at h
    have hk : p.peekTokenIs .RPAREN = true := by rw [peekTokenIs, h.peek]; rfl
    refine ⟨p.nextToken, ?_, h.nextToken, rfl⟩
    rw [parseFunctionParameters, if_pos hk]
    rfl
  | cons a bs =>
    simp only [listTokens, List.cons_append] at h
    have hk : ¬ p.peekTokenIs .RPAREN = true := by
      rw [peekTokenIs, h.peek]; exact fun h => nomatch h
    have h1 := h.nextToken
    simp only [List.tail_cons] at h1
    obtain ⟨q1, y, e1, s1, r1⟩ := parseFunctionParametersLoop_rest
      (show ((rparenToken :: rest).headD eofToken).Typ ≠ .COMMA from fun h => nomatch h)
      bs fuel [⟨p.nextToken.curToken, p.nextToken.curToken.Literal⟩] p.nextToken
      (identToken a) (by simp at hf; omega) h1
    have hb : q1.peekTokenIs .RPAREN = true := by rw [peekTokenIs, s1.peek]; rfl
    refine ⟨q1.nextToken, ?_, s1.nextToken, r1⟩
    rw [parseFunctionParameters, if_neg hk, e1]
    simp only [expectPeek, hb, if_true, h1.cur]
    simp [identToken]

/-- An empty block `{ }`: the left brace is current. -/
theorem Parser.parseBlockStatement_empty {pe : ParseExpressionFn} {fuel : Nat} {p : Parser}
    {rest : List Token} (h : Sees p (lbraceToken :: rbraceToken :: rest)) :
    parseBlockStatement pe (fuel + 1) p = some (.mk lbraceToken [], p.nextToken) := by
  have h1 := h.nextToken
  simp only [List.tail_cons] at h1
  have hc : p.nextToken.curTokenIs .RBRACE = true := by rw [curTokenIs, h1.cur]; rfl
  rw [parseBlockStatement, parseBlockStatementLoop]
  simp [hc, h.cur]

theorem Parser.parseFunctionLiteral_idents {pe : ParseExpressionFn} {ps : List GoString}
    {fuel : Nat} {p : Parser} {rest : List Token} (hf : ps.length < fuel + 2)
    (h : Sees p (functionToken :: lparenToken ::
      (listTokens ps ++ rparenToken :: lbraceToken :: rbraceToken :: rest))) :
    ∃ p1 : Parser,
      parseFunctionLiteral pe (fuel + 1) p =
        some (some (.FunctionLiteral functionToken
          (some (ps.map (fun b => (⟨identToken b, b⟩ : Identifier))))
          (some (.mk lbraceToken []))), p1) ∧
      Sees p1 (rbraceToken :: rest) ∧ p1.errors = p.errors := by
  have h1 := h.nextToken
  simp only [List.tail_cons] at h1
  have hk : p.peekTokenIs .LPAREN = true := by rw [peekTokenIs, h.peek]; rfl
  obtain ⟨p2, e2, s2, r2⟩ := parseFunctionParameters_idents hf h1
  have hb : p2.peekTokenIs .LBRACE = true := by rw [peekTokenIs, s2.peek]; rfl
  have s3 := s2.nextToken
  simp only [List.tail_cons] at s3
  have e3 := @parseBlockStatement_empty pe fuel _ _ s3
  refine ⟨p2.nextToken.nextToken, ?_, s3.nextToken, r2⟩
  rw [parseFunctionLiteral]
  simp only [expectPeek, hk, if_true, e2, hb, e3, h.cur]

/-- C14. Function literal parameters keep source order: for every list of
identifiers `p1, ..., pn` (`n` may be 0), the source `fn(p1, ..., pn) {};`
parses without diagnostics to one expression statement holding a
FunctionLiteral whose parameters are the identifiers `p1, ..., pn` in that
order, with these values, and whose body has no statements. -/
theorem C14_function_parameters_keep_order (ps : List GoString)
    (hps : ∀ a ∈ ps, IsIdent a) :
    parse (bytes "fn(" ++ stringsJoin ps (bytes ", ") ++ bytes ") \x7b\x7d;") =
      some (⟨[.ExpressionStatement functionToken
        (some (.FunctionLiteral functionToken
          (some (ps.map (fun b => (⟨identToken b, b⟩ : Identifier))))
          (some (.mk lbraceToken []))))]⟩, []) ∧
    (ps.map (fun b => (⟨identToken b, b⟩ : Identifier))).map Identifier.Value = ps := by
  refine ⟨?_, by simp [List.map_map, Function.comp_def]⟩
  have htoks : Toks (bytes "fn(" ++ stringsJoin ps (bytes ", ") ++ bytes ") \x7b\x7d;")
      (functionToken :: lparenToken ::
        (listTokens ps ++ [rparenToken, lbraceToken, rbraceToken, semicolonToken])) := by
    have e1 : bytes "fn(" = bytes "fn" ++ bytes "(" := rfl
    have e2 : bytes ") \x7b\x7d;" =
        bytes ")" ++ (bytes " " ++ (bytes "\x7b" ++ (bytes "\x7d" ++ bytes ";"))) := rfl
    simp only [e1, e2, List.append_assoc]
    have hfn : Toks (bytes "fn" ++ (bytes "(" ++ (stringsJoin ps (bytes ", ") ++
        (bytes ")" ++ (bytes " " ++ (bytes "\x7b" ++ (bytes "\x7d" ++ bytes ";")))))))
        (⟨LookupIdent (bytes "fn"), bytes "fn"⟩ :: lparenToken ::
          (listTokens ps ++ [rparenToken, lbraceToken, rbraceToken, semicolonToken])) := by
      refine Toks_letters (by decide) (by decide) rfl (Toks_lparen (Toks_listText hps rfl
        (Toks_rparen (Toks_space (Toks_lbrace (Toks_rbrace ?_))))))
      have := Toks_semicolon (r := []) Toks_nil
      simpa using this
    exact hfn
  have h0 := Sees_New htoks
  have hlen := stringsJoin_length ps hps
  have hl1 : (bytes "fn(").length = 3 := rfl
  obtain ⟨g, hg⟩ : ∃ g, (bytes "fn(" ++ stringsJoin ps (bytes ", ") ++
      bytes ") \x7b\x7d;").length + 3 = g + 3 := ⟨_, rfl⟩
  have hgl : ps.length < g + 2 := by
    simp only [List.length_append, hl1] at hg
    omega
  obtain ⟨p1, e1, s1, r1⟩ := @Parser.parseFunctionLiteral_idents (Parser.parseExpression (g + 2))
    ps (g + 1) _ [semicolonToken] (by omega) h0
  have hpe : Parser.parseExpression ((bytes "fn(" ++ stringsJoin ps (bytes ", ") ++
      bytes ") \x7b\x7d;").length + 3) LOWSET (Parser.New (Lexer.New (bytes "fn(" ++
      stringsJoin ps (bytes ", ") ++ bytes ") \x7b\x7d;"))) =
      some (some (.FunctionLiteral functionToken
        (some (ps.map (fun b => (⟨identToken b, b⟩ : Identifier))))
        (some (.mk lbraceToken []))), p1) := by
    rw [hg, Parser.parseExpression]
    have hp : prefixParseFns (Parser.New (Lexer.New (bytes "fn(" ++
        stringsJoin ps (bytes ", ") ++ bytes ") \x7b\x7d;"))).curToken.Typ =
        some .parseFunctionLiteral := by rw [h0.cur]; rfl
    simp only [hp, Parser.callPrefix, e1]
    exact Parser.parseExpressionLoop_stop (by rw [s1.peek]; exact Or.inl rfl)
  exact parse_of_parseExpression htoks
    ⟨(fun h => nomatch h), (fun h => nomatch h), (fun h => nomatch h)⟩ hpe (Or.inr s1)
    (by rw [r1]; rfl)

/-- C14, witness: `fn() {};` has no parameter, `fn(x, y, z) {};` and
`fn(x, y, z){};` have the parameters `x`, `y`, `z`. -/
theorem C14_function_parameters_keep_order_witness :
    parse (bytes "fn() \x7b\x7d;") =
      some (⟨[.ExpressionStatement functionToken
        (some (.FunctionLiteral functionToken (some []) (some (.mk lbraceToken []))))]⟩, []) ∧
    parse (bytes "fn(x, y, z) \x7b\x7d;") =
      some (⟨[.ExpressionStatement functionToken
        (some (.FunctionLiteral functionToken
          (some [⟨identToken (bytes "x"), bytes "x"⟩, ⟨identToken (bytes "y"), bytes "y"⟩,
            ⟨identToken (bytes "z"), bytes "z"⟩])
          (some (.mk lbraceToken []))))]⟩, []) ∧
    parse (bytes "fn(x, y, z)\x7b\x7d;") =
      some (⟨[.ExpressionStatement functionToken
        (some (.FunctionLiteral functionToken
          (some [⟨identToken (bytes "x"), bytes "x"⟩, ⟨identToken (bytes "y"), bytes "y"⟩,
            ⟨identToken (bytes "z"), bytes "z"⟩])
          (some (.mk lbraceToken []))))]⟩, []) :=
  ⟨(C14_function_parameters_keep_order [] (by simp)).1,
    (C14_function_parameters_keep_order [bytes "x", bytes "y", bytes "z"] (by decide)).1,
    by rfl⟩

/-! ## Arguments of a call and elements of an array -/

theorem Closes_comma : Closes commaToken := Closes_of_precedences rfl

theorem Closes_restTokens_head {bs : List GoString} {tail : List Token}
    (hclose : Closes (tail.headD eofToken)) :
    Closes ((restTokens bs ++ tail).headD eofToken) := by
  cases bs with
  | nil => simpa [restTokens] using hclose
  | cons b bs => exact Closes_comma

theorem Parser.parseExpressionListLoop_rest {g : Nat} {tail : List Token}
    (htail : (tail.headD eofToken).Typ ≠ .COMMA) (hclose : Closes (tail.headD eofToken)) :
    ∀ (bs : List GoString) (n : Nat) (acc : List (Option Expression)) (q : Parser) (x : Token),
      bs.length < n → Sees q (x :: (restTokens bs ++ tail)) →
      ∃ (q1 : Parser) (y : Token),
        parseExpressionListLoop (parseExpression (g + 2)) n acc q =
          some (acc ++ bs.map (fun b => some (identExpr b)), q1) ∧
        Sees q1 (y :: tail) ∧ q1.errors = q.errors := by
  intro bs
  induction bs with
  | nil =>
    intro n acc q x hn h
    obtain ⟨m, rfl⟩ : ∃ m, n = m + 1 := ⟨n - 1, by simp at hn; omega⟩
    simp only [restTokens, List.nil_append] at h
    have hk : ¬ q.peekTokenIs .COMMA = true := by
      simpa [peekTokenIs, h.peek_headD] using htail
    refine ⟨q, x, ?_, h, rfl⟩
    rw [parseExpressionListLoop, if_neg hk]
    simp
  | cons b bs ih =>
    intro n acc q x hn h
    obtain ⟨m, rfl⟩ : ∃ m, n = m + 1 := ⟨n - 1, by simp at hn; omega⟩
    simp only [restTokens, List.cons_append] at h
    have hk : q.peekTokenIs .COMMA = true := by
      rw [peekTokenIs, h.peek]; rfl
    have h2 := h.nextToken.nextToken
    simp only [List.tail_cons] at h2
    have hin := @parseExpression_ident_stop g LOWSET _ _ h2.cur
      (by rw [h2.peek_headD]; exact Closes_restTokens_head hclose _ (Nat.le_refl _))
    obtain ⟨q1, y, e1, s1, r1⟩ := ih m (acc ++ [some (identExpr b)])
      q.nextToken.nextToken (identToken b) (by simp at hn; omega) h2
    refine ⟨q1, y, ?_, s1, r1⟩
    rw [parseExpressionListLoop, if_pos hk, hin]
    simp only []
    rw [e1]
    simp

theorem Parser.parseExpressionList_idents {g fuel : Nat} {endTok : TokenType}
    {endToken t0 : Token} {l : List GoString} {p : Parser} {rest : List Token}
    (he : endToken.Typ = endTok) (hc : endTok ≠ .COMMA) (hi : endTok ≠ .IDENT)
    (hclose : Closes endToken) (hf : l.length < fuel + 1)
    (h : Sees p (t0 :: (listTokens l ++ endToken :: rest))) :
    ∃ p1 : Parser,
      parseExpressionList (parseExpression (g + 2)) fuel endTok p =
        some (some (l.map (fun b => some (identExpr b))), p1) ∧
      Sees p1 (endToken :: rest) ∧ p1.errors = p.errors := by
  cases l with
  | nil =>
    simp only [listTokens, List.nil_append] at h
    have hk : p.peekTokenIs endTok = true := by simp [peekTokenIs, h.peek, he]
    refine ⟨p.nextToken, ?_, h.nextToken, rfl⟩
    rw [parseExpressionList, if_pos hk]
    rfl
  | cons a bs =>
    simp only [listTokens, List.cons_append] at h
    have hk : ¬ p.peekTokenIs endTok = true := by
      simp only [peekTokenIs, h.peek, identToken, beq_iff_eq]
      exact fun h => hi h.symm
    have h1 := h.nextToken
    simp only [List.tail_cons] at h1
    have hin := @parseExpression_ident_stop g LOWSET _ _ h1.cur
      (by rw [h1.peek_headD]
          exact @Closes_restTokens_head bs (endToken :: rest) hclose _ (Nat.le_refl _))
    obtain ⟨q1, y, e1, s1, r1⟩ := @parseExpressionListLoop_rest g (endToken :: rest)
      (by simpa [he] using hc) hclose
      bs fuel [some (identExpr a)] p.nextToken (identToken a) (by simp at hf; omega) h1
    have hb : q1.peekTokenIs endTok = true := by simp [peekTokenIs, s1.peek, he]
    refine ⟨q1.nextToken, ?_, s1.nextToken, r1⟩
    rw [parseExpressionList, if_neg hk, hin]
    simp only []
    rw [e1]
    simp only [expectPeek, hb, if_true]
    simp

/-- C15. Delimited lists keep source order and may be empty: for
identifiers `f` and `a1, ..., an` (`n` may be 0), the source
`f(a1, ..., an)` parses without diagnostics to a CallExpression with callee
`f` and exactly the arguments `a1, ..., an` in that order, and the source
`[a1, ..., an]` to an ArrayLiteral with exactly these elements in that
order. -/
theorem C15_delimited_lists_keep_order (f : GoString) (l : List GoString) (hf : IsIdent f)
    (hl : ∀ a ∈ l, IsIdent a) :
    parse (f ++ bytes "(" ++ stringsJoin l (bytes ", ") ++ bytes ")") =
      some (⟨[.ExpressionStatement (identToken f)
        (some (.CallExpression lparenToken (some (identExpr f))
          (some (l.map (fun a => some (identExpr a))))))]⟩, []) ∧
    parse (bytes "[" ++ stringsJoin l (bytes ", ") ++ bytes "]") =
      some (⟨[.ExpressionStatement lbracketToken
        (some (.ArrayLiteral lbracketToken
          (some (l.map (fun a => some (identExpr a))))))]⟩, []) := by
  have hlen := stringsJoin_length l hl
  have hl1 : (bytes "(").length = 1 := rfl
  have hl2 : (bytes "[").length = 1 := rfl
  constructor
  · have htoks : Toks (f ++ bytes "(" ++ stringsJoin l (bytes ", ") ++ bytes ")")
        (identToken f :: lparenToken :: (listTokens l ++ [rparenToken])) := by
      simp only [List.append_assoc]
      refine Toks_ident hf rfl (Toks_lparen (Toks_listText hl rfl ?_))
      have := Toks_rparen (r := []) Toks_nil
      simpa using this
    have h0 := Sees_New htoks
    have h1 := h0.nextToken
    simp only [List.tail_cons] at h1
    obtain ⟨g, hg⟩ : ∃ g, (f ++ bytes "(" ++ stringsJoin l (bytes ", ") ++
        bytes ")").length + 3 = g + 3 := ⟨_, rfl⟩
    have hgl : l.length < g + 3 := by
      simp only [List.length_append, hl1] at hg
      omega
    obtain ⟨p1, e1, s1, r1⟩ := @Parser.parseExpressionList_idents g (g + 2) .RPAREN
      rparenToken lparenToken l _ [] rfl (fun h => nomatch h) (fun h => nomatch h)
      Closes_rparen hgl h1
    have hpe : Parser.parseExpression ((f ++ bytes "(" ++ stringsJoin l (bytes ", ") ++
        bytes ")").length + 3) LOWSET (Parser.New (Lexer.New (f ++ bytes "(" ++
        stringsJoin l (bytes ", ") ++ bytes ")"))) =
        some (some (.CallExpression lparenToken (some (identExpr f))
          (some (l.map (fun a => some (identExpr a))))), p1) := by
      rw [hg, Parser.parseExpression_ident h0.cur,
        Parser.parseExpressionLoop_call h0.peek (by decide)]
      simp only [Parser.parseCallExpression, e1, h1.cur]
      exact Parser.parseExpressionLoop_stop
        (by rw [s1.peek_eof]; exact Stops_eof _ (Nat.le_refl _))
    exact parse_of_parseExpression htoks
      ⟨(fun h => nomatch h), (fun h => nomatch h), (fun h => nomatch h)⟩ hpe (Or.inl s1)
      (by rw [r1]; rfl)
  · have htoks : Toks (bytes "[" ++ stringsJoin l (bytes ", ") ++ bytes "]")
        (lbracketToken :: (listTokens l ++ [rbracketToken])) := by
      simp only [List.append_assoc]
      refine Toks_lbracket (Toks_listText hl rfl ?_)
      have := Toks_rbracket (r := []) Toks_nil
      simpa using this
    have h0 := Sees_New htoks
    obtain ⟨g, hg⟩ : ∃ g, (bytes "[" ++ stringsJoin l (bytes ", ") ++
        bytes "]").length + 3 = g + 3 := ⟨_, rfl⟩
    have hgl : l.length < g + 3 := by
      simp only [List.length_append, hl2] at hg
      omega
    obtain ⟨p1, e1, s1, r1⟩ := @Parser.parseExpressionList_idents g (g + 2) .RBRACKET
      rbracketToken lbracketToken l _ [] rfl (fun h => nomatch h) (fun h => nomatch h)
      Closes_rbracket hgl h0
    have hpe : Parser.parseExpression ((bytes "[" ++ stringsJoin l (bytes ", ") ++
        bytes "]").length + 3) LOWSET (Parser.New (Lexer.New (bytes "[" ++
        stringsJoin l (bytes ", ") ++ bytes "]"))) =
        some (some (.ArrayLiteral lbracketToken
          (some (l.map (fun a => some (identExpr a))))), p1) := by
      rw [hg, Parser.parseExpression]
      have hp : prefixParseFns (Parser.New (Lexer.New (bytes "[" ++
          stringsJoin l (bytes ", ") ++ bytes "]"))).curToken.Typ =
          some .parseArrayLiteral := by rw [h0.cur]; rfl
      simp only [hp, Parser.callPrefix, Parser.parseArrayLiteral, e1]
      rw [h0.cur]
      exact Parser.parseExpressionLoop_stop
        (by rw [s1.peek_eof]; exact Stops_eof _ (Nat.le_refl _))
    exact parse_of_parseExpression htoks
      ⟨(fun h => nomatch h), (fun h => nomatch h), (fun h => nomatch h)⟩ hpe (Or.inl s1)
      (by rw [r1]; rfl)

/-- C15, witness: `add(a, b, c)` and `[a, b, c]` by the theorem, `f()` with
no argument, and the sources of the parser tests: `add(1, 2 * 3, 4 + 5);`
has the arguments `1`, `(2 * 3)`, `(4 + 5)` and `[1, 2 * 2, 3 + 3]` the
elements `1`, `(2 * 2)`, `(3 + 3)`. -/
theorem C15_delimited_lists_keep_order_witness :
    parse (bytes "add(a, b, c)") =
      some (⟨[.ExpressionStatement (identToken (bytes "add"))
        (some (.CallExpression lparenToken (some (identExpr (bytes "add")))
          (some [some (identExpr (bytes "a")), some (identExpr (bytes "b")),
            some (identExpr (bytes "c"))])))]⟩, []) ∧
    parse (bytes "[a, b, c]") =
      some (⟨[.ExpressionStatement lbracketToken
        (some (.ArrayLiteral lbracketToken
          (some [some (identExpr (bytes "a")), some (identExpr (bytes "b")),
            some (identExpr (bytes "c"))])))]⟩, []) ∧
    parse (bytes "f()") =
      some (⟨[.ExpressionStatement (identToken (bytes "f"))
        (some (.CallExpression lparenToken (some (identExpr (bytes "f"))) (some [])))]⟩,
        []) ∧
    parse (bytes "add(1, 2 * 3, 4 + 5);") =
      some (⟨[.ExpressionStatement (identToken (bytes "add"))
        (some (.CallExpression lparenToken (some (identExpr (bytes "add")))
          (some [some (.IntegerLiteral ⟨.INT, bytes "1"⟩ 1),
            some (infixExpr (.IntegerLiteral ⟨.INT, bytes "2"⟩ 2) .asterisk
              (.IntegerLiteral ⟨.INT, bytes "3"⟩ 3)),
            some (infixExpr (.IntegerLiteral ⟨.INT, bytes "4"⟩ 4) .plus
              (.IntegerLiteral ⟨.INT, bytes "5"⟩ 5))])))]⟩, []) ∧
    (parse (bytes "add(1, 2 * 3, 4 + 5);")).bind (fun r => r.1.String insertionOrder) =
      some (bytes "add(1, (2 * 3), (4 + 5))") ∧
    parse (bytes "[1, 2 * 2, 3 + 3]") =
      some (⟨[.ExpressionStatement lbracketToken
        (some (.ArrayLiteral lbracketToken
          (some [some (.IntegerLiteral ⟨.INT, bytes "1"⟩ 1),
            some (infixExpr (.IntegerLiteral ⟨.INT, bytes "2"⟩ 2) .asterisk
              (.IntegerLiteral ⟨.INT, bytes "2"⟩ 2)),
            some (infixExpr (.IntegerLiteral ⟨.INT, bytes "3"⟩ 3) .plus
              (.IntegerLiteral ⟨.INT, bytes "3"⟩ 3))])))]⟩, []) :=
  ⟨(C15_delimited_lists_keep_order (bytes "add") [bytes "a", bytes "b", bytes "c"]
      (by decide) (by decide)).1,
    (C15_delimited_lists_keep_order (bytes "add") [bytes "a", bytes "b", bytes "c"]
      (by decide) (by decide)).2,
    (C15_delimited_lists_keep_order (bytes "f") [] (by decide) (by simp)).1,
    by rfl, by rfl, by rfl⟩

/-! ## If expressions -/

theorem Closes_rbrace : Closes rbraceToken := Closes_of_precedences rfl

theorem Toks_if {r : GoString} {ts : List Token} (hr : isLetter (r.headD 0) = false)
    (h : Toks r ts) : Toks (bytes "if" ++ r) (ifToken :: ts) :=
  Toks_letters (w := bytes "if") (by decide) (by decide) hr h

theorem Toks_else {r : GoString} {ts : List Token} (hr : isLetter (r.headD 0) = false)
    (h : Toks r ts) : Toks (bytes "else" ++ r) (elseToken :: ts) :=
  Toks_letters (w := bytes "else") (by decide) (by decide) hr h

theorem Parser.expectPeek_pos {p : Parser} {t : TokenType} (h : p.peekTokenIs t = true) :
    p.expectPeek t = (true, p.nextToken) := by
  rw [expectPeek, if_pos h]

/-- A block of one identifier: the left brace is current. -/
theorem Parser.parseBlockStatement_ident {g f : Nat} {p : Parser} {x : GoString}
    {rest : List Token} (h : Sees p (lbraceToken :: identToken x :: rbraceToken :: rest)) :
    parseBlockStatement (parseExpression (g + 2)) (f + 2) p =
      some (identBlock x, p.nextToken.nextToken) := by
  have h1 := h.nextToken
  have h2 := h1.nextToken
  simp only [List.tail_cons] at h1 h2
  have hin := @parseExpression_ident_stop g LOWSET _ _ h1.cur
    (by rw [h1.peek]; exact Closes_rbrace _ (Nat.le_refl _))
  have hc1 : (!p.nextToken.curTokenIs .RBRACE && !p.nextToken.curTokenIs .EOF) = true := by
    rw [curTokenIs, curTokenIs, h1.cur]; rfl
  have hL : ¬ p.nextToken.curToken.Typ = .LET := by rw [h1.cur]; exact fun h => nomatch h
  have hR : ¬ p.nextToken.curToken.Typ = .RETURN := by rw [h1.cur]; exact fun h => nomatch h
  have hs : ¬ p.nextToken.peekTokenIs .SEMICOLON = true := by
    rw [peekTokenIs, h1.peek]; exact fun h => nomatch h
  have hc2 : ¬ (!p.nextToken.nextToken.curTokenIs .RBRACE &&
      !p.nextToken.nextToken.curTokenIs .EOF) = true := by
    rw [curTokenIs, curTokenIs, h2.cur]; exact fun h => nomatch h
  rw [parseBlockStatement, parseBlockStatementLoop, if_pos hc1, parseStatement, if_neg hL,
    if_neg hR, parseExpressionStatement, hin]
  simp only []
  rw [if_neg hs, parseBlockStatementLoop, if_neg hc2, h.cur, h1.cur]
  rfl

/-- The part of an if expression up to the end of its consequence: `if` is
current, `( x < y ) { a }` follows. -/
theorem Parser.parseIfExpression_head {g f : Nat} {p : Parser} {x y a : GoString}
    {rest : List Token} (hx : IsIdent x) (hy : IsIdent y)
    (h : Sees p (ifToken :: lparenToken :: identToken x :: BinOp.lt.token :: identToken y ::
      rparenToken :: lbraceToken :: identToken a :: rbraceToken :: rest)) :
    ∃ p1 : Parser,
      parseIfExpression (parseExpression (g + 3)) (f + 2) p =
        parseIfExpressionElse (parseExpression (g + 3)) (f + 2) ifToken
          (some (infixExpr (identExpr x) .lt (identExpr y))) (identBlock a) p1 ∧
      Sees p1 (rbraceToken :: rest) ∧ p1.errors = p.errors := by
  have h1 := h.nextToken
  have h2 := h1.nextToken
  have h4 := h2.nextToken.nextToken
  have h5 := h4.nextToken
  have h6 := h5.nextToken
  have h8 := h6.nextToken.nextToken
  simp only [List.tail_cons] at h1 h2 h4 h5 h6 h8
  have hk1 : p.peekTokenIs .LPAREN = true := by rw [peekTokenIs, h.peek]; rfl
  have hcond : parseExpression (g + 3) LOWSET p.nextToken.nextToken =
      some (some (infixExpr (identExpr x) .lt (identExpr y)),
        p.nextToken.nextToken.nextToken.nextToken) :=
    @parseExpression_two _ (.ident x) (.ident y) .lt _ g LOWSET hx hy h2
      (by decide) (Nat.le_refl _) Closes_rparen
  have hk2 : p.nextToken.nextToken.nextToken.nextToken.peekTokenIs .RPAREN = true := by
    rw [peekTokenIs, h4.peek]; rfl
  have hk3 : p.nextToken.nextToken.nextToken.nextToken.nextToken.peekTokenIs .LBRACE =
      true := by rw [peekTokenIs, h5.peek]; rfl
  have hblock : parseBlockStatement (parseExpression (g + 3)) (f + 2)
      p.nextToken.nextToken.nextToken.nextToken.nextToken.nextToken =
      some (identBlock a,
        p.nextToken.nextToken.nextToken.nextToken.nextToken.nextToken.nextToken.nextToken) :=
    @parseBlockStatement_ident (g + 1) f _ _ _ h6
  refine ⟨p.nextToken.nextToken.nextToken.nextToken.nextToken.nextToken.nextToken.nextToken,
    ?_, h8, by simp only [nextToken_errors]⟩
  rw [parseIfExpression]
  simp only [expectPeek_pos hk1, hcond, expectPeek_pos hk2, expectPeek_pos hk3, hblock,
    if_true, h.cur]

theorem Parser.parseIfExpressionElse_else {pe : ParseExpressionFn} {g f : Nat} {p : Parser}
    {b : GoString} {rest : List Token} {tok : Token} {condition : Option Expression}
    {consequence : BlockStatement} (hpe : pe = parseExpression (g + 2))
    (h : Sees p (rbraceToken :: elseToken :: lbraceToken :: identToken b :: rbraceToken ::
      rest)) :
    parseIfExpressionElse pe (f + 2) tok condition consequence p =
      some (some (.IfExpression tok condition (some consequence) (some (identBlock b))),
        p.nextToken.nextToken.nextToken.nextToken) := by
  subst hpe
  have h1 := h.nextToken
  have h2 := h1.nextToken
  simp only [List.tail_cons] at h1 h2
  have hk1 : p.peekTokenIs .ELSE = true := by rw [peekTokenIs, h.peek]; rfl
  have hk2 : p.nextToken.peekTokenIs .LBRACE = true := by rw [peekTokenIs, h1.peek]; rfl
  have hblock := @parseBlockStatement_ident g f _ _ _ h2
  rw [parseIfExpressionElse]
  simp only [hk1, expectPeek_pos hk2, hblock, if_true]

theorem Parser.parseIfExpressionElse_none {pe : ParseExpressionFn} {fuel : Nat} {p : Parser}
    {tok : Token} {condition : Option Expression} {consequence : BlockStatement}
    (h : p.peekToken.Typ ≠ .ELSE) :
    parseIfExpressionElse pe fuel tok condition consequence p =
      some (some (.IfExpression tok condition (some consequence) none), p) := by
  have hk : ¬ p.peekTokenIs .ELSE = true := by simpa [peekTokenIs] using h
  rw [parseIfExpressionElse, if_neg hk]

/-- C13. If-expression shape: for identifiers `x`, `y` the source
`if (x < y) { x } else { y }` parses without diagnostics to one
expression statement holding an IfExpression whose condition is `x < y`
(rendering `(x < y)`), whose consequence is the block of the one expression
statement `x` and whose alternative is the block of the one expression
statement `y`; the source `if (x < y) { x }` gives the same condition and
consequence with a nil alternative. -/
theorem C13_if_expression_shape (ord : RangeOrder)
    (x y : GoString) (hx : IsIdent x) (hy : IsIdent y) :
    parse (bytes "if (" ++ x ++ bytes " < " ++ y ++ bytes ") \x7b " ++ x ++
        bytes " \x7d else \x7b " ++ y ++ bytes " \x7d") =
      some (⟨[.ExpressionStatement ifToken
        (some (.IfExpression ifToken (some (infixExpr (identExpr x) .lt (identExpr y)))
          (some (.mk lbraceToken [.ExpressionStatement (identToken x) (some (identExpr x))]))
          (some (.mk lbraceToken
            [.ExpressionStatement (identToken y) (some (identExpr y))]))))]⟩, []) ∧
    parse (bytes "if (" ++ x ++ bytes " < " ++ y ++ bytes ") \x7b " ++ x ++ bytes " \x7d") =
      some (⟨[.ExpressionStatement ifToken
        (some (.IfExpression ifToken (some (infixExpr (identExpr x) .lt (identExpr y)))
          (some (.mk lbraceToken [.ExpressionStatement (identToken x) (some (identExpr x))]))
          none))]⟩, []) ∧
    (infixExpr (identExpr x) .lt (identExpr y)).String ord =
      some (bytes "(" ++ x ++ bytes " < " ++ y ++ bytes ")") := by
  have e1 : bytes "if (" = bytes "if" ++ (bytes " " ++ bytes "(") := rfl
  have e2 : bytes " < " = bytes " " ++ (BinOp.lt.text ++ bytes " ") := rfl
  have e3 : bytes ") \x7b " = bytes ")" ++ (bytes " " ++ (bytes "\x7b" ++ bytes " ")) := rfl
  have e4 : bytes " \x7d else \x7b " = bytes " " ++ (bytes "\x7d" ++ (bytes " " ++
      (bytes "else" ++ (bytes " " ++ (bytes "\x7b" ++ bytes " "))))) := rfl
  have e5 : bytes " \x7d" = bytes " " ++ bytes "\x7d" := rfl
  have l1 : (bytes "if (").length = 4 := rfl
  have hclose : Toks (bytes "\x7d") [rbraceToken] := by
    have := Toks_rbrace (r := []) Toks_nil
    simpa using this
  refine ⟨?_, ?_, ?_⟩
  · have htoks : Toks (bytes "if (" ++ x ++ bytes " < " ++ y ++ bytes ") \x7b " ++ x ++
        bytes " \x7d else \x7b " ++ y ++ bytes " \x7d")
        [ifToken, lparenToken, identToken x, BinOp.lt.token, identToken y, rparenToken,
          lbraceToken, identToken x, rbraceToken, elseToken, lbraceToken, identToken y,
          rbraceToken] := by
      simp only [e1, e2, e3, e4, e5, List.append_assoc]
      exact Toks_if rfl (Toks_space (Toks_lparen (Toks_ident hx rfl (Toks_space
        (Toks_binOp .lt (Toks_space (Toks_ident hy rfl (Toks_rparen (Toks_space
        (Toks_lbrace (Toks_space (Toks_ident hx rfl (Toks_space (Toks_rbrace (Toks_space
        (Toks_else rfl (Toks_space (Toks_lbrace (Toks_space (Toks_ident hy rfl
        (Toks_space hclose)))))))))))))))))))))
    have h0 := Sees_New htoks
    obtain ⟨g, hg⟩ : ∃ g, (bytes "if (" ++ x ++ bytes " < " ++ y ++ bytes ") \x7b " ++ x ++
        bytes " \x7d else \x7b " ++ y ++ bytes " \x7d").length + 3 = g + 6 :=
      ⟨(bytes "if (" ++ x ++ bytes " < " ++ y ++ bytes ") \x7b " ++ x ++
        bytes " \x7d else \x7b " ++ y ++ bytes " \x7d").length - 3,
        by simp only [List.length_append, l1]; omega⟩
    obtain ⟨p1, ehead, s1, r1⟩ := @Parser.parseIfExpression_head (g + 2) (g + 3) _ x y x
      [elseToken, lbraceToken, identToken y, rbraceToken] hx hy h0
    have eelse := @Parser.parseIfExpressionElse_else (Parser.parseExpression (g + 2 + 3))
      (g + 3) (g + 3) p1 y [] ifToken (some (infixExpr (identExpr x) .lt (identExpr y)))
      (identBlock x) rfl s1
    have s5 := s1.nextToken.nextToken.nextToken.nextToken
    simp only [List.tail_cons] at s5
    have hpe : Parser.parseExpression ((bytes "if (" ++ x ++ bytes " < " ++ y ++
        bytes ") \x7b " ++ x ++ bytes " \x7d else \x7b " ++ y ++ bytes " \x7d").length + 3)
        LOWSET (Parser.New (Lexer.New (bytes "if (" ++ x ++ bytes " < " ++ y ++
        bytes ") \x7b " ++ x ++ bytes " \x7d else \x7b " ++ y ++ bytes " \x7d"))) =
        some (some (.IfExpression ifToken (some (infixExpr (identExpr x) .lt (identExpr y)))
          (some (identBlock x)) (some (identBlock y))),
          p1.nextToken.nextToken.nextToken.nextToken) := by
      rw [hg, Parser.parseExpression]
      have hp : prefixParseFns (Parser.New (Lexer.New (bytes "if (" ++ x ++ bytes " < " ++
          y ++ bytes ") \x7b " ++ x ++ bytes " \x7d else \x7b " ++ y ++
          bytes " \x7d"))).curToken.Typ = some .parseIfExpression := by rw [h0.cur]; rfl
      simp only [hp, Parser.callPrefix, ehead, eelse]
      exact Parser.parseExpressionLoop_stop
        (by rw [s5.peek_eof]; exact Stops_eof _ (Nat.le_refl _))
    exact parse_of_parseExpression htoks
      ⟨(fun h => nomatch h), (fun h => nomatch h), (fun h => nomatch h)⟩ hpe (Or.inl s5)
      (by simp only [Parser.nextToken_errors, r1]; rfl)
  · have htoks : Toks (bytes "if (" ++ x ++ bytes " < " ++ y ++ bytes ") \x7b " ++ x ++
        bytes " \x7d")
        [ifToken, lparenToken, identToken x, BinOp.lt.token, identToken y, rparenToken,
          lbraceToken, identToken x, rbraceToken] := by
      simp only [e1, e2, e3, e5, List.append_assoc]
      exact Toks_if rfl (Toks_space (Toks_lparen (Toks_ident hx rfl (Toks_space
        (Toks_binOp .lt (Toks_space (Toks_ident hy rfl (Toks_rparen (Toks_space
        (Toks_lbrace (Toks_space (Toks_ident hx rfl (Toks_space hclose)))))))))))))
    have h0 := Sees_New htoks
    obtain ⟨g, hg⟩ : ∃ g, (bytes "if (" ++ x ++ bytes " < " ++ y ++ bytes ") \x7b " ++ x ++
        bytes " \x7d").length + 3 = g + 6 :=
      ⟨(bytes "if (" ++ x ++ bytes " < " ++ y ++ bytes ") \x7b " ++ x ++
        bytes " \x7d").length - 3,
        by simp only [List.length_append, l1]; omega⟩
    obtain ⟨p1, ehead, s1, r1⟩ := @Parser.parseIfExpression_head (g + 2) (g + 3) _ x y x
      [] hx hy h0
    have eelse := @Parser.parseIfExpressionElse_none (Parser.parseExpression (g + 2 + 3))
      (g + 3 + 2) p1 ifToken (some (infixExpr (identExpr x) .lt (identExpr y)))
      (identBlock x) (by rw [s1.peek_eof]; exact fun h => nomatch h)
    have hpe : Parser.parseExpression ((bytes "if (" ++ x ++ bytes " < " ++ y ++
        bytes ") \x7b " ++ x ++ bytes " \x7d").length + 3)
        LOWSET (Parser.New (Lexer.New (bytes "if (" ++ x ++ bytes " < " ++ y ++
        bytes ") \x7b " ++ x ++ bytes " \x7d"))) =
        some (some (.IfExpression ifToken (some (infixExpr (identExpr x) .lt (identExpr y)))
          (some (identBlock x)) none), p1) := by
      rw [hg, Parser.parseExpression]
      have hp : prefixParseFns (Parser.New (Lexer.New (bytes "if (" ++ x ++ bytes " < " ++
          y ++ bytes ") \x7b " ++ x ++ bytes " \x7d"))).curToken.Typ =
          some .parseIfExpression := by rw [h0.cur]; rfl
      simp only [hp, Parser.callPrefix, ehead, eelse]
      exact Parser.parseExpressionLoop_stop
        (by rw [s1.peek_eof]; exact Stops_eof _ (Nat.le_refl _))
    exact parse_of_parseExpression htoks
      ⟨(fun h => nomatch h), (fun h => nomatch h), (fun h => nomatch h)⟩ hpe (Or.inl s1)
      (by rw [r1]; rfl)
  · rw [infixExpr_String (identExpr_String x) (identExpr_String y), e2]
    simp only [List.append_assoc]

/-- C13, witness: the two sources of the parser tests. -/
theorem C13_if_expression_shape_witness :
    parse (bytes "if (x < y) \x7b x \x7d else \x7b y \x7d") =
      some (⟨[.ExpressionStatement ifToken
        (some (.IfExpression ifToken
          (some (infixExpr (identExpr (bytes "x")) .lt (identExpr (bytes "y"))))
          (some (.mk lbraceToken
            [.ExpressionStatement (identToken (bytes "x")) (some (identExpr (bytes "x")))]))
          (some (.mk lbraceToken
            [.ExpressionStatement (identToken (bytes "y"))
              (some (identExpr (bytes "y")))]))))]⟩, []) ∧
    parse (bytes "if (x < y) \x7b x \x7d") =
      some (⟨[.ExpressionStatement ifToken
        (some (.IfExpression ifToken
          (some (infixExpr (identExpr (bytes "x")) .lt (identExpr (bytes "y"))))
          (some (.mk lbraceToken
            [.ExpressionStatement (identToken (bytes "x")) (some (identExpr (bytes "x")))]))
          none))]⟩, []) ∧
    (infixExpr (identExpr (bytes "x")) .lt (identExpr (bytes "y"))).String insertionOrder =
      some (bytes "(x < y)") :=
  ⟨(C13_if_expression_shape insertionOrder (bytes "x") (bytes "y") (by decide) (by decide)).1,
    (C13_if_expression_shape insertionOrder (bytes "x") (bytes "y") (by decide) (by decide)).2.1,
    by rfl⟩

/-! ## The tokenizer, case by case on the unread bytes -/

namespace Lexer

theorem readStringLoop_count (i : GoString) :
    ∀ (n q : Nat), countWhile isStringByte (i.drop (q + 1)) < n →
      readStringLoop n (mkAt i q) =
        mkAt i (q + 1 + countWhile isStringByte (i.drop (q + 1))) := by
  intro n
  induction n with
  | zero => intro q h; omega
  | succ n ih =>
    intro q h
    rw [readStringLoop]
    simp only [readChar_mkAt, mkAt_ch]
    cases hd : i.drop (q + 1) with
    | nil => simp [countWhile]
    | cons c r =>
      rw [hd] at h
      by_cases hc : c = 34 ∨ c = 0
      · have hf : isStringByte c = false := by
          rcases hc with rfl | rfl <;> rfl
        simp [countWhile, hc, hf]
      · have hf : isStringByte c = true := by
          simp only [not_or] at hc
          simp [isStringByte, hc.1, hc.2]
        have hr : i.drop (q + 1 + 1) = r := drop_succ_of_drop_cons hd
        simp only [countWhile, hf, if_true] at h ⊢
        simp only [List.headD_cons, hc, if_false]
        rw [ih (q + 1) (by rw [hr]; omega), hr]
        congr 1
        omega

/-- A string: the bytes after the opening quote up to the next quote, zero
byte or the end are the literal; the byte that ends them is skipped. -/
theorem NextToken_string {i : GoString} {p : Nat} {s r : GoString}
    (h : i.drop p = 34 :: (s ++ r)) (hs : ∀ c ∈ s, isStringByte c = true)
    (hr : isStringByte (r.headD 0) = false) :
    (mkAt i p).NextToken = (⟨.STRING, s⟩, mkAt i (p + s.length + 2)) := by
  have hch : (mkAt i p).ch = 34 := by rw [mkAt_ch, h]; rfl
  have hsk : (mkAt i p).skipWhitespace = mkAt i p :=
    skipWhitespace_of_head (by rw [h]; rfl)
  have hd1 : i.drop (p + 1) = s ++ r := drop_succ_of_drop_cons h
  have hcount : countWhile isStringByte (i.drop (p + 1)) = s.length := by
    rw [hd1]; exact countWhile_append hs hr
  have hloop : readStringLoop (i.length + 1) (mkAt i p) = mkAt i (p + 1 + s.length) := by
    rw [readStringLoop_count i _ p (countWhile_drop_lt _ i (p + 1)), hcount]
  have hsl : slice i (p + 1) (p + 1 + s.length) = s := take_of_drop_append hd1
  have hrs : (mkAt i p).readString = (s, mkAt i (p + 1 + s.length)) := by
    simp only [readString]
    rw [show (mkAt i p).input = i from rfl, hloop]
    simp only [mkAt]
    rw [hsl]
  have e : p + 1 + s.length + 1 = p + s.length + 2 := by omega
  simp only [NextToken, hsk, hch, hrs, readChar_mkAt, e]
  simp

/-- The zero byte, in the source or past its end, is the end-of-input
token. -/
theorem NextToken_zero {i : GoString} {p : Nat} (h : (i.drop p).headD 0 = 0) :
    (mkAt i p).NextToken = (⟨.EOF, []⟩, mkAt i (p + 1)) := by
  have hs : (mkAt i p).skipWhitespace = mkAt i p :=
    skipWhitespace_of_head (by rw [h]; rfl)
  have hch : (mkAt i p).ch = 0 := by rw [mkAt_ch, h]
  simp [NextToken, hs, hch, readChar_mkAt]

/-- A byte that starts no token of the language is an illegal token. -/
theorem NextToken_illegal {i : GoString} {p c : Nat} {r : GoString}
    (h : i.drop p = c :: r) (hw : isWhitespace c = false) (hl : isLetter c = false)
    (hd : isDigit c = false)
    (hc : c ∉ [61, 59, 40, 41, 44, 43, 45, 33, 47, 42, 60, 62, 123, 125, 91, 93, 34, 58, 0]) :
    (mkAt i p).NextToken = (⟨.ILLEGAL, stringOfByte c⟩, mkAt i (p + 1)) := by
  have hch : (mkAt i p).ch = c := by rw [mkAt_ch, h]; rfl
  have hs : (mkAt i p).skipWhitespace = mkAt i p :=
    skipWhitespace_of_head (by rw [h]; exact hw)
  simp only [List.mem_cons, List.mem_singleton, List.not_mem_nil, or_false, not_or] at hc
  obtain ⟨e1, e2, e3, e4, e5, e6, e7, e8, e9, e10, e11, e12, e13, e14, e15, e16, e17, e18,
    e19⟩ := hc
  simp only [NextToken, hs, hch]
  simp only [e1, e2, e3, e4, e5, e6, e7, e8, e9, e10, e11, e12, e13, e14, e15, e16, e17, e18,
    e19, if_false, hl, hd, newToken, readChar_mkAt, Bool.false_eq_true]

/-- The longest run of bytes satisfying `f` at the head of `d`. -/
theorem exists_run (f : Nat → Bool) (hf : f 0 = false) (d : GoString) :
    ∃ w r : GoString, d = w ++ r ∧ (∀ c ∈ w, f c = true) ∧ f (r.headD 0) = false ∧
      w = d.takeWhile f := by
  induction d with
  | nil => exact ⟨[], [], rfl, by simp, hf, rfl⟩
  | cons c d ih =>
    by_cases hc : f c = true
    · obtain ⟨w, r, e, hw, hr, ht⟩ := ih
      refine ⟨c :: w, r, by rw [e]; rfl, ?_, hr, by simp [List.takeWhile, hc, ht]⟩
      intro x hx
      rcases List.mem_cons.1 hx with rfl | hx
      · exact hc
      · exact hw x hx
    · refine ⟨[], c :: d, rfl, by simp, by simpa using hc, by simp [List.takeWhile, hc]⟩

/-- One call of `NextToken` is a function of the unread bytes: the token and
the number of bytes it moves the cursor. -/
theorem NextToken_of_suffix (d : GoString) :
    ∃ (t : Token) (k : Nat), 0 < k ∧ ∀ (i : GoString) (p : Nat), i.drop p = d →
      (mkAt i p).NextToken = (t, mkAt i (p + k)) := by
  obtain ⟨ws, e, hd, hws, he, _⟩ := exists_run isWhitespace rfl d
  suffices hsuff : ∃ (t : Token) (k : Nat), 0 < k ∧ ∀ (i : GoString) (p : Nat),
      i.drop p = e → (mkAt i p).NextToken = (t, mkAt i (p + k)) by
    obtain ⟨t, k, hk, hstep⟩ := hsuff
    refine ⟨t, ws.length + k, by omega, fun i p hp => ?_⟩
    rw [hd] at hp
    rw [NextToken_whitespaces hws hp, hstep i (p + ws.length) (drop_add_of_drop_append hp),
      Nat.add_assoc]
  cases e with
  | nil => exact ⟨_, 1, by omega, fun i p hp => NextToken_nil hp⟩
  | cons c r =>
    simp only [List.headD_cons] at he
    by_cases h0 : c = 0
    · exact ⟨_, 1, by omega, fun i p hp => NextToken_zero (by rw [hp, h0]; rfl)⟩
    by_cases hsc : c ∈ singleCharTokens.map Prod.fst
    · obtain ⟨⟨c', t⟩, hm, rfl⟩ := List.mem_map.1 hsc
      exact ⟨_, 1, by omega, fun i p hp => NextToken_singleChar hp hm⟩
    by_cases h2 : c = 61 ∨ c = 33
    · by_cases hr : r.headD 0 = 61
      · obtain ⟨r', rfl⟩ : ∃ r', r = 61 :: r' := by
          cases r with
          | nil => exact absurd hr (by decide)
          | cons x r' => exact ⟨r', by simp only [List.headD_cons] at hr; rw [hr]⟩
        rcases h2 with rfl | rfl
        · exact ⟨_, 2, by omega, fun i p hp =>
            @NextToken_twoChar i p 61 r' .EQ hp (by simp)⟩
        · exact ⟨_, 2, by omega, fun i p hp =>
            @NextToken_twoChar i p 33 r' .NOT_EQ hp (by simp)⟩
      · rcases h2 with rfl | rfl
        · exact ⟨_, 1, by omega, fun i p hp =>
            @NextToken_oneOfTwo i p 61 r .ASSIGN hp hr (by simp)⟩
        · exact ⟨_, 1, by omega, fun i p hp =>
            @NextToken_oneOfTwo i p 33 r .BANG hp hr (by simp)⟩
    by_cases h34 : c = 34
    · obtain ⟨s, r', hr, hs, hr', _⟩ := exists_run isStringByte rfl r
      subst h34
      exact ⟨_, s.length + 2, by omega, fun i p hp => by
        rw [NextToken_string (by rw [hp, hr]) hs hr', Nat.add_assoc]⟩
    by_cases hl : isLetter c = true
    · obtain ⟨w, r', hr, hw, hr', ht⟩ := exists_run isLetter rfl (c :: r)
      have hne : w ≠ [] := by rw [ht]; simp [List.takeWhile, hl]
      exact ⟨_, w.length, List.length_pos.2 hne, fun i p hp =>
        NextToken_letters (by rw [hp, hr]) hne hw hr'⟩
    by_cases hg : isDigit c = true
    · obtain ⟨w, r', hr, hw, hr', ht⟩ := exists_run isDigit rfl (c :: r)
      have hne : w ≠ [] := by rw [ht]; simp [List.takeWhile, hg]
      exact ⟨_, w.length, List.length_pos.2 hne, fun i p hp =>
        NextToken_digits (by rw [hp, hr]) hne hw hr'⟩
    · refine ⟨_, 1, by omega, fun i p hp => NextToken_illegal hp he (by simpa using hl)
        (by simpa using hg) ?_⟩
      simp only [singleCharTokens, List.map_cons, List.map_nil, List.mem_cons,
        List.mem_singleton, List.not_mem_nil, or_false, not_or] at hsc
      simp only [not_or] at h2
      simp only [List.mem_cons, List.mem_singleton, List.not_mem_nil, or_false, not_or]
      obtain ⟨a1, a2, a3, a4, a5, a6, a7, a8, a9, a10, a11, a12, a13, a14, a15⟩ := hsc
      exact ⟨h2.1, a1, a2, a3, a4, a5, a6, h2.2, a7, a8, a9, a10, a11, a12, a13, a14, h34, a15,
        h0⟩

theorem after_succ (n : Nat) (l : Lexer) : after (n + 1) l = after n l.NextToken.2 := rfl

theorem nthToken_zero (l : Lexer) : nthToken 0 l = l.NextToken.1 := rfl

theorem nthToken_succ (n : Nat) (l : Lexer) :
    nthToken (n + 1) l = nthToken n l.NextToken.2 := rfl

/-- Two lexers with the same unread bytes return the same tokens, call by
call. -/
theorem nthToken_suffix :
    ∀ (n : Nat) (i : GoString) (p : Nat) (j : GoString) (q : Nat), i.drop p = j.drop q →
      nthToken n (mkAt i p) = nthToken n (mkAt j q) := by
  intro n
  induction n with
  | zero =>
    intro i p j q h
    obtain ⟨t, k, _, hstep⟩ := NextToken_of_suffix (i.drop p)
    rw [nthToken_zero, nthToken_zero, hstep i p rfl, hstep j q h.symm]
  | succ n ih =>
    intro i p j q h
    obtain ⟨t, k, _, hstep⟩ := NextToken_of_suffix (i.drop p)
    rw [nthToken_succ, nthToken_succ, hstep i p rfl, hstep j q h.symm]
    refine ih i (p + k) j (q + k) ?_
    rw [← List.drop_drop, ← List.drop_drop, h]

end Lexer

/-! ## Past the end of the source -/

theorem Lexer.after_mkAt_past_end (i : GoString) :
    ∀ (n p : Nat), i.length ≤ p →
      Lexer.after n (Lexer.mkAt i p) = Lexer.mkAt i (p + n) ∧
        (Lexer.after n (Lexer.mkAt i p)).NextToken.1 = ⟨.EOF, []⟩ := by
  intro n
  induction n with
  | zero =>
    intro p hp
    refine ⟨rfl, ?_⟩
    show (Lexer.mkAt i p).NextToken.1 = _
    rw [Lexer.NextToken_nil (List.drop_eq_nil_of_le hp)]
  | succ n ih =>
    intro p hp
    rw [Lexer.after_succ, Lexer.NextToken_nil (List.drop_eq_nil_of_le hp)]
    obtain ⟨h1, h2⟩ := ih (p + 1) (by omega)
    refine ⟨?_, h2⟩
    rw [h1, Nat.add_assoc, Nat.add_comm 1 n]

/-- C25. Tokenizing past end-of-input is idempotent: in a well-formed lexer
whose position is at or past the length of the source, every further call of
`NextToken`, however many came before, returns the end-of-input token (kind
EOF, empty literal); the calls only move the cursor on, one position each,
and the current byte stays 0. -/
theorem C25_eof_is_idempotent (l : Lexer) (hI : l.Inv) (h : l.input.length ≤ l.position)
    (n : Nat) :
    Lexer.nthToken n l = ⟨.EOF, []⟩ ∧
    Lexer.after n l = Lexer.mkAt l.input (l.position + n) ∧
    (Lexer.after n l).ch = 0 := by
  obtain ⟨h1, h2⟩ := Lexer.after_mkAt_past_end l.input n l.position h
  rw [← hI] at h1 h2
  refine ⟨h2, h1, ?_⟩
  rw [h1, Lexer.mkAt_ch, List.drop_eq_nil_of_le (by omega)]
  rfl

/-- C25, witness: the source `ab` after its one token: the next three calls
return the end-of-input token. -/
theorem C25_eof_is_idempotent_witness :
    Lexer.after 1 (Lexer.New (bytes "ab")) = Lexer.mkAt (bytes "ab") 2 ∧
    Lexer.nthToken 0 (Lexer.mkAt (bytes "ab") 2) = ⟨.EOF, []⟩ ∧
    Lexer.nthToken 1 (Lexer.mkAt (bytes "ab") 2) = ⟨.EOF, []⟩ ∧
    Lexer.nthToken 2 (Lexer.mkAt (bytes "ab") 2) = ⟨.EOF, []⟩ :=
  ⟨by rfl,
    (C25_eof_is_idempotent (Lexer.mkAt (bytes "ab") 2) rfl (by decide) 0).1,
    (C25_eof_is_idempotent (Lexer.mkAt (bytes "ab") 2) rfl (by decide) 1).1,
    (C25_eof_is_idempotent (Lexer.mkAt (bytes "ab") 2) rfl (by decide) 2).1⟩

/-! ## Identifiers and keywords -/

theorem LookupIdent_ne_ident (w : GoString) :
    LookupIdent w ≠ .IDENT ↔
      w ∈ [bytes "fn", bytes "let", bytes "true", bytes "false", bytes "if", bytes "else",
        bytes "return"] := by
  by_cases h1 : w = bytes "fn"
  · subst h1; decide
  by_cases h2 : w = bytes "let"
  · subst h2; decide
  by_cases h3 : w = bytes "true"
  · subst h3; decide
  by_cases h4 : w = bytes "false"
  · subst h4; decide
  by_cases h5 : w = bytes "if"
  · subst h5; decide
  by_cases h6 : w = bytes "else"
  · subst h6; decide
  by_cases h7 : w = bytes "return"
  · subst h7; decide
  simp [LookupIdent, keywords, h1, h2, h3, h4, h5, h6, h7]

/-- C26. Identifier and keyword tokens: when the first byte of the source
is a letter or underscore, the first token's literal is the longest prefix
of letters and underscores, its kind is what `LookupIdent` gives for that
literal, and the tokens after it are those of the rest of the source;
`LookupIdent` gives a kind other than IDENT exactly for `fn`, `let`, `true`,
`false`, `if`, `else`, `return`, each its own kind. -/
theorem C26_identifier_and_keyword_tokens (s : GoString)
    (h : isLetter (s.headD 0) = true) :
    (Lexer.New s).NextToken =
      (⟨LookupIdent (s.takeWhile isLetter), s.takeWhile isLetter⟩,
        Lexer.mkAt s (s.takeWhile isLetter).length) ∧
    s.takeWhile isLetter ≠ [] ∧
    (∀ n : Nat, Lexer.nthToken (n + 1) (Lexer.New s) =
      Lexer.nthToken n (Lexer.New (s.dropWhile isLetter))) ∧
    (∀ w : GoString, LookupIdent w ≠ .IDENT ↔
      w ∈ [bytes "fn", bytes "let", bytes "true", bytes "false", bytes "if", bytes "else",
        bytes "return"]) ∧
    LookupIdent (bytes "fn") = .FUNCTION ∧ LookupIdent (bytes "let") = .LET ∧
    LookupIdent (bytes "true") = .TRUE ∧ LookupIdent (bytes "false") = .FALSE ∧
    LookupIdent (bytes "if") = .IF ∧ LookupIdent (bytes "else") = .ELSE ∧
    LookupIdent (bytes "return") = .RETURN := by
  obtain ⟨w, r, hs, hw, hr, ht⟩ := Lexer.exists_run isLetter rfl s
  have hdw : s.dropWhile isLetter = r := by
    have h1 := List.takeWhile_append_dropWhile isLetter s
    rw [← ht] at h1
    exact List.append_cancel_left (h1.trans hs)
  have hne : w ≠ [] := by
    rw [ht]
    cases s with
    | nil => exact absurd h (by decide)
    | cons c s' =>
      simp only [List.headD_cons] at h
      simp [List.takeWhile, h]
  have hstep : (Lexer.New s).NextToken = (⟨LookupIdent w, w⟩, Lexer.mkAt s w.length) := by
    rw [Lexer.New_eq]
    have := @Lexer.NextToken_letters s 0 w r (by simpa using hs) hne hw hr
    simpa using this
  rw [← ht]
  refine ⟨hstep, hne, fun n => ?_, LookupIdent_ne_ident, by decide, by decide, by decide,
    by decide, by decide, by decide, by decide⟩
  rw [Lexer.nthToken_succ, hstep, hdw, Lexer.New_eq]
  refine Lexer.nthToken_suffix n s w.length r 0 ?_
  rw [List.drop_zero]
  conv_lhs => rw [hs]
  simp

/-- C26, witness: `let five` starts with the keyword `let`, `foo_bar(1)`
with the identifier `foo_bar`. -/
theorem C26_identifier_and_keyword_tokens_witness :
    (Lexer.New (bytes "let five")).NextToken =
      (⟨.LET, bytes "let"⟩, Lexer.mkAt (bytes "let five") 3) ∧
    (Lexer.New (bytes "foo_bar(1)")).NextToken =
      (⟨.IDENT, bytes "foo_bar"⟩, Lexer.mkAt (bytes "foo_bar(1)") 7) :=
  ⟨(C26_identifier_and_keyword_tokens (bytes "let five") (by decide)).1,
    (C26_identifier_and_keyword_tokens (bytes "foo_bar(1)") (by decide)).1⟩

/-! ## `=` and `!`, alone or before `=` -/

theorem Lexer.nthToken_succ_of_step {l : Lexer} {t : Token} {i : GoString} {k : Nat}
    {s : GoString} (hstep : l.NextToken = (t, Lexer.mkAt i k)) (hd : i.drop k = s) (n : Nat) :
    Lexer.nthToken (n + 1) l = Lexer.nthToken n (Lexer.New s) := by
  rw [Lexer.nthToken_succ, hstep, Lexer.New_eq]
  exact Lexer.nthToken_suffix n i k s 0 (by rw [hd, List.drop_zero])

/-- C27. Longest match of two for `=` and `!`: when `s` begins with `=`, the
first token of `=s` is EQ with literal `==` and the first token of `!s` is
NOT_EQ with literal `!=`, and the tokens after it are those of `s` without
its first byte; otherwise the first token is ASSIGN with literal `=`, BANG
with literal `!`, and the tokens after it are those of `s`. -/
theorem C27_longest_match_of_two (s : GoString) :
    (s.headD 0 = 61 →
      (Lexer.New (bytes "=" ++ s)).NextToken.1 = ⟨.EQ, bytes "=="⟩ ∧
      (Lexer.New (bytes "!" ++ s)).NextToken.1 = ⟨.NOT_EQ, bytes "!="⟩ ∧
      (∀ n : Nat, Lexer.nthToken (n + 1) (Lexer.New (bytes "=" ++ s)) =
        Lexer.nthToken n (Lexer.New s.tail)) ∧
      (∀ n : Nat, Lexer.nthToken (n + 1) (Lexer.New (bytes "!" ++ s)) =
        Lexer.nthToken n (Lexer.New s.tail))) ∧
    (s.headD 0 ≠ 61 →
      (Lexer.New (bytes "=" ++ s)).NextToken.1 = ⟨.ASSIGN, bytes "="⟩ ∧
      (Lexer.New (bytes "!" ++ s)).NextToken.1 = ⟨.BANG, bytes "!"⟩ ∧
      (∀ n : Nat, Lexer.nthToken (n + 1) (Lexer.New (bytes "=" ++ s)) =
        Lexer.nthToken n (Lexer.New s)) ∧
      (∀ n : Nat, Lexer.nthToken (n + 1) (Lexer.New (bytes "!" ++ s)) =
        Lexer.nthToken n (Lexer.New s))) := by
  constructor
  · intro h
    obtain ⟨r, rfl⟩ : ∃ r, s = 61 :: r := by
      cases s with
      | nil => exact absurd h (by decide)
      | cons x r => exact ⟨r, by simp only [List.headD_cons] at h; rw [h]⟩
    have h1 : (Lexer.New (bytes "=" ++ 61 :: r)).NextToken =
        (⟨.EQ, bytes "=="⟩, Lexer.mkAt (bytes "=" ++ 61 :: r) 2) := by
      rw [Lexer.New_eq]
      exact @Lexer.NextToken_twoChar _ 0 61 r .EQ rfl (by simp)
    have h2 : (Lexer.New (bytes "!" ++ 61 :: r)).NextToken =
        (⟨.NOT_EQ, bytes "!="⟩, Lexer.mkAt (bytes "!" ++ 61 :: r) 2) := by
      rw [Lexer.New_eq]
      exact @Lexer.NextToken_twoChar _ 0 33 r .NOT_EQ rfl (by simp)
    exact ⟨by rw [h1], by rw [h2], Lexer.nthToken_succ_of_step h1 rfl,
      Lexer.nthToken_succ_of_step h2 rfl⟩
  · intro h
    have h1 : (Lexer.New (bytes "=" ++ s)).NextToken =
        (⟨.ASSIGN, bytes "="⟩, Lexer.mkAt (bytes "=" ++ s) 1) := by
      rw [Lexer.New_eq]
      exact @Lexer.NextToken_oneOfTwo _ 0 61 s .ASSIGN rfl h (by simp)
    have h2 : (Lexer.New (bytes "!" ++ s)).NextToken =
        (⟨.BANG, bytes "!"⟩, Lexer.mkAt (bytes "!" ++ s) 1) := by
      rw [Lexer.New_eq]
      exact @Lexer.NextToken_oneOfTwo _ 0 33 s .BANG rfl h (by simp)
    exact ⟨by rw [h1], by rw [h2], Lexer.nthToken_succ_of_step h1 rfl,
      Lexer.nthToken_succ_of_step h2 rfl⟩

/-- C27, witness: `===` is EQ, then ASSIGN, then end of input; `!5` starts
with BANG. -/
theorem C27_longest_match_of_two_witness :
    (Lexer.New (bytes "===")).NextToken.1 = ⟨.EQ, bytes "=="⟩ ∧
    Lexer.nthToken 1 (Lexer.New (bytes "===")) = ⟨.ASSIGN, bytes "="⟩ ∧
    Lexer.nthToken 2 (Lexer.New (bytes "===")) = ⟨.EOF, []⟩ ∧
    (Lexer.New (bytes "!5")).NextToken.1 = ⟨.BANG, bytes "!"⟩ :=
  ⟨((C27_longest_match_of_two (bytes "==")).1 rfl).1, by rfl, by rfl,
    ((C27_longest_match_of_two (bytes "5")).2 (by decide)).2.1⟩

/-! ## String tokens -/

theorem isStringByte_of_not_mem {s : GoString} (hq : 34 ∉ s) (hz : 0 ∉ s) :
    ∀ c ∈ s, isStringByte c = true := by
  intro c hc
  have h1 : c ≠ 34 := fun h => hq (h ▸ hc)
  have h2 : c ≠ 0 := fun h => hz (h ▸ hc)
  simp [isStringByte, h1, h2]

/-- C28 (as written, refuted): the zero byte between two quotes.  The
first token is a STRING with the empty literal, not the literal of the one
zero byte, and the closing quote starts a second STRING token. -/
theorem C28_zero_byte_ends_string :
    (34 : Nat) ∉ [0] ∧
    (Lexer.New ([34] ++ [0] ++ [34])).NextToken.1 = ⟨.STRING, []⟩ ∧
    Lexer.nthToken 1 (Lexer.New ([34] ++ [0] ++ [34])) = ⟨.STRING, []⟩ ∧
    Lexer.nthToken 2 (Lexer.New ([34] ++ [0] ++ [34])) = ⟨.EOF, []⟩ :=
  ⟨by decide, by rfl, by rfl, by rfl⟩

/-- C28 (amended): for every byte string `s` without a double quote and
without a zero byte, the source of `s` between double quotes is a STRING
token with literal `s` and then end of input, and so is the source of `s`
after one double quote, unterminated; no byte of `s` is interpreted. -/
theorem C28_string_tokens_verbatim (s : GoString) (hq : 34 ∉ s) (hz : 0 ∉ s) :
    (Lexer.New ([34] ++ s ++ [34])).NextToken.1 = ⟨.STRING, s⟩ ∧
    (∀ n : Nat, Lexer.nthToken (n + 1) (Lexer.New ([34] ++ s ++ [34])) = ⟨.EOF, []⟩) ∧
    (Lexer.New ([34] ++ s)).NextToken.1 = ⟨.STRING, s⟩ ∧
    (∀ n : Nat, Lexer.nthToken (n + 1) (Lexer.New ([34] ++ s)) = ⟨.EOF, []⟩) := by
  have hs := isStringByte_of_not_mem hq hz
  have h1 : (Lexer.New ([34] ++ s ++ [34])).NextToken =
      (⟨.STRING, s⟩, Lexer.mkAt ([34] ++ s ++ [34]) (0 + s.length + 2)) := by
    rw [Lexer.New_eq]
    exact @Lexer.NextToken_string _ 0 s [34] (by simp) hs rfl
  have h2 : (Lexer.New ([34] ++ s)).NextToken =
      (⟨.STRING, s⟩, Lexer.mkAt ([34] ++ s) (0 + s.length + 2)) := by
    rw [Lexer.New_eq]
    exact @Lexer.NextToken_string _ 0 s [] (by simp) hs rfl
  refine ⟨by rw [h1], fun n => ?_, by rw [h2], fun n => ?_⟩
  · rw [Lexer.nthToken_succ, h1]
    exact (Lexer.after_mkAt_past_end _ n _ (by simp)).2
  · rw [Lexer.nthToken_succ, h2]
    exact (Lexer.after_mkAt_past_end _ n _ (by simp)).2

/-- C28, witness: `"hello world"` is one STRING token and parses to the
StringLiteral with the value `hello world`; a backslash is a byte like any
other. -/
theorem C28_string_tokens_verbatim_witness :
    (Lexer.New (bytes "\"hello world\"")).NextToken.1 = ⟨.STRING, bytes "hello world"⟩ ∧
    (Lexer.New (bytes "\"a\\nb")).NextToken.1 = ⟨.STRING, bytes "a\\nb"⟩ ∧
    parse (bytes "\"hello world\"") =
      some (⟨[.ExpressionStatement ⟨.STRING, bytes "hello world"⟩
        (some (.StringLiteral ⟨.STRING, bytes "hello world"⟩ (bytes "hello world")))]⟩, []) :=
  ⟨(C28_string_tokens_verbatim (bytes "hello world") (by decide) (by decide)).1,
    (C28_string_tokens_verbatim (bytes "a\\nb") (by decide) (by decide)).2.2.1,
    by rfl⟩

/-! ## Bytes that start no token -/

/-- C29 (as written, refuted): the zero byte inside the source is none of
the listed bytes, and the token at it is the end-of-input token with the
empty literal, not an ILLEGAL token; the byte 233 gives an ILLEGAL token whose
literal has two bytes. -/
theorem C29_zero_byte_is_end_of_input :
    (Lexer.New ([0] ++ bytes "a")).NextToken = (⟨.EOF, []⟩, Lexer.mkAt ([0] ++ bytes "a") 1) ∧
    (Lexer.New ([233] ++ bytes "a")).NextToken =
      (⟨.ILLEGAL, [195, 169]⟩, Lexer.mkAt ([233] ++ bytes "a") 1) :=
  ⟨by rfl, by rfl⟩

/-- C29 (amended): at every position where the unread bytes start with a
byte `b` that is not zero, not whitespace, not one of
`= ; ( ) , + - ! * / < > { } [ ] :`, not a double quote, not a letter or
underscore and not a digit, `NextToken` returns a token of kind ILLEGAL and
moves the cursor to the next byte; when `b` is below 128 the literal is
exactly the one byte `b`. -/
theorem C29_unrecognized_bytes_are_illegal (i : GoString) (p b : Nat) (r : GoString)
    (h : i.drop p = b :: r) (h0 : b ≠ 0) (hw : b ∉ [32, 9, 10, 13])
    (ho : b ∉ [61, 59, 40, 41, 44, 43, 45, 33, 42, 47, 60, 62, 123, 125, 91, 93, 58])
    (hq : b ≠ 34) (hl : isLetter b = false) (hd : isDigit b = false) :
    (Lexer.mkAt i p).NextToken.1.Typ = .ILLEGAL ∧
    (Lexer.mkAt i p).NextToken.2 = Lexer.mkAt i (p + 1) ∧
    (b < 128 → (Lexer.mkAt i p).NextToken = (⟨.ILLEGAL, [b]⟩, Lexer.mkAt i (p + 1))) := by
  have hws : isWhitespace b = false := by
    rw [Bool.eq_false_iff, Ne, Lexer.isWhitespace_iff]
    simpa using hw
  have hc : b ∉ [61, 59, 40, 41, 44, 43, 45, 33, 47, 42, 60, 62, 123, 125, 91, 93, 34, 58,
      0] := by
    simp only [List.mem_cons, List.mem_singleton, List.not_mem_nil, or_false, not_or] at ho ⊢
    obtain ⟨a1, a2, a3, a4, a5, a6, a7, a8, a9, a10, a11, a12, a13, a14, a15, a16, a17⟩ := ho
    exact ⟨a1, a2, a3, a4, a5, a6, a7, a8, a10, a9, a11, a12, a13, a14, a15, a16, hq, a17, h0⟩
  have hstep := Lexer.NextToken_illegal h hws hl hd hc
  refine ⟨by rw [hstep], by rw [hstep], fun hb => ?_⟩
  rw [hstep]
  simp [stringOfByte, hb]

/-- C29, witness: `@` at the start of `@x`, and `#` after the two bytes of
`a `. -/
theorem C29_unrecognized_bytes_are_illegal_witness :
    (Lexer.New (bytes "@x")).NextToken = (⟨.ILLEGAL, bytes "@"⟩, Lexer.mkAt (bytes "@x") 1) ∧
    (Lexer.mkAt (bytes "a #") 2).NextToken =
      (⟨.ILLEGAL, bytes "#"⟩, Lexer.mkAt (bytes "a #") 3) :=
  ⟨(C29_unrecognized_bytes_are_illegal (bytes "@x") 0 64 (bytes "x") rfl (by decide)
      (by decide) (by decide) (by decide) (by decide) (by decide)).2.2 (by decide),
    (C29_unrecognized_bytes_are_illegal (bytes "a #") 2 35 [] rfl (by decide)
      (by decide) (by decide) (by decide) (by decide) (by decide)).2.2 (by decide)⟩

/-! ## Whitespace before a token -/

theorem Lexer.tokens_congr :
    ∀ (n : Nat) (l l1 : Lexer), (∀ m, Lexer.nthToken m l = Lexer.nthToken m l1) →
      Lexer.tokens n l = Lexer.tokens n l1 := by
  intro n
  induction n with
  | zero => intro l l1 _; rfl
  | succ n ih =>
    intro l l1 h
    have h0 : l.NextToken.1 = l1.NextToken.1 := h 0
    have hn : ∀ m, Lexer.nthToken m l.NextToken.2 = Lexer.nthToken m l1.NextToken.2 :=
      fun m => h (m + 1)
    rw [Lexer.tokens, Lexer.tokens, h0, ih _ _ hn]

/-- C30. Whitespace is skipped before each token: for every string `w` of
spaces, tabs, newlines and carriage returns and every source `s`, the lexer
of `w ++ s` returns, call by call, the tokens the lexer of `s` returns, so
the tokens before end of input are the same; a source of whitespace only
returns the end-of-input token at once and at every later call. -/
theorem C30_whitespace_is_skipped (w s : GoString) (hw : ∀ c ∈ w, c ∈ [32, 9, 10, 13]) :
    (∀ n : Nat, Lexer.nthToken n (Lexer.New (w ++ s)) = Lexer.nthToken n (Lexer.New s)) ∧
    (∀ n : Nat, Lexer.tokens n (Lexer.New (w ++ s)) = Lexer.tokens n (Lexer.New s)) ∧
    (∀ n : Nat, Lexer.nthToken n (Lexer.New w) = ⟨.EOF, []⟩) := by
  have hws : ∀ c ∈ w, isWhitespace c = true := by
    intro c hc
    rw [Lexer.isWhitespace_iff]
    simpa using hw c hc
  have key : ∀ (s : GoString) (n : Nat),
      Lexer.nthToken n (Lexer.New (w ++ s)) = Lexer.nthToken n (Lexer.New s) := by
    intro s n
    have hstep : (Lexer.New (w ++ s)).NextToken = (Lexer.mkAt (w ++ s) w.length).NextToken := by
      rw [Lexer.New_eq]
      have := @Lexer.NextToken_whitespaces (w ++ s) w s hws 0 rfl
      simpa using this
    have hsuf : ∀ m, Lexer.nthToken m (Lexer.mkAt (w ++ s) w.length) =
        Lexer.nthToken m (Lexer.New s) := by
      intro m
      rw [Lexer.New_eq]
      exact Lexer.nthToken_suffix m _ _ _ _ (by simp)
    cases n with
    | zero => rw [Lexer.nthToken_zero, hstep, ← Lexer.nthToken_zero, hsuf]
    | succ n => rw [Lexer.nthToken_succ, hstep, ← Lexer.nthToken_succ, hsuf]
  refine ⟨key s, fun n => Lexer.tokens_congr n _ _ (key s), fun n => ?_⟩
  have h1 := key [] n
  rw [List.append_nil] at h1
  rw [h1, Lexer.New_eq]
  exact (Lexer.after_mkAt_past_end [] n 0 (by simp)).2

/-- C30, witness: three kinds of whitespace before `let x`. -/
theorem C30_whitespace_is_skipped_witness :
    Lexer.tokens 5 (Lexer.New (bytes " \t\n" ++ bytes "let x")) =
      [⟨.LET, bytes "let"⟩, ⟨.IDENT, bytes "x"⟩] ∧
    Lexer.tokens 5 (Lexer.New (bytes "let x")) =
      [⟨.LET, bytes "let"⟩, ⟨.IDENT, bytes "x"⟩] ∧
    Lexer.nthToken 0 (Lexer.New (bytes " \r\n ")) = ⟨.EOF, []⟩ :=
  ⟨((C30_whitespace_is_skipped (bytes " \t\n") (bytes "let x") (by decide)).2.1 5).trans
      (by rfl), by rfl,
    (C30_whitespace_is_skipped (bytes " \r\n ") [] (by decide)).2.2 0⟩

/-- The `String` of an index expression whose operands are present: the
strings of the operands inside `(`, `[` and `]`. -/
theorem IndexExpression_String {ord : RangeOrder} (tok : Token) (L I : Expression) :
    (Expression.IndexExpression tok (some L) (some I)).String ord =
      (L.String ord).bind (fun sl => (I.String ord).bind (fun si =>
        some (bytes "(" ++ sl ++ bytes "[" ++ si ++ bytes "]"))) := by
  rw [Expression.String]
  rfl

/-- C21. Index expressions do not render with balanced parentheses: the
tree of `myArray[1 + 1]` renders as `(myArray[(1 + 1)]`, which lacks the
closing parenthesis of `(myArray[(1 + 1)])`.  For every index expression
with operands `L` and `I` the string is `(` + String(L) + `[` + String(I) +
`]`. -/
theorem C21_index_rendering_lacks_closing_parenthesis (ord : RangeOrder) :
    parse (bytes "myArray[1 + 1]") =
      some (⟨[.ExpressionStatement (identToken (bytes "myArray"))
        (some (.IndexExpression ⟨.LBRACKET, bytes "["⟩
          (some (identExpr (bytes "myArray")))
          (some (.InfixExpression ⟨.PLUS, bytes "+"⟩
            (some (.IntegerLiteral ⟨.INT, bytes "1"⟩ 1)) (bytes "+")
            (some (.IntegerLiteral ⟨.INT, bytes "1"⟩ 1))))))]⟩, []) ∧
    (parse (bytes "myArray[1 + 1]")).bind (fun r => r.1.String ord) =
      some (bytes "(myArray[(1 + 1)]") ∧
    (parse (bytes "myArray[1 + 1]")).bind (fun r => r.1.String ord) ≠
      some (bytes "(myArray[(1 + 1)])") ∧
    (∀ (tok : Token) (L I : Expression),
      (Expression.IndexExpression tok (some L) (some I)).String ord =
        (L.String ord).bind (fun sl => (I.String ord).bind (fun si =>
          some (bytes "(" ++ sl ++ bytes "[" ++ si ++ bytes "]")))) :=
  ⟨rfl, rfl,
    fun h => absurd (Option.some.inj ((show _ = some (bytes "(myArray[(1 + 1)]") from rfl).symm.trans
      h)) (by decide),
    IndexExpression_String⟩

/-- C22. Rendering a parsed tree can dereference a null child: the programs
parsed from `-` and from `1 +` hold a prefix and an infix expression whose
right operand is null, the program parsed from `let x 5;` holds a null let
statement, and `Program.String` fails on each of them, while an expression
statement, a let statement and a return statement with a null expression do
render. -/
theorem C22_rendering_dereferences_null_operand (ord : RangeOrder) :
    parse (bytes "-") =
      some (⟨[.ExpressionStatement ⟨.MINUS, bytes "-"⟩
        (some (.PrefixExpression ⟨.MINUS, bytes "-"⟩ (bytes "-") none))]⟩,
        [bytes "no prefix parse fuction for EOF found"]) ∧
    (parse (bytes "-")).bind (fun r => r.1.String ord) = none ∧
    parse (bytes "1 +") =
      some (⟨[.ExpressionStatement ⟨.INT, bytes "1"⟩
        (some (.InfixExpression ⟨.PLUS, bytes "+"⟩
          (some (.IntegerLiteral ⟨.INT, bytes "1"⟩ 1)) (bytes "+") none))]⟩,
        [bytes "no prefix parse fuction for EOF found"]) ∧
    (parse (bytes "1 +")).bind (fun r => r.1.String ord) = none ∧
    (parse (bytes "let x 5;")).map (fun r => r.1.Statements.head?) =
      some (some .LetStatementNil) ∧
    (parse (bytes "let x 5;")).bind (fun r => r.1.String ord) = none ∧
    (∀ tok : Token, (Statement.ExpressionStatement tok none).String ord = some []) ∧
    (∀ (tok : Token) (name : Identifier),
      (Statement.LetStatement tok (some name) none).String ord =
      some (tok.Literal ++ bytes " " ++ name.Value ++ bytes " = " ++ bytes ";")) ∧
    (∀ tok : Token, (Statement.ReturnStatement tok none).String ord =
      some (tok.Literal ++ bytes " " ++ bytes ";")) :=
  ⟨rfl, rfl, rfl, rfl, rfl, rfl,
    fun _ => by rw [Statement.String], fun _ _ => by rw [Statement.String]; rfl,
    fun _ => by rw [Statement.String]⟩

/-! ## A sequence of let statements -/

theorem Toks_whitespaces {w r : GoString} {ts : List Token}
    (hw : ∀ c ∈ w, isWhitespace c = true) (h : Toks r ts) : Toks (w ++ r) ts := by
  induction w with
  | nil => exact h
  | cons c w ih =>
    exact Toks_whitespace (hw c (List.mem_cons_self _ _))
      (ih (fun d hd => hw d (List.mem_cons_of_mem _ hd)))

theorem Toks_letsText {t : GoString} (ht : ∀ c ∈ t, isWhitespace c = true) :
    ∀ es : List LetEntry, (∀ e ∈ es, e.Valid) → Toks (letsText es ++ t) (letsTokens es)
  | [], _ => by
    have := Toks_whitespaces ht Toks_nil
    simpa [letsText, letsTokens] using this
  | e :: rest, hv => by
    obtain ⟨hs, hx, hn⟩ := hv e (List.mem_cons_self _ _)
    have ih := Toks_letsText ht rest (fun d hd => hv d (List.mem_cons_of_mem _ hd))
    have e1 : bytes "let " = bytes "let" ++ bytes " " := rfl
    have e2 : bytes " = " = bytes " " ++ (bytes "=" ++ bytes " ") := rfl
    simp only [letsText, letsTokens, e1, e2, List.append_assoc]
    exact Toks_whitespaces hs (Toks_let rfl (Toks_space (Toks_ident hx rfl (Toks_space
      (Toks_assign (by show (32 : Nat) ≠ 61; decide) (Toks_space
        (Toks_atom (x := .int e.value) hn.valid rfl rfl (Toks_semicolon ih))))))))

theorem letsText_length : ∀ es : List LetEntry, es.length ≤ (letsText es).length
  | [] => Nat.le_refl _
  | e :: rest => by
    have := letsText_length rest
    have e1 : (bytes ";").length = 1 := rfl
    simp only [letsText, List.length_append, List.length_cons, e1]
    omega

/-- The statement loop of `ParseProgram` on a sequence of let statements:
one `LetStatement` per entry is appended, in order, and no diagnostic. -/
theorem Parser.ParseProgramLoop_lets {g : Nat} :
    ∀ (es : List LetEntry), (∀ e ∈ es, e.Valid) → ∀ (n : Nat) (acc : List Statement)
      (p : Parser), es.length < n → Sees p (letsTokens es) →
      ∃ p1, ParseProgramLoop (g + 2) n acc p = some (acc ++ es.map LetEntry.statement, p1) ∧
        p1.errors = p.errors
  | [], _, n, acc, p, hn, h => by
    obtain ⟨m, rfl⟩ : ∃ m, n = m + 1 := ⟨n - 1, by simp at hn; omega⟩
    have hc : p.curToken = eofToken := h.1
    refine ⟨p, ?_, rfl⟩
    rw [ParseProgramLoop, if_neg (by rw [hc]; exact fun h => h rfl)]
    simp
  | e :: rest, hv, n, acc, p, hn, h => by
    obtain ⟨m, rfl⟩ : ∃ m, n = m + 1 := ⟨n - 1, by simp at hn; omega⟩
    obtain ⟨_, _, hi⟩ := hv e (List.mem_cons_self _ _)
    have h3 := h.nextToken.nextToken.nextToken
    have h5 := h3.nextToken.nextToken
    simp only [letsTokens, List.tail_cons] at h3 h5
    have hval := @Parser.parseExpression_atom_stop g LOWSET _ _ hi.valid h3.cur
      (by rw [h3.peek]; exact Or.inl rfl)
    rw [hi.expr] at hval
    have hlet := Parser.parseLetStatement_ok h hval
    have hsemi : p.nextToken.nextToken.nextToken.peekTokenIs .SEMICOLON = true := by
      rw [Parser.peekTokenIs, h3.peek]; rfl
    rw [hsemi] at hlet
    simp only [if_true] at hlet
    have hL : p.curToken.Typ = .LET := by rw [h.cur]; rfl
    have hstmt : parseStatement (parseExpression (g + 2)) (g + 2) p =
        some (some e.statement, p.nextToken.nextToken.nextToken.nextToken) := by
      rw [parseStatement, if_pos hL, hlet]
      rfl
    obtain ⟨p1, hp1, he1⟩ := ParseProgramLoop_lets rest
      (fun d hd => hv d (List.mem_cons_of_mem _ hd)) m (acc ++ [e.statement])
      p.nextToken.nextToken.nextToken.nextToken.nextToken
      (by simp at hn; omega) h5
    refine ⟨p1, ?_, ?_⟩
    · rw [ParseProgramLoop, if_pos (by rw [hL]; exact fun h => nomatch h), hstmt]
      simp only [appendStatement]
      rw [hp1]
      simp
    · rw [he1]
      simp only [Parser.nextToken_errors]

/-- C23. Program statements are in source order: a source text made of `n`
well-formed let statements `let xi = vi;` (each `xi` a non-keyword
identifier, each `vi` an integer literal without leading zeros that fits in
64 bits), with any whitespace before, between and after them, parses
without diagnostics to exactly `n` statements, the i-th being the
LetStatement named `xi` with the value `vi`. -/
theorem C23_let_statements_in_source_order (es : List LetEntry) (t : GoString)
    (hv : ∀ e ∈ es, e.Valid) (ht : ∀ c ∈ t, isWhitespace c = true) :
    parse (letsText es ++ t) = some (⟨es.map LetEntry.statement⟩, []) ∧
    (es.map LetEntry.statement).length = es.length ∧
    (es.map LetEntry.statement).map Statement.letName = es.map (fun e => some e.name) := by
  refine ⟨?_, by simp, by simp [LetEntry.statement, Statement.letName, Function.comp_def]⟩
  have h0 := Sees_New (Toks_letsText ht es hv)
  have hlen := letsText_length es
  obtain ⟨p1, hp1, he1⟩ := @Parser.ParseProgramLoop_lets ((letsText es ++ t).length + 1) es hv
    ((letsText es ++ t).length + 3) [] _
    (by simp only [List.length_append]; omega) h0
  simp only [parse, Parser.ParseProgram, hp1, Parser.Errors, he1, Parser.New_errors,
    List.nil_append]

/-- C23, witness: the three let statements of the parser test, for `x`, `y`
and `foobar`. -/
theorem C23_let_statements_in_source_order_witness :
    parse (bytes "let x = 5;\nlet y = 10;\nlet foobar = 838383;\n") =
      some (⟨[.LetStatement letToken (some ⟨identToken (bytes "x"), bytes "x"⟩)
          (some (.IntegerLiteral ⟨.INT, bytes "5"⟩ 5)),
        .LetStatement letToken (some ⟨identToken (bytes "y"), bytes "y"⟩)
          (some (.IntegerLiteral ⟨.INT, bytes "10"⟩ 10)),
        .LetStatement letToken (some ⟨identToken (bytes "foobar"), bytes "foobar"⟩)
          (some (.IntegerLiteral ⟨.INT, bytes "838383"⟩ 838383))]⟩, []) ∧
    ((parse (bytes "let x = 5;\nlet y = 10;\nlet foobar = 838383;\n")).map
      (fun r => r.1.Statements.map Statement.letName)) =
      some [some (bytes "x"), some (bytes "y"), some (bytes "foobar")] :=
  ⟨(C23_let_statements_in_source_order
      [⟨[], bytes "x", bytes "5"⟩, ⟨bytes "\n", bytes "y", bytes "10"⟩,
        ⟨bytes "\n", bytes "foobar", bytes "838383"⟩] (bytes "\n")
      (by decide) (by decide)).1, rfl⟩

/-! ## Hash literals -/

theorem Toks_string {s r : GoString} {ts : List Token}
    (hs : ∀ c ∈ s, isStringByte c = true) (h : Toks r ts) :
    Toks (bytes "\"" ++ (s ++ (bytes "\"" ++ r))) (stringToken s :: ts) := by
  have key := @Toks_step (34 :: (s ++ [34])) r (stringToken s) ts (by
    intro i p hd
    have hd2 : i.drop p = 34 :: (s ++ 34 :: r) := by simpa using hd
    have := Lexer.NextToken_string hd2 hs rfl
    rw [this]
    simp only [stringToken, List.length_cons, List.length_append, List.length_nil]
    rfl) h
  simpa [bytes] using key

theorem Toks_colon {r : GoString} {ts : List Token} (h : Toks r ts) :
    Toks (bytes ":" ++ r) (colonToken :: ts) :=
  Toks_singleChar (c := 58) (t := .COLON) (by simp [Lexer.singleCharTokens]) h

theorem Closes_colon : Closes colonToken := Closes_of_precedences rfl

theorem Parser.parseExpression_string_stop {f precedence : Nat} {p : Parser} {k : GoString}
    (hc : p.curToken = stringToken k) (hs : Stops precedence p.peekToken) :
    parseExpression (f + 2) precedence p = some (some (stringExpr k), p) := by
  rw [parseExpression]
  have hp : prefixParseFns p.curToken.Typ = some .parseStringLiteral := by rw [hc]; rfl
  simp only [hp, callPrefix, parseStringLiteral]
  rw [hc, parseExpressionLoop_stop hs]
  rfl

theorem comma_or_rbrace_head {r : GoString} (h : r.headD 0 = 44 ∨ r.headD 0 = 125) :
    isLetter (r.headD 0) = false ∧ isDigit (r.headD 0) = false := by
  rcases h with h | h <;> rw [h] <;> exact ⟨rfl, rfl⟩

theorem Closes_comma_or_rbrace {t : Token} (h : t = commaToken ∨ t = rbraceToken) :
    Closes t := by
  rcases h with h | h
  · rw [h]; exact Closes_comma
  · rw [h]; exact Closes_rbrace

/-- An operand is the source of its node. -/
theorem IsValueSource_atom {a : Atom} (ha : a.Valid) :
    IsValueSource a.text [a.token] a.expr := by
  constructor
  · intro r rest hr h
    exact Toks_atom ha (comma_or_rbrace_head hr).1 (comma_or_rbrace_head hr).2 h
  · intro f p rest hf hrest h
    obtain ⟨g, rfl⟩ : ∃ g, f = g + 2 := ⟨f - 2, by omega⟩
    have h' : Sees p (a.token :: rest) := h
    refine ⟨p, a.token, ?_, h', rfl⟩
    exact Parser.parseExpression_atom_stop ha h'.cur
      (by rw [h'.peek_headD]; exact Closes_comma_or_rbrace hrest _ (Nat.le_refl _))

/-- Two operands around a binary operator are the source of the infix
node. -/
theorem IsValueSource_infix {a b : Atom} (o : BinOp) (ha : a.Valid) (hb : b.Valid) :
    IsValueSource (a.text ++ (bytes " " ++ (o.text ++ (bytes " " ++ b.text))))
      [a.token, o.token, b.token] (infixExpr a.expr o b.expr) := by
  constructor
  · intro r rest hr h
    simp only [List.append_assoc]
    exact Toks_atom ha rfl rfl (Toks_space (Toks_binOp o (Toks_space
      (Toks_atom hb (comma_or_rbrace_head hr).1 (comma_or_rbrace_head hr).2 h))))
  · intro f p rest hf hrest h
    obtain ⟨g, rfl⟩ : ∃ g, f = g + 3 := ⟨f - 3, by
      have : 1 ≤ (bytes " ").length := Nat.le_refl _
      simp only [List.length_append] at hf
      omega⟩
    have h' : Sees p (a.token :: o.token :: b.token :: rest) := h
    have h2 := h'.nextToken.nextToken
    simp only [List.tail_cons] at h2
    refine ⟨p.nextToken.nextToken, b.token, ?_, h2, rfl⟩
    exact parseExpression_two ha hb h' o.lowset_lt (Nat.le_refl _)
      (Closes_comma_or_rbrace hrest)

theorem HashEntry.ofAtom_valid {k : GoString} {a : Atom} (hq : 34 ∉ k) (hz : 0 ∉ k)
    (ha : a.Valid) : (HashEntry.ofAtom k a).Valid :=
  ⟨hq, hz, IsValueSource_atom ha⟩

theorem HashEntry.ofInfix_valid {k : GoString} {a b : Atom} {o : BinOp} (hq : 34 ∉ k)
    (hz : 0 ∉ k) (ha : a.Valid) (hb : b.Valid) : (HashEntry.ofInfix k a o b).Valid :=
  ⟨hq, hz, IsValueSource_infix o ha hb⟩

theorem Toks_entry {x : HashEntry} (hx : x.Valid) {r : GoString} {rest : List Token}
    (hr : r.headD 0 = 44 ∨ r.headD 0 = 125) (h : Toks r rest) :
    Toks (x.text ++ r) (x.allTokens ++ rest) := by
  simp only [HashEntry.text, HashEntry.allTokens, List.append_assoc, List.cons_append]
  exact Toks_string (isStringByte_of_not_mem hx.1 hx.2.1)
    (Toks_colon (Toks_space (hx.2.2.1 r rest hr h)))

theorem hashRestText_head (es : List HashEntry) (r : GoString) (hr : r.headD 0 = 125) :
    (hashRestText es ++ r).headD 0 = 44 ∨ (hashRestText es ++ r).headD 0 = 125 := by
  cases es with
  | nil => exact Or.inr hr
  | cons x rest => exact Or.inl rfl

theorem Toks_hashRestText {r : GoString} {ts : List Token} (hr : r.headD 0 = 125)
    (h : Toks r ts) :
    ∀ es : List HashEntry, (∀ x ∈ es, x.Valid) →
      Toks (hashRestText es ++ r) (hashRestTokens es ++ ts)
  | [], _ => h
  | x :: rest, hv => by
    have ih := Toks_hashRestText hr h rest (fun y hy => hv y (List.mem_cons_of_mem _ hy))
    simp only [hashRestText, hashRestTokens, List.append_assoc, List.cons_append]
    exact Toks_comma (Toks_space (Toks_entry (hv x (List.mem_cons_self _ _))
      (hashRestText_head rest r hr) ih))

theorem Toks_hashEntriesText {r : GoString} {ts : List Token} (hr : r.headD 0 = 125)
    (h : Toks r ts) (es : List HashEntry) (hv : ∀ x ∈ es, x.Valid) :
    Toks (hashEntriesText es ++ r) (hashEntriesTokens es ++ ts) := by
  cases es with
  | nil => exact h
  | cons x rest =>
    simp only [hashEntriesText, hashEntriesTokens, List.append_assoc]
    exact Toks_entry (hv x (List.mem_cons_self _ _)) (hashRestText_head rest r hr)
      (Toks_hashRestText hr h rest (fun y hy => hv y (List.mem_cons_of_mem _ hy)))

theorem hashRestTokens_head (es : List HashEntry) (tail : List Token) :
    (hashRestTokens es ++ rbraceToken :: tail).headD eofToken = commaToken ∨
      (hashRestTokens es ++ rbraceToken :: tail).headD eofToken = rbraceToken := by
  cases es with
  | nil => exact Or.inr rfl
  | cons x rest => exact Or.inl rfl

/-- The loop of `parseHashLiteral` in front of the entries of a hash
literal: one pair per entry is added, in order, and the loop ends on the
last token before the right brace. -/
theorem Parser.parseHashLiteralLoop_entries {F : Nat} :
    ∀ (rest : List HashEntry) (x : HashEntry) (n : Nat)
      (pairs : List (Option Expression × Option Expression)) (p : Parser) (c : Token)
      (tail : List Token),
      (∀ y ∈ x :: rest, y.Valid ∧ y.value.length + 2 ≤ F) → rest.length + 1 < n →
      Sees p (c :: (hashEntriesTokens (x :: rest) ++ rbraceToken :: tail)) →
      ∃ p1 last, parseHashLiteralLoop (parseExpression F) n pairs p =
          some (some (pairs ++ (x :: rest).map HashEntry.pair), p1) ∧
        Sees p1 (last :: rbraceToken :: tail) ∧ p1.errors = p.errors := by
  intro rest
  induction rest with
  | nil =>
    intro x n pairs p c tail hv hn h
    obtain ⟨m, rfl⟩ : ∃ m, n = m + 2 := ⟨n - 2, by simp at hn; omega⟩
    obtain ⟨hx, hF⟩ := hv x (List.mem_cons_self _ _)
    obtain ⟨g, rfl⟩ : ∃ g, F = g + 2 := ⟨F - 2, by omega⟩
    have h0 : Sees p (c :: stringToken x.key :: colonToken :: (x.tokens ++ rbraceToken :: tail)) := by
      simpa [hashEntriesTokens, hashRestTokens, HashEntry.allTokens] using h
    have h1 := h0.nextToken
    have h3 := h1.nextToken.nextToken
    simp only [List.tail_cons] at h1 h3
    have hk0 : p.peekTokenIs .RBRACE = false := by rw [peekTokenIs, h0.peek]; rfl
    have hkey := @parseExpression_string_stop g LOWSET _ _ h1.cur
      (by rw [h1.peek]; exact Closes_colon _ (Nat.le_refl _))
    have hcol : p.nextToken.expectPeek .COLON = (true, p.nextToken.nextToken) :=
      expectPeek_pos (by rw [peekTokenIs, h1.peek]; rfl)
    obtain ⟨p2, last, hval, s2, r2⟩ := hx.2.2.2 (g + 2) _ (rbraceToken :: tail) hF
      (Or.inr rfl) h3
    have hk2 : p2.peekTokenIs .RBRACE = true := by rw [peekTokenIs, s2.peek]; rfl
    refine ⟨p2, last, ?_, s2, ?_⟩
    · rw [parseHashLiteralLoop]
      simp only [hk0, hkey, hcol, hval, hk2, if_true, Bool.false_eq_true, if_false]
      rw [parseHashLiteralLoop, if_pos hk2]
      rfl
    · rw [r2]; rfl
  | cons y rest ih =>
    intro x n pairs p c tail hv hn h
    obtain ⟨m, rfl⟩ : ∃ m, n = m + 1 := ⟨n - 1, by simp at hn; omega⟩
    obtain ⟨hx, hF⟩ := hv x (List.mem_cons_self _ _)
    obtain ⟨g, hg⟩ : ∃ g, F = g + 2 := ⟨F - 2, by omega⟩
    have h0 : Sees p (c :: stringToken x.key :: colonToken :: (x.tokens ++
        (commaToken :: (hashEntriesTokens (y :: rest) ++ rbraceToken :: tail)))) := by
      simpa [hashEntriesTokens, hashRestTokens, HashEntry.allTokens] using h
    have h1 := h0.nextToken
    have h3 := h1.nextToken.nextToken
    simp only [List.tail_cons] at h1 h3
    have hk0 : p.peekTokenIs .RBRACE = false := by rw [peekTokenIs, h0.peek]; rfl
    have hkey : parseExpression F LOWSET p.nextToken =
        some (some (stringExpr x.key), p.nextToken) := by
      rw [hg]
      exact @parseExpression_string_stop g LOWSET _ _ h1.cur
        (by rw [h1.peek]; exact Closes_colon _ (Nat.le_refl _))
    have hcol : p.nextToken.expectPeek .COLON = (true, p.nextToken.nextToken) :=
      expectPeek_pos (by rw [peekTokenIs, h1.peek]; rfl)
    obtain ⟨p2, last, hval, s2, r2⟩ := hx.2.2.2 F _
      (commaToken :: (hashEntriesTokens (y :: rest) ++ rbraceToken :: tail)) hF
      (Or.inl rfl) h3
    have hk2 : p2.peekTokenIs .RBRACE = false := by rw [peekTokenIs, s2.peek]; rfl
    have hcom : p2.expectPeek .COMMA = (true, p2.nextToken) :=
      expectPeek_pos (by rw [peekTokenIs, s2.peek]; rfl)
    have s3 := s2.nextToken
    simp only [List.tail_cons] at s3
    obtain ⟨p3, last3, hloop, s4, r4⟩ := ih y m (mapSet pairs (some (stringExpr x.key))
      (some x.expr)) p2.nextToken commaToken tail
      (fun z hz => hv z (List.mem_cons_of_mem _ hz)) (by simp at hn; omega) s3
    refine ⟨p3, last3, ?_, s4, ?_⟩
    · rw [parseHashLiteralLoop]
      simp only [hk0, hkey, hcol, hval, hk2, hcom, if_true, Bool.false_eq_true, if_false]
      rw [hloop]
      simp [mapSet, HashEntry.pair]
    · rw [r4, nextToken_errors, r2]; rfl

theorem hashEntriesText_bounds (es : List HashEntry) :
    es.length ≤ (hashEntriesText es).length ∧
      ∀ x ∈ es, x.value.length ≤ (hashEntriesText es).length := by
  have e1 : (bytes ",").length = 1 := rfl
  have hrest : ∀ l : List HashEntry, l.length ≤ (hashRestText l).length ∧
      ∀ x ∈ l, x.value.length ≤ (hashRestText l).length := by
    intro l
    induction l with
    | nil => exact ⟨Nat.le_refl _, fun x hx => nomatch hx⟩
    | cons y l ih =>
      refine ⟨?_, ?_⟩
      · simp only [hashRestText, List.length_append, List.length_cons, e1]
        omega
      · intro x hx
        simp only [hashRestText, HashEntry.text, List.length_append, e1]
        rcases List.mem_cons.1 hx with rfl | hm
        · omega
        · have := ih.2 x hm
          omega
  cases es with
  | nil => exact ⟨Nat.le_refl _, fun x hx => nomatch hx⟩
  | cons y l =>
    have e2 : (bytes "\"").length = 1 := rfl
    refine ⟨?_, ?_⟩
    · simp only [hashEntriesText, HashEntry.text, List.length_append, List.length_cons, e2]
      have := (hrest l).1
      omega
    · intro x hx
      simp only [hashEntriesText, HashEntry.text, List.length_append]
      rcases List.mem_cons.1 hx with rfl | hm
      · omega
      · have := (hrest l).2 x hm
        omega

/-- A hash literal in front of a token that ends the expression: one pair
per entry, in order. -/
theorem Parser.parseExpression_hash {f precedence : Nat} {p : Parser} {es : List HashEntry}
    {tail : List Token} (hv : ∀ x ∈ es, x.Valid) (hlen : es.length ≤ f)
    (hval : ∀ x ∈ es, x.value.length ≤ f)
    (h : Sees p (lbraceToken :: (hashEntriesTokens es ++ rbraceToken :: tail)))
    (hstop : Stops precedence (tail.headD eofToken)) :
    ∃ p1, parseExpression (f + 3) precedence p =
        some (some (.HashLiteral lbraceToken (es.map HashEntry.pair)), p1) ∧
      Sees p1 (rbraceToken :: tail) ∧ p1.errors = p.errors := by
  have hp : prefixParseFns p.curToken.Typ = some .parseHashLiteral := by rw [h.cur]; rfl
  obtain ⟨p1, last, hloop, s1, r1⟩ : ∃ p1 last,
      parseHashLiteralLoop (parseExpression (f + 2)) (f + 2) [] p =
        some (some (es.map HashEntry.pair), p1) ∧
      Sees p1 (last :: rbraceToken :: tail) ∧ p1.errors = p.errors := by
    cases es with
    | nil =>
      have hk : p.peekTokenIs .RBRACE = true := by
        rw [peekTokenIs, h.peek_headD]; rfl
      exact ⟨p, lbraceToken, by rw [parseHashLiteralLoop, if_pos hk]; rfl, h, rfl⟩
    | cons x rest =>
      obtain ⟨p1, last, e1, s1, r1⟩ := @parseHashLiteralLoop_entries (f + 2) rest x (f + 2) []
        p lbraceToken tail (fun y hy => ⟨hv y hy, by have := hval y hy; omega⟩)
        (by simp at hlen; omega) h
      exact ⟨p1, last, by rw [e1]; rfl, s1, r1⟩
  have hk : p1.peekTokenIs .RBRACE = true := by rw [peekTokenIs, s1.peek]; rfl
  have s2 := s1.nextToken
  simp only [List.tail_cons] at s2
  refine ⟨p1.nextToken, ?_, s2, by rw [nextToken_errors, r1]⟩
  rw [parseExpression]
  simp only [hp, callPrefix, parseHashLiteral, hloop, expectPeek_pos hk, if_true]
  rw [h.cur]
  exact parseExpressionLoop_stop (by rw [s2.peek_headD]; exact hstop)

/-- C24. Hash literal pairs: for `n` entries (`n` may be 0) whose keys are
string literals `"ki"` (holding neither a double quote nor a zero byte) and
whose values `vi` are sources of value expressions, the source
`{"k1": v1, ..., "kn": vn}` parses without diagnostics to one expression
statement holding a HashLiteral with exactly `n` pairs, the i-th being the
StringLiteral `ki` with the node of `vi` parsed at the lowest precedence.
The keys need not differ: every key node is an entry of its own. -/
theorem C24_hash_literal_pairs (es : List HashEntry) (hv : ∀ x ∈ es, x.Valid) :
    parse (hashText es) =
      some (⟨[.ExpressionStatement lbraceToken
        (some (.HashLiteral lbraceToken (es.map HashEntry.pair)))]⟩, []) ∧
    (es.map HashEntry.pair).length = es.length ∧
    (es.map HashEntry.pair).map Prod.fst = es.map (fun x => some (stringExpr x.key)) ∧
    (es.map HashEntry.pair).map Prod.snd = es.map (fun x => some x.expr) := by
  refine ⟨?_, by simp, by simp [HashEntry.pair, Function.comp_def],
    by simp [HashEntry.pair, Function.comp_def]⟩
  have htoks : Toks (hashText es) (lbraceToken :: (hashEntriesTokens es ++ [rbraceToken])) := by
    have hr : Toks (bytes "\x7d") [rbraceToken] := by
      simpa using Toks_rbrace (r := []) Toks_nil
    exact Toks_lbrace (Toks_hashEntriesText (show (bytes "\x7d").headD 0 = 125 from rfl)
      hr es hv)
  have h0 := Sees_New htoks
  have hb := hashEntriesText_bounds es
  have hl : (hashText es).length = (hashEntriesText es).length + 2 := by
    have e1 : (bytes "\x7b").length = 1 := rfl
    have e2 : (bytes "\x7d").length = 1 := rfl
    simp only [hashText, List.length_append, e1, e2]
    omega
  obtain ⟨p1, hpe, s1, r1⟩ := @Parser.parseExpression_hash (hashText es).length LOWSET _ es []
    hv (by omega) (fun x hx => by have := hb.2 x hx; omega) h0
    (Stops_eof _ (Nat.le_refl _))
  exact parse_of_parseExpression htoks
    ⟨(fun h => nomatch h), (fun h => nomatch h), (fun h => nomatch h)⟩ hpe (Or.inl s1)
    (by rw [r1]; rfl)

/-- C24, witness: the hash literal of the parser test, whose three pairs
have the keys `one`, `two`, `three` and the values that render as `(0 + 1)`,
`(10 - 8)` and `(15 / 5)`, and the empty hash literal. -/
theorem C24_hash_literal_pairs_witness :
    parse (bytes "\x7b\"one\": 0 + 1, \"two\": 10 - 8, \"three\": 15 / 5\x7d") =
      some (⟨[.ExpressionStatement lbraceToken
        (some (.HashLiteral lbraceToken
          [(some (stringExpr (bytes "one")),
              some (infixExpr (.IntegerLiteral ⟨.INT, bytes "0"⟩ 0) .plus
                (.IntegerLiteral ⟨.INT, bytes "1"⟩ 1))),
            (some (stringExpr (bytes "two")),
              some (infixExpr (.IntegerLiteral ⟨.INT, bytes "10"⟩ 10) .minus
                (.IntegerLiteral ⟨.INT, bytes "8"⟩ 8))),
            (some (stringExpr (bytes "three")),
              some (infixExpr (.IntegerLiteral ⟨.INT, bytes "15"⟩ 15) .slash
                (.IntegerLiteral ⟨.INT, bytes "5"⟩ 5)))]))]⟩, []) ∧
    parse (bytes "\x7b\x7d") =
      some (⟨[.ExpressionStatement lbraceToken (some (.HashLiteral lbraceToken []))]⟩, []) ∧
    (infixExpr (.IntegerLiteral ⟨.INT, bytes "0"⟩ 0) .plus
      (.IntegerLiteral ⟨.INT, bytes "1"⟩ 1)).String insertionOrder = some (bytes "(0 + 1)") ∧
    (infixExpr (.IntegerLiteral ⟨.INT, bytes "10"⟩ 10) .minus
      (.IntegerLiteral ⟨.INT, bytes "8"⟩ 8)).String insertionOrder = some (bytes "(10 - 8)") ∧
    (infixExpr (.IntegerLiteral ⟨.INT, bytes "15"⟩ 15) .slash
      (.IntegerLiteral ⟨.INT, bytes "5"⟩ 5)).String insertionOrder = some (bytes "(15 / 5)") :=
  ⟨(C24_hash_literal_pairs
      [HashEntry.ofInfix (bytes "one") (.int (bytes "0")) .plus (.int (bytes "1")),
        HashEntry.ofInfix (bytes "two") (.int (bytes "10")) .minus (.int (bytes "8")),
        HashEntry.ofInfix (bytes "three") (.int (bytes "15")) .slash (.int (bytes "5"))]
      (by
        intro x hx
        rcases List.mem_cons.1 hx with rfl | hx
        · exact HashEntry.ofInfix_valid (by decide) (by decide) (by decide) (by decide)
        rcases List.mem_cons.1 hx with rfl | hx
        · exact HashEntry.ofInfix_valid (by decide) (by decide) (by decide) (by decide)
        rcases List.mem_cons.1 hx with rfl | hx
        · exact HashEntry.ofInfix_valid (by decide) (by decide) (by decide) (by decide)
        · exact nomatch hx)).1,
    (C24_hash_literal_pairs [] (fun _ hx => nomatch hx)).1, by decide, by decide, by decide⟩

/-! ## The precedence table -/

theorem followsTable_precedences (t : TokenType) :
    FollowsTable t (match precedences t with
      | some x => x
      | none => LOWSET) := by
  cases t <;> decide

/-- C31. Precedence table: the eight levels are strictly ordered
`LOWSET < EQUALS < LESSGREATER < SUM < PRODUCT < PREFIX < CALL < INDEX`, and
`peekPrecedence` and `curPrecedence` return, for the kind of the peek token
and of the current token, `EQUALS` for `==` and `!=`, `LESSGREATER` for `<`
and `>`, `SUM` for `+` and `-`, `PRODUCT` for `*` and `/`, `CALL` for `(`,
`INDEX` for `[`, and `LOWSET` for every other kind, among them `;`, `)`,
`]`, the right brace, `,`, `:` and end of input. -/
theorem C31_precedence_table :
    (LOWSET < EQUALS ∧ EQUALS < LESSGREATER ∧ LESSGREATER < SUM ∧ SUM < PRODUCT ∧
      PRODUCT < PREFIX ∧ PREFIX < CALL ∧ CALL < INDEX) ∧
    (∀ p : Parser, FollowsTable p.peekToken.Typ p.peekPrecedence ∧
      FollowsTable p.curToken.Typ p.curPrecedence) ∧
    (∀ (p : Parser) (t : TokenType),
      t ∈ [TokenType.SEMICOLON, .RPAREN, .RBRACKET, .RBRACE, .COMMA, .COLON, .EOF] →
      (p.peekToken.Typ = t → p.peekPrecedence = LOWSET) ∧
      (p.curToken.Typ = t → p.curPrecedence = LOWSET)) := by
  refine ⟨by decide, fun p => ⟨followsTable_precedences _, followsTable_precedences _⟩, ?_⟩
  intro p t ht
  have h7 : t ∉ [TokenType.EQ, .NOT_EQ, .LT, .GT, .PLUS, .MINUS, .ASTERISK, .SLASH, .LPAREN,
      .LBRACKET] := by
    revert ht; cases t <;> decide
  exact ⟨fun h => (followsTable_precedences p.peekToken.Typ).2.2.2.2.2.2 (h ▸ h7),
    fun h => (followsTable_precedences p.curToken.Typ).2.2.2.2.2.2 (h ▸ h7)⟩

/-- C31, witness: the parser at the start of `a + b;` has the peek token `+`
of precedence `SUM`; one token later the current token is `+` and the peek
token `b` has the precedence `LOWSET`; before `;` the precedence is
`LOWSET`. -/
theorem C31_precedence_table_witness :
    (Parser.New (Lexer.New (bytes "a + b;"))).peekPrecedence = SUM ∧
    (Parser.New (Lexer.New (bytes "a + b;"))).nextToken.curPrecedence = SUM ∧
    (Parser.New (Lexer.New (bytes "a + b;"))).nextToken.peekPrecedence = LOWSET ∧
    (Parser.New (Lexer.New (bytes "a + b;"))).nextToken.nextToken.peekPrecedence = LOWSET :=
  ⟨(C31_precedence_table.2.1 _).1.2.2.1 (by decide),
    (C31_precedence_table.2.1 _).2.2.2.1 (by decide),
    (C31_precedence_table.2.1 _).1.2.2.2.2.2.2 (by decide),
    (C31_precedence_table.2.2 _ .SEMICOLON (by decide)).1 (by decide)⟩

/-! ## expectPeek -/

/-- C33. The method expectPeek either advances or reports, never both: when
the peek token has the kind `t`, `expectPeek t` returns true, the old peek
token becomes the current token, the new peek token is the next token of the
tokenizer, and the diagnostics are unchanged; otherwise it returns false,
the current token, the peek token and the tokenizer are unchanged, and the
diagnostics are the old ones, in order, followed by exactly one new
diagnostic. -/
theorem C33_expect_peek_advances_or_reports (p : Parser) (t : TokenType) :
    (p.peekToken.Typ = t →
      (p.expectPeek t).1 = true ∧
      (p.expectPeek t).2.curToken = p.peekToken ∧
      (p.expectPeek t).2.peekToken = p.l.NextToken.1 ∧
      (p.expectPeek t).2.l = p.l.NextToken.2 ∧
      (p.expectPeek t).2.errors = p.errors) ∧
    (p.peekToken.Typ ≠ t →
      (p.expectPeek t).1 = false ∧
      (p.expectPeek t).2.curToken = p.curToken ∧
      (p.expectPeek t).2.peekToken = p.peekToken ∧
      (p.expectPeek t).2.l = p.l ∧
      (p.expectPeek t).2.errors = p.errors ++ [bytes "expected next token no be " ++ t.str ++
        bytes ", got " ++ p.peekToken.Typ.str ++ bytes " instead"] ∧
      (p.expectPeek t).2.errors.length = p.errors.length + 1) := by
  constructor
  · intro h
    have hk : p.peekTokenIs t = true := by simp [Parser.peekTokenIs, h]
    rw [Parser.expectPeek, if_pos hk]
    exact ⟨rfl, rfl, rfl, rfl, rfl⟩
  · intro h
    have hk : ¬ p.peekTokenIs t = true := by simp [Parser.peekTokenIs, h]
    rw [Parser.expectPeek, if_neg hk]
    refine ⟨rfl, rfl, rfl, rfl, rfl, ?_⟩
    simp [Parser.peekError]

/-- C33, witness: at the start of `let x 5;` the peek token is the
identifier `x`: `expectPeek(IDENT)` advances and reports nothing, and then
`expectPeek(ASSIGN)` reports one diagnostic and does not advance. -/
theorem C33_expect_peek_advances_or_reports_witness :
    ((Parser.New (Lexer.New (bytes "let x 5;"))).expectPeek .IDENT).1 = true ∧
    ((Parser.New (Lexer.New (bytes "let x 5;"))).expectPeek .IDENT).2.curToken =
      identToken (bytes "x") ∧
    ((Parser.New (Lexer.New (bytes "let x 5;"))).expectPeek .IDENT).2.errors = [] ∧
    ((Parser.New (Lexer.New (bytes "let x 5;"))).nextToken.expectPeek .ASSIGN).1 = false ∧
    ((Parser.New (Lexer.New (bytes "let x 5;"))).nextToken.expectPeek .ASSIGN).2.curToken =
      identToken (bytes "x") ∧
    ((Parser.New (Lexer.New (bytes "let x 5;"))).nextToken.expectPeek .ASSIGN).2.errors =
      [bytes "expected next token no be =, got INT instead"] :=
  ⟨((C33_expect_peek_advances_or_reports _ .IDENT).1 (by decide)).1,
    ((C33_expect_peek_advances_or_reports
      (Parser.New (Lexer.New (bytes "let x 5;"))) .IDENT).1 (by decide)).2.1,
    ((C33_expect_peek_advances_or_reports
      (Parser.New (Lexer.New (bytes "let x 5;"))) .IDENT).1 (by decide)).2.2.2.2,
    ((C33_expect_peek_advances_or_reports _ .ASSIGN).2 (by decide)).1,
    ((C33_expect_peek_advances_or_reports
      (Parser.New (Lexer.New (bytes "let x 5;"))).nextToken .ASSIGN).2 (by decide)).2.1,
    ((C33_expect_peek_advances_or_reports
      (Parser.New (Lexer.New (bytes "let x 5;"))).nextToken .ASSIGN).2 (by decide)).2.2.2.2.1⟩

/-! ## Every operator of the precedence table has an infix method -/

theorem infixParseFns_of_precedence (t : TokenType) (q : Nat) (h : precedences t = some q) :
    (infixParseFns t).isSome = true ∧ LOWSET < q := by
  cases t <;> simp [precedences] at h <;> subst h <;> exact ⟨rfl, by decide⟩

theorem Parser.lowset_le_curPrecedence (p : Parser) : LOWSET ≤ p.curPrecedence := by
  rw [curPrecedence]
  cases h : precedences p.curToken.Typ with
  | none => exact Nat.le_refl _
  | some q => exact Nat.le_of_lt (infixParseFns_of_precedence _ q h).2

theorem Parser.infixParseFns_of_lt {p : Parser} {precedence : Nat} (hq : LOWSET ≤ precedence)
    (h : precedence < p.peekPrecedence) : (infixParseFns p.peekToken.Typ).isSome = true := by
  rw [peekPrecedence] at h
  cases hp : precedences p.peekToken.Typ with
  | none => rw [hp] at h; exact absurd h (by simp only []; omega)
  | some q => exact (infixParseFns_of_precedence _ q hp).1

namespace Parser

theorem parsePrefixExpression_congr {pe1 pe2 : ParseExpressionFn}
    (h : AgreeAbove pe1 pe2) (p : Parser) :
    parsePrefixExpression pe1 p = parsePrefixExpression pe2 p := by
  simp only [parsePrefixExpression, h PREFIX _ (by decide)]

theorem parseInfixExpression_congr {pe1 pe2 : ParseExpressionFn}
    (h : AgreeAbove pe1 pe2) (left : Option Expression)
    (p : Parser) : parseInfixExpression pe1 left p = parseInfixExpression pe2 left p := by
  simp only [parseInfixExpression, h _ _ (lowset_le_curPrecedence p)]

theorem parseGroupedExpression_congr {pe1 pe2 : ParseExpressionFn}
    (h : AgreeAbove pe1 pe2) (p : Parser) :
    parseGroupedExpression pe1 p = parseGroupedExpression pe2 p := by
  simp only [parseGroupedExpression, h LOWSET _ (Nat.le_refl _)]

theorem parseIndexExpression_congr {pe1 pe2 : ParseExpressionFn}
    (h : AgreeAbove pe1 pe2) (left : Option Expression)
    (p : Parser) : parseIndexExpression pe1 left p = parseIndexExpression pe2 left p := by
  simp only [parseIndexExpression, h LOWSET _ (Nat.le_refl _)]

theorem parseExpressionListLoop_congr {pe1 pe2 : ParseExpressionFn}
    (h : AgreeAbove pe1 pe2) :
    ∀ (n : Nat) (list : List (Option Expression)) (p : Parser),
      parseExpressionListLoop pe1 n list p = parseExpressionListLoop pe2 n list p := by
  intro n
  induction n with
  | zero => intro list p; rw [parseExpressionListLoop, parseExpressionListLoop]
  | succ n ih =>
    intro list p
    rw [parseExpressionListLoop, parseExpressionListLoop, h LOWSET _ (Nat.le_refl _)]
    simp only [ih]

theorem parseExpressionList_congr {pe1 pe2 : ParseExpressionFn}
    (h : AgreeAbove pe1 pe2) (fuel : Nat) (endTok : TokenType)
    (p : Parser) : parseExpressionList pe1 fuel endTok p = parseExpressionList pe2 fuel endTok p := by
  simp only [parseExpressionList, h LOWSET _ (Nat.le_refl _), parseExpressionListLoop_congr h]

theorem parseCallExpression_congr {pe1 pe2 : ParseExpressionFn}
    (h : AgreeAbove pe1 pe2) (fuel : Nat)
    (function : Option Expression) (p : Parser) :
    parseCallExpression pe1 fuel function p = parseCallExpression pe2 fuel function p := by
  simp only [parseCallExpression, parseExpressionList_congr h]

theorem parseArrayLiteral_congr {pe1 pe2 : ParseExpressionFn}
    (h : AgreeAbove pe1 pe2) (fuel : Nat) (p : Parser) :
    parseArrayLiteral pe1 fuel p = parseArrayLiteral pe2 fuel p := by
  simp only [parseArrayLiteral, parseExpressionList_congr h]

theorem parseHashLiteralLoop_congr {pe1 pe2 : ParseExpressionFn}
    (h : AgreeAbove pe1 pe2) :
    ∀ (n : Nat) (pairs : List (Option Expression × Option Expression)) (p : Parser),
      parseHashLiteralLoop pe1 n pairs p = parseHashLiteralLoop pe2 n pairs p := by
  intro n
  induction n with
  | zero => intro pairs p; rw [parseHashLiteralLoop, parseHashLiteralLoop]
  | succ n ih =>
    intro pairs p
    rw [parseHashLiteralLoop, parseHashLiteralLoop]
    simp only [h LOWSET _ (Nat.le_refl _), ih]

theorem parseHashLiteral_congr {pe1 pe2 : ParseExpressionFn}
    (h : AgreeAbove pe1 pe2) (fuel : Nat) (p : Parser) :
    parseHashLiteral pe1 fuel p = parseHashLiteral pe2 fuel p := by
  simp only [parseHashLiteral, parseHashLiteralLoop_congr h]

theorem parseLetStatement_congr {pe1 pe2 : ParseExpressionFn}
    (h : AgreeAbove pe1 pe2) (p : Parser) :
    parseLetStatement pe1 p = parseLetStatement pe2 p := by
  simp only [parseLetStatement, h LOWSET _ (Nat.le_refl _)]

theorem parseReturnStatement_congr {pe1 pe2 : ParseExpressionFn}
    (h : AgreeAbove pe1 pe2) (fuel : Nat) (p : Parser) :
    parseReturnStatement pe1 fuel p = parseReturnStatement pe2 fuel p := by
  simp only [parseReturnStatement, h LOWSET _ (Nat.le_refl _)]

theorem parseExpressionStatement_congr {pe1 pe2 : ParseExpressionFn}
    (h : AgreeAbove pe1 pe2) (p : Parser) :
    parseExpressionStatement pe1 p = parseExpressionStatement pe2 p := by
  simp only [parseExpressionStatement, h LOWSET _ (Nat.le_refl _)]

theorem parseStatement_congr {pe1 pe2 : ParseExpressionFn}
    (h : AgreeAbove pe1 pe2) (fuel : Nat) (p : Parser) :
    parseStatement pe1 fuel p = parseStatement pe2 fuel p := by
  simp only [parseStatement, parseLetStatement_congr h, parseReturnStatement_congr h,
    parseExpressionStatement_congr h]

theorem parseBlockStatementLoop_congr {pe1 pe2 : ParseExpressionFn}
    (h : AgreeAbove pe1 pe2) (fuel : Nat) :
    ∀ (n : Nat) (statements : List Statement) (p : Parser),
      parseBlockStatementLoop pe1 fuel n statements p =
        parseBlockStatementLoop pe2 fuel n statements p := by
  intro n
  induction n with
  | zero => intro statements p; rw [parseBlockStatementLoop, parseBlockStatementLoop]
  | succ n ih =>
    intro statements p
    rw [parseBlockStatementLoop, parseBlockStatementLoop]
    simp only [parseStatement_congr h, ih]

theorem parseBlockStatement_congr {pe1 pe2 : ParseExpressionFn}
    (h : AgreeAbove pe1 pe2) (fuel : Nat) (p : Parser) :
    parseBlockStatement pe1 fuel p = parseBlockStatement pe2 fuel p := by
  simp only [parseBlockStatement, parseBlockStatementLoop_congr h]

theorem parseIfExpressionElse_congr {pe1 pe2 : ParseExpressionFn}
    (h : AgreeAbove pe1 pe2) (fuel : Nat) (tok : Token)
    (condition : Option Expression) (consequence : BlockStatement) (p : Parser) :
    parseIfExpressionElse pe1 fuel tok condition consequence p =
      parseIfExpressionElse pe2 fuel tok condition consequence p := by
  simp only [parseIfExpressionElse, parseBlockStatement_congr h]

theorem parseIfExpression_congr {pe1 pe2 : ParseExpressionFn}
    (h : AgreeAbove pe1 pe2) (fuel : Nat) (p : Parser) :
    parseIfExpression pe1 fuel p = parseIfExpression pe2 fuel p := by
  simp only [parseIfExpression, h LOWSET _ (Nat.le_refl _), parseBlockStatement_congr h,
    parseIfExpressionElse_congr h]

theorem parseFunctionLiteral_congr {pe1 pe2 : ParseExpressionFn}
    (h : AgreeAbove pe1 pe2) (fuel : Nat) (p : Parser) :
    parseFunctionLiteral pe1 fuel p = parseFunctionLiteral pe2 fuel p := by
  simp only [parseFunctionLiteral, parseBlockStatement_congr h]

theorem callPrefix_congr {pe1 pe2 : ParseExpressionFn}
    (h : AgreeAbove pe1 pe2) (fuel : Nat) (fn : PrefixParseFn)
    (p : Parser) : callPrefix pe1 fuel fn p = callPrefix pe2 fuel fn p := by
  cases fn <;> simp only [callPrefix, parsePrefixExpression_congr h,
    parseGroupedExpression_congr h, parseIfExpression_congr h, parseFunctionLiteral_congr h,
    parseArrayLiteral_congr h, parseHashLiteral_congr h]

theorem callInfix_congr {pe1 pe2 : ParseExpressionFn}
    (h : AgreeAbove pe1 pe2) (fuel : Nat) (fn : InfixParseFn)
    (left : Option Expression) (p : Parser) :
    callInfix pe1 fuel fn left p = callInfix pe2 fuel fn left p := by
  cases fn <;> simp only [callInfix, parseInfixExpression_congr h,
    parseCallExpression_congr h, parseIndexExpression_congr h]

/-- From `LOWSET` up the loop of `parseExpression` never leaves through a
missing infix function. -/
theorem parseExpressionLoopStrict_eq {pe1 pe2 : ParseExpressionFn}
    (h : AgreeAbove pe1 pe2) (fuel : Nat) {precedence : Nat}
    (hq : LOWSET ≤ precedence) :
    ∀ (n : Nat) (left : Option Expression) (p : Parser),
      parseExpressionLoopStrict pe1 fuel precedence n left p =
        parseExpressionLoop pe2 fuel precedence n left p := by
  intro n
  induction n with
  | zero => intro left p; rw [parseExpressionLoopStrict, parseExpressionLoop]
  | succ n ih =>
    intro left p
    rw [parseExpressionLoopStrict, parseExpressionLoop]
    by_cases hc : (!p.peekTokenIs .SEMICOLON && precedence < p.peekPrecedence) = true
    · rw [if_pos hc, if_pos hc]
      have hlt : precedence < p.peekPrecedence := by
        simp only [Bool.and_eq_true, decide_eq_true_eq] at hc
        exact hc.2
      obtain ⟨fn, hfn⟩ := Option.isSome_iff_exists.1 (infixParseFns_of_lt hq hlt)
      rw [hfn]
      dsimp only
      rw [callInfix_congr h]
      cases callInfix pe2 fuel fn left p.nextToken with
      | none => rfl
      | some r => exact ih _ _
    · rw [if_neg hc, if_neg hc]

theorem parseExpressionStrict_agree :
    ∀ fuel : Nat, AgreeAbove (parseExpressionStrict fuel) (parseExpression fuel) := by
  intro fuel
  induction fuel with
  | zero => intro q p _; rw [parseExpressionStrict, parseExpression]
  | succ fuel ih =>
    intro q p hq
    rw [parseExpressionStrict, parseExpression]
    cases prefixParseFns p.curToken.Typ with
    | none => rfl
    | some fn =>
      dsimp only
      rw [callPrefix_congr ih]
      cases callPrefix (parseExpression fuel) fuel fn p with
      | none => rfl
      | some r => exact parseExpressionLoopStrict_eq ih fuel hq _ _ _

end Parser

/-- C38. Every token kind of the precedence table (`==`, `!=`, `<`, `>`, `+`,
`-`, `*`, `/`, `(`, `[`), that is every kind whose precedence is above
`LOWSET`, has a registered infix parse function; so when the loop of
`parseExpression`, called at a precedence from `LOWSET` up, goes on because
the peek precedence is higher, the infix function is there, and the parser
in which the early return for a missing infix function is a failure returns
what the parser returns, for every expression parsed at a precedence from
`LOWSET` up and for every statement. -/
theorem C38_infix_function_always_registered :
    (∀ (t : TokenType) (q : Nat), precedences t = some q →
      LOWSET < q ∧ (infixParseFns t).isSome = true) ∧
    (∀ (p : Parser) (precedence : Nat), LOWSET ≤ precedence →
      precedence < p.peekPrecedence → (infixParseFns p.peekToken.Typ).isSome = true) ∧
    (∀ p : Parser, LOWSET ≤ p.curPrecedence) ∧ LOWSET ≤ PREFIX ∧
    (∀ (fuel precedence : Nat) (p : Parser), LOWSET ≤ precedence →
      Parser.parseExpressionStrict fuel precedence p =
        Parser.parseExpression fuel precedence p) ∧
    (∀ (fuel : Nat) (p : Parser),
      Parser.parseStatement (Parser.parseExpressionStrict fuel) fuel p =
        Parser.parseStatement (Parser.parseExpression fuel) fuel p) :=
  ⟨fun t q h => ⟨(infixParseFns_of_precedence t q h).2, (infixParseFns_of_precedence t q h).1⟩,
    fun _ _ hq h => Parser.infixParseFns_of_lt hq h,
    Parser.lowset_le_curPrecedence, by decide,
    fun fuel q p hq => Parser.parseExpressionStrict_agree fuel q p hq,
    fun fuel p => Parser.parseStatement_congr (Parser.parseExpressionStrict_agree fuel) fuel p⟩

/-- C38, witness: in `a + b * c` the loop goes on at `+` and at `*`, both
with an infix function, and the strict parser returns the same tree. -/
theorem C38_infix_function_always_registered_witness :
    (infixParseFns (Parser.New (Lexer.New (bytes "a + b * c"))).peekToken.Typ).isSome = true ∧
    Parser.parseExpressionStrict 12 LOWSET (Parser.New (Lexer.New (bytes "a + b * c"))) =
      Parser.parseExpression 12 LOWSET (Parser.New (Lexer.New (bytes "a + b * c"))) ∧
    ((Parser.parseExpressionStrict 12 LOWSET (Parser.New (Lexer.New (bytes "a + b * c")))).bind
      (fun r => r.1.bind (Expression.String insertionOrder))) = some (bytes "(a + (b * c))") :=
  ⟨C38_infix_function_always_registered.2.1 _ LOWSET (by decide) (by decide),
    C38_infix_function_always_registered.2.2.2.2.1 12 LOWSET _ (by decide), by decide⟩

/-! ## The cursor of the tokenizer -/

namespace Lexer

/-- After any number of `NextToken` calls the lexer is at a cursor position
of the same input, at least one byte further per call. -/
theorem after_mkAt (i : GoString) :
    ∀ (n p : Nat), ∃ q, after n (mkAt i p) = mkAt i q ∧ p + n ≤ q := by
  intro n
  induction n with
  | zero => intro p; exact ⟨p, rfl, Nat.le_refl _⟩
  | succ n ih =>
    intro p
    obtain ⟨t, k, hk, hstep⟩ := NextToken_of_suffix (i.drop p)
    obtain ⟨q, hq, hle⟩ := ih (p + k)
    refine ⟨q, ?_, by omega⟩
    rw [after_succ, hstep i p rfl]
    exact hq

theorem mkAt_ch_of_le {i : GoString} {p : Nat} (h : i.length ≤ p) : (mkAt i p).ch = 0 := by
  rw [mkAt_ch, List.drop_eq_nil_of_le h]
  rfl

theorem mkAt_ch_of_lt {i : GoString} {p : Nat} (h : p < i.length) :
    i.get? p = some (mkAt i p).ch := by
  show i.get? p = some (i.getD p 0)
  rw [List.getD_eq_getElem?_getD, List.get?_eq_getElem?, List.getElem?_eq_getElem h]
  rfl

theorem mkAt_lt_of_ch {i : GoString} {p : Nat} (h : (mkAt i p).ch ≠ 0) : p < i.length := by
  by_contra hge
  exact h (mkAt_ch_of_le (by omega))

end Lexer

/-- C32. Tokenizer cursor invariant: after `New` and after every number of
`NextToken` calls, for every source, `readPosition` is `position + 1`, the
input is the source, the current byte is 0 when `position` is at or past the
length of the source, and it is the byte of the source at `position`
otherwise. -/
theorem C32_cursor_invariant (input : GoString) (n : Nat) :
    (Lexer.after n (Lexer.New input)).readPosition =
      (Lexer.after n (Lexer.New input)).position + 1 ∧
    (Lexer.after n (Lexer.New input)).input = input ∧
    (input.length ≤ (Lexer.after n (Lexer.New input)).position →
      (Lexer.after n (Lexer.New input)).ch = 0) ∧
    ((Lexer.after n (Lexer.New input)).position < input.length →
      input.get? (Lexer.after n (Lexer.New input)).position =
        some (Lexer.after n (Lexer.New input)).ch) := by
  obtain ⟨q, hq, _⟩ := Lexer.after_mkAt input n 0
  rw [Lexer.New_eq, hq]
  exact ⟨rfl, rfl, fun h => Lexer.mkAt_ch_of_le h, fun h => Lexer.mkAt_ch_of_lt h⟩

/-- C32, witness: the lexer of `a "b` after `New` (position 0, byte `a`),
after one call (position 1, a space), and after the second call, which
reads the unterminated string to the end (position 5, past the length 4,
byte 0). -/
theorem C32_cursor_invariant_witness :
    (Lexer.after 0 (Lexer.New (bytes "a \"b"))) = ⟨bytes "a \"b", 0, 1, 97⟩ ∧
    (Lexer.after 1 (Lexer.New (bytes "a \"b"))) = ⟨bytes "a \"b", 1, 2, 32⟩ ∧
    (Lexer.after 2 (Lexer.New (bytes "a \"b"))) = ⟨bytes "a \"b", 5, 6, 0⟩ ∧
    (Lexer.after 2 (Lexer.New (bytes "a \"b"))).ch = 0 ∧
    (bytes "a \"b").get? (Lexer.after 1 (Lexer.New (bytes "a \"b"))).position =
      some (Lexer.after 1 (Lexer.New (bytes "a \"b"))).ch :=
  ⟨by decide, by decide, by decide,
    (C32_cursor_invariant (bytes "a \"b") 2).2.2.1 (by decide),
    (C32_cursor_invariant (bytes "a \"b") 1).2.2.2 (by decide)⟩

/-! ## Progress of the tokenizer -/

/-- C36. The tokenizer always makes progress: in every state reached from
`New` by `NextToken` calls, one more call strictly increases `position`
(also at and past the end of the source), so after `k` calls `position` is
at least `k`; consequently, for a source of `n` bytes, the call number
`n + 1` returns the end-of-input token, and so does every later call. -/
theorem C36_tokenizer_makes_progress (input : GoString) :
    (∀ k : Nat, (Lexer.after k (Lexer.New input)).position <
      (Lexer.after k (Lexer.New input)).NextToken.2.position) ∧
    (∀ k : Nat, k ≤ (Lexer.after k (Lexer.New input)).position) ∧
    (∀ k : Nat, input.length ≤ k →
      Lexer.nthToken k (Lexer.New input) = ⟨.EOF, []⟩) ∧
    (∃ k : Nat, k < input.length + 1 ∧
      (Lexer.nthToken k (Lexer.New input)).Typ = .EOF) := by
  have hpos : ∀ k : Nat, ∃ q, Lexer.after k (Lexer.New input) = Lexer.mkAt input q ∧ k ≤ q := by
    intro k
    obtain ⟨q, hq, hle⟩ := Lexer.after_mkAt input k 0
    exact ⟨q, by rw [Lexer.New_eq]; exact hq, by omega⟩
  have heof : ∀ k : Nat, input.length ≤ k →
      Lexer.nthToken k (Lexer.New input) = ⟨.EOF, []⟩ := by
    intro k hk
    obtain ⟨q, hq, hle⟩ := hpos k
    rw [Lexer.nthToken, hq, Lexer.NextToken_nil (List.drop_eq_nil_of_le (by omega))]
  refine ⟨?_, ?_, heof, ⟨input.length, by omega, ?_⟩⟩
  · intro k
    obtain ⟨q, hq, _⟩ := hpos k
    obtain ⟨t, j, hj, hstep⟩ := Lexer.NextToken_of_suffix (input.drop q)
    rw [hq, hstep input q rfl]
    show q < q + j
    omega
  · intro k
    obtain ⟨q, hq, hle⟩ := hpos k
    rw [hq]
    exact hle
  · rw [heof _ (Nat.le_refl _)]

/-- C36, witness: the three bytes of `a b`: the positions after 0, 1 and 2
calls are 0, 1 and 3, and the call number 3 (and number 4) returns end of
input. -/
theorem C36_tokenizer_makes_progress_witness :
    (Lexer.after 0 (Lexer.New (bytes "a b"))).position = 0 ∧
    (Lexer.after 1 (Lexer.New (bytes "a b"))).position = 1 ∧
    (Lexer.after 2 (Lexer.New (bytes "a b"))).position = 3 ∧
    (Lexer.after 1 (Lexer.New (bytes "a b"))).position <
      (Lexer.after 1 (Lexer.New (bytes "a b"))).NextToken.2.position ∧
    Lexer.nthToken 2 (Lexer.New (bytes "a b")) = ⟨.EOF, []⟩ ∧
    Lexer.nthToken 3 (Lexer.New (bytes "a b")) = ⟨.EOF, []⟩ :=
  ⟨by decide, by decide, by decide,
    (C36_tokenizer_makes_progress (bytes "a b")).1 1, by decide,
    (C36_tokenizer_makes_progress (bytes "a b")).2.2.1 3 (by decide)⟩

/-! ## Slices and index reads of the tokenizer are in bounds -/

namespace Lexer

theorem readCharChecked_eq (l : Lexer) : l.readCharChecked = some l.readChar := by
  rw [readCharChecked, readChar]
  by_cases h : l.readPosition ≥ l.input.length
  · simp only [h, if_true]
  · have hlt : l.readPosition < l.input.length := by omega
    simp only [h, if_false, indexChecked, List.get?_eq_getElem?, List.getElem?_eq_getElem hlt,
      Option.map_some', List.getD_eq_getElem?_getD, Option.getD_some]

theorem peekCharChecked_eq (l : Lexer) : l.peekCharChecked = some l.peekChar := by
  rw [peekCharChecked, peekChar]
  by_cases h : l.readPosition ≥ l.input.length
  · simp only [h, if_true]
  · have hlt : l.readPosition < l.input.length := by omega
    simp only [h, if_false, indexChecked, List.get?_eq_getElem?, List.getElem?_eq_getElem hlt,
      List.getD_eq_getElem?_getD, Option.getD_some]

theorem sliceChecked_eq {s : GoString} {lo hi : Nat} (h1 : lo ≤ hi) (h2 : hi ≤ s.length) :
    sliceChecked s lo hi = some (slice s lo hi) := by
  rw [sliceChecked, if_pos ⟨h1, h2⟩]

theorem map_sliceChecked {α : Type} {s : GoString} {lo hi : Nat} (f : GoString → α)
    (h1 : lo ≤ hi) (h2 : hi ≤ s.length) :
    (sliceChecked s lo hi).map f = some (f (slice s lo hi)) := by
  rw [sliceChecked_eq h1 h2]
  rfl

theorem countWhile_drop_le (f : Nat → Bool) {i : GoString} {p : Nat} (h : p ≤ i.length) :
    p + countWhile f (i.drop p) ≤ i.length := by
  have h1 := countWhile_le f (i.drop p)
  have h2 : (i.drop p).length = i.length - p := List.length_drop _ _
  omega

/-- The slice of a `for cond(l.ch) { l.readChar() }` reader called on a byte
that satisfies `cond`. -/
theorem readCharWhile_bounds (f : Nat → Bool) (hf : f 0 = false) (i : GoString) (p : Nat)
    (h : f (mkAt i p).ch = true) :
    (mkAt i p).position ≤ (readCharWhile f (i.length + 1) (mkAt i p)).position ∧
      (readCharWhile f (i.length + 1) (mkAt i p)).position ≤ i.length ∧
      (readCharWhile f (i.length + 1) (mkAt i p)).input = i := by
  have hlt : p < i.length := mkAt_lt_of_ch (fun h0 => by rw [h0, hf] at h; exact nomatch h)
  rw [readCharWhile_mkAt f hf _ i p (countWhile_drop_lt _ i p)]
  exact ⟨Nat.le_add_right _ _, countWhile_drop_le f (Nat.le_of_lt hlt), rfl⟩

/-- The slice of `readString` called on the opening quote. -/
theorem readStringLoop_bounds (i : GoString) (p : Nat) (h : (mkAt i p).ch = 34) :
    (mkAt i p).position + 1 ≤ (readStringLoop (i.length + 1) (mkAt i p)).position ∧
      (readStringLoop (i.length + 1) (mkAt i p)).position ≤ i.length ∧
      (readStringLoop (i.length + 1) (mkAt i p)).input = i := by
  have hlt : p < i.length := mkAt_lt_of_ch (fun h0 => by rw [h0] at h; exact nomatch h)
  rw [readStringLoop_count i _ p (countWhile_drop_lt _ i (p + 1))]
  exact ⟨Nat.le_add_right _ _, countWhile_drop_le isStringByte hlt, rfl⟩

end Lexer

/-- C37. Substring extraction in the tokenizer is always in bounds: the
index reads of `readChar` and `peekChar` never fail, in any state; and in
every state reached from `New` by `NextToken` calls, after `skipWhitespace`,
when the current byte is a letter, a digit or a double quote, the slice
that `readIdentifiter`, `readNumber` or `readString` takes has
`start <= end <= len(input)`, so the checked slice expression returns what
the method returns. -/
theorem C37_slices_are_in_bounds (input : GoString) (n : Nat) :
    (∀ l : Lexer, l.readCharChecked = some l.readChar ∧ l.peekCharChecked = some l.peekChar) ∧
    (isLetter (Lexer.after n (Lexer.New input)).skipWhitespace.ch = true →
      (Lexer.after n (Lexer.New input)).skipWhitespace.readIdentifiterBounds.1 ≤
        (Lexer.after n (Lexer.New input)).skipWhitespace.readIdentifiterBounds.2 ∧
      (Lexer.after n (Lexer.New input)).skipWhitespace.readIdentifiterBounds.2 ≤ input.length ∧
      (Lexer.after n (Lexer.New input)).skipWhitespace.readIdentifiterChecked =
        some (Lexer.after n (Lexer.New input)).skipWhitespace.readIdentifiter) ∧
    (isDigit (Lexer.after n (Lexer.New input)).skipWhitespace.ch = true →
      (Lexer.after n (Lexer.New input)).skipWhitespace.readNumberBounds.1 ≤
        (Lexer.after n (Lexer.New input)).skipWhitespace.readNumberBounds.2 ∧
      (Lexer.after n (Lexer.New input)).skipWhitespace.readNumberBounds.2 ≤ input.length ∧
      (Lexer.after n (Lexer.New input)).skipWhitespace.readNumberChecked =
        some (Lexer.after n (Lexer.New input)).skipWhitespace.readNumber) ∧
    ((Lexer.after n (Lexer.New input)).skipWhitespace.ch = 34 →
      (Lexer.after n (Lexer.New input)).skipWhitespace.readStringBounds.1 ≤
        (Lexer.after n (Lexer.New input)).skipWhitespace.readStringBounds.2 ∧
      (Lexer.after n (Lexer.New input)).skipWhitespace.readStringBounds.2 ≤ input.length ∧
      (Lexer.after n (Lexer.New input)).skipWhitespace.readStringChecked =
        some (Lexer.after n (Lexer.New input)).skipWhitespace.readString) := by
  obtain ⟨q, hq, _⟩ := Lexer.after_mkAt input n 0
  rw [Lexer.New_eq, hq, Lexer.skipWhitespace_mkAt]
  generalize q + Lexer.countWhile isWhitespace (input.drop q) = p
  refine ⟨fun l => ⟨l.readCharChecked_eq, l.peekCharChecked_eq⟩, ?_, ?_, ?_⟩
  · intro h
    obtain ⟨h1, h2, h3⟩ := Lexer.readCharWhile_bounds isLetter rfl input p h
    refine ⟨h1, h2, ?_⟩
    exact Lexer.map_sliceChecked _ h1
      (Nat.le_trans h2 (Nat.le_of_eq (congrArg List.length h3).symm))
  · intro h
    obtain ⟨h1, h2, h3⟩ := Lexer.readCharWhile_bounds isDigit rfl input p h
    refine ⟨h1, h2, ?_⟩
    exact Lexer.map_sliceChecked _ h1
      (Nat.le_trans h2 (Nat.le_of_eq (congrArg List.length h3).symm))
  · intro h
    obtain ⟨h1, h2, h3⟩ := Lexer.readStringLoop_bounds input p h
    refine ⟨h1, h2, ?_⟩
    exact Lexer.map_sliceChecked _ h1
      (Nat.le_trans h2 (Nat.le_of_eq (congrArg List.length h3).symm))

/-- C37, witness: in `ab "c` the identifier ends inside the source (slice
0 to 2) and the unterminated string ends at the end of the source (slice 4
to 5 of 5 bytes); in `12` the number ends exactly at the end (slice 0 to
2). -/
theorem C37_slices_are_in_bounds_witness :
    (Lexer.after 0 (Lexer.New (bytes "ab \"c"))).skipWhitespace.readIdentifiterBounds = (0, 2) ∧
    (Lexer.after 0 (Lexer.New (bytes "ab \"c"))).skipWhitespace.readIdentifiterChecked =
      some (Lexer.after 0 (Lexer.New (bytes "ab \"c"))).skipWhitespace.readIdentifiter ∧
    (Lexer.after 1 (Lexer.New (bytes "ab \"c"))).skipWhitespace.readStringBounds = (4, 5) ∧
    (Lexer.after 1 (Lexer.New (bytes "ab \"c"))).skipWhitespace.readStringChecked =
      some (Lexer.after 1 (Lexer.New (bytes "ab \"c"))).skipWhitespace.readString ∧
    (Lexer.after 0 (Lexer.New (bytes "12"))).skipWhitespace.readNumberBounds = (0, 2) ∧
    (Lexer.after 0 (Lexer.New (bytes "12"))).skipWhitespace.readNumberChecked =
      some (Lexer.after 0 (Lexer.New (bytes "12"))).skipWhitespace.readNumber :=
  ⟨by decide,
    ((C37_slices_are_in_bounds (bytes "ab \"c") 0).2.1 (by decide)).2.2,
    by decide,
    ((C37_slices_are_in_bounds (bytes "ab \"c") 1).2.2.2 (by decide)).2.2,
    by decide,
    ((C37_slices_are_in_bounds (bytes "12") 0).2.2.1 (by decide)).2.2⟩

/-! ## Semicolons after a return statement -/

/-- C34. A return statement consumes every semicolon that follows it, not at
most one as let and expression statements do: `return 5;;` parses to one
statement and no diagnostic (and so does `return 5;;;`), while `5;;` and
`let x = 5;;` leave the second semicolon to start a statement of its own:
two statements and one diagnostic. -/
theorem C34_return_consumes_every_semicolon :
    parse (bytes "return 5;;") =
      some (⟨[.ReturnStatement returnToken (some (.IntegerLiteral ⟨.INT, bytes "5"⟩ 5))]⟩,
        []) ∧
    parse (bytes "return 5;;;") =
      some (⟨[.ReturnStatement returnToken (some (.IntegerLiteral ⟨.INT, bytes "5"⟩ 5))]⟩,
        []) ∧
    parse (bytes "5;;") =
      some (⟨[.ExpressionStatement ⟨.INT, bytes "5"⟩
          (some (.IntegerLiteral ⟨.INT, bytes "5"⟩ 5)),
        .ExpressionStatement semicolonToken none]⟩,
        [bytes "no prefix parse fuction for ; found"]) ∧
    parse (bytes "let x = 5;;") =
      some (⟨[.LetStatement letToken (some ⟨identToken (bytes "x"), bytes "x"⟩)
          (some (.IntegerLiteral ⟨.INT, bytes "5"⟩ 5)),
        .ExpressionStatement semicolonToken none]⟩,
        [bytes "no prefix parse fuction for ; found"]) ∧
    (parse (bytes "return 5;;")).map (fun r => (r.1.Statements.length, r.2.length)) =
      some (1, 0) ∧
    (parse (bytes "5;;")).map (fun r => (r.1.Statements.length, r.2.length)) = some (2, 1) :=
  ⟨rfl, rfl, rfl, rfl, by decide, by decide⟩

/-! ## Parsing the canonical string of an operator tree -/

theorem IsTreeOf.string_eq {ord : RangeOrder} {e : Expression} {t : OpTree} (h : IsTreeOf e t) :
    e.String ord = some t.text := by
  induction h with
  | ident tok w => rfl
  | pre tok q _ ih => simp [Expression.String, ih, OpTree.text]
  | bin tok o _ _ iha ihb => simp [Expression.String, iha, ihb, OpTree.text]

theorem OpTree.isTreeOf_expr : ∀ t : OpTree, IsTreeOf t.expr t
  | .ident w => IsTreeOf.ident _ w
  | .pre q r => IsTreeOf.pre _ q (OpTree.isTreeOf_expr r)
  | .bin l o r => IsTreeOf.bin _ o (OpTree.isTreeOf_expr l) (OpTree.isTreeOf_expr r)

theorem OpTree.tokens_eq (t : OpTree) : t.tokens = t.firstToken :: t.tokens.tail := by
  cases t <;> rfl

theorem OpTree.text_head_ne : ∀ (t : OpTree), t.Valid → ∀ r : GoString,
    (t.text ++ r).headD 0 ≠ 61
  | .ident w, hw, r => by
    obtain ⟨c, w', rfl⟩ := List.exists_cons_of_ne_nil hw.1
    have hc : isLetter c = true := hw.2.1 c (by simp)
    rw [Lexer.isLetter_iff] at hc
    simp only [OpTree.text, List.cons_append, List.headD_cons]
    omega
  | .pre _ _, _, _ => by simp [OpTree.text, bytes]
  | .bin _ _ _, _, _ => by simp [OpTree.text, bytes]

theorem Toks_prefixOp (q : PrefixOp) {r : GoString} {ts : List Token} (hne : r.headD 0 ≠ 61)
    (h : Toks r ts) : Toks (q.text ++ r) (q.token :: ts) := by
  cases q with
  | minus => exact Toks_singleChar (c := 45) (t := .MINUS) (by simp [Lexer.singleCharTokens]) h
  | bang => exact Toks_oneOfTwo (c := 33) (t := .BANG) (by simp) hne h

theorem Toks_opTree : ∀ (t : OpTree), t.Valid → ∀ (r : GoString) (ts : List Token),
    isLetter (r.headD 0) = false → Toks r ts → Toks (t.text ++ r) (t.tokens ++ ts)
  | .ident w, hw, r, ts, hr, h => Toks_ident hw hr h
  | .pre q t, ht, r, ts, _, h => by
    have ih := Toks_opTree t ht (bytes ")" ++ r) (rparenToken :: ts) rfl (Toks_rparen h)
    simp only [OpTree.text, OpTree.tokens, List.append_assoc, List.cons_append,
      List.nil_append]
    exact Toks_lparen (Toks_prefixOp q (OpTree.text_head_ne t ht _) ih)
  | .bin l o t, ht, r, ts, _, h => by
    have ihr := Toks_opTree t ht.2 (bytes ")" ++ r) (rparenToken :: ts) rfl (Toks_rparen h)
    have ihl := Toks_opTree l ht.1 (bytes " " ++ (o.text ++ (bytes " " ++ (t.text ++
      (bytes ")" ++ r))))) _ rfl (Toks_space (Toks_binOp o (Toks_space ihr)))
    simp only [OpTree.text, OpTree.tokens, List.append_assoc, List.cons_append,
      List.nil_append]
    exact Toks_lparen ihl

theorem OpTree.text_length_pos : ∀ (t : OpTree), t.Valid → 0 < t.text.length
  | .ident w, hw => List.length_pos.2 hw.1
  | .pre _ _, _ => by simp [OpTree.text, bytes]
  | .bin _ _ _, _ => by simp [OpTree.text, bytes]

/-- The canonical string of an operator tree is parsed to the node of the
tree, whatever the precedence and whatever follows: the call is the loop of
`parseExpression` entered with that node on the last token of the string. -/
theorem Parser.parseExpression_opTree : ∀ (t : OpTree), t.Valid →
    ∀ (f precedence : Nat) (p : Parser) (rest : List Token), t.text.length ≤ f →
      Sees p (t.tokens ++ rest) →
      ∃ p1 last, parseExpression (f + 1) precedence p =
          parseExpressionLoop (parseExpression f) f precedence f (some t.expr) p1 ∧
        Sees p1 (last :: rest) ∧ p1.errors = p.errors
  | .ident w, _, f, precedence, p, rest, _, h =>
    ⟨p, identToken w, parseExpression_ident h.cur, h, rfl⟩
  | .pre q t, ht, f, precedence, p, rest, hf, h => by
    have hpos := OpTree.text_length_pos t ht
    have hlen : t.text.length + 3 ≤ f := by
      have e1 : (bytes "(").length = 1 := rfl
      have e2 : (bytes ")").length = 1 := rfl
      have e3 : q.text.length = 1 := by cases q <;> rfl
      simp only [OpTree.text, List.length_append, e1, e2, e3] at hf
      omega
    obtain ⟨g, rfl⟩ : ∃ g, f = g + 3 := ⟨f - 3, by omega⟩
    have hg : t.text.length ≤ g + 1 := by omega
    have h0 : Sees p (lparenToken :: q.token :: (t.tokens ++ rparenToken :: rest)) := by
      simpa [OpTree.tokens] using h
    have h1 := h0.nextToken
    have h2 := h1.nextToken
    simp only [List.tail_cons] at h1 h2
    obtain ⟨p1, last, e1, s1, r1⟩ := parseExpression_opTree t ht (g + 1) PREFIX
      p.nextToken.nextToken (rparenToken :: rest) hg h2
    have hin : parseExpression (g + 2) PREFIX p.nextToken.nextToken =
        some (some t.expr, p1) := by
      rw [e1]
      exact parseExpressionLoop_stop (by rw [s1.peek]; exact Closes_rparen _ (by decide))
    have hpre : parseExpression (g + 3) LOWSET p.nextToken =
        some (some (OpTree.pre q t).expr, p1) := by
      rw [parseExpression_prefixOp h1.cur hin]
      exact parseExpressionLoop_stop (by rw [s1.peek]; exact Closes_rparen _ (Nat.le_refl _))
    have s2 := s1.nextToken
    simp only [List.tail_cons] at s2
    exact ⟨p1.nextToken, rparenToken, parseExpression_grouped h0.cur hpre s1.peek, s2,
      by rw [nextToken_errors, r1]; rfl⟩
  | .bin l o t, ht, f, precedence, p, rest, hf, h => by
    have hposl := OpTree.text_length_pos l ht.1
    have hpost := OpTree.text_length_pos t ht.2
    have hlen : l.text.length + t.text.length + 4 ≤ f := by
      have e1 : (bytes "(").length = 1 := rfl
      have e2 : (bytes ")").length = 1 := rfl
      have e3 : (bytes " ").length = 1 := rfl
      simp only [OpTree.text, List.length_append, e1, e2, e3] at hf
      omega
    obtain ⟨g, rfl⟩ : ∃ g, f = g + 3 := ⟨f - 3, by omega⟩
    have h0 : Sees p (lparenToken :: (l.tokens ++ o.token :: (t.tokens ++
        rparenToken :: rest))) := by
      simpa [OpTree.tokens] using h
    have h1 := h0.nextToken
    simp only [List.tail_cons] at h1
    obtain ⟨pl, lastl, el, sl, rl⟩ := parseExpression_opTree l ht.1 (g + 2) LOWSET
      p.nextToken (o.token :: (t.tokens ++ rparenToken :: rest)) (by omega) h1
    have sl2 := sl.nextToken.nextToken
    simp only [List.tail_cons] at sl2
    obtain ⟨pr, lastr, er, sr, rr⟩ := parseExpression_opTree t ht.2 (g + 1) o.precedence
      pl.nextToken.nextToken (rparenToken :: rest) (by omega) sl2
    have hright : parseExpression (g + 2) o.precedence pl.nextToken.nextToken =
        some (some t.expr, pr) := by
      rw [er]
      exact parseExpressionLoop_stop
        (by rw [sr.peek]; exact Closes_rparen _ (Nat.le_of_lt o.lowset_lt))
    have hin : parseExpression (g + 3) LOWSET p.nextToken =
        some (some (OpTree.bin l o t).expr, pr) := by
      rw [el, parseExpressionLoop_binOp sl.peek o.lowset_lt, hright]
      exact parseExpressionLoop_stop (by rw [sr.peek]; exact Closes_rparen _ (Nat.le_refl _))
    have s2 := sr.nextToken
    simp only [List.tail_cons] at s2
    exact ⟨pr.nextToken, rparenToken, parseExpression_grouped h0.cur hin sr.peek, s2,
      by rw [nextToken_errors, rr, nextToken_errors, nextToken_errors, rl]; rfl⟩

theorem OpTree.firstToken_typ (t : OpTree) :
    t.firstToken.Typ ≠ .EOF ∧ t.firstToken.Typ ≠ .LET ∧ t.firstToken.Typ ≠ .RETURN := by
  cases t <;> exact ⟨(fun h => nomatch h), (fun h => nomatch h), (fun h => nomatch h)⟩

/-- The canonical string of an operator tree, as a program. -/
theorem parse_opTree (t : OpTree) (ht : t.Valid) :
    parse t.text = some (⟨[.ExpressionStatement t.firstToken (some t.expr)]⟩, []) := by
  have htoks : Toks t.text (t.firstToken :: t.tokens.tail) := by
    have := Toks_opTree t ht [] [] rfl Toks_nil
    rw [← t.tokens_eq]
    simpa using this
  have h0 : Sees (Parser.New (Lexer.New t.text)) (t.tokens ++ []) := by
    rw [List.append_nil, t.tokens_eq]
    exact Sees_New htoks
  obtain ⟨p1, last, e1, s1, r1⟩ := Parser.parseExpression_opTree t ht (t.text.length + 2)
    LOWSET _ [] (by omega) h0
  have hpe : Parser.parseExpression (t.text.length + 3) LOWSET (Parser.New (Lexer.New t.text)) =
      some (some t.expr, p1) := by
    rw [e1]
    exact Parser.parseExpressionLoop_stop
      (by rw [s1.peek_eof]; exact Stops_eof _ (Nat.le_refl _))
  exact parse_of_parseExpression htoks t.firstToken_typ hpe (Or.inl s1)
    (by rw [r1]; rfl)

/-- C35. The canonical rendering is a fixed point of parsing: for every
expression `e` that is a tree of identifiers (non-keyword names of letters
and underscores), prefix operators `-` and `!` and the eight binary
operators, with shape, operators and names `t`, the string of `e` is the
canonical string of `t`; parsing that string records no diagnostics and
yields exactly one expression statement, whose expression is the tree of
the same shape, operators and names; and rendering the parsed program gives
the string of `e` back. -/
theorem C35_rendering_is_fixed_point_of_parsing (ord : RangeOrder) (e : Expression) (t : OpTree)
    (he : IsTreeOf e t) (ht : t.Valid) :
    e.String ord = some t.text ∧
    parse t.text = some (⟨[.ExpressionStatement t.firstToken (some t.expr)]⟩, []) ∧
    IsTreeOf t.expr t ∧
    (parse t.text).bind (fun r => r.1.String ord) = some t.text := by
  refine ⟨he.string_eq, parse_opTree t ht, t.isTreeOf_expr, ?_⟩
  rw [parse_opTree t ht]
  show Program.String _ _ = _
  simp [Program.String, Statement.StringAll, Statement.String, t.isTreeOf_expr.string_eq]

/-- C35, witness: the tree of `(a + (!(b * c)))`, also with other tokens in
its nodes than the parser stores, re-parsed from its string. -/
theorem C35_rendering_is_fixed_point_of_parsing_witness :
    (Expression.InfixExpression ⟨.ILLEGAL, []⟩ (some (.Identifier ⟨.INT, []⟩ (bytes "a")))
      (bytes "+") (some (.PrefixExpression ⟨.ILLEGAL, []⟩ (bytes "!")
        (some (.InfixExpression ⟨.ILLEGAL, []⟩ (some (identExpr (bytes "b"))) (bytes "*")
          (some (identExpr (bytes "c")))))))).String insertionOrder = some (bytes "(a + (!(b * c)))") ∧
    parse (bytes "(a + (!(b * c)))") = some (⟨[.ExpressionStatement lparenToken
      (some (infixExpr (identExpr (bytes "a")) .plus
        (.PrefixExpression ⟨.BANG, bytes "!"⟩ (bytes "!")
          (some (infixExpr (identExpr (bytes "b")) .asterisk (identExpr (bytes "c")))))))]⟩,
      []) ∧
    IsTreeOf (OpTree.bin (.ident (bytes "a")) .plus
        (.pre .bang (.bin (.ident (bytes "b")) .asterisk (.ident (bytes "c"))))).expr
      (OpTree.bin (.ident (bytes "a")) .plus
        (.pre .bang (.bin (.ident (bytes "b")) .asterisk (.ident (bytes "c"))))) ∧
    (parse (bytes "(a + (!(b * c)))")).bind (fun r => r.1.String insertionOrder) =
      some (bytes "(a + (!(b * c)))") :=
  C35_rendering_is_fixed_point_of_parsing insertionOrder _
    (.bin (.ident (bytes "a")) .plus
      (.pre .bang (.bin (.ident (bytes "b")) .asterisk (.ident (bytes "c")))))
    (IsTreeOf.bin _ .plus (IsTreeOf.ident _ _)
      (IsTreeOf.pre _ .bang (IsTreeOf.bin _ .asterisk (IsTreeOf.ident _ _)
        (IsTreeOf.ident _ _))))
    (by decide)

/-! ## The parser on a bounded call stack -/

namespace Parser

theorem parsePrefixExpression_mono {pe1 pe2 : ParseExpressionFn} (h : Extends pe1 pe2)
    {p : Parser} {r : Option Expression × Parser}
    (hr : parsePrefixExpression pe1 p = some r) : parsePrefixExpression pe2 p = some r := by
  rw [parsePrefixExpression] at hr ⊢
  cases h1 : pe1 PREFIX p.nextToken with
  | none => rw [h1] at hr; exact absurd hr (by simp)
  | some x => rw [h1] at hr; rw [h _ _ _ h1]; exact hr

theorem parseInfixExpression_mono {pe1 pe2 : ParseExpressionFn} (h : Extends pe1 pe2)
    {left : Option Expression} {p : Parser} {r : Option Expression × Parser}
    (hr : parseInfixExpression pe1 left p = some r) :
    parseInfixExpression pe2 left p = some r := by
  rw [parseInfixExpression] at hr ⊢
  cases h1 : pe1 p.curPrecedence p.nextToken with
  | none => rw [h1] at hr; exact absurd hr (by simp)
  | some x => rw [h1] at hr; rw [h _ _ _ h1]; exact hr

theorem parseGroupedExpression_mono {pe1 pe2 : ParseExpressionFn} (h : Extends pe1 pe2)
    {p : Parser} {r : Option Expression × Parser}
    (hr : parseGroupedExpression pe1 p = some r) : parseGroupedExpression pe2 p = some r := by
  rw [parseGroupedExpression] at hr ⊢
  cases h1 : pe1 LOWSET p.nextToken with
  | none => rw [h1] at hr; exact absurd hr (by simp)
  | some x => rw [h1] at hr; rw [h _ _ _ h1]; exact hr

theorem parseIndexExpression_mono {pe1 pe2 : ParseExpressionFn} (h : Extends pe1 pe2)
    {left : Option Expression} {p : Parser} {r : Option Expression × Parser}
    (hr : parseIndexExpression pe1 left p = some r) :
    parseIndexExpression pe2 left p = some r := by
  rw [parseIndexExpression] at hr ⊢
  cases h1 : pe1 LOWSET p.nextToken with
  | none => rw [h1] at hr; exact absurd hr (by simp)
  | some x => rw [h1] at hr; rw [h _ _ _ h1]; exact hr

theorem parseExpressionListLoop_mono {pe1 pe2 : ParseExpressionFn} (h : Extends pe1 pe2) :
    ∀ (n m : Nat), n ≤ m → ∀ (list : List (Option Expression)) (p : Parser)
      (r : List (Option Expression) × Parser),
      parseExpressionListLoop pe1 n list p = some r →
      parseExpressionListLoop pe2 m list p = some r := by
  intro n
  induction n with
  | zero => intro m _ list p r hr; rw [parseExpressionListLoop] at hr; exact absurd hr (by simp)
  | succ n ih =>
    intro m hm list p r hr
    obtain ⟨m, rfl⟩ : ∃ k, m = k + 1 := ⟨m - 1, by omega⟩
    rw [parseExpressionListLoop] at hr ⊢
    by_cases hc : p.peekTokenIs .COMMA = true
    · rw [if_pos hc] at hr ⊢
      cases h1 : pe1 LOWSET p.nextToken.nextToken with
      | none => rw [h1] at hr; exact absurd hr (by simp)
      | some x =>
        rw [h1] at hr; rw [h _ _ _ h1]
        exact ih m (by omega) _ _ _ hr
    · rw [if_neg hc] at hr ⊢; exact hr

theorem parseExpressionList_mono {pe1 pe2 : ParseExpressionFn} (h : Extends pe1 pe2)
    {f1 f2 : Nat} (hf : f1 ≤ f2) {endTok : TokenType} {p : Parser}
    {r : Option (List (Option Expression)) × Parser}
    (hr : parseExpressionList pe1 f1 endTok p = some r) :
    parseExpressionList pe2 f2 endTok p = some r := by
  rw [parseExpressionList] at hr ⊢
  by_cases hc : p.peekTokenIs endTok = true
  · rw [if_pos hc] at hr ⊢; exact hr
  · rw [if_neg hc] at hr ⊢
    cases h1 : pe1 LOWSET p.nextToken with
    | none => rw [h1] at hr; exact absurd hr (by simp)
    | some x =>
      obtain ⟨e, p1⟩ := x
      rw [h1] at hr; rw [h _ _ _ h1]
      dsimp only at hr ⊢
      cases h2 : parseExpressionListLoop pe1 f1 [e] p1 with
      | none => rw [h2] at hr; exact absurd hr (by simp)
      | some y =>
        rw [h2] at hr; rw [parseExpressionListLoop_mono h f1 f2 hf _ _ _ h2]; exact hr

theorem parseCallExpression_mono {pe1 pe2 : ParseExpressionFn} (h : Extends pe1 pe2)
    {f1 f2 : Nat} (hf : f1 ≤ f2) {function : Option Expression} {p : Parser}
    {r : Option Expression × Parser}
    (hr : parseCallExpression pe1 f1 function p = some r) :
    parseCallExpression pe2 f2 function p = some r := by
  rw [parseCallExpression] at hr ⊢
  cases h1 : parseExpressionList pe1 f1 .RPAREN p with
  | none => rw [h1] at hr; exact absurd hr (by simp)
  | some x => rw [h1] at hr; rw [parseExpressionList_mono h hf h1]; exact hr

theorem parseArrayLiteral_mono {pe1 pe2 : ParseExpressionFn} (h : Extends pe1 pe2)
    {f1 f2 : Nat} (hf : f1 ≤ f2) {p : Parser} {r : Option Expression × Parser}
    (hr : parseArrayLiteral pe1 f1 p = some r) : parseArrayLiteral pe2 f2 p = some r := by
  rw [parseArrayLiteral] at hr ⊢
  cases h1 : parseExpressionList pe1 f1 .RBRACKET p with
  | none => rw [h1] at hr; exact absurd hr (by simp)
  | some x => rw [h1] at hr; rw [parseExpressionList_mono h hf h1]; exact hr

theorem parseHashLiteralLoop_mono {pe1 pe2 : ParseExpressionFn} (h : Extends pe1 pe2) :
    ∀ (n m : Nat), n ≤ m → ∀ (pairs : List (Option Expression × Option Expression))
      (p : Parser) (r : Option (List (Option Expression × Option Expression)) × Parser),
      parseHashLiteralLoop pe1 n pairs p = some r →
      parseHashLiteralLoop pe2 m pairs p = some r := by
  intro n
  induction n with
  | zero => intro m _ pairs p r hr; rw [parseHashLiteralLoop] at hr; exact absurd hr (by simp)
  | succ n ih =>
    intro m hm pairs p r hr
    obtain ⟨m, rfl⟩ : ∃ k, m = k + 1 := ⟨m - 1, by omega⟩
    rw [parseHashLiteralLoop] at hr ⊢
    by_cases hc : p.peekTokenIs .RBRACE = true
    · rw [if_pos hc] at hr ⊢; exact hr
    · rw [if_neg hc] at hr ⊢
      cases h1 : pe1 LOWSET p.nextToken with
      | none => rw [h1] at hr; exact absurd hr (by simp)
      | some x =>
        obtain ⟨key, p1⟩ := x
        rw [h1] at hr; rw [h _ _ _ h1]
        dsimp only at hr ⊢
        by_cases hk : (p1.expectPeek .COLON).1 = true
        · rw [if_pos hk] at hr ⊢
          cases h2 : pe1 LOWSET (p1.expectPeek .COLON).2.nextToken with
          | none => rw [h2] at hr; exact absurd hr (by simp)
          | some y =>
            obtain ⟨value, p2⟩ := y
            rw [h2] at hr; rw [h _ _ _ h2]
            dsimp only at hr ⊢
            by_cases hb : p2.peekTokenIs .RBRACE = true
            · rw [if_pos hb] at hr ⊢
              exact ih m (by omega) _ _ _ hr
            · rw [if_neg hb] at hr ⊢
              by_cases hcm : (p2.expectPeek .COMMA).1 = true
              · rw [if_pos hcm] at hr ⊢
                exact ih m (by omega) _ _ _ hr
              · rw [if_neg hcm] at hr ⊢; exact hr
        · rw [if_neg hk] at hr ⊢; exact hr

theorem parseHashLiteral_mono {pe1 pe2 : ParseExpressionFn} (h : Extends pe1 pe2)
    {f1 f2 : Nat} (hf : f1 ≤ f2) {p : Parser} {r : Option Expression × Parser}
    (hr : parseHashLiteral pe1 f1 p = some r) : parseHashLiteral pe2 f2 p = some r := by
  rw [parseHashLiteral] at hr ⊢
  cases h1 : parseHashLiteralLoop pe1 f1 [] p with
  | none => rw [h1] at hr; exact absurd hr (by simp)
  | some x => rw [h1] at hr; rw [parseHashLiteralLoop_mono h f1 f2 hf _ _ _ h1]; exact hr

theorem parseFunctionParametersLoop_mono :
    ∀ (n m : Nat), n ≤ m → ∀ (identifiers : List Identifier) (p : Parser)
      (r : List Identifier × Parser),
      parseFunctionParametersLoop n identifiers p = some r →
      parseFunctionParametersLoop m identifiers p = some r := by
  intro n
  induction n with
  | zero =>
    intro m _ ids p r hr; rw [parseFunctionParametersLoop] at hr; exact absurd hr (by simp)
  | succ n ih =>
    intro m hm ids p r hr
    obtain ⟨m, rfl⟩ : ∃ k, m = k + 1 := ⟨m - 1, by omega⟩
    rw [parseFunctionParametersLoop] at hr ⊢
    by_cases hc : p.peekTokenIs .COMMA = true
    · rw [if_pos hc] at hr ⊢
      exact ih m (by omega) _ _ _ hr
    · rw [if_neg hc] at hr ⊢; exact hr

theorem parseFunctionParameters_mono {f1 f2 : Nat} (hf : f1 ≤ f2) {p : Parser}
    {r : Option (List Identifier) × Parser}
    (hr : parseFunctionParameters f1 p = some r) : parseFunctionParameters f2 p = some r := by
  rw [parseFunctionParameters] at hr ⊢
  by_cases hc : p.peekTokenIs .RPAREN = true
  · rw [if_pos hc] at hr ⊢; exact hr
  · rw [if_neg hc] at hr ⊢
    cases h1 : parseFunctionParametersLoop f1
        [⟨p.nextToken.curToken, p.nextToken.curToken.Literal⟩] p.nextToken with
    | none => rw [h1] at hr; exact absurd hr (by simp)
    | some x =>
      rw [h1] at hr; rw [parseFunctionParametersLoop_mono f1 f2 hf _ _ _ h1]; exact hr

theorem parseLetStatement_mono {pe1 pe2 : ParseExpressionFn} (h : Extends pe1 pe2)
    {p : Parser} {r : Option Statement × Parser}
    (hr : parseLetStatement pe1 p = some r) : parseLetStatement pe2 p = some r := by
  rw [parseLetStatement] at hr ⊢
  by_cases hc : (p.expectPeek .IDENT).1 = true
  · rw [if_pos hc] at hr ⊢
    dsimp only at hr ⊢
    by_cases hk : ((p.expectPeek .IDENT).2.expectPeek .ASSIGN).1 = true
    · rw [if_pos hk] at hr ⊢
      cases h1 : pe1 LOWSET ((p.expectPeek .IDENT).2.expectPeek .ASSIGN).2.nextToken with
      | none => rw [h1] at hr; exact absurd hr (by simp)
      | some x => rw [h1] at hr; rw [h _ _ _ h1]; exact hr
    · rw [if_neg hk] at hr ⊢; exact hr
  · rw [if_neg hc] at hr ⊢; exact hr

theorem parseReturnStatementLoop_mono :
    ∀ (n m : Nat), n ≤ m → ∀ (p r : Parser),
      parseReturnStatementLoop n p = some r → parseReturnStatementLoop m p = some r := by
  intro n
  induction n with
  | zero => intro m _ p r hr; rw [parseReturnStatementLoop] at hr; exact absurd hr (by simp)
  | succ n ih =>
    intro m hm p r hr
    obtain ⟨m, rfl⟩ : ∃ k, m = k + 1 := ⟨m - 1, by omega⟩
    rw [parseReturnStatementLoop] at hr ⊢
    by_cases hc : p.peekTokenIs .SEMICOLON = true
    · rw [if_pos hc] at hr ⊢
      exact ih m (by omega) _ _ hr
    · rw [if_neg hc] at hr ⊢; exact hr

theorem parseReturnStatement_mono {pe1 pe2 : ParseExpressionFn} (h : Extends pe1 pe2)
    {f1 f2 : Nat} (hf : f1 ≤ f2) {p : Parser} {r : Option Statement × Parser}
    (hr : parseReturnStatement pe1 f1 p = some r) : parseReturnStatement pe2 f2 p = some r := by
  rw [parseReturnStatement] at hr ⊢
  cases h1 : pe1 LOWSET p.nextToken with
  | none => rw [h1] at hr; exact absurd hr (by simp)
  | some x =>
    obtain ⟨value, p1⟩ := x
    rw [h1] at hr; rw [h _ _ _ h1]
    dsimp only at hr ⊢
    cases h2 : parseReturnStatementLoop f1 p1 with
    | none => rw [h2] at hr; exact absurd hr (by simp)
    | some y => rw [h2] at hr; rw [parseReturnStatementLoop_mono f1 f2 hf _ _ h2]; exact hr

theorem parseExpressionStatement_mono {pe1 pe2 : ParseExpressionFn} (h : Extends pe1 pe2)
    {p : Parser} {r : Option Statement × Parser}
    (hr : parseExpressionStatement pe1 p = some r) :
    parseExpressionStatement pe2 p = some r := by
  rw [parseExpressionStatement] at hr ⊢
  cases h1 : pe1 LOWSET p with
  | none => rw [h1] at hr; exact absurd hr (by simp)
  | some x => rw [h1] at hr; rw [h _ _ _ h1]; exact hr

theorem parseStatement_mono {pe1 pe2 : ParseExpressionFn} (h : Extends pe1 pe2)
    {f1 f2 : Nat} (hf : f1 ≤ f2) {p : Parser} {r : Option Statement × Parser}
    (hr : parseStatement pe1 f1 p = some r) : parseStatement pe2 f2 p = some r := by
  rw [parseStatement] at hr ⊢
  by_cases hL : p.curToken.Typ = .LET
  · rw [if_pos hL] at hr ⊢
    cases h1 : parseLetStatement pe1 p with
    | none => rw [h1] at hr; exact absurd hr (by simp)
    | some x => rw [h1] at hr; rw [parseLetStatement_mono h h1]; exact hr
  · rw [if_neg hL] at hr ⊢
    by_cases hR : p.curToken.Typ = .RETURN
    · rw [if_pos hR] at hr ⊢
      exact parseReturnStatement_mono h hf hr
    · rw [if_neg hR] at hr ⊢
      exact parseExpressionStatement_mono h hr

theorem parseBlockStatementLoop_mono {pe1 pe2 : ParseExpressionFn} (h : Extends pe1 pe2)
    {f1 f2 : Nat} (hf : f1 ≤ f2) :
    ∀ (n m : Nat), n ≤ m → ∀ (statements : List Statement) (p : Parser)
      (r : List Statement × Parser),
      parseBlockStatementLoop pe1 f1 n statements p = some r →
      parseBlockStatementLoop pe2 f2 m statements p = some r := by
  intro n
  induction n with
  | zero =>
    intro m _ st p r hr; rw [parseBlockStatementLoop] at hr; exact absurd hr (by simp)
  | succ n ih =>
    intro m hm st p r hr
    obtain ⟨m, rfl⟩ : ∃ k, m = k + 1 := ⟨m - 1, by omega⟩
    rw [parseBlockStatementLoop] at hr ⊢
    by_cases hc : (!p.curTokenIs .RBRACE && !p.curTokenIs .EOF) = true
    · rw [if_pos hc] at hr ⊢
      cases h1 : parseStatement pe1 f1 p with
      | none => rw [h1] at hr; exact absurd hr (by simp)
      | some x =>
        obtain ⟨stmt, p1⟩ := x
        rw [h1] at hr; rw [parseStatement_mono h hf h1]
        dsimp only at hr ⊢
        exact ih m (by omega) _ _ _ hr
    · rw [if_neg hc] at hr ⊢; exact hr

theorem parseBlockStatement_mono {pe1 pe2 : ParseExpressionFn} (h : Extends pe1 pe2)
    {f1 f2 : Nat} (hf : f1 ≤ f2) {p : Parser} {r : BlockStatement × Parser}
    (hr : parseBlockStatement pe1 f1 p = some r) : parseBlockStatement pe2 f2 p = some r := by
  rw [parseBlockStatement] at hr ⊢
  cases h1 : parseBlockStatementLoop pe1 f1 f1 [] p.nextToken with
  | none => rw [h1] at hr; exact absurd hr (by simp)
  | some x =>
    rw [h1] at hr; rw [parseBlockStatementLoop_mono h hf f1 f2 hf _ _ _ h1]; exact hr

theorem parseIfExpressionElse_mono {pe1 pe2 : ParseExpressionFn} (h : Extends pe1 pe2)
    {f1 f2 : Nat} (hf : f1 ≤ f2) {tok : Token} {condition : Option Expression}
    {consequence : BlockStatement} {p : Parser} {r : Option Expression × Parser}
    (hr : parseIfExpressionElse pe1 f1 tok condition consequence p = some r) :
    parseIfExpressionElse pe2 f2 tok condition consequence p = some r := by
  rw [parseIfExpressionElse] at hr ⊢
  by_cases hc : p.peekTokenIs .ELSE = true
  · rw [if_pos hc] at hr ⊢
    by_cases hk : (p.nextToken.expectPeek .LBRACE).1 = true
    · rw [if_pos hk] at hr ⊢
      cases h1 : parseBlockStatement pe1 f1 (p.nextToken.expectPeek .LBRACE).2 with
      | none => rw [h1] at hr; exact absurd hr (by simp)
      | some x => rw [h1] at hr; rw [parseBlockStatement_mono h hf h1]; exact hr
    · rw [if_neg hk] at hr ⊢; exact hr
  · rw [if_neg hc] at hr ⊢; exact hr

theorem parseIfExpression_mono {pe1 pe2 : ParseExpressionFn} (h : Extends pe1 pe2)
    {f1 f2 : Nat} (hf : f1 ≤ f2) {p : Parser} {r : Option Expression × Parser}
    (hr : parseIfExpression pe1 f1 p = some r) : parseIfExpression pe2 f2 p = some r := by
  rw [parseIfExpression] at hr ⊢
  by_cases hc : (p.expectPeek .LPAREN).1 = true
  · rw [if_pos hc] at hr ⊢
    cases h1 : pe1 LOWSET (p.expectPeek .LPAREN).2.nextToken with
    | none => rw [h1] at hr; exact absurd hr (by simp)
    | some x =>
      obtain ⟨condition, p1⟩ := x
      rw [h1] at hr; rw [h _ _ _ h1]
      dsimp only at hr ⊢
      by_cases hk : (p1.expectPeek .RPAREN).1 = true
      · rw [if_pos hk] at hr ⊢
        by_cases hb : ((p1.expectPeek .RPAREN).2.expectPeek .LBRACE).1 = true
        · rw [if_pos hb] at hr ⊢
          cases h2 : parseBlockStatement pe1 f1
              ((p1.expectPeek .RPAREN).2.expectPeek .LBRACE).2 with
          | none => rw [h2] at hr; exact absurd hr (by simp)
          | some y =>
            obtain ⟨consequence, p3⟩ := y
            rw [h2] at hr; rw [parseBlockStatement_mono h hf h2]
            dsimp only at hr ⊢
            exact parseIfExpressionElse_mono h hf hr
        · rw [if_neg hb] at hr ⊢; exact hr
      · rw [if_neg hk] at hr ⊢; exact hr
  · rw [if_neg hc] at hr ⊢; exact hr

theorem parseFunctionLiteral_mono {pe1 pe2 : ParseExpressionFn} (h : Extends pe1 pe2)
    {f1 f2 : Nat} (hf : f1 ≤ f2) {p : Parser} {r : Option Expression × Parser}
    (hr : parseFunctionLiteral pe1 f1 p = some r) : parseFunctionLiteral pe2 f2 p = some r := by
  rw [parseFunctionLiteral] at hr ⊢
  by_cases hc : (p.expectPeek .LPAREN).1 = true
  · rw [if_pos hc] at hr ⊢
    cases h1 : parseFunctionParameters f1 (p.expectPeek .LPAREN).2 with
    | none => rw [h1] at hr; exact absurd hr (by simp)
    | some x =>
      obtain ⟨parameters, p1⟩ := x
      rw [h1] at hr; rw [parseFunctionParameters_mono hf h1]
      dsimp only at hr ⊢
      by_cases hk : (p1.expectPeek .LBRACE).1 = true
      · rw [if_pos hk] at hr ⊢
        cases h2 : parseBlockStatement pe1 f1 (p1.expectPeek .LBRACE).2 with
        | none => rw [h2] at hr; exact absurd hr (by simp)
        | some y => rw [h2] at hr; rw [parseBlockStatement_mono h hf h2]; exact hr
      · rw [if_neg hk] at hr ⊢; exact hr
  · rw [if_neg hc] at hr ⊢; exact hr

theorem callPrefix_mono {pe1 pe2 : ParseExpressionFn} (h : Extends pe1 pe2)
    {f1 f2 : Nat} (hf : f1 ≤ f2) {fn : PrefixParseFn} {p : Parser}
    {r : Option Expression × Parser}
    (hr : callPrefix pe1 f1 fn p = some r) : callPrefix pe2 f2 fn p = some r := by
  cases fn <;> rw [callPrefix] at hr ⊢
  · exact hr
  · exact hr
  · exact parsePrefixExpression_mono h hr
  · exact hr
  · exact parseGroupedExpression_mono h hr
  · exact parseIfExpression_mono h hf hr
  · exact parseFunctionLiteral_mono h hf hr
  · exact hr
  · exact parseArrayLiteral_mono h hf hr
  · exact parseHashLiteral_mono h hf hr

theorem callInfix_mono {pe1 pe2 : ParseExpressionFn} (h : Extends pe1 pe2)
    {f1 f2 : Nat} (hf : f1 ≤ f2) {fn : InfixParseFn} {left : Option Expression} {p : Parser}
    {r : Option Expression × Parser}
    (hr : callInfix pe1 f1 fn left p = some r) : callInfix pe2 f2 fn left p = some r := by
  cases fn <;> rw [callInfix] at hr ⊢
  · exact parseInfixExpression_mono h hr
  · exact parseCallExpression_mono h hf hr
  · exact parseIndexExpression_mono h hr

theorem parseExpressionLoop_mono {pe1 pe2 : ParseExpressionFn} (h : Extends pe1 pe2)
    {f1 f2 : Nat} (hf : f1 ≤ f2) {precedence : Nat} :
    ∀ (n m : Nat), n ≤ m → ∀ (left : Option Expression) (p : Parser)
      (r : Option Expression × Parser),
      parseExpressionLoop pe1 f1 precedence n left p = some r →
      parseExpressionLoop pe2 f2 precedence m left p = some r := by
  intro n
  induction n with
  | zero => intro m _ left p r hr; rw [parseExpressionLoop] at hr; exact absurd hr (by simp)
  | succ n ih =>
    intro m hm left p r hr
    obtain ⟨m, rfl⟩ : ∃ k, m = k + 1 := ⟨m - 1, by omega⟩
    rw [parseExpressionLoop] at hr ⊢
    by_cases hc : (!p.peekTokenIs .SEMICOLON && decide (precedence < p.peekPrecedence)) = true
    · rw [if_pos hc] at hr ⊢
      cases hfn : infixParseFns p.peekToken.Typ with
      | none => rw [hfn] at hr; exact hr
      | some fn =>
        rw [hfn] at hr
        dsimp only at hr ⊢
        cases h1 : callInfix pe1 f1 fn left p.nextToken with
        | none => rw [h1] at hr; exact absurd hr (by simp)
        | some x =>
          obtain ⟨left1, p1⟩ := x
          rw [h1] at hr; rw [callInfix_mono h hf h1]
          dsimp only at hr ⊢
          exact ih m (by omega) _ _ _ hr
    · rw [if_neg hc] at hr ⊢; exact hr

/-- What `parseExpression` returns under a counter, it returns on every
stack and under every loop bound that are not smaller than the counter. -/
theorem parseExpression_extends :
    ∀ (f loops stack : Nat), f ≤ loops → f ≤ stack →
      Extends (parseExpression f) (parseExpressionOnStack loops stack) := by
  intro f
  induction f with
  | zero => intro loops stack _ _ q p r hr; rw [parseExpression] at hr; exact absurd hr (by simp)
  | succ f ih =>
    intro loops stack hl hs q p r hr
    obtain ⟨stack, rfl⟩ : ∃ k, stack = k + 1 := ⟨stack - 1, by omega⟩
    have hext := ih loops stack (by omega) (by omega)
    rw [parseExpression] at hr
    rw [parseExpressionOnStack]
    cases hfn : prefixParseFns p.curToken.Typ with
    | none => rw [hfn] at hr; exact hr
    | some fn =>
      rw [hfn] at hr
      dsimp only at hr ⊢
      cases h1 : callPrefix (parseExpression f) f fn p with
      | none => rw [h1] at hr; exact absurd hr (by simp)
      | some x =>
        obtain ⟨left, p1⟩ := x
        rw [h1] at hr
        rw [callPrefix_mono hext (Nat.le_of_succ_le hl) h1]
        dsimp only at hr ⊢
        exact parseExpressionLoop_mono hext (Nat.le_of_succ_le hl) f loops
          (Nat.le_of_succ_le hl) _ _ _ hr

theorem ParseProgramLoop_extends {f loops stack : Nat} (hl : f ≤ loops) (hs : f ≤ stack) :
    ∀ (n m : Nat), n ≤ m → ∀ (statements : List Statement) (p : Parser)
      (r : List Statement × Parser),
      ParseProgramLoop f n statements p = some r →
      ParseProgramLoopOnStack loops stack m statements p = some r := by
  intro n
  induction n with
  | zero => intro m _ st p r hr; rw [ParseProgramLoop] at hr; exact absurd hr (by simp)
  | succ n ih =>
    intro m hm st p r hr
    obtain ⟨m, rfl⟩ : ∃ k, m = k + 1 := ⟨m - 1, by omega⟩
    rw [ParseProgramLoop] at hr
    rw [ParseProgramLoopOnStack]
    by_cases hc : p.curToken.Typ ≠ .EOF
    · rw [if_pos hc] at hr ⊢
      cases h1 : parseStatement (parseExpression f) f p with
      | none => rw [h1] at hr; exact absurd hr (by simp)
      | some x =>
        obtain ⟨stmt, p1⟩ := x
        rw [h1] at hr
        rw [parseStatement_mono (parseExpression_extends f loops stack hl hs) hl h1]
        dsimp only at hr ⊢
        exact ih m (by omega) _ _ _ hr
    · rw [if_neg hc] at hr ⊢; exact hr

end Parser

/-- On a stack that holds `len(input) + 3` nested activations of
`parseExpression` the parse is the one of `parse`: the stack is not what ends
it. -/
theorem parseOnStack_eq_parse (input : GoString) (stack : Nat)
    (h : input.length + 3 ≤ stack) : parseOnStack stack input = parse input := by
  obtain ⟨program, errors, hp⟩ := (parse_returns input).1
  rw [hp]
  rw [parse, Parser.ParseProgram] at hp
  rw [parseOnStack, Parser.ParseProgramOnStack]
  cases h1 : Parser.ParseProgramLoop (input.length + 3) (input.length + 3) []
      (Parser.New (Lexer.New input)) with
  | none => rw [h1] at hp; exact absurd hp (by simp)
  | some x =>
    rw [h1] at hp
    rw [Parser.ParseProgramLoop_extends (Nat.le_refl _) h _ _ (Nat.le_refl _) _ _ _ h1]
    exact hp

theorem Toks_lparens : ∀ k : Nat, Toks (List.replicate k 40) (List.replicate k lparenToken)
  | 0 => Toks_nil
  | k + 1 => Toks_lparen (Toks_lparens k)

/-- In front of `k` left parentheses `parseExpression` needs `k + 1` nested
activations: on a stack that holds at most `k` it does not return. -/
theorem Parser.parseExpressionOnStack_lparens (loops : Nat) :
    ∀ (stack k precedence : Nat) (p : Parser), stack ≤ k →
      Sees p (List.replicate k lparenToken) →
      parseExpressionOnStack loops stack precedence p = none := by
  intro stack
  induction stack with
  | zero => intro k precedence p _ _; rw [parseExpressionOnStack]
  | succ stack ih =>
    intro k precedence p hk h
    obtain ⟨k, rfl⟩ : ∃ j, k = j + 1 := ⟨k - 1, by omega⟩
    have hc : p.curToken = lparenToken := h.cur
    have hp : prefixParseFns p.curToken.Typ = some .parseGroupedExpression := by rw [hc]; rfl
    have h1 := h.nextToken
    simp only [List.replicate_succ, List.tail_cons] at h1
    have hin := ih k LOWSET p.nextToken (by omega) h1
    rw [parseExpressionOnStack, hp]
    dsimp only
    rw [callPrefix, parseGroupedExpression, hin]

/-- The source of `k` left parentheses, `k` at least 1, overflows every
stack that holds at most `k` nested activations of `parseExpression`. -/
theorem parseOnStack_lparens (stack k : Nat) (h1 : 1 ≤ k) (h : stack ≤ k) :
    parseOnStack stack (List.replicate k 40) = none := by
  have h0 := Sees_New (Toks_lparens k)
  obtain ⟨j, rfl⟩ : ∃ j, k = j + 1 := ⟨k - 1, by omega⟩
  have hc : (Parser.New (Lexer.New (List.replicate (j + 1) 40))).curToken = lparenToken :=
    h0.cur
  have hpe := Parser.parseExpressionOnStack_lparens ((List.replicate (j + 1) 40).length + 3)
    stack (j + 1) LOWSET _ h h0
  have hE : (Parser.New (Lexer.New (List.replicate (j + 1) 40))).curToken.Typ ≠ .EOF := by
    rw [hc]; exact fun h => nomatch h
  have hL : ¬ (Parser.New (Lexer.New (List.replicate (j + 1) 40))).curToken.Typ = .LET := by
    rw [hc]; exact fun h => nomatch h
  have hR : ¬ (Parser.New (Lexer.New (List.replicate (j + 1) 40))).curToken.Typ = .RETURN := by
    rw [hc]; exact fun h => nomatch h
  have hstmt : Parser.parseStatement
      (Parser.parseExpressionOnStack ((List.replicate (j + 1) 40).length + 3) stack)
      ((List.replicate (j + 1) 40).length + 3)
      (Parser.New (Lexer.New (List.replicate (j + 1) 40))) = none := by
    rw [Parser.parseStatement, if_neg hL, if_neg hR, Parser.parseExpressionStatement, hpe]
  rw [parseOnStack, Parser.ParseProgramOnStack, Parser.ParseProgramLoopOnStack, if_pos hE, hstmt]

/-- C6. `ParseProgram` terminates and returns on a sufficient call stack: for
every source (any bytes, malformed, unterminated or empty) and every call
stack that holds `len(input) + 3` nested activations of `parseExpression`,
constructing the lexer and the parser and calling `ParseProgram` returns a
program together with a diagnostics list, the same on every such stack; no
loop runs forever on any source, so a stack overflow is the only way not to
return. -/
theorem C6_parse_program_returns_on_sufficient_stack (input : GoString) (stack : Nat)
    (h : input.length + 3 ≤ stack) :
    (∃ (program : Program) (errors : List GoString),
      parseOnStack stack input = some (program, errors) ∧
      parse input = some (program, errors)) ∧
    (∀ k : Nat, ∃ (program : Program) (p : Parser),
      Parser.ParseProgram (input.length + 2 + k) (Parser.New (Lexer.New input)) =
        some (program, p)) := by
  obtain ⟨program, errors, hp⟩ := (parse_returns input).1
  exact ⟨⟨program, errors, by rw [parseOnStack_eq_parse input stack h]; exact hp, hp⟩,
    (parse_returns input).2⟩

/-- C6, witness: the unterminated, malformed source `((x "` of 5 bytes on a
stack of 8 levels: two statements and two diagnostics for the string where
`)` is expected; and the empty source on the same stack. -/
theorem C6_parse_program_returns_on_sufficient_stack_witness :
    (∃ (program : Program) (errors : List GoString),
      parseOnStack 8 (bytes "((x \"") = some (program, errors) ∧
      parse (bytes "((x \"") = some (program, errors)) ∧
    (parseOnStack 8 (bytes "((x \"")).map (fun r => (r.1.Statements.length, r.2)) =
      some (2, [bytes "expected next token no be ), got STRING instead",
        bytes "expected next token no be ), got STRING instead"]) ∧
    parseOnStack 8 [] = some (⟨[]⟩, []) :=
  ⟨(C6_parse_program_returns_on_sufficient_stack (bytes "((x \"") 8 (by decide)).1,
    by decide, rfl⟩

/-- C6, counterexample: `ParseProgram` does not return for every source.
Each left parenthesis nests one more activation of `parseExpression`, so
the source of three of them overflows a stack of three levels (and parses
on a stack of four), the source of 3,000,000 of them overflows a stack of
3,000,000 levels, and every stack is overflowed by some source. -/
theorem C6_deep_nesting_overflows_the_stack :
    parseOnStack 3 (bytes "(((") = none ∧
    (parseOnStack 4 (bytes "(((")).map (fun r => r.2.length) = some 4 ∧
    parseOnStack 3000000 (List.replicate 3000000 40) = none ∧
    (∀ stack : Nat, ¬ ∀ input : GoString, (parseOnStack stack input).isSome = true) :=
  ⟨rfl, by decide, parseOnStack_lparens 3000000 3000000 (by decide) (Nat.le_refl _),
    fun stack hall => by
      have h1 := hall (List.replicate (stack + 1) 40)
      rw [parseOnStack_lparens stack (stack + 1) (by omega) (by omega)] at h1
      exact absurd h1 (by decide)⟩

/-! ## Operands and keys that the amended statements leave out -/

/-- C3, counterexample: an integer literal that `strconv.ParseInt` rejects
is an operand the grouped sources do not parse cleanly with: `(08 + 1) * 2`,
`(9223372036854775808 + 1) * 2` and `1 + (08 * 2)` record the diagnostic of
`parseIntegerLiteral`, the operand is null in the tree and the tree has no
canonical string. -/
theorem C3_rejected_literal_is_reported :
    (parse (bytes "(08 + 1) * 2")).map (fun r => r.2) =
      some [bytes "could not parse \"08\" as integer"] ∧
    (parse (bytes "(08 + 1) * 2")).bind (fun r => r.1.String insertionOrder) = none ∧
    (parse (bytes "(9223372036854775808 + 1) * 2")).map (fun r => r.2) =
      some [bytes "could not parse \"9223372036854775808\" as integer"] ∧
    (parse (bytes "1 + (08 * 2)")).map (fun r => r.2) =
      some [bytes "could not parse \"08\" as integer"] ∧
    (parse (bytes "1 + (08 * 2)")).bind (fun r => r.1.String insertionOrder) = none ∧
    ¬ (Atom.int (bytes "08")).Valid ∧ ¬ (Atom.int (bytes "9223372036854775808")).Valid :=
  ⟨by decide, by decide, by decide, by decide, by decide, by decide, by decide⟩

/-- C24, counterexample: a key that holds a zero byte is not read as one
string literal, and a value that `parseExpression` reports is not a value
node.  For the key of one zero byte the source `{"<0>": 1}` is read as the
tokens left brace, STRING with empty literal, STRING `: 1}`: the parse
records a diagnostic and holds no hash literal.  The source `{"a": 08}`
records the diagnostic of the integer literal and its pair has a null
value. -/
theorem C24_zero_byte_ends_a_key :
    parse (bytes "\x7b\"" ++ [0] ++ bytes "\": 1\x7d") =
      some (⟨[.ExpressionStatement lbraceToken none,
        .ExpressionStatement ⟨.STRING, bytes ": 1\x7d"⟩
          (some (.StringLiteral ⟨.STRING, bytes ": 1\x7d"⟩ (bytes ": 1\x7d")))]⟩,
        [bytes "expected next token no be :, got STRING instead"]) ∧
    parse (bytes "\x7b\"a\": 08\x7d") =
      some (⟨[.ExpressionStatement lbraceToken
        (some (.HashLiteral lbraceToken [(some (stringExpr (bytes "a")), none)]))]⟩,
        [bytes "could not parse \"08\" as integer"]) :=
  ⟨rfl, rfl⟩

/-- The `String` of a hash literal: the strings of its entries in the order
of the range over the map, joined by `, ` between the braces. -/
theorem HashLiteral_String (ord : RangeOrder) (tok : Token)
    (pairs : List (Option Expression × Option Expression)) :
    (Expression.HashLiteral tok pairs).String ord =
      (Expression.StringPairs ord pairs).bind (fun ps =>
        some (bytes "\x7b" ++ stringsJoin (ord.visit ps) (bytes ", ") ++ bytes "\x7d")) := by
  rw [Expression.String]
  rfl

/-- The rendering of a hash literal of several pairs depends on the order of
the range: the literal of the parser test under two orders. -/
theorem HashLiteral_String_depends_on_order :
    (parse (bytes "\x7b\"one\": 0 + 1, \"two\": 10 - 8, \"three\": 15 / 5\x7d")).bind
      (fun r => r.1.String insertionOrder) =
      some (bytes "\x7bone:(0 + 1), two:(10 - 8), three:(15 / 5)\x7d") ∧
    (parse (bytes "\x7b\"one\": 0 + 1, \"two\": 10 - 8, \"three\": 15 / 5\x7d")).bind
      (fun r => r.1.String reverseOrder) =
      some (bytes "\x7bthree:(15 / 5), two:(10 - 8), one:(0 + 1)\x7d") :=
  ⟨by decide, by decide⟩

end Monkey
